import Mathlib

/-!
# ImageBufAlgo: a shallow embedding of `imagebufalgo.cpp`

The development follows `src/libOpenImageIO/imagebufalgo.cpp`.

* C++ `int` values are mathematical integers (`Int`); no computation below
  depends on wrap-around.
* Pixel values are exact rationals: the embedding is the `float` instantiation
  of the templates with exact arithmetic, so a store `p[c] = v` stores `v`.
* A pixel buffer is a total map from `(x, y, z, channel)` to a value; only the
  coordinates inside the pixel window of the spec are meaningful.
* `ROI`, `ImageSpec`, `ImageBuf` and their helpers are declared in the
  headers `imagebuf.h` and `imageio.h`, outside this translation unit; they
  are modelled from the specification and marked as such.
-/

set_option autoImplicit false

namespace ImageBufAlgo

/-! ## Data model -/

/-- Modelled from the spec: the region of interest declared in `imagebuf.h`:
`(xbegin,xend, ybegin,yend, zbegin,zend, chbegin,chend)`, half-open ranges.
The sentinel that marks an undefined ROI is kept as the mark `isdef`. -/
structure ROI where
  xbegin : Int
  xend : Int
  ybegin : Int
  yend : Int
  zbegin : Int
  zend : Int
  chbegin : Int
  chend : Int
  isdef : Bool := true
  deriving DecidableEq, Repr

namespace ROI

/-- Modelled from the spec: the default-constructed `ROI()`, the undefined
sentinel (`ROI::All()`). -/
def All : ROI :=
  { xbegin := 0, xend := 0, ybegin := 0, yend := 0, zbegin := 0, zend := 0,
    chbegin := 0, chend := 0, isdef := false }

/-- Modelled from the spec: `ROI::defined()`, false exactly on the sentinel. -/
def defined (r : ROI) : Bool := r.isdef

/-- Modelled from the spec: `ROI::width()`. -/
def width (r : ROI) : Int := r.xend - r.xbegin

/-- Modelled from the spec: `ROI::height()`. -/
def height (r : ROI) : Int := r.yend - r.ybegin

/-- Modelled from the spec: `ROI::depth()`. -/
def depth (r : ROI) : Int := r.zend - r.zbegin

/-- Modelled from the spec: `ROI::npixels()`,
`max(0,xend-xbegin)·max(0,yend-ybegin)·max(0,zend-zbegin)`. -/
def npixels (r : ROI) : Int :=
  max 0 (r.xend - r.xbegin) * max 0 (r.yend - r.ybegin) * max 0 (r.zend - r.zbegin)

/-- Membership of a pixel position in the spatial box of a ROI. -/
def containsPos (r : ROI) (x y z : Int) : Bool :=
  decide (r.xbegin ≤ x) && decide (x < r.xend) &&
  decide (r.ybegin ≤ y) && decide (y < r.yend) &&
  decide (r.zbegin ≤ z) && decide (z < r.zend)

/-- Membership of a channel index in the channel range of a ROI. -/
def containsCh (r : ROI) (c : Int) : Bool :=
  decide (r.chbegin ≤ c) && decide (c < r.chend)

end ROI

/-- Modelled from the spec: `roi_union`, the bounding-box union of two ROIs;
when one of them is the undefined sentinel the other one is returned. -/
def roi_union (A B : ROI) : ROI :=
  if A.defined && B.defined then
    { xbegin := min A.xbegin B.xbegin, xend := max A.xend B.xend,
      ybegin := min A.ybegin B.ybegin, yend := max A.yend B.yend,
      zbegin := min A.zbegin B.zbegin, zend := max A.zend B.zend,
      chbegin := min A.chbegin B.chbegin, chend := max A.chend B.chend }
  else if A.defined then A else B

/-- Modelled from the spec: `roi_intersection`, the bounding-box intersection
of two ROIs; when one of them is the undefined sentinel the other one is
returned. -/
def roi_intersection (A B : ROI) : ROI :=
  if A.defined && B.defined then
    { xbegin := max A.xbegin B.xbegin, xend := min A.xend B.xend,
      ybegin := max A.ybegin B.ybegin, yend := min A.yend B.yend,
      zbegin := max A.zbegin B.zbegin, zend := min A.zend B.zend,
      chbegin := max A.chbegin B.chbegin, chend := min A.chend B.chend }
  else if A.defined then A else B

/-- Modelled from the spec: the pixel format descriptor (`TypeDesc`), the
numeric encodings a buffer can hold. -/
inductive TypeDesc where
  | UNKNOWN | UINT8 | INT8 | UINT16 | INT16 | UINT | INT | HALF | FLOAT | DOUBLE
  deriving DecidableEq, Repr

/-- Modelled from the spec: `ImageSpec`, with the pixel window
`(x,y,z,width,height,depth)`, the display window `(full_x,…,full_depth)`,
`nchannels`, `format`, `channelnames`, `alpha_channel` (-1 if none),
`z_channel`, `tile_*` and the attribute bag `extra_attribs`. -/
structure ImageSpec where
  x : Int
  y : Int
  z : Int
  width : Int
  height : Int
  depth : Int
  full_x : Int
  full_y : Int
  full_z : Int
  full_width : Int
  full_height : Int
  full_depth : Int
  tile_width : Int
  tile_height : Int
  tile_depth : Int
  nchannels : Int
  format : TypeDesc
  channelnames : List String
  alpha_channel : Int
  z_channel : Int
  extra_attribs : List (String × String)
  deriving DecidableEq, Repr

namespace ImageSpec

/-- Modelled from the spec: the default-constructed `ImageSpec`: empty
windows, no channels, no alpha or z channel, scanline layout, no attributes. -/
def empty : ImageSpec :=
  { x := 0, y := 0, z := 0, width := 0, height := 0, depth := 1,
    full_x := 0, full_y := 0, full_z := 0, full_width := 0, full_height := 0,
    full_depth := 1, tile_width := 0, tile_height := 0, tile_depth := 1,
    nchannels := 0, format := TypeDesc.UNKNOWN, channelnames := [],
    alpha_channel := -1, z_channel := -1, extra_attribs := [] }

/-- Modelled from the spec: `ImageSpec::set_format`. -/
def set_format (s : ImageSpec) (f : TypeDesc) : ImageSpec := { s with format := f }

/-- Modelled from the spec: `ImageSpec::erase_attribute`, which strips any
attribute of the given name from the bag. -/
def erase_attribute (s : ImageSpec) (name : String) : ImageSpec :=
  { s with extra_attribs := s.extra_attribs.filter (fun kv => kv.1 != name) }

/-- Modelled from the spec: `ImageSpec::get_string_attribute`, the value of the
named attribute, or the empty string when there is none. -/
def get_string_attribute (s : ImageSpec) (name : String) : String :=
  match s.extra_attribs.find? (fun kv => kv.1 == name) with
  | some kv => kv.2
  | none => ""

/-- Modelled from the spec: `ImageSpec::attribute`, which sets the named
attribute, replacing an earlier value of that name. -/
def set_attribute (s : ImageSpec) (name value : String) : ImageSpec :=
  { s with extra_attribs :=
      s.extra_attribs.filter (fun kv => kv.1 != name) ++ [(name, value)] }

/-- The bag of `s` carries an attribute called `name`. -/
def has_attribute (s : ImageSpec) (name : String) : Bool :=
  s.extra_attribs.any (fun kv => kv.1 == name)

end ImageSpec

/-- Modelled from the spec: `get_roi`, the pixel window of a spec as a ROI
with channel range `[0, nchannels)`. -/
def get_roi (spec : ImageSpec) : ROI :=
  { xbegin := spec.x, xend := spec.x + spec.width,
    ybegin := spec.y, yend := spec.y + spec.height,
    zbegin := spec.z, zend := spec.z + spec.depth,
    chbegin := 0, chend := spec.nchannels }

/-- Modelled from the spec: `get_roi_full`, the display window of a spec as a
ROI with channel range `[0, nchannels)`. -/
def get_roi_full (spec : ImageSpec) : ROI :=
  { xbegin := spec.full_x, xend := spec.full_x + spec.full_width,
    ybegin := spec.full_y, yend := spec.full_y + spec.full_height,
    zbegin := spec.full_z, zend := spec.full_z + spec.full_depth,
    chbegin := 0, chend := spec.nchannels }

/-- Modelled from the spec: `set_roi`, "apply `roi` to pixel window". -/
def set_roi (spec : ImageSpec) (newroi : ROI) : ImageSpec :=
  { spec with
    x := newroi.xbegin, y := newroi.ybegin, z := newroi.zbegin,
    width := newroi.width, height := newroi.height, depth := newroi.depth }

/-- Modelled from the spec: `set_roi_full`, "apply `full_roi` to display
window". -/
def set_roi_full (spec : ImageSpec) (newroi : ROI) : ImageSpec :=
  { spec with
    full_x := newroi.xbegin, full_y := newroi.ybegin, full_z := newroi.zbegin,
    full_width := newroi.width, full_height := newroi.height,
    full_depth := newroi.depth }

/-- Modelled from the spec: the storage kinds of an `ImageBuf`. -/
inductive IBStorage where
  | UNINITIALIZED | LOCALBUFFER | APPBUFFER | IMAGECACHE
  deriving DecidableEq, Repr

/-- The pixel values of a buffer: position `(x, y, z)` and channel to value. -/
abbrev Pixels := Int → Int → Int → Int → ℚ

/-- Modelled from the spec: `ImageBuf`: storage kind, spec, pixel values and
the error string attached to the buffer. -/
structure ImageBuf where
  storage : IBStorage
  spec : ImageSpec
  pixels : Pixels
  err : String

namespace ImageBuf

/-- Modelled from the spec: `initialized()` is false until `alloc(spec)` or an
external buffer is attached. -/
def initialized (b : ImageBuf) : Bool := b.storage != IBStorage.UNINITIALIZED

/-- Modelled from the spec: `nchannels()`. -/
def nchannels (b : ImageBuf) : Int := b.spec.nchannels

/-- Modelled from the spec: `roi()`, the pixel window. -/
def roi (b : ImageBuf) : ROI := get_roi b.spec

/-- Modelled from the spec: `roi_full()`, the display window. -/
def roi_full (b : ImageBuf) : ROI := get_roi_full b.spec

/-- Modelled from the spec: `error(msg)`, attach an error string. -/
def error (b : ImageBuf) (msg : String) : ImageBuf := { b with err := msg }

/-- Modelled from the spec: `alloc(spec)`: the buffer takes the spec and owns
fresh heap storage (taken to be zeroed). -/
def alloc (b : ImageBuf) (spec : ImageSpec) : ImageBuf :=
  { b with storage := IBStorage.LOCALBUFFER, spec := spec,
           pixels := fun _ _ _ _ => 0 }

/-- Modelled from the spec: `read(subimage, miplevel, force=true)` of a
cache-backed buffer, "after which storage becomes `LOCALBUFFER`". -/
def read (b : ImageBuf) : ImageBuf := { b with storage := IBStorage.LOCALBUFFER }

end ImageBuf

/-- Modelled from the spec: the option flags of `IBAprep` (`IBAprep_*`, an
enum of independent bits declared in `imagebufalgo.h`), as the set of bits
that are on. -/
structure PrepFlags where
  REQUIRE_ALPHA : Bool := false
  REQUIRE_Z : Bool := false
  REQUIRE_SAME_NCHANNELS : Bool := false
  NO_SUPPORT_VOLUME : Bool := false
  NO_COPY_ROI_FULL : Bool := false
  NO_COPY_METADATA : Bool := false
  COPY_ALL_METADATA : Bool := false
  deriving DecidableEq, Repr

/-! ## `IBAprep` -/

/-- The rest of `s` after the literal `lit`, when `s` starts with it. -/
def matchLit : List Char → List Char → Option (List Char)
  | [], s => some s
  | _ :: _, [] => none
  | l :: ls, c :: cs => if l = c then matchLit ls cs else none

/-- The character class `[[:xdigit:]]`. -/
def isXDigit (c : Char) : Bool :=
  (decide ('0' ≤ c) && decide (c ≤ '9')) || (decide ('a' ≤ c) && decide (c ≤ 'f')) ||
  (decide ('A' ≤ c) && decide (c ≤ 'F'))

/-- Replacement of every match of the regular expression
`SHA-1=[[:xdigit:]]*[ ]*` by the empty string, as
`boost::regex_replace (desc, regex_sha, "")` does, on a list of characters;
the first argument bounds the number of steps. -/
def regex_replace_sha_aux : Nat → List Char → List Char
  | 0, s => s
  | _ + 1, [] => []
  | fuel + 1, c :: cs =>
    match matchLit "SHA-1=".toList (c :: cs) with
    | some rest =>
      regex_replace_sha_aux fuel
        ((rest.dropWhile isXDigit).dropWhile (fun ch => ch == ' '))
    | none => c :: regex_replace_sha_aux fuel cs

/-- The call `boost::regex_replace (desc, regex_sha, "")`. -/
def regex_replace_sha (desc : String) : String :=
  String.mk (regex_replace_sha_aux (desc.length + 1) desc.toList)

/-- The test `(A && cond(A))` on an optional source image. -/
def srcAnd (A : Option ImageBuf) (cond : ImageBuf → Bool) : Bool :=
  match A with
  | some a => cond a
  | none => false

/-- The outcome of `IBAprep`: the returned boolean and the two objects it
mutates through its reference and pointer arguments. -/
structure PrepOut where
  ok : Bool
  roi : ROI
  dst : ImageBuf

/-- The ROI and display-window choice of `IBAprep` for an uninitialized
destination (lines 137-154): the new `roi` and `full_roi`. The undefined-roi
branch dereferences `A`; it is reached only with `A` present. -/
def prep_rois (roi : ROI) (A B : Option ImageBuf) (prepflags : PrepFlags) :
    Option (ROI × ROI) :=
  if ! roi.defined then
    match A with
    | none => none
    | some a =>
      let roi1 := get_roi a.spec
      let full1 := get_roi_full a.spec
      match B with
      | some b =>
        some (roi_union roi1 (get_roi b.spec), roi_union full1 (get_roi_full b.spec))
      | none => some (roi1, full1)
  else
    match A with
    | some a =>
      let roi1 := { roi with chend := min roi.chend a.nchannels }
      if ! prepflags.NO_COPY_ROI_FULL then some (roi1, a.roi_full)
      else some (roi1, ROI.All)
    | none => some (roi, roi)

/-- The spec given to an uninitialized destination before its windows are
set (lines 157-178). `default_channel_names` stands for the method of that
name of `ImageSpec`, which is defined outside this translation unit. -/
def prep_spec (default_channel_names : ImageSpec → ImageSpec) (roi : ROI)
    (A B : Option ImageBuf) (force_spec : Option ImageSpec) : ImageSpec :=
  match A with
  | some a =>
    let spec := match force_spec with
      | some f => f
      | none => a.spec
    let spec := if srcAnd B (fun b => a.spec.format != b.spec.format)
      then spec.set_format TypeDesc.FLOAT else spec
    { spec with tile_width := 0, tile_height := 0, tile_depth := 0 }
  | none =>
    match force_spec with
    | some f => f
    | none =>
      let spec := ImageSpec.empty.set_format TypeDesc.FLOAT
      let spec := { spec with nchannels := roi.chend }
      default_channel_names spec

/-- The metadata policy of `IBAprep` (lines 186-197). -/
def prep_metadata (spec : ImageSpec) (prepflags : PrepFlags) : ImageSpec :=
  if prepflags.NO_COPY_METADATA then
    { spec with extra_attribs := [] }
  else if ! prepflags.COPY_ALL_METADATA then
    let spec := spec.erase_attribute "oiio:SHA-1"
    let desc := spec.get_string_attribute "ImageDescription"
    if desc.length != 0 then
      spec.set_attribute "ImageDescription" (regex_replace_sha desc)
    else spec
  else spec

/-- The post-checks of `IBAprep` (lines 201-233). -/
def prep_checks (roi : ROI) (dst : ImageBuf) (A B : Option ImageBuf)
    (prepflags : PrepFlags) : PrepOut :=
  if prepflags.REQUIRE_ALPHA &&
      (decide (dst.spec.alpha_channel < 0) ||
       srcAnd A (fun a => decide (a.spec.alpha_channel < 0)) ||
       srcAnd B (fun b => decide (b.spec.alpha_channel < 0))) then
    { ok := false, roi := roi, dst := dst.error "images must have alpha channels" }
  else if prepflags.REQUIRE_Z &&
      (decide (dst.spec.z_channel < 0) ||
       srcAnd A (fun a => decide (a.spec.z_channel < 0)) ||
       srcAnd B (fun b => decide (b.spec.z_channel < 0))) then
    { ok := false, roi := roi, dst := dst.error "images must have depth channels" }
  else if prepflags.REQUIRE_SAME_NCHANNELS &&
      (srcAnd A (fun a => decide (a.spec.nchannels ≠ dst.spec.nchannels)) ||
       srcAnd B (fun b => decide (b.spec.nchannels ≠ dst.spec.nchannels))) then
    { ok := false, roi := roi,
      dst := dst.error "images must have the same number of channels" }
  else if prepflags.NO_SUPPORT_VOLUME &&
      (decide (dst.spec.depth > 1) ||
       srcAnd A (fun a => decide (a.spec.depth > 1)) ||
       srcAnd B (fun b => decide (b.spec.depth > 1))) then
    { ok := false, roi := roi, dst := dst.error "volumes not supported" }
  else
    { ok := true, roi := roi, dst := dst }

/-- The function `ImageBufAlgo::IBAprep` (lines 107-234), for a non-null
`dst`. The result is `none` when the `ASSERT` of line 135 aborts the program. -/
def IBAprep (default_channel_names : ImageSpec → ImageSpec) (roi : ROI)
    (dst : ImageBuf) (A B : Option ImageBuf) (force_spec : Option ImageSpec)
    (prepflags : PrepFlags) : Option PrepOut :=
  if srcAnd A (fun a => ! a.initialized) || srcAnd B (fun b => ! b.initialized) then
    some { ok := false, roi := roi, dst := dst.error "Uninitialized input image" }
  else if dst.initialized then
    let roi1 := if roi.defined then roi_intersection roi (get_roi dst.spec)
                else get_roi dst.spec
    let dst1 := if dst.storage = IBStorage.IMAGECACHE then dst.read else dst
    some (prep_checks roi1 dst1 A B prepflags)
  else if ! (A.isSome || roi.defined) then
    none
  else
    match prep_rois roi A B prepflags with
    | none => none
    | some (roi1, full_roi) =>
      let spec := prep_spec default_channel_names roi1 A B force_spec
      let spec := set_roi spec roi1
      let spec := if full_roi.defined then set_roi_full spec full_roi
                  else set_roi_full spec roi1
      let spec := prep_metadata spec prepflags
      some (prep_checks roi1 (dst.alloc spec) A B prepflags)

/-! ## Iterators, typed dispatch and the parallel driver -/

/-- The integers of the half-open range `[a, b)` in increasing order, as a
loop `for (i = a; i < b; ++i)` visits them. -/
def irange (a b : Int) : List Int :=
  (List.range (b - a).toNat).map (fun (i : Nat) => a + (i : Int))

/-- Modelled from the spec: the positions `(x, y, z)` that
`ImageBuf::Iterator<T> p (dst, roi)` visits, in its deterministic order
(z-major, then y, then x); an undefined roi stands for the pixel window. -/
def iter_positions (dst : ImageBuf) (roi : ROI) : List (Int × Int × Int) :=
  let r := if roi.defined then roi else get_roi dst.spec
  (irange r.zbegin r.zend).flatMap fun z =>
    (irange r.ybegin r.yend).flatMap fun y =>
      (irange r.xbegin r.xend).map fun x => (x, y, z)

/-- Modelled from the spec: the store `p[c] = v` through an iterator standing
at `(x, y, z)`; positions outside the pixel window are never mutated. -/
def ImageBuf.store (b : ImageBuf) (x y z c : Int) (v : ℚ) : ImageBuf :=
  if (get_roi b.spec).containsPos x y z then
    { b with pixels := fun x1 y1 z1 c1 =>
        if x1 = x ∧ y1 = y ∧ z1 = z ∧ c1 = c then v else b.pixels x1 y1 z1 c1 }
  else b

/-- The inner loop `for (c = chbegin; c < chend; ++c) p[c] = values[c]` with
the iterator `p` standing at `pos`. -/
def store_channels (dst : ImageBuf) (pos : Int × Int × Int) (chbegin chend : Int)
    (values : Int → ℚ) : ImageBuf :=
  (irange chbegin chend).foldl
    (fun d c => d.store pos.1 pos.2.1 pos.2.2 c (values c)) dst

/-- Modelled from the spec: the formats for which `OIIO_DISPATCH_TYPES`
(a macro of `imagebufalgo_util.h`) has an instantiation; for any other
format it sets the error of the buffer and yields `false`. -/
def dispatch_supported (t : TypeDesc) : Bool := t != TypeDesc.UNKNOWN

/-- Modelled from the spec: `parallel_image (task, roi, nthreads)`, which
splits `roi` into tiles and applies `task` to each of them. The tiles are
those that `split` yields (the partition rule lives in
`imagebufalgo_util.h`); the tasks are run one after the other. -/
def parallel_image (split : ROI → Int → List ROI) (task : ROI → ImageBuf → ImageBuf)
    (roi : ROI) (nthreads : Int) (dst : ImageBuf) : ImageBuf :=
  (split roi nthreads).foldl (fun d tile => task tile d) dst

/-- The tiles cover exactly the positions of `r` and keep its channel range. -/
def IsTiling (tiles : List ROI) (r : ROI) : Prop :=
  (∀ t ∈ tiles, t.defined = true ∧ t.chbegin = r.chbegin ∧ t.chend = r.chend) ∧
  (∀ x y z : Int, r.containsPos x y z = tiles.any (fun t => t.containsPos x y z))

/-! ## `fill` and `checker` -/

/-- The serial case of `fill_` (lines 251-255). -/
def fill_serial (dst : ImageBuf) (values : Int → ℚ) (roi : ROI) : ImageBuf :=
  (iter_positions dst roi).foldl
    (fun d p => store_channels d p roi.chbegin roi.chend values) dst

/-- The function `fill_` (lines 238-256): the buffer after the call and the
returned boolean. -/
def fill_ (split : ROI → Int → List ROI) (dst : ImageBuf) (values : Int → ℚ)
    (roi : ROI) (nthreads : Int) : ImageBuf × Bool :=
  if nthreads ≠ 1 ∧ roi.npixels ≥ 1000 then
    (parallel_image split (fun r d => fill_serial d values r) roi nthreads dst, true)
  else
    (fill_serial dst values roi, true)

/-- The function `ImageBufAlgo::fill` (lines 259-269); `none` when the
`ASSERT` inside `IBAprep` aborts. -/
def fill (default_channel_names : ImageSpec → ImageSpec)
    (split : ROI → Int → List ROI) (dst : ImageBuf) (pixel : Int → ℚ)
    (roi : ROI) (nthreads : Int) : Option (ImageBuf × Bool) :=
  match IBAprep default_channel_names roi dst none none none {} with
  | none => none
  | some out =>
    if ! out.ok then some (out.dst, false)
    else if dispatch_supported out.dst.spec.format then
      some (fill_ split out.dst pixel out.roi nthreads)
    else
      some (out.dst.error "fill: Unsupported pixel data format", false)

/-- The helper struct `Dim3` (lines 100-103). -/
structure Dim3 where
  x : Int
  y : Int := 1
  z : Int := 1
  deriving DecidableEq, Repr

/-- The value `v = xtile + ytile + ztile` that `checker_` computes at a pixel
(lines 303-306); `/` of C++ truncates toward zero and a comparison is 0 or 1. -/
def checker_tile (size offset : Dim3) (pos : Int × Int × Int) : Int :=
  let xtile := Int.tdiv (pos.1 - offset.x) size.x
  let xtile := xtile + (if pos.1 < offset.x then 1 else 0)
  let ytile := Int.tdiv (pos.2.1 - offset.y) size.y
  let ytile := ytile + (if pos.2.1 < offset.y then 1 else 0)
  let ztile := Int.tdiv (pos.2.2 - offset.z) size.z
  let ztile := ztile + (if pos.2.2 < offset.z then 1 else 0)
  xtile + ytile + ztile

/-- The serial case of `checker_` (lines 301-314). -/
def checker_serial (dst : ImageBuf) (size : Dim3) (color1 color2 : Int → ℚ)
    (offset : Dim3) (roi : ROI) : ImageBuf :=
  (iter_positions dst roi).foldl
    (fun d p =>
      let v := checker_tile size offset p
      if Int.land v 1 ≠ 0 then store_channels d p roi.chbegin roi.chend color2
      else store_channels d p roi.chbegin roi.chend color1) dst

/-- The function `checker_` (lines 284-315). -/
def checker_ (split : ROI → Int → List ROI) (dst : ImageBuf) (size : Dim3)
    (color1 color2 : Int → ℚ) (offset : Dim3) (roi : ROI) (nthreads : Int) :
    ImageBuf × Bool :=
  if nthreads ≠ 1 ∧ roi.npixels ≥ 1000 then
    (parallel_image split
      (fun r d => checker_serial d size color1 color2 offset r) roi nthreads dst, true)
  else
    (checker_serial dst size color1 color2 offset roi, true)

/-- The function `ImageBufAlgo::checker` (lines 319-332); `none` when the
`ASSERT` inside `IBAprep` aborts. -/
def checker (default_channel_names : ImageSpec → ImageSpec)
    (split : ROI → Int → List ROI) (dst : ImageBuf) (width height depth : Int)
    (color1 color2 : Int → ℚ) (xoffset yoffset zoffset : Int)
    (roi : ROI) (nthreads : Int) : Option (ImageBuf × Bool) :=
  match IBAprep default_channel_names roi dst none none none {} with
  | none => none
  | some out =>
    if ! out.ok then some (out.dst, false)
    else if dispatch_supported out.dst.spec.format then
      some (checker_ split out.dst { x := width, y := height, z := depth }
        color1 color2 { x := xoffset, y := yoffset, z := zoffset } out.roi nthreads)
    else
      some (out.dst.error "checker: Unsupported pixel data format", false)

/-- The roi that `IBAprep` leaves for an initialized destination: the input
roi intersected with the pixel window, or the pixel window itself. -/
def normalized_roi (roi : ROI) (dst : ImageBuf) : ROI :=
  if roi.defined then roi_intersection roi (get_roi dst.spec) else get_roi dst.spec

/-! ## `resize`: the separable path

Arithmetic is exact (rationals). Every executed division `a /= b` is logged
with its divisor, since the quotient by a zero divisor has no meaning here
(in the program it is an infinity or a NaN). -/

/-- Modelled from the spec: the filter kernel `Filter2D` (`filter.h`):
support width, the `separable?` flag, the two one-dimensional profiles and
the two-dimensional evaluation `operator()`. -/
structure Filter2D where
  width : ℚ
  separable : Bool
  xfilt : ℚ → ℚ
  yfilt : ℚ → ℚ
  eval : ℚ → ℚ → ℚ

/-- Modelled from the spec: `floorfrac (x, &i)` of `fmath.h`: stores the floor
of `x` and returns the fractional part. -/
def floorfrac (x : ℚ) : ℚ × Int := (x - (⌊x⌋ : Int), ⌊x⌋)

/-- The local variables that `resize_` sets up before its loops
(lines 353-385). -/
structure ResizeLocals where
  nchannels : Int
  srcfx : ℚ
  srcfy : ℚ
  srcfw : ℚ
  srcfh : ℚ
  xratio : ℚ
  yratio : ℚ
  dstfx : ℚ
  dstfy : ℚ
  dstpixelwidth : ℚ
  dstpixelheight : ℚ
  radi : Int
  radj : Int
  xtaps : Int
  ytaps : Int

/-- Lines 353-385 of `resize_`. -/
def resize_locals (dstspec srcspec : ImageSpec) (filter : Filter2D) : ResizeLocals :=
  let srcfw : ℚ := srcspec.full_width
  let srcfh : ℚ := srcspec.full_height
  let xratio : ℚ := (dstspec.full_width : ℚ) / srcfw
  let yratio : ℚ := (dstspec.full_height : ℚ) / srcfh
  let dstfw : ℚ := dstspec.full_width
  let dstfh : ℚ := dstspec.full_height
  let filterrad : ℚ := filter.width / 2
  let radi : Int := ⌈filterrad / xratio⌉
  let radj : Int := ⌈filterrad / yratio⌉
  { nchannels := dstspec.nchannels,
    srcfx := srcspec.full_x, srcfy := srcspec.full_y, srcfw := srcfw, srcfh := srcfh,
    xratio := xratio, yratio := yratio,
    dstfx := dstspec.full_x, dstfy := dstspec.full_y,
    dstpixelwidth := 1 / dstfw, dstpixelheight := 1 / dstfh,
    radi := radi, radj := radj, xtaps := 2 * radi + 1, ytaps := 2 * radj + 1 }

/-- The running sum `total = 0; for each w: total += w`. -/
def sum_weights (ws : List ℚ) : ℚ := ws.foldl (fun acc w => acc + w) 0

/-- What the scanline part of `resize_` leaves behind (lines 417-434): the
source row, the fractional position, the vertical weights after the
normalizing loop, their sum, and the divisors of the divisions it executed. -/
structure YWeights where
  src_y : Int
  src_yf_frac : ℚ
  yfiltval : List ℚ
  totalweight_y : ℚ
  divisors : List ℚ

/-- Lines 417-434 of `resize_` for the scanline `y`. -/
def resize_yweights (filter : Filter2D) (g : ResizeLocals) (y : Int) : YWeights :=
  let t : ℚ := ((y : ℚ) - g.dstfy + 1 / 2) * g.dstpixelheight
  let src_yf : ℚ := g.srcfy + t * g.srcfh
  let ff := floorfrac src_yf
  if filter.separable then
    let raw := (irange 0 g.ytaps).map fun (j : Int) =>
      filter.yfilt (g.yratio * ((j : ℚ) - g.radj - (ff.1 - 1 / 2)))
    let total := sum_weights raw
    { src_y := ff.2, src_yf_frac := ff.1,
      yfiltval := raw.map (fun w => w / total), totalweight_y := total,
      divisors := raw.map (fun _ => total) }
  else
    { src_y := ff.2, src_yf_frac := ff.1, yfiltval := [], totalweight_y := 0,
      divisors := [] }

/-- The integer `v` clamped to `[lo, hi]`. -/
def clampInt (v lo hi : Int) : Int := if v < lo then lo else if hi < v then hi else v

/-- Modelled from the spec: the read `srcpel[c]` through a `ConstIterator`
with `WrapClamp` standing at `(x, y, z)`: a position outside the pixel
window reads the nearest pixel of the window. -/
def ImageBuf.getchannel_clamp (b : ImageBuf) (x y z c : Int) : ℚ :=
  b.pixels (clampInt x b.spec.x (b.spec.x + b.spec.width - 1))
    (clampInt y b.spec.y (b.spec.y + b.spec.height - 1))
    (clampInt z b.spec.z (b.spec.z + b.spec.depth - 1)) c

/-- The statement `for (c = 0; c < nchannels; ++c) pel[c] += w * srcpel[c]`. -/
def pel_accum (nchannels : Int) (pel : Int → ℚ) (w : ℚ) (srcpel : Int → ℚ) : Int → ℚ :=
  fun c => if 0 ≤ c ∧ c < nchannels then pel c + w * srcpel c else pel c

/-- What the separable path computes for one destination pixel
(lines 437-483): the values written to `out[c]`, the horizontal tap sum and
the divisors of the divisions it executed. -/
structure SepPixel where
  out : Int → ℚ
  totalweight_x : ℚ
  divisors : List ℚ

/-- Lines 437-483 of `resize_` for the destination column `x` of a scanline
whose vertical weights are `yw`. -/
def resize_separable_pixel (src : ImageBuf) (filter : Filter2D) (g : ResizeLocals)
    (yw : YWeights) (x : Int) : SepPixel :=
  let s : ℚ := ((x : ℚ) - g.dstfx + 1 / 2) * g.dstpixelwidth
  let src_xf : ℚ := g.srcfx + s * g.srcfw
  let ff := floorfrac src_xf
  let src_x := ff.2
  let raw := (irange 0 g.xtaps).map fun (i : Int) =>
    filter.xfilt (g.xratio * ((i : ℚ) - g.radi - (ff.1 - 1 / 2)))
  let totalweight_x := sum_weights raw
  let pel0 : Int → ℚ := fun _ => 0
  let pel : Int → ℚ :=
    if totalweight_x ≠ 0 then
      let xfiltval := raw.map (fun w => w / totalweight_x)
      (irange (-g.radj) (g.radj + 1)).foldl
        (fun pel (j : Int) =>
          let wy := yw.yfiltval.getD (j + g.radj).toNat 0
          if wy = 0 then pel
          else
            (irange 0 g.xtaps).foldl
              (fun pel (i : Int) =>
                let w := wy * xfiltval.getD i.toNat 0
                pel_accum g.nchannels pel w
                  (fun c => src.getchannel_clamp (src_x - g.radi + i) (yw.src_y + j) 0 c))
              pel)
        pel0
    else pel0
  { out := fun c => if yw.totalweight_y = 0 then 0 else pel c,
    totalweight_x := totalweight_x,
    divisors := if totalweight_x ≠ 0 then raw.map (fun _ => totalweight_x) else [] }

/-- Modelled from the spec: the named filter `box` of the filter registry,
of the given width: 1 on `[-width/2, width/2]` and 0 outside. -/
def box_filter (width : ℚ) : Filter2D :=
  { width := width, separable := true,
    xfilt := fun x => if |x| ≤ width / 2 then 1 else 0,
    yfilt := fun y => if |y| ≤ width / 2 then 1 else 0,
    eval := fun x y => (if |x| ≤ width / 2 then 1 else 0) * (if |y| ≤ width / 2 then 1 else 0) }

/-- The colour that `checker_` stores at a pixel (lines 307-312): `color2`
when `v & 1` is set and `color1` otherwise. -/
def checker_colour (size : Dim3) (color1 color2 : Int → ℚ) (offset : Dim3)
    (pos : Int × Int × Int) : Int → ℚ :=
  if Int.land (checker_tile size offset pos) 1 ≠ 0 then color2 else color1

/-! ## Sample data -/

/-- An uninitialized buffer, as a default-constructed `ImageBuf`. -/
def ImageBuf.uninit : ImageBuf :=
  { storage := IBStorage.UNINITIALIZED, spec := ImageSpec.empty,
    pixels := fun _ _ _ _ => 0, err := "" }

/-- The spec of a `w × h` float image with `nch` channels whose pixel and
display windows both start at `(x0, y0, 0)`; the fourth channel, when there
is one, is alpha. -/
def plain_spec (x0 y0 w h nch : Int) : ImageSpec :=
  { ImageSpec.empty with
    x := x0, y := y0, width := w, height := h,
    full_x := x0, full_y := y0, full_width := w, full_height := h,
    nchannels := nch, format := TypeDesc.FLOAT,
    alpha_channel := if nch ≥ 4 then 3 else -1 }

/-- A heap-backed buffer with the given spec and pixel values. -/
def ImageBuf.local_buffer (spec : ImageSpec) (pixels : Pixels) : ImageBuf :=
  { storage := IBStorage.LOCALBUFFER, spec := spec, pixels := pixels, err := "" }

/-- The tiling that hands the whole roi to one task. -/
def single_tile (roi : ROI) (_nthreads : Int) : List ROI := [roi]

/-- A 4 × 4 float image with channels R, G, B, all pixels zero. -/
def rgb4x4 : ImageBuf := ImageBuf.local_buffer (plain_spec 0 0 4 4 3) (fun _ _ _ _ => 0)

/-- A 4 × 4 float image with channels R, G, B, A, all pixels zero. -/
def rgba4x4 : ImageBuf := ImageBuf.local_buffer (plain_spec 0 0 4 4 4) (fun _ _ _ _ => 0)

/-- The flags `IBAprep_REQUIRE_ALPHA` alone. -/
def flags_require_alpha : PrepFlags := { REQUIRE_ALPHA := true }

/-- The pixel window `(x, y, z, width, height, depth)` of `spec` is the
spatial box of `r`. -/
def pixel_window_is (spec : ImageSpec) (r : ROI) : Prop :=
  spec.x = r.xbegin ∧ spec.y = r.ybegin ∧ spec.z = r.zbegin ∧
  spec.width = r.xend - r.xbegin ∧ spec.height = r.yend - r.ybegin ∧
  spec.depth = r.zend - r.zbegin

/-- The display window `(full_x, …, full_depth)` of `spec` is the spatial box
of `r`. -/
def display_window_is (spec : ImageSpec) (r : ROI) : Prop :=
  spec.full_x = r.xbegin ∧ spec.full_y = r.ybegin ∧ spec.full_z = r.zbegin ∧
  spec.full_width = r.xend - r.xbegin ∧ spec.full_height = r.yend - r.ybegin ∧
  spec.full_depth = r.zend - r.zbegin

/-- The spec that `IBAprep` allocates an uninitialized destination with, once
the roi and the display roi are chosen (lines 157-197). -/
def prep_alloc_spec (default_channel_names : ImageSpec → ImageSpec)
    (roi1 full_roi : ROI) (A B : Option ImageBuf) (force_spec : Option ImageSpec)
    (prepflags : PrepFlags) : ImageSpec :=
  prep_metadata
    (if full_roi.defined then
      set_roi_full (set_roi (prep_spec default_channel_names roi1 A B force_spec) roi1)
        full_roi
     else
      set_roi_full (set_roi (prep_spec default_channel_names roi1 A B force_spec) roi1)
        roi1)
    prepflags

/-- A defined roi, `[2,9) × [-1,3) × [0,1)` with channels `[1,7)`. -/
def roi_2_9 : ROI :=
  { xbegin := 2, xend := 9, ybegin := -1, yend := 3, zbegin := 0, zend := 1,
    chbegin := 1, chend := 7 }

/-- A 2 × 3 float RGB image whose pixel window starts at `(3, 1)` and whose
display window is `[0,8) × [0,8)`. -/
def rgb_offset : ImageBuf :=
  ImageBuf.local_buffer
    { plain_spec 3 1 2 3 3 with full_x := 0, full_y := 0, full_width := 8, full_height := 8 }
    (fun _ _ _ _ => 0)

/-- The 4 × 4 RGBA image, carrying the hash of its pixels as the attribute
"oiio:SHA-1" (as an image read from a file does). -/
def rgba_hashed : ImageBuf :=
  ImageBuf.local_buffer
    { plain_spec 0 0 4 4 4 with extra_attribs := [("oiio:SHA-1", "da39a3ee5e6b")] }
    (fun _ _ _ _ => 0)

/-- The outcome of `IBAprep (roi = All, dst = uninitialized, A = rgba_hashed)`
with default flags. -/
def sha_out : PrepOut :=
  prep_checks (get_roi rgba_hashed.spec)
    (ImageBuf.uninit.alloc
      (prep_alloc_spec id (get_roi rgba_hashed.spec) (get_roi_full rgba_hashed.spec)
        (some rgba_hashed) none none {}))
    (some rgba_hashed) none {}

/-- An 8 × 8 float image with one channel, all pixels zero. -/
def gray8x8 : ImageBuf := ImageBuf.local_buffer (plain_spec 0 0 8 8 1) (fun _ _ _ _ => 0)

/-- An 8 × 1 float image with one channel whose pixel window is
`x ∈ [-4, 4)`, all pixels zero. -/
def row_around_origin : ImageBuf :=
  ImageBuf.local_buffer (plain_spec (-4) 0 8 1 1) (fun _ _ _ _ => 0)

/-- The locals of `resize_` for a 2 × 2 source resized to a 4 × 4
destination (one channel) with the box filter of width 1/2. -/
def upscale_locals : ResizeLocals :=
  resize_locals (plain_spec 0 0 4 4 1) (plain_spec 0 0 2 2 1) (box_filter (1 / 2))

/-! ## `resize`: the non-separable path -/

/-- Modelled from the spec: the position of a `ConstIterator` over the range
`[xbegin,xend) × [ybegin,yend) × [0,1)` when it is constructed: its first
pixel, or `none` (finished) for an empty range. -/
def cursor_start (xbegin xend ybegin yend : Int) : Option (Int × Int) :=
  if xbegin < xend ∧ ybegin < yend then some (xbegin, ybegin) else none

/-- Modelled from the spec: `++srcpel` on a `ConstIterator` over the range
`[xbegin,xend) × [ybegin,yend) × [0,1)`: the next pixel, x running fastest;
`none` is the finished iterator, which has no pixel to stand on. -/
def cursor_next (xbegin xend _ybegin yend : Int) :
    Option (Int × Int) → Option (Int × Int)
  | none => none
  | some (x, y) =>
    if x + 1 < xend then some (x + 1, y)
    else if y + 1 < yend then some (xbegin, y + 1)
    else none

/-- The variables that the non-separable loops of `resize_` update
(lines 486-501): `pel`, `totalweight`, the position of `srcpel`, and whether
every `srcpel[c]` that was read stood on a pixel. -/
structure NonSepState where
  pel : Int → ℚ
  totalweight : ℚ
  srcpel : Option (Int × Int)
  reads_ok : Bool

/-- One pass of the inner loop body of the non-separable path
(lines 492-499) followed by the `++srcpel` of the loop header, with the
weight `w` of the tap. -/
def nonsep_step (src : ImageBuf) (nchannels : Int) (xbegin xend ybegin yend : Int)
    (st : NonSepState) (w : ℚ) : NonSepState :=
  if w = 0 then
    { st with totalweight := st.totalweight + w,
              srcpel := cursor_next xbegin xend ybegin yend st.srcpel }
  else
    match st.srcpel with
    | some p =>
      { pel := pel_accum nchannels st.pel w (fun c => src.getchannel_clamp p.1 p.2 0 c),
        totalweight := st.totalweight + w,
        srcpel := cursor_next xbegin xend ybegin yend st.srcpel,
        reads_ok := st.reads_ok }
    | none =>
      { st with totalweight := st.totalweight + w, reads_ok := false }

/-- The taps `(i, j)` in the order in which the loops of lines 490-491 visit
them. -/
def nonsep_taps (radi radj : Int) : List (Int × Int) :=
  (irange (-radj) (radj + 1)).flatMap fun (j : Int) =>
    (irange (-radi) (radi + 1)).map fun (i : Int) => (i, j)

/-- Lines 437-442 and 484-514 of `resize_`: the values written to `out[c]` at
the destination pixel `(x, y)` by the non-separable path; `none` when a
`srcpel[c]` is read after `srcpel` has run off the end of its range (which
spans `src_y-radi .. src_y+radi` in y, line 488). -/
def resize_nonseparable_pixel (src : ImageBuf) (filter : Filter2D) (g : ResizeLocals)
    (x y : Int) : Option (Int → ℚ) :=
  let t : ℚ := ((y : ℚ) - g.dstfy + 1 / 2) * g.dstpixelheight
  let src_yf : ℚ := g.srcfy + t * g.srcfh
  let ffy := floorfrac src_yf
  let src_y := ffy.2
  let s : ℚ := ((x : ℚ) - g.dstfx + 1 / 2) * g.dstpixelwidth
  let src_xf : ℚ := g.srcfx + s * g.srcfw
  let ffx := floorfrac src_xf
  let src_x := ffx.2
  let st0 : NonSepState :=
    { pel := fun _ => 0, totalweight := 0,
      srcpel := cursor_start (src_x - g.radi) (src_x + g.radi + 1)
        (src_y - g.radi) (src_y + g.radi + 1),
      reads_ok := true }
  let st := (nonsep_taps g.radi g.radj).foldl
    (fun st (ij : Int × Int) =>
      nonsep_step src g.nchannels (src_x - g.radi) (src_x + g.radi + 1)
        (src_y - g.radi) (src_y + g.radi + 1) st
        (filter.eval (g.xratio * ((ij.1 : ℚ) - (ffx.1 - 1 / 2)))
          (g.yratio * ((ij.2 : ℚ) - (ffy.1 - 1 / 2)))))
    st0
  if st.reads_ok then
    some (fun c => if st.totalweight = 0 then 0 else st.pel c / st.totalweight)
  else none

/-- The values that `resize_` writes to `out[c]`, `0 ≤ c < nchannels`, at the
destination pixel `(x, y)` (lines 416-516); `none` as in
`resize_nonseparable_pixel`. -/
def resize_pixel (src : ImageBuf) (filter : Filter2D) (g : ResizeLocals)
    (x y : Int) : Option (Int → ℚ) :=
  if filter.separable then
    some (resize_separable_pixel src filter g (resize_yweights filter g y) x).out
  else resize_nonseparable_pixel src filter g x y

/-- Modelled from the spec: the named filter `disk` of the filter registry,
which is not separable: 1 inside the disk of diameter `width` and 0 outside. -/
def disk_filter (width : ℚ) : Filter2D :=
  { width := width, separable := false,
    xfilt := fun x => if |x| ≤ width / 2 then 1 else 0,
    yfilt := fun y => if |y| ≤ width / 2 then 1 else 0,
    eval := fun x y => if x * x + y * y ≤ (width / 2) * (width / 2) then 1 else 0 }

/-- Modelled from the spec: the named filter `triangle` of the filter
registry: `1 - |x| / (width/2)` inside the support and 0 outside. -/
def triangle_filter (width : ℚ) : Filter2D :=
  { width := width, separable := true,
    xfilt := fun x => if |x| < width / 2 then 1 - |x| / (width / 2) else 0,
    yfilt := fun y => if |y| < width / 2 then 1 - |y| / (width / 2) else 0,
    eval := fun x y =>
      (if |x| < width / 2 then 1 - |x| / (width / 2) else 0) *
      (if |y| < width / 2 then 1 - |y| / (width / 2) else 0) }

/-! ## `resample` -/

/-- Modelled from the spec: the read `srcpel[c]` through a `ConstIterator`
with the default wrap mode (`Black`) standing at `(x, y, z)`: zero outside
the pixel window. -/
def ImageBuf.getchannel_black (b : ImageBuf) (x y z c : Int) : ℚ :=
  if (get_roi b.spec).containsPos x y z then b.pixels x y z c else 0

/-- The source position `(src_xf, src_yf)` that `resample_` computes for the
destination pixel `(x, y)` (lines 649-657). -/
def resample_src_xyf (dstspec srcspec : ImageSpec) (x y : Int) : ℚ × ℚ :=
  let srcfx : ℚ := srcspec.full_x
  let srcfy : ℚ := srcspec.full_y
  let srcfw : ℚ := srcspec.full_width
  let srcfh : ℚ := srcspec.full_height
  let dstfx : ℚ := dstspec.full_x
  let dstfy : ℚ := dstspec.full_y
  let dstfw : ℚ := dstspec.full_width
  let dstfh : ℚ := dstspec.full_height
  let dstpixelwidth : ℚ := 1 / dstfw
  let dstpixelheight : ℚ := 1 / dstfh
  let t : ℚ := ((y : ℚ) - dstfy + 1 / 2) * dstpixelheight
  let src_yf : ℚ := srcfy + t * srcfh - 1 / 2
  let s : ℚ := ((x : ℚ) - dstfx + 1 / 2) * dstpixelwidth
  let src_xf : ℚ := srcfx + s * srcfw - 1 / 2
  (src_xf, src_yf)

/-- The integer source position `(src_x, src_y)` of `resample_`
(lines 653-659). -/
def resample_src_xy (dstspec srcspec : ImageSpec) (x y : Int) : Int × Int :=
  let f := resample_src_xyf dstspec srcspec x y
  ((floorfrac f.1).2, (floorfrac f.2).2)

/-- The values that `resample_` assigns to `out[c]`, `chbegin ≤ c < chend`,
at the destination pixel `(x, y)` (lines 661-669). `interppixel` stands for
the method of that name of `ImageBuf`. -/
def resample_pixel (interppixel : ImageBuf → ℚ → ℚ → Int → ℚ) (dst src : ImageBuf)
    (interpolate : Bool) (x y : Int) : Int → ℚ :=
  if interpolate then
    interppixel src (resample_src_xyf dst.spec src.spec x y).1
      (resample_src_xyf dst.spec src.spec x y).2
  else
    fun c => src.getchannel_black (resample_src_xy dst.spec src.spec x y).1
      (resample_src_xy dst.spec src.spec x y).2 0 c

/-- The source position that the display-window mapping of `resize_` gives
for the destination pixel `(x, y)` (lines 417-418 and 437-438). -/
def resize_src_xyf (dstspec srcspec : ImageSpec) (x y : Int) : ℚ × ℚ :=
  let g := resize_locals dstspec srcspec (box_filter 1)
  (g.srcfx + (((x : ℚ) - g.dstfx + 1 / 2) * g.dstpixelwidth) * g.srcfw,
   g.srcfy + (((y : ℚ) - g.dstfy + 1 / 2) * g.dstpixelheight) * g.srcfh)

/-! ## `warp` -/

/-- Modelled from the spec: the 3 × 3 matrix `Imath::M33f`, `mij` being
`M[i][j]`. -/
structure M33 where
  m00 : ℚ
  m01 : ℚ
  m02 : ℚ
  m10 : ℚ
  m11 : ℚ
  m12 : ℚ
  m20 : ℚ
  m21 : ℚ
  m22 : ℚ
  deriving DecidableEq

namespace M33

/-- The identity matrix, as `Imath::M33f ()` constructs it. -/
def identity : M33 :=
  { m00 := 1, m01 := 0, m02 := 0, m10 := 0, m11 := 1, m12 := 0, m20 := 0, m21 := 0, m22 := 1 }

/-- The determinant. -/
def det (M : M33) : ℚ :=
  M.m00 * (M.m11 * M.m22 - M.m12 * M.m21) - M.m01 * (M.m10 * M.m22 - M.m12 * M.m20) +
  M.m02 * (M.m10 * M.m21 - M.m11 * M.m20)

/-- The inverse, as `Imath::M33f::inverse ()` returns it: the adjugate over
the determinant, and the identity for a singular matrix. -/
def inverse (M : M33) : M33 :=
  if M.det = 0 then identity
  else
    { m00 := (M.m11 * M.m22 - M.m12 * M.m21) / M.det,
      m01 := (M.m02 * M.m21 - M.m01 * M.m22) / M.det,
      m02 := (M.m01 * M.m12 - M.m02 * M.m11) / M.det,
      m10 := (M.m12 * M.m20 - M.m10 * M.m22) / M.det,
      m11 := (M.m00 * M.m22 - M.m02 * M.m20) / M.det,
      m12 := (M.m02 * M.m10 - M.m00 * M.m12) / M.det,
      m20 := (M.m10 * M.m21 - M.m11 * M.m20) / M.det,
      m21 := (M.m01 * M.m20 - M.m00 * M.m21) / M.det,
      m22 := (M.m00 * M.m11 - M.m01 * M.m10) / M.det }

/-- The point transform of Imath, `M.multVecMatrix (src, dst)` on a `V2f`:
the row vector `(x, y, 1)` times `M`, divided by the homogeneous
coordinate. -/
def multVecMatrix (M : M33) (p : ℚ × ℚ) : ℚ × ℚ :=
  let a := p.1 * M.m00 + p.2 * M.m10 + M.m20
  let b := p.1 * M.m01 + p.2 * M.m11 + M.m21
  let w := p.1 * M.m02 + p.2 * M.m12 + M.m22
  (a / w, b / w)

/-- The translation by `(tx, ty)`. -/
def translation (tx ty : ℚ) : M33 :=
  { m00 := 1, m01 := 0, m02 := 0, m10 := 0, m11 := 1, m12 := 0, m20 := tx, m21 := ty, m22 := 1 }

end M33

/-- The class `Dual2` (lines 733-765): a value with its two partial
derivatives. -/
structure Dual2 where
  val : ℚ
  dx : ℚ
  dy : ℚ
  deriving DecidableEq

namespace Dual2

/-- The constructor `Dual2 (float val)`. -/
def ofVal (v : ℚ) : Dual2 := { val := v, dx := 0, dy := 0 }

/-- The operator `Dual2 + Dual2`. -/
def add (a b : Dual2) : Dual2 :=
  { val := a.val + b.val, dx := a.dx + b.dx, dy := a.dy + b.dy }

/-- The operator `Dual2 + float`. -/
def addf (a : Dual2) (b : ℚ) : Dual2 := { val := a.val + b, dx := a.dx, dy := a.dy }

/-- The operator `Dual2 * float`. -/
def mulf (a : Dual2) (b : ℚ) : Dual2 := { val := a.val * b, dx := a.dx * b, dy := a.dy * b }

/-- The operator `Dual2 / Dual2`. -/
def div (a b : Dual2) : Dual2 :=
  let bvalinv : ℚ := 1 / b.val
  let aval_bval : ℚ := a.val * bvalinv
  { val := aval_bval,
    dx := bvalinv * (a.dx - aval_bval * b.dx),
    dy := bvalinv * (a.dy - aval_bval * b.dy) }

end Dual2

/-- The function `robust_multVecMatrix` (lines 772-788): the pair
`(outx, outy)`. -/
def robust_multVecMatrix (M : M33) (x y : Dual2) : Dual2 × Dual2 :=
  let a := ((x.mulf M.m00).add (y.mulf M.m10)).addf M.m20
  let b := ((x.mulf M.m01).add (y.mulf M.m11)).addf M.m21
  let w := ((x.mulf M.m02).add (y.mulf M.m12)).addf M.m22
  if w.val ≠ 0 then (a.div w, b.div w)
  else (Dual2.ofVal 0, Dual2.ofVal 0)

/-- Modelled from the spec: the boundary rules `ImageBuf::WrapMode`. -/
inductive WrapMode where
  | WrapDefault | WrapBlack | WrapClamp | WrapPeriodic | WrapMirror
  deriving DecidableEq, Repr

/-- Modelled from the spec: the coordinate that a wrap mode reads for the
coordinate `v` along an axis whose window is `[origin, origin + width)`;
`none` stands for the black pixel. -/
def wrap_coord (wrap : WrapMode) (v origin width : Int) : Option Int :=
  if origin ≤ v ∧ v < origin + width then some v
  else match wrap with
    | WrapMode.WrapDefault => none
    | WrapMode.WrapBlack => none
    | WrapMode.WrapClamp => some (clampInt v origin (origin + width - 1))
    | WrapMode.WrapPeriodic => some (origin + (v - origin) % width)
    | WrapMode.WrapMirror =>
      let c := v - origin
      let c := if c < 0 then -c - 1 else c
      let iter := c / width
      let c := c - iter * width
      some (origin + (if iter % 2 = 1 then width - 1 - c else c))

/-- Modelled from the spec: the read `samp[c]` through a `ConstIterator` with
the given wrap mode standing at `(x, y, z)`. -/
def ImageBuf.getchannel_wrap (b : ImageBuf) (wrap : WrapMode) (x y z c : Int) : ℚ :=
  match wrap_coord wrap x b.spec.x b.spec.width,
        wrap_coord wrap y b.spec.y b.spec.height,
        wrap_coord wrap z b.spec.z b.spec.depth with
  | some x1, some y1, some z1 => b.pixels x1 y1 z1 c
  | _, _, _ => 0

/-- The variables that the loop of `filtered_sample` updates (lines 818-823). -/
structure SampleSums where
  sum : Int → ℚ
  total_w : ℚ

/-- The function `filtered_sample` (lines 795-830): the values stored in
`result[c]`, `0 ≤ c < nc`. -/
def filtered_sample (src : ImageBuf) (s t dsdx dtdx dsdy dtdy : ℚ) (filter : Filter2D)
    (wrap : WrapMode) : Int → ℚ :=
  let ds : ℚ := max 1 (max |dsdx| |dsdy|)
  let dt : ℚ := max 1 (max |dtdx| |dtdy|)
  let ds_inv : ℚ := 1 / ds
  let dt_inv : ℚ := 1 / dt
  let filterrad_s : ℚ := 1 / 2 * ds * filter.width
  let filterrad_t : ℚ := 1 / 2 * dt * filter.width
  let samps : List (Int × Int) :=
    (irange ⌊t - filterrad_t⌋ ⌈t + filterrad_t⌉).flatMap fun (sy : Int) =>
      (irange ⌊s - filterrad_s⌋ ⌈s + filterrad_s⌉).map fun (sx : Int) => (sx, sy)
  let nc := src.nchannels
  let acc := samps.foldl
    (fun (acc : SampleSums) (p : Int × Int) =>
      let w := filter.eval (ds_inv * ((p.1 : ℚ) + 1 / 2 - s)) (dt_inv * ((p.2 : ℚ) + 1 / 2 - t))
      { sum := pel_accum nc acc.sum w (fun c => src.getchannel_wrap wrap p.1 p.2 0 c),
        total_w := acc.total_w + w })
    { sum := fun _ => 0, total_w := 0 }
  fun c => if acc.total_w ≠ 0 then acc.sum c / acc.total_w else 0

/-- The homogeneous denominator `w` of `robust_multVecMatrix (Minv, x, y)` at
the centre of the destination pixel `(px, py)`. -/
def warp_denominator (Minv : M33) (px py : Int) : ℚ :=
  ((px : ℚ) + 1 / 2) * Minv.m02 + ((py : ℚ) + 1 / 2) * Minv.m12 + Minv.m22

/-- The array `pel` of `warp_` after `filtered_sample` at the destination
pixel `pos` (lines 851-862): zeroed once, then its first `src.nchannels`
entries are the filtered sample. -/
def warp_colour (src : ImageBuf) (M : M33) (filter : Filter2D) (wrap : WrapMode)
    (pos : Int × Int × Int) : Int → ℚ :=
  let Minv := M.inverse
  let x : Dual2 := { val := (pos.1 : ℚ) + 1 / 2, dx := 1, dy := 0 }
  let y : Dual2 := { val := (pos.2.1 : ℚ) + 1 / 2, dx := 0, dy := 1 }
  let xy := robust_multVecMatrix Minv x y
  let res := filtered_sample src xy.1.val xy.2.val xy.1.dx xy.2.dx xy.1.dy xy.2.dy filter wrap
  fun c => if 0 ≤ c ∧ c < src.nchannels then res c else 0

/-- The serial case of `warp_` (lines 850-867). -/
def warp_serial (dst src : ImageBuf) (M : M33) (filter : Filter2D) (wrap : WrapMode)
    (roi : ROI) : ImageBuf :=
  (iter_positions dst roi).foldl
    (fun d p => store_channels d p roi.chbegin roi.chend (warp_colour src M filter wrap p)) dst

/-- The function `warp_` (lines 834-868). -/
def warp_ (split : ROI → Int → List ROI) (dst src : ImageBuf) (M : M33)
    (filter : Filter2D) (wrap : WrapMode) (roi : ROI) (nthreads : Int) : ImageBuf × Bool :=
  if nthreads ≠ 1 ∧ roi.npixels ≥ 1000 then
    (parallel_image split (fun r d => warp_serial d src M filter wrap r) roi nthreads dst,
      true)
  else
    (warp_serial dst src M filter wrap roi, true)

/-- The function `transform` (lines 872-893). -/
def transform (M : M33) (roi : ROI) : ROI :=
  let ul := M.multVecMatrix ((roi.xbegin : ℚ) + 1 / 2, (roi.ybegin : ℚ) + 1 / 2)
  let ur := M.multVecMatrix ((roi.xend : ℚ) - 1 / 2, (roi.ybegin : ℚ) + 1 / 2)
  let ll := M.multVecMatrix ((roi.xbegin : ℚ) + 1 / 2, (roi.yend : ℚ) - 1 / 2)
  let lr := M.multVecMatrix ((roi.xend : ℚ) - 1 / 2, (roi.yend : ℚ) - 1 / 2)
  let minx := min (min (min ul.1 ll.1) ur.1) lr.1
  let miny := min (min (min ul.2 ll.2) ur.2) lr.2
  let maxx := max (max (max ul.1 ll.1) ur.1) lr.1
  let maxy := max (max (max ul.2 ll.2) ur.2) lr.2
  { xbegin := ⌊minx⌋, xend := ⌊maxx⌋ + 1, ybegin := ⌊miny⌋, yend := ⌊maxy⌋ + 1,
    zbegin := roi.zbegin, zend := roi.zend, chbegin := roi.chbegin, chend := roi.chend }

/-- The roi that `warp` hands to `IBAprep` (lines 904-913). -/
def warp_dst_roi (dst src : ImageBuf) (M : M33) (recompute_roi : Bool) (roi : ROI) : ROI :=
  let dst_roi :=
    if dst.initialized then (if roi.defined then roi else dst.roi)
    else (if roi.defined then roi
          else (if recompute_roi then transform M src.roi else src.roi))
  { dst_roi with chend := min dst_roi.chend src.nchannels }

/-- Lines 904-917 of `warp`: the roi set-up and the call of `IBAprep`. -/
def warp_prep (default_channel_names : ImageSpec → ImageSpec) (dst src : ImageBuf)
    (M : M33) (recompute_roi : Bool) (roi : ROI) : Option PrepOut :=
  IBAprep default_channel_names (warp_dst_roi dst src M recompute_roi roi) dst (some src)
    none none { NO_SUPPORT_VOLUME := true }

/-- The function `ImageBufAlgo::warp` with a filter supplied by the caller
(lines 897-933); `none` when the `ASSERT` inside `IBAprep` aborts. -/
def warp (default_channel_names : ImageSpec → ImageSpec) (split : ROI → Int → List ROI)
    (dst src : ImageBuf) (M : M33) (filter : Filter2D) (recompute_roi : Bool)
    (wrap : WrapMode) (roi : ROI) (nthreads : Int) : Option (ImageBuf × Bool) :=
  match warp_prep default_channel_names dst src M recompute_roi roi with
  | none => none
  | some out =>
    if ! out.ok then some (out.dst, false)
    else if dispatch_supported out.dst.spec.format && dispatch_supported src.spec.format then
      some (warp_ split out.dst src M filter wrap out.roi nthreads)
    else
      some (out.dst.error "warp: Unsupported pixel data format", false)

/-! ## `convolve` and `make_kernel` -/

/-- The value of `scale` in `convolve_` (lines 1051-1057). The quotient
`1.0f / scale` is a number only when the kernel values do not sum to zero
(for a zero sum the `float` quotient is an infinity, which the rational
model does not hold): the value is meant for kernels with a nonzero sum. -/
def convolve_scale (kernel : ImageBuf) (normalize : Bool) : ℚ :=
  if normalize then
    1 / (iter_positions kernel ROI.All).foldl
      (fun (scale : ℚ) (k : Int × Int × Int) => scale + kernel.pixels k.1 k.2.1 k.2.2 0) 0
  else 1

/-- The value of `sum[c]` in `convolve_` after the loop over the kernel
(lines 1065-1073), with the destination iterator standing at `pos`; the
source is read with `WrapClamp`. -/
def convolve_sum (src kernel : ImageBuf) (pos : Int × Int × Int) (c : Int) : ℚ :=
  (iter_positions kernel (get_roi kernel.spec)).foldl
    (fun (sum : ℚ) (k : Int × Int × Int) =>
      sum + kernel.pixels k.1 k.2.1 k.2.2 0 *
        src.getchannel_clamp (pos.1 + k.1) (pos.2.1 + k.2.1) (pos.2.2 + k.2.2) c) 0

/-- The values `scale * sum[c]` that `convolve_` stores at `pos`
(lines 1075-1076). -/
def convolve_colour (src kernel : ImageBuf) (normalize : Bool) (pos : Int × Int × Int) :
    Int → ℚ :=
  fun c => convolve_scale kernel normalize * convolve_sum src kernel pos c

/-- The serial case of `convolve_` (lines 1049-1079). -/
def convolve_serial (dst src kernel : ImageBuf) (normalize : Bool) (roi : ROI) : ImageBuf :=
  (iter_positions dst roi).foldl
    (fun d p => store_channels d p roi.chbegin roi.chend
      (convolve_colour src kernel normalize p)) dst

/-- The function `convolve_` (lines 1034-1080). -/
def convolve_ (split : ROI → Int → List ROI) (dst src kernel : ImageBuf)
    (normalize : Bool) (roi : ROI) (nthreads : Int) : ImageBuf × Bool :=
  if nthreads ≠ 1 ∧ roi.npixels ≥ 1000 then
    (parallel_image split (fun r d => convolve_serial d src kernel normalize r) roi
      nthreads dst, true)
  else
    (convolve_serial dst src kernel normalize roi, true)

/-- The size of a kernel along one axis (lines 1119-1125):
`std::max (1, (int)ceilf(requested))`, then `|= 1`. -/
def kernel_size (requested : ℚ) : Int := Int.lor (max 1 ⌈requested⌉) 1

/-- Modelled from the spec: the constructor
`ImageSpec (xres, yres, nchans, format)`: pixel and display windows
`[0,xres) × [0,yres) × [0,1)`, scanline layout, no attributes, and default
channel names. -/
def ImageSpec.create (default_channel_names : ImageSpec → ImageSpec)
    (xres yres nchans : Int) (format : TypeDesc) : ImageSpec :=
  { default_channel_names { ImageSpec.empty with nchannels := nchans } with
    x := 0, y := 0, z := 0, width := xres, height := yres, depth := 1,
    full_x := 0, full_y := 0, full_z := 0, full_width := xres, full_height := yres,
    full_depth := 1, tile_width := 0, tile_height := 0, tile_depth := 1,
    nchannels := nchans, format := format, extra_attribs := [] }

/-- The spec that `make_kernel` builds (lines 1119-1136); the `/ 2` of C++
truncates toward zero. -/
def make_kernel_spec (default_channel_names : ImageSpec → ImageSpec)
    (width height depth : ℚ) : ImageSpec :=
  let w := kernel_size width
  let h := kernel_size height
  let d := kernel_size depth
  let spec := ImageSpec.create default_channel_names w h 1 TypeDesc.FLOAT
  let spec := { spec with depth := d }
  let spec := { spec with x := Int.tdiv (-w) 2, y := Int.tdiv (-h) 2, z := Int.tdiv (-d) 2 }
  { spec with
    full_x := spec.x, full_y := spec.y, full_z := spec.z,
    full_width := spec.width, full_height := spec.height, full_depth := spec.depth }

/-- Lines 1119-1137 of `make_kernel`: the buffer after `dst.alloc (spec)`. -/
def make_kernel_alloc (default_channel_names : ImageSpec → ImageSpec) (dst : ImageBuf)
    (width height depth : ℚ) : ImageBuf :=
  dst.alloc (make_kernel_spec default_channel_names width height depth)

/-- A 4 × 1 float image with one channel whose pixel at `x` holds the value
`x`. -/
def ramp4x1 : ImageBuf :=
  ImageBuf.local_buffer (plain_spec 0 0 4 1 1) (fun x _ _ _ => (x : ℚ))

/-- An 8 × 1 float image with one channel, all pixels zero. -/
def gray8x1 : ImageBuf := ImageBuf.local_buffer (plain_spec 0 0 8 1 1) (fun _ _ _ _ => 0)

/-- A 4 × 4 float image with one channel, all pixels zero. -/
def gray4x4 : ImageBuf := ImageBuf.local_buffer (plain_spec 0 0 4 4 1) (fun _ _ _ _ => 0)

/-- A 4 × 4 float image with one channel, all pixels one. -/
def ones4x4 : ImageBuf := ImageBuf.local_buffer (plain_spec 0 0 4 4 1) (fun _ _ _ _ => 1)

/-- A projective matrix: the identity with `M[0][2] = 2`. -/
def projective_M : M33 :=
  { m00 := 1, m01 := 0, m02 := 2, m10 := 0, m11 := 1, m12 := 0, m20 := 0, m21 := 0, m22 := 1 }

/-- A 5 × 5 float image with one channel whose centre pixel `(2, 2)` is one
and whose other pixels are zero. -/
def impulse5x5 : ImageBuf :=
  ImageBuf.local_buffer (plain_spec 0 0 5 5 1)
    (fun x y _ _ => if x = 2 ∧ y = 2 then 1 else 0)

/-- A 5 × 5 float image with one channel, all pixels zero. -/
def gray5x5 : ImageBuf := ImageBuf.local_buffer (plain_spec 0 0 5 5 1) (fun _ _ _ _ => 0)

/-- The 8 × 1 float image of scenario S2, with values `[0,1,0,1,0,1,0,1]`. -/
def alternating8x1 : ImageBuf :=
  ImageBuf.local_buffer (plain_spec 0 0 8 1 1) (fun x _ _ _ => if x % 2 = 0 then 0 else 1)

/-- The origin-centred 3 × 1 kernel `[1, 1, 1]` of scenario S2. -/
def ones_kernel3 : ImageBuf :=
  ImageBuf.local_buffer (plain_spec (-1) 0 3 1 1) (fun _ _ _ _ => 1)

/-- The origin-centred 3 × 3 impulse kernel: 1 at the origin, 0 elsewhere. -/
def impulse_kernel3 : ImageBuf :=
  ImageBuf.local_buffer (plain_spec (-1) (-1) 3 3 1)
    (fun x y z _ => if x = 0 ∧ y = 0 ∧ z = 0 then 1 else 0)

/-- A 4 × 4 float image with one channel, all pixels 5/2. -/
def flat4x4 : ImageBuf := ImageBuf.local_buffer (plain_spec 0 0 4 4 1) (fun _ _ _ _ => 5 / 2)

/-- An origin-centred 3 × 3 kernel with positive entries `1 + x² + y²`. -/
def bowl_kernel3 : ImageBuf :=
  ImageBuf.local_buffer (plain_spec (-1) (-1) 3 3 1)
    (fun x y _ _ => 1 + (x : ℚ) * x + (y : ℚ) * y)

/-- The source position of `resize_` along x for the destination column `x`:
the fractional part `src_xf_frac` and the integer part `src_x`
(lines 437-440). -/
def resize_src_x (g : ResizeLocals) (x : Int) : ℚ × Int :=
  floorfrac (g.srcfx + (((x : ℚ) - g.dstfx + 1 / 2) * g.dstpixelwidth) * g.srcfw)

/-- The source position of `resize_` along y for the destination row `y`:
the fractional part `src_yf_frac` and the integer part `src_y`
(lines 417-420). -/
def resize_src_y (g : ResizeLocals) (y : Int) : ℚ × Int :=
  floorfrac (g.srcfy + (((y : ℚ) - g.dstfy + 1 / 2) * g.dstpixelheight) * g.srcfh)

/-- The weight `w` of the horizontal tap `i` before normalization
(line 449). -/
def xtap_weight (filter : Filter2D) (g : ResizeLocals) (x : Int) (i : Int) : ℚ :=
  filter.xfilt (g.xratio * ((i : ℚ) - g.radi - ((resize_src_x g x).1 - 1 / 2)))

/-- The weight `w` of the vertical tap `j` before normalization (line 428). -/
def ytap_weight (filter : Filter2D) (g : ResizeLocals) (y : Int) (j : Int) : ℚ :=
  filter.yfilt (g.yratio * ((j : ℚ) - g.radj - ((resize_src_y g y).1 - 1 / 2)))

/-- The weight `w` of the tap `(i, j)` of the non-separable path
(lines 492-493). -/
def tap_weight (filter : Filter2D) (g : ResizeLocals) (x y : Int) (ij : Int × Int) : ℚ :=
  filter.eval (g.xratio * ((ij.1 : ℚ) - ((resize_src_x g x).1 - 1 / 2)))
    (g.yratio * ((ij.2 : ℚ) - ((resize_src_y g y).1 - 1 / 2)))

/-! ## `fillholes_pushpull`: the pyramid loop -/

/-- The loop of lines 1750-1760 of `fillholes_pushpull`, started with the
values `w` and `h`: the sizes `(w, h)` of the levels that its passes build,
in the order in which they are pushed on the pyramid; the `/ 2` of C++
truncates toward zero. -/
def pyramid_levels (w h : Int) : List (Int × Int) :=
  if w > 1 ∨ h > 1 then
    (max 1 (Int.tdiv w 2), max 1 (Int.tdiv h 2)) ::
      pyramid_levels (max 1 (Int.tdiv w 2)) (max 1 (Int.tdiv h 2))
  else []
termination_by (max w h).toNat
decreasing_by
  have hd : ∀ v : Int, Int.tdiv v 2 ≤ max 0 (v - 1) := by
    intro v
    rcases Int.le_total 0 v with hv | hv
    · rw [Int.tdiv_eq_ediv hv (by decide)]
      omega
    · have h1 : Int.tdiv v 2 = -((-v) / 2) := by
        rw [← Int.tdiv_eq_ediv (by omega) (by decide), Int.neg_tdiv, neg_neg]
      omega
  have h1 := hd w
  have h2 := hd h
  omega

/-! ## `resample_`, `threshold_to_zero` and `divide_by_alpha` -/

/-- The positions at which the iterator `out` of `resample_` stands during
the passes of its loops over `y` and `x` (lines 643-671): `out` starts on the
first pixel of the roi and is advanced once per pass, so during the pass
`(y, x)` it stands at `(x, y, roi.zbegin)` (for a roi that is not empty
in z). -/
def resample_positions (roi : ROI) : List (Int × Int × Int) :=
  (irange roi.ybegin roi.yend).flatMap fun (y : Int) =>
    (irange roi.xbegin roi.xend).map fun (x : Int) => (x, y, roi.zbegin)

/-- The serial case of `resample_` (lines 624-674); the display window of
`dst` is read before the loops. -/
def resample_serial (interppixel : ImageBuf → ℚ → ℚ → Int → ℚ) (dst src : ImageBuf)
    (interpolate : Bool) (roi : ROI) : ImageBuf :=
  (resample_positions roi).foldl
    (fun d p => store_channels d p roi.chbegin roi.chend
      (resample_pixel interppixel dst src interpolate p.1 p.2.1)) dst

/-- The function `resample_` (lines 610-675). -/
def resample_ (interppixel : ImageBuf → ℚ → ℚ → Int → ℚ)
    (split : ROI → Int → List ROI) (dst src : ImageBuf) (interpolate : Bool)
    (roi : ROI) (nthreads : Int) : ImageBuf × Bool :=
  if nthreads ≠ 1 ∧ roi.npixels ≥ 1000 then
    (parallel_image split (fun r d => resample_serial interppixel d src interpolate r) roi
      nthreads dst, true)
  else
    (resample_serial interppixel dst src interpolate roi, true)

/-- The body of the loops of `threshold_to_zero` for the iterator `p`
standing at `pos` (lines 1198-1200): `if (fabsf(p[c]) < threshold) p[c] = 0`
for each channel of the roi. -/
def threshold_pixel (dst : ImageBuf) (threshold : ℚ) (pos : Int × Int × Int)
    (chbegin chend : Int) : ImageBuf :=
  (irange chbegin chend).foldl
    (fun d c =>
      if |d.getchannel_black pos.1 pos.2.1 pos.2.2 c| < threshold
      then d.store pos.1 pos.2.1 pos.2.2 c 0 else d) dst

/-- The serial case of `threshold_to_zero` (lines 1197-1202). -/
def threshold_to_zero_serial (dst : ImageBuf) (threshold : ℚ) (roi : ROI) : ImageBuf :=
  (iter_positions dst roi).foldl
    (fun d p => threshold_pixel d threshold p roi.chbegin roi.chend) dst

/-- The function `threshold_to_zero` (lines 1181-1204), for a buffer of
floats (the `ASSERT` of line 1185). -/
def threshold_to_zero (split : ROI → Int → List ROI) (dst : ImageBuf) (threshold : ℚ)
    (roi : ROI) (nthreads : Int) : ImageBuf × Bool :=
  if nthreads ≠ 1 ∧ roi.npixels ≥ 1000 then
    (parallel_image split (fun r d => threshold_to_zero_serial d threshold r) roi
      nthreads dst, true)
  else
    (threshold_to_zero_serial dst threshold roi, true)

/-- The body of the loop of `divide_by_alpha` for the iterator `d` standing
at `pos` (lines 1699-1703): `alpha` is copied before the channels are
divided. -/
def divide_pixel (dst : ImageBuf) (pos : Int × Int × Int) : ImageBuf :=
  let nc := dst.spec.nchannels
  let ac := dst.spec.alpha_channel
  let alpha := dst.getchannel_black pos.1 pos.2.1 pos.2.2 ac
  if alpha ≠ 0 then
    (irange 0 nc).foldl
      (fun d c => d.store pos.1 pos.2.1 pos.2.2 c
        (d.getchannel_black pos.1 pos.2.1 pos.2.2 c / alpha)) dst
  else dst

/-- The serial case of `divide_by_alpha` (lines 1693-1705). -/
def divide_by_alpha_serial (dst : ImageBuf) (roi : ROI) : ImageBuf :=
  (iter_positions dst roi).foldl (fun d p => divide_pixel d p) dst

/-- The function `divide_by_alpha` (lines 1681-1708), for a buffer of floats
(the `ASSERT` of line 1695). -/
def divide_by_alpha (split : ROI → Int → List ROI) (dst : ImageBuf) (roi : ROI)
    (nthreads : Int) : ImageBuf × Bool :=
  if nthreads ≠ 1 ∧ roi.npixels ≥ 1000 then
    (parallel_image split (fun r d => divide_by_alpha_serial d r) roi nthreads dst, true)
  else
    (divide_by_alpha_serial dst roi, true)

/-- The value that `threshold_to_zero` leaves in place of `v`. -/
def threshold_value (threshold : ℚ) (v : ℚ) : ℚ := if |v| < threshold then 0 else v

/-- The channels that `divide_by_alpha` leaves in place of the channels `v`
of a pixel, for `nc` channels and the alpha channel `ac`. -/
def divided_pixel (nc ac : Int) (v : Int → ℚ) : Int → ℚ :=
  fun c => if v ac ≠ 0 ∧ (0 ≤ c ∧ c < nc) then v c / v ac else v c

/-- A 2 × 1 float RGBA image: the pixel at `x = 0` is `(1/2, 1/4, 0, 1/2)` and
the pixel at `x = 1` is `(3, 3, 3, 0)`. -/
def premult2x1 : ImageBuf :=
  ImageBuf.local_buffer (plain_spec 0 0 2 1 4)
    (fun x _ _ c => if x = 0 then (if c = 0 then 1 / 2 else if c = 1 then 1 / 4
      else if c = 2 then 0 else 1 / 2) else (if c = 3 then 0 else 3))

/-- The left and the right half of the pixel window of the 4 × 4 one-channel
image, as two tiles. -/
def halves4x4 : List ROI :=
  [{ xbegin := 0, xend := 2, ybegin := 0, yend := 4, zbegin := 0, zend := 1,
     chbegin := 0, chend := 1 },
   { xbegin := 2, xend := 4, ybegin := 0, yend := 4, zbegin := 0, zend := 1,
     chbegin := 0, chend := 1 }]

/-- The value that the description of the non-separable path of `resize`
gives for the channel `c` of the destination pixel `(x, y)`: each tap
`(i, j)`, `-radi ≤ i ≤ radi`, `-radj ≤ j ≤ radj`, weighs the source pixel
`(src_x + i, src_y + j)` read with Clamp wrap, and the weighted sum is
divided by the total weight, or is 0 when the total weight is 0. This is the
statement to compare `resize_nonseparable_pixel` with, not a translation of
the code. -/
def resize_nonseparable_described (src : ImageBuf) (filter : Filter2D) (g : ResizeLocals)
    (x y : Int) (c : Int) : ℚ :=
  let total := ((nonsep_taps g.radi g.radj).map (tap_weight filter g x y)).sum
  if total = 0 then 0
  else
    ((nonsep_taps g.radi g.radj).map (fun (ij : Int × Int) =>
      tap_weight filter g x y ij *
        src.getchannel_clamp ((resize_src_x g x).2 + ij.1) ((resize_src_y g y).2 + ij.2) 0 c)).sum
      / total

/-- An 8 × 8 float image with one channel whose pixel at `(x, y)` holds the
value `y`. -/
def yramp8x8 : ImageBuf :=
  ImageBuf.local_buffer (plain_spec 0 0 8 8 1) (fun _ y _ _ => (y : ℚ))

/-! ## `make_kernel`: the kernel values -/

/-- The helper `binomial (n, k)` (lines 1105-1111): the loop
`for (i = 1; i <= k; ++i) p *= float(n - (k-i)) / i`, started with `p = 1`. -/
def binomial (n k : Int) : ℚ :=
  (irange 1 (k + 1)).foldl (fun (p : ℚ) (i : Int) => p * (((n - (k - i) : Int) : ℚ) / (i : ℚ))) 1

/-- The conversion of a float to `int`, which truncates toward zero. -/
def float_to_int (v : ℚ) : Int := if 0 ≤ v then ⌊v⌋ else ⌈v⌉

/-- The entries that a loop
`for (int i = 0; i < size; ++i) filter[i] = binomial (size-1, i)` of
`make_kernel` writes into its table (lines 1145-1157), `size` being the
float that the caller requested; the `int` arguments of `binomial` are the
floats `size-1` and `i` converted. -/
def binomial_table (size : ℚ) : List ℚ :=
  (irange 0 ⌈size⌉).map (fun (i : Int) => binomial (float_to_int (size - 1)) i)

/-- The read `table[i]`: `none` when the index is not one of the entries that
were written. -/
def table_get (table : List ℚ) (i : Int) : Option ℚ :=
  if 0 ≤ i then table.get? i.toNat else none

/-- The three tables `wfilter`, `hfilter`, `dfilter` of the binomial branch
of `make_kernel` (lines 1144-1157): `hfilter` is `wfilter` itself when
`height == width`, and `dfilter` is the single entry 1 when `depth == 1`. -/
def binomial_tables (width height depth : ℚ) : List ℚ × List ℚ × List ℚ :=
  let wfilter := binomial_table width
  let hfilter := if height = width then wfilter else binomial_table height
  let dfilter := if depth = 1 then [1] else binomial_table depth
  (wfilter, hfilter, dfilter)

/-- The value `wfilter[p.x()-spec.x] * hfilter[p.y()-spec.y] *
dfilter[p.z()-spec.z]` that the binomial branch stores at the pixel `pos`
(line 1159); `none` when one of the three reads leaves its table. -/
def binomial_value (width height depth : ℚ) (spec : ImageSpec) (pos : Int × Int × Int) :
    Option ℚ :=
  match table_get (binomial_tables width height depth).1 (pos.1 - spec.x),
        table_get (binomial_tables width height depth).2.1 (pos.2.1 - spec.y),
        table_get (binomial_tables width height depth).2.2 (pos.2.2 - spec.z) with
  | some a, some b, some c => some (a * b * c)
  | _, _, _ => none

/-- A loop `for (ImageBuf::Iterator<float> p (dst); ! p.done(); ++p)
p[0] = value (p)` over all the pixels of `dst`. -/
def paint_kernel (dst : ImageBuf) (value : Int × Int × Int → ℚ) : ImageBuf :=
  (iter_positions dst ROI.All).foldl
    (fun d p => d.store p.1 p.2.1 p.2.2 0 (value p)) dst

/-- The normalization of `make_kernel` (lines 1168-1174): the sum of all the
values, then every value divided by it. -/
def normalize_kernel (dst : ImageBuf) : ImageBuf :=
  let sum := (iter_positions dst ROI.All).foldl
    (fun (s : ℚ) (p : Int × Int × Int) => s + dst.getchannel_black p.1 p.2.1 p.2.2 0) 0
  (iter_positions dst ROI.All).foldl
    (fun d p => d.store p.1 p.2.1 p.2.2 0 (d.getchannel_black p.1 p.2.1 p.2.2 0 / sum)) dst

/-- The function `ImageBufAlgo::make_kernel` (lines 1114-1177). `create`
stands for `Filter2D::create (name, width, height)` of the filter registry,
which yields no filter for a name that it does not know. The result is
`none` when the binomial branch reads outside one of its tables. -/
def make_kernel (default_channel_names : ImageSpec → ImageSpec)
    (create : String → ℚ → ℚ → Option Filter2D) (dst : ImageBuf) (name : String)
    (width height depth : ℚ) (normalize : Bool) : Option (ImageBuf × Bool) :=
  let w := kernel_size width
  let h := kernel_size height
  let d := kernel_size depth
  let dst := make_kernel_alloc default_channel_names dst width height depth
  match create name width height with
  | some filter =>
    let dst := paint_kernel dst (fun p => filter.eval (p.1 : ℚ) (p.2.1 : ℚ))
    some (if normalize then normalize_kernel dst else dst, true)
  | none =>
    if name = "binomial" then
      if (iter_positions dst ROI.All).all
          (fun p => (binomial_value width height depth dst.spec p).isSome) then
        let dst := paint_kernel dst
          (fun p => (binomial_value width height depth dst.spec p).getD 0)
        some (if normalize then normalize_kernel dst else dst, true)
      else none
    else
      let val : ℚ := if normalize then 1 / ((w * h * d : Int) : ℚ) else 1
      let dst := paint_kernel dst (fun _ => val)
      some (dst.error ("Unknown kernel \"" ++ name ++ "\""), false)

/-- A filter registry that knows no name. -/
def no_filters (_name : String) (_w _h : ℚ) : Option Filter2D := none

/-! ## `polar_to_complex` and `complex_to_polar` -/

/-- Modelled from the spec: the functions of the C math library that the
conversions between polar and complex call (`sincos`, `std::atan2`,
`hypotf`) and the constant `M_TWO_PI`, over the type `R` of the values. -/
structure FloatMath (R : Type) where
  sin : R → R
  cos : R → R
  atan2 : R → R → R
  hypot : R → R → R
  two_pi : R

/-- The body of the loop of `polar_to_complex_impl` (lines 1437-1444): from
the channels `(amp, phase)` of the source pixel to the channels of the
result pixel. -/
def polar_to_complex_pixel {R : Type} [Mul R] (m : FloatMath R) (a : R × R) : R × R :=
  let amp := a.1
  let phase := a.2
  let sine := m.sin phase
  let cosine := m.cos phase
  (amp * cosine, amp * sine)

/-- The body of the loop of `complex_to_polar_impl` (lines 1464-1471): from
the channels `(real, imag)` of the source pixel to the channels of the
result pixel. -/
def complex_to_polar_pixel {R : Type} [Add R] [Zero R] [LT R]
    [DecidableRel (fun (a b : R) => a < b)] (m : FloatMath R) (a : R × R) : R × R :=
  let real := a.1
  let imag := a.2
  let phase := m.atan2 imag real
  let phase := if phase < 0 then phase + m.two_pi else phase
  (m.hypot real imag, phase)

/-! ## `unsharp_mask` -/

/-- Modelled from the spec: `add (R, A, B, roi, nthreads)`, which stores
`A + B` in the pixels and channels of `roi` ("`dst = src + Diff`"); a source
is read as zero outside its pixel window. -/
def add (R A B : ImageBuf) (roi : ROI) (_nthreads : Int) : ImageBuf × Bool :=
  ((iter_positions R roi).foldl
    (fun d p => store_channels d p roi.chbegin roi.chend
      (fun c => A.getchannel_black p.1 p.2.1 p.2.2 c + B.getchannel_black p.1 p.2.1 p.2.2 c))
    R, true)

/-- The serial case of `resize_` (lines 353-520): the loops over `y` and `x`
with the iterator `out` advanced once per pass (it stands at
`(x, y, roi.zbegin)` during the pass `(y, x)`, for a roi that is not empty
in z), storing `out[c]` for `0 ≤ c < nchannels` of the destination; `none`
as in `resize_pixel`. -/
def resize_serial (dst src : ImageBuf) (filter : Filter2D) (roi : ROI) : Option ImageBuf :=
  (resample_positions roi).foldl
    (fun (d : Option ImageBuf) p =>
      match d with
      | none => none
      | some d =>
        match resize_pixel src filter (resize_locals dst.spec src.spec filter) p.1 p.2.1 with
        | none => none
        | some out => some (store_channels d p 0 dst.spec.nchannels out))
    (some dst)

/-- The function `resize_` (lines 336-521); the tiles of `parallel_image` are
run one after the other. -/
def resize_ (split : ROI → Int → List ROI) (dst src : ImageBuf) (filter : Filter2D)
    (roi : ROI) (nthreads : Int) : Option (ImageBuf × Bool) :=
  if nthreads ≠ 1 ∧ roi.npixels ≥ 1000 then
    ((split roi nthreads).foldl
      (fun (d : Option ImageBuf) t =>
        match d with
        | none => none
        | some d => resize_serial d src filter t) (some dst)).map (fun d => (d, true))
  else
    (resize_serial dst src filter roi).map (fun d => (d, true))

/-- The function `ImageBufAlgo::resize` that takes the name of a filter
(lines 564-606). `desc_width` stands for the loop over the descriptors of the
filter registry (the `width` of the descriptor of that name, if there is
one) and `create` for `Filter2D::create`. The result is `none` when the
`ASSERT` inside `IBAprep` aborts or as in `resize_pixel`. -/
def resize_named (default_channel_names : ImageSpec → ImageSpec)
    (desc_width : String → Option ℚ) (create : String → ℚ → ℚ → Option Filter2D)
    (split : ROI → Int → List ROI) (dst src : ImageBuf) (filtername_ : String)
    (fwidth : ℚ) (roi : ROI) (nthreads : Int) : Option (ImageBuf × Bool) :=
  match IBAprep default_channel_names roi dst (some src) none none
      { REQUIRE_SAME_NCHANNELS := true, NO_SUPPORT_VOLUME := true,
        NO_COPY_ROI_FULL := true } with
  | none => none
  | some out =>
    if ! out.ok then some (out.dst, false)
    else
      let wratio : ℚ := (out.dst.spec.full_width : ℚ) / (src.spec.full_width : ℚ)
      let hratio : ℚ := (out.dst.spec.full_height : ℚ) / (src.spec.full_height : ℚ)
      let filtername :=
        if filtername_ = "" then
          (if wratio > 1 ∨ hratio > 1 then "blackman-harris" else "lanczos3")
        else filtername_
      let filter : Option Filter2D :=
        match desc_width filtername with
        | some fdwidth =>
          let w := if fwidth > 0 then fwidth else fdwidth * max 1 wratio
          let h := if fwidth > 0 then fwidth else fdwidth * max 1 hratio
          create filtername w h
        | none => none
      match filter with
      | none =>
        some (out.dst.error ("Filter \"" ++ filtername ++ "\" not recognized"), false)
      | some f =>
        if dispatch_supported out.dst.spec.format && dispatch_supported src.spec.format then
          resize_ split out.dst src f out.roi nthreads
        else
          some (out.dst.error "resize: Unsupported pixel data format", false)

/-! ## `fillholes_pushpull` -/

/-- Modelled from the spec: `paste (dst, xbegin, ybegin, zbegin, chbegin, src,
srcroi, nthreads)` on an initialized `dst`: the pixels of `srcroi` (all of
`src` for an undefined roi) are copied to `dst` with the corner of the roi
going to `(xbegin, ybegin, zbegin)` and its first channel to `chbegin`; the
source is read as zero outside its pixel window. -/
def paste (dst : ImageBuf) (xbegin ybegin zbegin chbegin : Int) (src : ImageBuf)
    (srcroi : ROI) (_nthreads : Int) : ImageBuf × Bool :=
  let sr := if srcroi.defined then srcroi else get_roi src.spec
  let dstroi : ROI :=
    { xbegin := xbegin, xend := xbegin + sr.width, ybegin := ybegin,
      yend := ybegin + sr.height, zbegin := zbegin, zend := zbegin + sr.depth,
      chbegin := chbegin, chend := chbegin + (sr.chend - sr.chbegin) }
  ((iter_positions dst dstroi).foldl
    (fun d p => store_channels d p dstroi.chbegin dstroi.chend
      (fun c => src.getchannel_black (p.1 - xbegin + sr.xbegin) (p.2.1 - ybegin + sr.ybegin)
        (p.2.2 - zbegin + sr.zbegin) (c - chbegin + sr.chbegin)))
    dst, true)

/-- Modelled from the spec: `over (R, A, B, roi, nthreads)` on an initialized
`R`, the composite "`A` over `B`" of images with associated alpha: every
channel of a pixel becomes `A + (1 - alpha_A) · B`; a source is read as zero
outside its pixel window. -/
def over (R A B : ImageBuf) (roi : ROI) (_nthreads : Int) : ImageBuf × Bool :=
  ((iter_positions R roi).foldl
    (fun d p => store_channels d p 0 R.spec.nchannels
      (fun c => A.getchannel_black p.1 p.2.1 p.2.2 c +
        (1 - A.getchannel_black p.1 p.2.1 p.2.2 A.spec.alpha_channel) *
          B.getchannel_black p.1 p.2.1 p.2.2 c))
    R, true)

/-- One pass of the pyramid loop of `fillholes_pushpull` (lines 1754-1758)
for the level size `wh`: the previous level resized with the `triangle`
filter, then `divide_by_alpha`. -/
def build_level (default_channel_names : ImageSpec → ImageSpec)
    (desc_width : String → Option ℚ) (create : String → ℚ → ℚ → Option Filter2D)
    (split : ROI → Int → List ROI) (nthreads nchannels : Int) (prev : ImageBuf)
    (wh : Int × Int) : Option ImageBuf :=
  let smallspec := ImageSpec.create default_channel_names wh.1 wh.2 nchannels TypeDesc.FLOAT
  let small := ImageBuf.uninit.alloc smallspec
  match resize_named default_channel_names desc_width create split small prev "triangle" 0
      ROI.All 0 with
  | none => none
  | some r => some (divide_by_alpha split r.1 (get_roi smallspec) nthreads).1

/-- The levels that the pyramid loop pushes below `prev`, for the list of
level sizes that the loop goes through. -/
def build_pyramid (default_channel_names : ImageSpec → ImageSpec)
    (desc_width : String → Option ℚ) (create : String → ℚ → ℚ → Option Filter2D)
    (split : ROI → Int → List ROI) (nthreads nchannels : Int) :
    ImageBuf → List (Int × Int) → Option (List ImageBuf)
  | _, [] => some []
  | prev, wh :: rest =>
    match build_level default_channel_names desc_width create split nthreads nchannels prev
        wh with
    | none => none
    | some small =>
      match build_pyramid default_channel_names desc_width create split nthreads nchannels
          small rest with
      | none => none
      | some l => some (small :: l)

/-- The level `big` after the loop of lines 1767-1773 has run for it, `lower`
being the levels below it: the loop goes from the coarsest level upwards, so
the level below has been completed when `big` is composited over its
resized copy. -/
def pull_up (default_channel_names : ImageSpec → ImageSpec)
    (desc_width : String → Option ℚ) (create : String → ℚ → ℚ → Option Filter2D)
    (split : ROI → Int → List ROI) : ImageBuf → List ImageBuf → Option ImageBuf
  | big, [] => some big
  | big, small :: rest =>
    match pull_up default_channel_names desc_width create split small rest with
    | none => none
    | some small1 =>
      match resize_named default_channel_names desc_width create split
          (ImageBuf.uninit.alloc big.spec) small1 "triangle" 0 ROI.All 0 with
      | none => none
      | some blowup => some (over big big blowup.1 ROI.All 0).1

/-- The top level of the pyramid of `fillholes_pushpull` (lines 1739-1743):
a float copy of `src`, made by `paste` into a fresh buffer with the spec of
`src`. -/
def fillholes_top (src : ImageBuf) : ImageBuf :=
  let topspec := src.spec.set_format TypeDesc.FLOAT
  (paste (ImageBuf.uninit.alloc topspec) topspec.x topspec.y topspec.z 0 src ROI.All 0).1

/-- The function `ImageBufAlgo::fillholes_pushpull` (lines 1712-1780). The
result is `none` when the `ASSERT` inside `IBAprep` aborts or as in
`resize_pixel`. -/
def fillholes_pushpull (default_channel_names : ImageSpec → ImageSpec)
    (desc_width : String → Option ℚ) (create : String → ℚ → ℚ → Option Filter2D)
    (split : ROI → Int → List ROI) (dst src : ImageBuf) (roi : ROI) (nthreads : Int) :
    Option (ImageBuf × Bool) :=
  match IBAprep default_channel_names roi dst (some src) none none {} with
  | none => none
  | some out =>
    if ! out.ok then some (out.dst, false)
    else if out.dst.spec.nchannels ≠ src.nchannels then
      some (out.dst.error "channel number mismatch", false)
    else if out.dst.spec.depth > 1 ∨ src.spec.depth > 1 then
      some (out.dst.error
        "ImageBufAlgo::fillholes_pushpull does not support volume images", false)
    else if out.dst.spec.alpha_channel < 0 ∨
        out.dst.spec.alpha_channel ≠ src.spec.alpha_channel then
      some (out.dst.error "Must have alpha channels", false)
    else
      let top := fillholes_top src
      match build_pyramid default_channel_names desc_width create split nthreads
          src.nchannels top (pyramid_levels src.spec.width src.spec.height) with
      | none => none
      | some lower =>
        match pull_up default_channel_names desc_width create split top lower with
        | none => none
        | some base =>
          some ((paste out.dst out.dst.spec.x out.dst.spec.y out.dst.spec.z 0 base ROI.All
            0).1, true)

/-- A `default_channel_names` that makes the fourth channel, when there is
one, the alpha channel (as `plain_spec` does). -/
def rgba_names (s : ImageSpec) : ImageSpec :=
  { s with alpha_channel := if s.nchannels ≥ 4 then 3 else -1 }

/-- Modelled from the spec: the `triangle` filter that `Filter2D::create`
makes for the width `w` and the height `h`: the profile
`1 - |x| / (w/2)` along x and `1 - |y| / (h/2)` along y. -/
def triangle_wh (w h : ℚ) : Filter2D :=
  { width := w, separable := true,
    xfilt := fun x => if |x| < w / 2 then 1 - |x| / (w / 2) else 0,
    yfilt := fun y => if |y| < h / 2 then 1 - |y| / (h / 2) else 0,
    eval := fun x y =>
      (if |x| < w / 2 then 1 - |x| / (w / 2) else 0) *
      (if |y| < h / 2 then 1 - |y| / (h / 2) else 0) }

/-- A filter registry that holds the `triangle` filter only, with the
nominal width 2 in its descriptor. -/
def triangle_desc_width (name : String) : Option ℚ :=
  if name = "triangle" then some 2 else none

/-- The `Filter2D::create` of the registry that holds the `triangle` filter
only. -/
def triangle_registry (name : String) (w h : ℚ) : Option Filter2D :=
  if name = "triangle" then some (triangle_wh w h) else none

/-- A 3 × 3 float RGBA image whose centre pixel is `(1, 1, 1, 1)` and whose
other pixels are `(0, 0, 0, 0)`. -/
def hole3x3 : ImageBuf :=
  ImageBuf.local_buffer (plain_spec 0 0 3 3 4)
    (fun x y z c => if x = 1 ∧ y = 1 ∧ z = 0 ∧ 0 ≤ c ∧ c < 4 then 1 else 0)

/-! ## `fft` and `ifft`

The pixel values of the float buffers are taken in a field `R` (the reals
in the theorems), since the transform leaves the rationals. A complex
number (`std::complex<float>`) is a pair `(real, imag)` of values. -/

/-- Modelled from the spec: an `ImageBuf` of floats with values in `R`:
storage kind, spec, pixel values and error string. -/
structure FloatBuf (R : Type) where
  storage : IBStorage
  spec : ImageSpec
  pixels : Int → Int → Int → Int → R
  err : String

/-- Modelled from the spec: a default-constructed buffer, also the state after
`clear()`. -/
def FloatBuf.uninit {R : Type} [Zero R] : FloatBuf R :=
  { storage := IBStorage.UNINITIALIZED, spec := ImageSpec.empty,
    pixels := fun _ _ _ _ => 0, err := "" }

/-- Modelled from the spec: the constructor `ImageBuf (spec)` and
`reset (name, spec)`: a buffer with the given spec that owns zeroed pixels
("zeros it out automatically", line 1332). -/
def FloatBuf.create {R : Type} [Zero R] (spec : ImageSpec) : FloatBuf R :=
  { storage := IBStorage.LOCALBUFFER, spec := spec, pixels := fun _ _ _ _ => 0, err := "" }

/-- Modelled from the spec: `initialized()`. -/
def FloatBuf.initialized {R : Type} (b : FloatBuf R) : Bool :=
  b.storage != IBStorage.UNINITIALIZED

/-- Modelled from the spec: `error(msg)`. -/
def FloatBuf.error {R : Type} (b : FloatBuf R) (msg : String) : FloatBuf R :=
  { b with err := msg }

/-- Modelled from the spec: a read of a channel through an iterator with the
wrap mode `Black`: zero outside the pixel window. -/
def FloatBuf.getchannel_black {R : Type} [Zero R] (b : FloatBuf R) (x y z c : Int) : R :=
  if (get_roi b.spec).containsPos x y z then b.pixels x y z c else 0

/-- Modelled from the spec: `paste (dst, xbegin, ybegin, zbegin, chbegin, src,
srcroi, nthreads)` on an initialized `dst`: the pixels and channels of
`srcroi` (all of `src` for an undefined roi) are copied into the pixel
window of `dst` with the corner of the roi going to
`(xbegin, ybegin, zbegin)` and its first channel to `chbegin`; the source is
read as zero outside its pixel window. -/
def FloatBuf.paste {R : Type} [Zero R] (dst : FloatBuf R) (xbegin ybegin zbegin chbegin : Int)
    (src : FloatBuf R) (srcroi : ROI) (_nthreads : Int) : FloatBuf R × Bool :=
  let sr := if srcroi.defined then srcroi else get_roi src.spec
  let values : Int → Int → Int → Int → R := fun x y z c =>
    if (get_roi dst.spec).containsPos x y z = true ∧
        ((xbegin ≤ x ∧ x < xbegin + sr.width) ∧ (ybegin ≤ y ∧ y < ybegin + sr.height) ∧
          (zbegin ≤ z ∧ z < zbegin + sr.depth)) ∧
        (chbegin ≤ c ∧ c < chbegin + (sr.chend - sr.chbegin)) then
      src.getchannel_black (x - xbegin + sr.xbegin) (y - ybegin + sr.ybegin)
        (z - zbegin + sr.zbegin) (c - chbegin + sr.chbegin)
    else dst.pixels x y z c
  ({ dst with pixels := values }, true)

/-- Modelled from the spec: the spec that `transpose` gives to an
uninitialized destination: a float image whose pixel window is the roi with
x and y exchanged, whose display window is the display window of the source
with x and y exchanged, with the channels of the roi. -/
def transpose_spec (srcspec : ImageSpec) (r : ROI) : ImageSpec :=
  { ImageSpec.empty with
    x := r.ybegin, y := r.xbegin, z := r.zbegin,
    width := r.height, height := r.width, depth := r.depth,
    full_x := srcspec.full_y, full_y := srcspec.full_x, full_z := srcspec.full_z,
    full_width := srcspec.full_height, full_height := srcspec.full_width,
    full_depth := srcspec.full_depth,
    nchannels := r.chend, format := TypeDesc.FLOAT }

/-- Modelled from the spec: the roi that `transpose` works on: the given roi,
or the pixel window of the source for an undefined roi, with the channels
clipped to those of the source. -/
def transpose_roi (srcspec : ImageSpec) (roi : ROI) : ROI :=
  let r0 := if roi.defined then roi else get_roi srcspec
  { r0 with chend := min r0.chend srcspec.nchannels, isdef := true }

/-- Modelled from the spec: `transpose (dst, src, roi, nthreads)`: the pixel
`(x, y, z)` of the roi of `src` (all of `src` for an undefined roi, channels
clipped to those of `src`) goes to the pixel `(y, x, z)` of `dst`; an
uninitialized `dst` is allocated first. -/
def FloatBuf.transpose {R : Type} [Zero R] (dst src : FloatBuf R) (roi : ROI)
    (_nthreads : Int) : FloatBuf R × Bool :=
  let r := transpose_roi src.spec roi
  let d0 : FloatBuf R :=
    if dst.initialized then dst else FloatBuf.create (transpose_spec src.spec r)
  let values : Int → Int → Int → Int → R := fun x y z c =>
    if (get_roi d0.spec).containsPos x y z = true ∧ r.containsPos y x z = true ∧
        (r.chbegin ≤ c ∧ c < r.chend) then
      src.getchannel_black y x z c
    else d0.pixels x y z c
  ({ d0 with pixels := values }, true)

/-- Modelled from the spec: the functions of the C and C++ math libraries
that the transform calls: `sqrtf`, and the cosine, the sine and the
constant pi (`acos(-1)`) from which `kissfft` makes its twiddle factors. -/
structure FFTMath (R : Type) where
  sqrtf : R → R
  cos : R → R
  sin : R → R
  pi : R

/-- The sum of two complex numbers. -/
def cpx_add {R : Type} [Add R] (a b : R × R) : R × R := (a.1 + b.1, a.2 + b.2)

/-- The product of two complex numbers. -/
def cpx_mul {R : Type} [Add R] [Sub R] [Mul R] (a b : R × R) : R × R :=
  (a.1 * b.1 - a.2 * b.2, a.1 * b.2 + a.2 * b.1)

/-- The product `d[x] *= rescale` of a complex number and a float. -/
def cpx_scale {R : Type} [Mul R] (a : R × R) (r : R) : R × R := (a.1 * r, a.2 * r)

/-- Modelled from the spec: the twiddle factor of `kissfft<float> F (nfft,
inverse)` for the exponent `k`: `exp (i · k · phinc)` with
`phinc = -2 pi / nfft` for the forward and `2 pi / nfft` for the inverse
transform. -/
def kissfft_twiddle {R : Type} [Field R] (m : FFTMath R) (nfft : Int) (inverse : Bool)
    (k : Int) : R × R :=
  let phinc : R := (if inverse then 2 else -2) * m.pi / (nfft : R)
  (m.cos ((k : R) * phinc), m.sin ((k : R) * phinc))

/-- Modelled from the spec: `F.transform (s, d)`, the one-dimensional discrete
Fourier transform of `nfft` complex numbers, not normalized:
`d[k] = Σ s[n] · twiddle (k · n)` over `0 ≤ n < nfft`. -/
def kissfft_transform {R : Type} [Field R] (m : FFTMath R) (nfft : Int) (inverse : Bool)
    (s : Int → R × R) (k : Int) : R × R :=
  (irange 0 nfft).foldl
    (fun acc (n : Int) => cpx_add acc (cpx_mul (s n) (kissfft_twiddle m nfft inverse (k * n))))
    (0, 0)

/-- The complex number that the pointer `(std::complex<float> *) pixeladdr
(x, y, z)` addresses in a two-channel float buffer: the channels 0 and 1 of
the pixel. -/
def read_complex {R : Type} (b : FloatBuf R) (x y z : Int) : R × R :=
  (b.pixels x y z 0, b.pixels x y z 1)

/-- A store of a complex number through such a pointer. -/
def write_complex {R : Type} (b : FloatBuf R) (x y z : Int) (v : R × R) : FloatBuf R :=
  let values : Int → Int → Int → Int → R := fun x1 y1 z1 c =>
    if x1 = x ∧ y1 = y ∧ z1 = z ∧ c = 0 then v.1
    else if x1 = x ∧ y1 = y ∧ z1 = z ∧ c = 1 then v.2
    else b.pixels x1 y1 z1 c
  { b with pixels := values }

/-- The rows of the roi lie inside the pixel window of the spec, so that for
each row the pointer `pixeladdr (roi.xbegin, y, z)` addresses `roi.width ()`
consecutive pixels of the buffer. -/
def rows_inside (roi : ROI) (spec : ImageSpec) : Bool :=
  decide (spec.x ≤ roi.xbegin) && decide (roi.xend ≤ spec.x + spec.width) &&
  decide (spec.y ≤ roi.ybegin) && decide (roi.yend ≤ spec.y + spec.height) &&
  decide (spec.z ≤ roi.zbegin) && decide (roi.zend ≤ spec.z + spec.depth)

/-- The body of the loops of `hfft_` for the row `(y, z)` (lines 1281-1289):
the transform of the row of `src` is written to the row of `dst`, then each
entry is multiplied by `rescale` when `unitary` is set. -/
def hfft_row {R : Type} [Field R] (m : FFTMath R) (dst src : FloatBuf R)
    (inverse unitary : Bool) (roi : ROI) (y z : Int) : FloatBuf R :=
  let width := roi.width
  let rescale : R := m.sqrtf (1 / (width : R))
  let out := kissfft_transform m width inverse
    (fun n => read_complex src (roi.xbegin + n) y z)
  let d1 := (irange 0 width).foldl
    (fun d (x : Int) => write_complex d (roi.xbegin + x) y z (out x)) dst
  if unitary then
    (irange 0 width).foldl
      (fun d (x : Int) => write_complex d (roi.xbegin + x) y z
        (cpx_scale (read_complex d (roi.xbegin + x) y z) rescale)) d1
  else d1

/-- The serial case of `hfft_` (lines 1276-1291). -/
def hfft_serial {R : Type} [Field R] (m : FFTMath R) (dst src : FloatBuf R)
    (inverse unitary : Bool) (roi : ROI) : FloatBuf R :=
  (irange roi.zbegin roi.zend).foldl
    (fun d (z : Int) =>
      (irange roi.ybegin roi.yend).foldl
        (fun d (y : Int) => hfft_row m d src inverse unitary roi y z) d)
    dst

/-- The serial case of `hfft_` as a call on a roi: `none` when a row of the
roi is not inside the pixel windows of both buffers (the pointers then do
not address pixels of the buffers). -/
def hfft_tile {R : Type} [Field R] (m : FFTMath R) (dst src : FloatBuf R)
    (inverse unitary : Bool) (roi : ROI) : Option (FloatBuf R) :=
  if rows_inside roi dst.spec && rows_inside roi src.spec then
    some (hfft_serial m dst src inverse unitary roi)
  else none

/-- The function `hfft_` (lines 1257-1292): `none` when the `ASSERT` of lines
1261-1263 fails or as in `hfft_tile`; in the parallel case the tiles of
`parallel_image` are run one after the other, each with `nthreads = 1`. -/
def hfft_ {R : Type} [Field R] (m : FFTMath R) (split : ROI → Int → List ROI)
    (dst src : FloatBuf R) (inverse unitary : Bool) (roi : ROI) (nthreads : Int) :
    Option (FloatBuf R × Bool) :=
  if ¬ (dst.spec.format = TypeDesc.FLOAT ∧ src.spec.format = TypeDesc.FLOAT ∧
      dst.spec.nchannels = 2 ∧ src.spec.nchannels = 2) then none
  else if nthreads ≠ 1 ∧ roi.npixels ≥ 1000 then
    ((split roi nthreads).foldl
      (fun (d : Option (FloatBuf R)) t =>
        match d with
        | none => none
        | some d => hfft_tile m d src inverse unitary t) (some dst)).map (fun d => (d, true))
  else
    (hfft_tile m dst src inverse unitary roi).map (fun d => (d, true))

/-- The spec that `fft` and `ifft` build for the result (lines 1308-1321 and
1381-1394): the size of the roi, at the origin, two float channels. -/
def fft_spec (srcspec : ImageSpec) (roi : ROI) : ImageSpec :=
  { srcspec with
    width := roi.width, full_width := roi.width,
    height := roi.height, full_height := roi.height,
    depth := 1, full_depth := 1,
    x := 0, full_x := 0, y := 0, full_y := 0, z := 0, full_z := 0,
    format := TypeDesc.FLOAT, nchannels := 2, channelnames := ["real", "imag"] }

/-- The roi of `fft` (lines 1304-1306): the union of the pixel and the display
window of the source for an undefined roi, reduced to one channel. -/
def fft_roi (srcspec : ImageSpec) (roi : ROI) : ROI :=
  let r := if ! roi.defined then roi_union (get_roi srcspec) (get_roi_full srcspec) else roi
  { r with chend := r.chbegin + 1 }

/-- The roi of `ifft` (lines 1376-1379): as for `fft`, with the two channels
`[0, 2)`. -/
def ifft_roi (srcspec : ImageSpec) (roi : ROI) : ROI :=
  let r := if ! roi.defined then roi_union (get_roi srcspec) (get_roi_full srcspec) else roi
  { r with chbegin := 0, chend := 2 }

/-- The spec of the transposed intermediate of `fft` (lines 1324-1326):
`std::swap` of the widths and the heights. -/
def swap_width_height (spec : ImageSpec) : ImageSpec :=
  { spec with width := spec.height, height := spec.width,
              full_width := spec.full_height, full_height := spec.full_width }

/-- The spec of the result of `ifft` (lines 1409-1411): one channel `R`. -/
def ifft_result_spec (spec : ImageSpec) : ImageSpec :=
  { spec with nchannels := 1, channelnames := ["R"] }

/-- The roi with its channel range cut to the first channel
(`Broi.chend = 1`, line 1414). -/
def first_channel (roi : ROI) : ROI := { roi with chend := 1 }

/-- The function `ImageBufAlgo::fft` (lines 1296-1360); `none` as in
`hfft_`. -/
def fft {R : Type} [Field R] (m : FFTMath R) (split : ROI → Int → List ROI)
    (dst src : FloatBuf R) (roi : ROI) (nthreads : Int) : Option (FloatBuf R × Bool) :=
  if src.spec.depth > 1 then
    some (dst.error "ImageBufAlgo::fft does not support volume images", false)
  else
    let roi := fft_roi src.spec roi
    let spec := fft_spec src.spec roi
    let specT := swap_width_height spec
    let dst1 : FloatBuf R := FloatBuf.create spec
    let pa := FloatBuf.paste (FloatBuf.create spec) 0 0 0 0 src roi nthreads
    if ! pa.2 then some (dst1.error pa.1.err, false)
    else
      match hfft_ m split (FloatBuf.create spec) pa.1 false true (get_roi spec) nthreads with
      | none => none
      | some B1 =>
        let A := (FloatBuf.transpose FloatBuf.uninit B1.1 ROI.All nthreads).1
        match hfft_ m split (FloatBuf.create specT) A false true (get_roi A.spec) nthreads with
        | none => none
        | some B2 => some ((FloatBuf.transpose dst1 B2.1 ROI.All nthreads).1, true)

/-- The function `ImageBufAlgo::ifft` (lines 1364-1418); `none` as in
`hfft_`. -/
def ifft {R : Type} [Field R] (m : FFTMath R) (split : ROI → Int → List ROI)
    (dst src : FloatBuf R) (roi : ROI) (nthreads : Int) : Option (FloatBuf R × Bool) :=
  if src.spec.nchannels ≠ 2 ∨ src.spec.format ≠ TypeDesc.FLOAT then
    some (dst.error "ifft can only be done on 2-channel float images", false)
  else if src.spec.depth > 1 then
    some (dst.error "ImageBufAlgo::ifft does not support volume images", false)
  else
    let roi := ifft_roi src.spec roi
    let spec := fft_spec src.spec roi
    match hfft_ m split (FloatBuf.create spec) src true true (get_roi spec) nthreads with
    | none => none
    | some B1 =>
      let A := (FloatBuf.transpose FloatBuf.uninit B1.1 ROI.All nthreads).1
      match hfft_ m split (FloatBuf.create A.spec) A true true (get_roi A.spec) nthreads with
      | none => none
      | some B2 =>
        let spec1 := ifft_result_spec spec
        let Broi := first_channel (get_roi B2.1.spec)
        some ((FloatBuf.transpose (FloatBuf.create spec1) B2.1 Broi nthreads).1, true)

/-- The tiles are bands of rows of the roi: each tile spans the x range of
the roi and lies inside its y and z ranges, and every row of the roi is in
a tile. -/
def IsRowBanding (tiles : List ROI) (r : ROI) : Prop :=
  (∀ t ∈ tiles, t.xbegin = r.xbegin ∧ t.xend = r.xend ∧
    r.ybegin ≤ t.ybegin ∧ t.yend ≤ r.yend ∧ r.zbegin ≤ t.zbegin ∧ t.zend ≤ r.zend) ∧
  ∀ y z : Int, (r.ybegin ≤ y ∧ y < r.yend) ∧ (r.zbegin ≤ z ∧ z < r.zend) →
    ∃ t ∈ tiles, (t.ybegin ≤ y ∧ y < t.yend) ∧ (t.zbegin ≤ z ∧ z < t.zend)

/-- The channel `c` (0 or 1) of a pixel that holds the complex number `v`. -/
def cpx_channel {R : Type} (v : R × R) (c : Int) : R := if c = 0 then v.1 else v.2

/-- The complex number that `hfft_` with `unitary` set leaves at the pixel
`(x, y, z)` of the roi: the entry `x - roi.xbegin` of the transform of the
row of `src`, times `rescale`. -/
def hfft_value {R : Type} [Field R] (m : FFTMath R) (src : FloatBuf R) (inverse : Bool)
    (roi : ROI) (x y z : Int) : R × R :=
  cpx_scale
    (kissfft_transform m roi.width inverse (fun n => read_complex src (roi.xbegin + n) y z)
      (x - roi.xbegin))
    (m.sqrtf (1 / (roi.width : R)))

/-- The one-dimensional transform of `hfft_` with `unitary` set: the
transform of `kissfft` times `rescale = sqrtf (1 / nfft)`. -/
def unitary_dft {R : Type} [Field R] (m : FFTMath R) (nfft : Int) (inverse : Bool)
    (s : Int → R × R) (k : Int) : R × R :=
  cpx_scale (kissfft_transform m nfft inverse s k) (m.sqrtf (1 / (nfft : R)))

/-- The pixel window of the spec is `[0, w) × [0, h) × [0, 1)`. -/
def origin_window (s : ImageSpec) (w h : Int) : Prop :=
  s.x = 0 ∧ s.y = 0 ∧ s.z = 0 ∧ s.width = w ∧ s.height = h ∧ s.depth = 1

/-- The display window of the spec is `[0, w) × [0, h) × [0, 1)`. -/
def origin_display (s : ImageSpec) (w h : Int) : Prop :=
  s.full_x = 0 ∧ s.full_y = 0 ∧ s.full_z = 0 ∧ s.full_width = w ∧ s.full_height = h ∧
  s.full_depth = 1

/-- The complex number that a pair `(real, imag)` of reals stands for. -/
def cpx_to_complex (p : ℝ × ℝ) : ℂ := ⟨p.1, p.2⟩

/-- The 2 × 2 one-channel float image `[[1, 2], [3, 4]]` (rows from top to
bottom), with pixel and display window `[0, 2) × [0, 2) × [0, 1)`. -/
def image2x2 (R : Type) [Field R] : FloatBuf R :=
  { storage := IBStorage.LOCALBUFFER, spec := plain_spec 0 0 2 2 1,
    pixels := fun x y z c =>
      if z = 0 ∧ c = 0 then
        (if x = 0 ∧ y = 0 then 1 else if x = 1 ∧ y = 0 then 2
         else if x = 0 ∧ y = 1 then 3 else if x = 1 ∧ y = 1 then 4 else 0)
      else 0,
    err := "" }

/-! ## The type `float` in `complex_to_polar` -/

/-- Rounding of a rational number to the nearest integer, a tie going to the
even one. -/
def round_half_even (q : ℚ) : Int :=
  let f := ⌊q⌋
  let r := q - f
  if r < 1 / 2 then f
  else if 1 / 2 < r then f + 1
  else if f % 2 = 0 then f else f + 1

/-- The value of the C type `float` (IEEE 754 binary32) nearest to the
rational `q`, a tie going to the even significand: 24 significant bits, so a
unit in the last place of `q` is `2 ^ (⌊log₂ |q|⌋ - 23)`. The exponent is not
bounded: overflow and subnormal numbers are outside the model. -/
def round_binary32 (q : ℚ) : ℚ :=
  if q = 0 then 0
  else
    let ulp : ℚ := 2 ^ (Int.log 2 |q| - 23)
    round_half_even (q / ulp) * ulp

/-- A finite value of the C type `float`, given by the rational number it
stands for. -/
structure Binary32 where
  val : ℚ
  deriving DecidableEq

/-- The operator `+` of the type `float`: the sum, rounded. -/
instance : Add Binary32 := ⟨fun a b => ⟨round_binary32 (a.val + b.val)⟩⟩

instance : Zero Binary32 := ⟨⟨0⟩⟩

instance : LT Binary32 := ⟨fun a b => a.val < b.val⟩

instance : DecidableRel (fun (a b : Binary32) => a < b) :=
  fun a b => inferInstanceAs (Decidable (a.val < b.val))

/-- Modelled from the spec: the constant `M_TWO_PI` (a macro of `fmath.h`),
the `double` nearest to `2π`: `0x1.921fb54442d18p+2`. -/
def M_TWO_PI : ℚ := 7074237752028440 / 2 ^ 50

/-- The expression `float (M_TWO_PI)` of line 1468. -/
def float_two_pi : Binary32 := ⟨round_binary32 M_TWO_PI⟩

/-- A math library on `float` values in the small-angle regime, where the
correctly rounded results are `sinf (x) = x`, `cosf (x) = 1`,
`atan2f (y, 1) = y` and `hypotf (1, y) = 1` (for `|x|, |y| < 2⁻¹²` the next
term of each series is below half a unit in the last place). -/
def small_angle_math : FloatMath Binary32 :=
  { sin := fun x => x, cos := fun _ => ⟨1⟩, atan2 := fun y _ => y,
    hypot := fun x _ => x, two_pi := float_two_pi }

/-! ## Properties of `IBAprep` -/

theorem prep_checks_spec (roi : ROI) (dst : ImageBuf) (A B : Option ImageBuf)
    (prepflags : PrepFlags) : (prep_checks roi dst A B prepflags).dst.spec = dst.spec := by
  unfold prep_checks
  split_ifs <;> rfl

theorem prep_checks_pixels (roi : ROI) (dst : ImageBuf) (A B : Option ImageBuf)
    (prepflags : PrepFlags) :
    (prep_checks roi dst A B prepflags).dst.pixels = dst.pixels := by
  unfold prep_checks
  split_ifs <;> rfl

theorem prep_checks_storage (roi : ROI) (dst : ImageBuf) (A B : Option ImageBuf)
    (prepflags : PrepFlags) :
    (prep_checks roi dst A B prepflags).dst.storage = dst.storage := by
  unfold prep_checks
  split_ifs <;> rfl

theorem prep_checks_roi (roi : ROI) (dst : ImageBuf) (A B : Option ImageBuf)
    (prepflags : PrepFlags) : (prep_checks roi dst A B prepflags).roi = roi := by
  unfold prep_checks
  split_ifs <;> rfl

theorem prep_checks_ok_dst (roi : ROI) (dst : ImageBuf) (A B : Option ImageBuf)
    (prepflags : PrepFlags) (h : (prep_checks roi dst A B prepflags).ok = true) :
    (prep_checks roi dst A B prepflags).dst = dst := by
  unfold prep_checks at h ⊢
  split_ifs at h ⊢
  rfl

theorem prep_checks_err (roi : ROI) (dst : ImageBuf) (A B : Option ImageBuf)
    (prepflags : PrepFlags) (h : (prep_checks roi dst A B prepflags).ok = false) :
    (prep_checks roi dst A B prepflags).dst.err ≠ "" := by
  unfold prep_checks at h ⊢
  split_ifs at h ⊢ <;> first | (simp at h; done) | (simp only [ImageBuf.error]; decide)

theorem prep_checks_ok_false_iff (roi : ROI) (dst : ImageBuf) (A B : Option ImageBuf)
    (prepflags : PrepFlags) :
    (prep_checks roi dst A B prepflags).ok = false ↔
      ((prepflags.REQUIRE_ALPHA = true ∧
          (dst.spec.alpha_channel < 0 ∨
           srcAnd A (fun a => decide (a.spec.alpha_channel < 0)) = true ∨
           srcAnd B (fun b => decide (b.spec.alpha_channel < 0)) = true)) ∨
       (prepflags.REQUIRE_Z = true ∧
          (dst.spec.z_channel < 0 ∨
           srcAnd A (fun a => decide (a.spec.z_channel < 0)) = true ∨
           srcAnd B (fun b => decide (b.spec.z_channel < 0)) = true)) ∨
       (prepflags.REQUIRE_SAME_NCHANNELS = true ∧
          (srcAnd A (fun a => decide (a.spec.nchannels ≠ dst.spec.nchannels)) = true ∨
           srcAnd B (fun b => decide (b.spec.nchannels ≠ dst.spec.nchannels)) = true)) ∨
       (prepflags.NO_SUPPORT_VOLUME = true ∧
          (dst.spec.depth > 1 ∨
           srcAnd A (fun a => decide (a.spec.depth > 1)) = true ∨
           srcAnd B (fun b => decide (b.spec.depth > 1)) = true))) := by
  unfold prep_checks
  rcases prepflags with ⟨fa, fz, fn, fv, _, _, _⟩
  cases fa <;> cases fz <;> cases fn <;> cases fv <;>
    simp only [Bool.false_and, Bool.true_and, Bool.false_eq_true, false_and, true_and,
      false_or, or_false, if_false] <;>
    (try split_ifs) <;> (try simp_all) <;> (try tauto)

/-- The failure condition of the post-checks, read on the destination that
`prep_checks` returns. -/
theorem prep_checks_false_iff_out (roi : ROI) (dst : ImageBuf) (A B : Option ImageBuf)
    (prepflags : PrepFlags) :
    (prep_checks roi dst A B prepflags).ok = false ↔
      ((prepflags.REQUIRE_ALPHA = true ∧
          ((prep_checks roi dst A B prepflags).dst.spec.alpha_channel < 0 ∨
           srcAnd A (fun a => decide (a.spec.alpha_channel < 0)) = true ∨
           srcAnd B (fun b => decide (b.spec.alpha_channel < 0)) = true)) ∨
       (prepflags.REQUIRE_Z = true ∧
          ((prep_checks roi dst A B prepflags).dst.spec.z_channel < 0 ∨
           srcAnd A (fun a => decide (a.spec.z_channel < 0)) = true ∨
           srcAnd B (fun b => decide (b.spec.z_channel < 0)) = true)) ∨
       (prepflags.REQUIRE_SAME_NCHANNELS = true ∧
          (srcAnd A (fun a => decide (a.spec.nchannels ≠
              (prep_checks roi dst A B prepflags).dst.spec.nchannels)) = true ∨
           srcAnd B (fun b => decide (b.spec.nchannels ≠
              (prep_checks roi dst A B prepflags).dst.spec.nchannels)) = true)) ∨
       (prepflags.NO_SUPPORT_VOLUME = true ∧
          ((prep_checks roi dst A B prepflags).dst.spec.depth > 1 ∨
           srcAnd A (fun a => decide (a.spec.depth > 1)) = true ∨
           srcAnd B (fun b => decide (b.spec.depth > 1)) = true))) := by
  rw [prep_checks_spec]
  exact prep_checks_ok_false_iff roi dst A B prepflags

/-- C1: for a call of `IBAprep` with a non-null `dst` and (`A` present or
`roi` defined), the call returns (it does not abort), it returns `false`
exactly when a supplied source is uninitialized or a requested post-check
fails on the resulting `dst` and the sources, the error message of `dst` is
set whenever it returns `false`, and it is "Uninitialized input image" when a
supplied source is uninitialized. -/
theorem IBAprep_returns_false_iff (default_channel_names : ImageSpec → ImageSpec)
    (roi : ROI) (dst : ImageBuf) (A B : Option ImageBuf)
    (force_spec : Option ImageSpec) (prepflags : PrepFlags)
    (hpre : A.isSome = true ∨ roi.defined = true) :
    ∃ out, IBAprep default_channel_names roi dst A B force_spec prepflags = some out ∧
      (out.ok = false ↔
        ((srcAnd A (fun a => ! a.initialized) = true ∨
          srcAnd B (fun b => ! b.initialized) = true) ∨
         (prepflags.REQUIRE_ALPHA = true ∧
            (out.dst.spec.alpha_channel < 0 ∨
             srcAnd A (fun a => decide (a.spec.alpha_channel < 0)) = true ∨
             srcAnd B (fun b => decide (b.spec.alpha_channel < 0)) = true)) ∨
         (prepflags.REQUIRE_Z = true ∧
            (out.dst.spec.z_channel < 0 ∨
             srcAnd A (fun a => decide (a.spec.z_channel < 0)) = true ∨
             srcAnd B (fun b => decide (b.spec.z_channel < 0)) = true)) ∨
         (prepflags.REQUIRE_SAME_NCHANNELS = true ∧
            (srcAnd A (fun a => decide (a.spec.nchannels ≠ out.dst.spec.nchannels)) = true ∨
             srcAnd B (fun b => decide (b.spec.nchannels ≠ out.dst.spec.nchannels)) = true)) ∨
         (prepflags.NO_SUPPORT_VOLUME = true ∧
            (out.dst.spec.depth > 1 ∨
             srcAnd A (fun a => decide (a.spec.depth > 1)) = true ∨
             srcAnd B (fun b => decide (b.spec.depth > 1)) = true)))) ∧
      (out.ok = false → out.dst.err ≠ "") ∧
      ((srcAnd A (fun a => ! a.initialized) = true ∨
        srcAnd B (fun b => ! b.initialized) = true) →
          out.ok = false ∧ out.dst.err = "Uninitialized input image") := by
  by_cases hu : (srcAnd A (fun a => ! a.initialized) ||
      srcAnd B (fun b => ! b.initialized)) = true
  · have hu2 : srcAnd A (fun a => ! a.initialized) = true ∨
        srcAnd B (fun b => ! b.initialized) = true := by
      simpa [Bool.or_eq_true] using hu
    refine ⟨{ ok := false, roi := roi, dst := dst.error "Uninitialized input image" },
      ?_, ?_, ?_, ?_⟩
    · unfold IBAprep
      rw [if_pos hu]
    · exact ⟨fun _ => Or.inl hu2, fun _ => rfl⟩
    · intro _
      simp only [ImageBuf.error]
      decide
    · intro _
      exact ⟨rfl, rfl⟩
  · have hu2 : ¬ (srcAnd A (fun a => ! a.initialized) = true ∨
        srcAnd B (fun b => ! b.initialized) = true) := by
      simpa [Bool.or_eq_true] using hu
    have key : ∀ (r : ROI) (d : ImageBuf),
        IBAprep default_channel_names roi dst A B force_spec prepflags =
          some (prep_checks r d A B prepflags) →
        ∃ out, IBAprep default_channel_names roi dst A B force_spec prepflags = some out ∧
          (out.ok = false ↔
            ((srcAnd A (fun a => ! a.initialized) = true ∨
              srcAnd B (fun b => ! b.initialized) = true) ∨
             (prepflags.REQUIRE_ALPHA = true ∧
                (out.dst.spec.alpha_channel < 0 ∨
                 srcAnd A (fun a => decide (a.spec.alpha_channel < 0)) = true ∨
                 srcAnd B (fun b => decide (b.spec.alpha_channel < 0)) = true)) ∨
             (prepflags.REQUIRE_Z = true ∧
                (out.dst.spec.z_channel < 0 ∨
                 srcAnd A (fun a => decide (a.spec.z_channel < 0)) = true ∨
                 srcAnd B (fun b => decide (b.spec.z_channel < 0)) = true)) ∨
             (prepflags.REQUIRE_SAME_NCHANNELS = true ∧
                (srcAnd A (fun a => decide (a.spec.nchannels ≠ out.dst.spec.nchannels)) = true ∨
                 srcAnd B (fun b => decide (b.spec.nchannels ≠ out.dst.spec.nchannels)) = true)) ∨
             (prepflags.NO_SUPPORT_VOLUME = true ∧
                (out.dst.spec.depth > 1 ∨
                 srcAnd A (fun a => decide (a.spec.depth > 1)) = true ∨
                 srcAnd B (fun b => decide (b.spec.depth > 1)) = true)))) ∧
          (out.ok = false → out.dst.err ≠ "") ∧
          ((srcAnd A (fun a => ! a.initialized) = true ∨
            srcAnd B (fun b => ! b.initialized) = true) →
              out.ok = false ∧ out.dst.err = "Uninitialized input image") := by
      intro r d hrd
      refine ⟨_, hrd, ?_, prep_checks_err r d A B prepflags, fun h => absurd h hu2⟩
      rw [prep_checks_false_iff_out]
      constructor
      · intro h
        exact Or.inr h
      · intro h
        rcases h with h | h
        · exact absurd h hu2
        · exact h
    by_cases hinit : dst.initialized = true
    · apply key (if roi.defined then roi_intersection roi (get_roi dst.spec)
          else get_roi dst.spec)
        (if dst.storage = IBStorage.IMAGECACHE then dst.read else dst)
      unfold IBAprep
      rw [if_neg hu, if_pos hinit]
    · have hg : ¬ ((! (A.isSome || roi.defined)) = true) := by
        rcases hpre with h | h <;> simp [h]
      cases hr : prep_rois roi A B prepflags with
      | none =>
        exfalso
        unfold prep_rois at hr
        cases A with
        | none =>
          have hd : roi.defined = true := by simpa using hpre
          simp [hd] at hr
        | some a =>
          cases B <;> split_ifs at hr
      | some p =>
        obtain ⟨roi1, full_roi⟩ := p
        apply key roi1
        unfold IBAprep
        rw [if_neg hu, if_neg hinit, if_neg hg, hr]

/-- An instance of `IBAprep_returns_false_iff`: an uninitialized destination,
an RGB source without alpha and the flag `REQUIRE_ALPHA`. -/
theorem IBAprep_returns_false_iff_witness :
    ((some rgb4x4).isSome = true ∨ ROI.All.defined = true) ∧
    (∃ out, IBAprep id ROI.All ImageBuf.uninit (some rgb4x4) none none flags_require_alpha = some out ∧
      (out.ok = false ↔
        ((srcAnd (some rgb4x4) (fun a => ! a.initialized) = true ∨
          srcAnd none (fun b => ! b.initialized) = true) ∨
         (flags_require_alpha.REQUIRE_ALPHA = true ∧
            (out.dst.spec.alpha_channel < 0 ∨
             srcAnd (some rgb4x4) (fun a => decide (a.spec.alpha_channel < 0)) = true ∨
             srcAnd none (fun b => decide (b.spec.alpha_channel < 0)) = true)) ∨
         (flags_require_alpha.REQUIRE_Z = true ∧
            (out.dst.spec.z_channel < 0 ∨
             srcAnd (some rgb4x4) (fun a => decide (a.spec.z_channel < 0)) = true ∨
             srcAnd none (fun b => decide (b.spec.z_channel < 0)) = true)) ∨
         (flags_require_alpha.REQUIRE_SAME_NCHANNELS = true ∧
            (srcAnd (some rgb4x4) (fun a => decide (a.spec.nchannels ≠ out.dst.spec.nchannels)) = true ∨
             srcAnd none (fun b => decide (b.spec.nchannels ≠ out.dst.spec.nchannels)) = true)) ∨
         (flags_require_alpha.NO_SUPPORT_VOLUME = true ∧
            (out.dst.spec.depth > 1 ∨
             srcAnd (some rgb4x4) (fun a => decide (a.spec.depth > 1)) = true ∨
             srcAnd none (fun b => decide (b.spec.depth > 1)) = true)))) ∧
      (out.ok = false → out.dst.err ≠ "") ∧
      ((srcAnd (some rgb4x4) (fun a => ! a.initialized) = true ∨
        srcAnd none (fun b => ! b.initialized) = true) →
          out.ok = false ∧ out.dst.err = "Uninitialized input image")) :=
  ⟨Or.inl rfl,
    IBAprep_returns_false_iff id ROI.All ImageBuf.uninit (some rgb4x4) none none
      flags_require_alpha (Or.inl rfl)⟩

theorem prep_metadata_geometry (spec : ImageSpec) (prepflags : PrepFlags) :
    prep_metadata spec prepflags =
      { spec with extra_attribs := (prep_metadata spec prepflags).extra_attribs } := by
  unfold prep_metadata
  dsimp only
  split_ifs <;> rfl

/-- The run of `IBAprep` on an uninitialized destination whose sources pass
the input validation. -/
theorem IBAprep_uninit_eq (default_channel_names : ImageSpec → ImageSpec)
    (roi : ROI) (dst : ImageBuf) (A B : Option ImageBuf)
    (force_spec : Option ImageSpec) (prepflags : PrepFlags)
    (hd : dst.initialized = false)
    (hA : srcAnd A (fun a => ! a.initialized) = false)
    (hB : srcAnd B (fun b => ! b.initialized) = false)
    (hpre : A.isSome = true ∨ roi.defined = true)
    (roi1 full_roi : ROI) (hr : prep_rois roi A B prepflags = some (roi1, full_roi)) :
    IBAprep default_channel_names roi dst A B force_spec prepflags =
      some (prep_checks roi1
        (dst.alloc (prep_alloc_spec default_channel_names roi1 full_roi A B force_spec
          prepflags)) A B prepflags) := by
  have hg : ¬ ((! (A.isSome || roi.defined)) = true) := by
    rcases hpre with h | h <;> simp [h]
  unfold IBAprep
  rw [if_neg (by simp [hA, hB]), if_neg (by simp [hd]), if_neg hg, hr]
  rfl

theorem prep_alloc_spec_pixel_window (default_channel_names : ImageSpec → ImageSpec)
    (roi1 full_roi : ROI) (A B : Option ImageBuf) (force_spec : Option ImageSpec)
    (prepflags : PrepFlags) :
    pixel_window_is
      (prep_alloc_spec default_channel_names roi1 full_roi A B force_spec prepflags)
      roi1 := by
  unfold prep_alloc_spec
  rw [prep_metadata_geometry]
  unfold pixel_window_is
  split_ifs <;> simp [set_roi, set_roi_full, ROI.width, ROI.height, ROI.depth]

theorem prep_alloc_spec_display_window (default_channel_names : ImageSpec → ImageSpec)
    (roi1 full_roi : ROI) (A B : Option ImageBuf) (force_spec : Option ImageSpec)
    (prepflags : PrepFlags) :
    display_window_is
      (prep_alloc_spec default_channel_names roi1 full_roi A B force_spec prepflags)
      (if full_roi.defined then full_roi else roi1) := by
  unfold prep_alloc_spec
  rw [prep_metadata_geometry]
  unfold display_window_is
  split_ifs <;> simp [set_roi, set_roi_full, ROI.width, ROI.height, ROI.depth]

theorem roi_union_defined (r1 r2 : ROI) (h1 : r1.defined = true) (h2 : r2.defined = true) :
    (roi_union r1 r2).defined = true := by
  unfold roi_union
  rw [if_pos (by simp [h1, h2])]
  rfl

theorem get_roi_defined (spec : ImageSpec) : (get_roi spec).defined = true := rfl

theorem get_roi_full_defined (spec : ImageSpec) : (get_roi_full spec).defined = true := rfl

/-- C2: for an initialized destination that is not cache-backed, `IBAprep`
returns and leaves the spec and the pixels of `dst` as they were; when the
supplied sources pass the input validation, the roi after the call is
`roi_intersection (roi, pixel window of dst)` if the input roi was defined
and the pixel window of `dst`, with its channel range, if it was not. -/
theorem IBAprep_initialized_dst_roi (default_channel_names : ImageSpec → ImageSpec)
    (roi : ROI) (dst : ImageBuf) (A B : Option ImageBuf)
    (force_spec : Option ImageSpec) (prepflags : PrepFlags)
    (hinit : dst.initialized = true) (hnc : dst.storage ≠ IBStorage.IMAGECACHE) :
    ∃ out, IBAprep default_channel_names roi dst A B force_spec prepflags = some out ∧
      out.dst.spec = dst.spec ∧ out.dst.pixels = dst.pixels ∧
      (srcAnd A (fun a => ! a.initialized) = false →
       srcAnd B (fun b => ! b.initialized) = false →
        (roi.defined = true → out.roi = roi_intersection roi (get_roi dst.spec)) ∧
        (roi.defined = false → out.roi = get_roi dst.spec)) := by
  by_cases hu : (srcAnd A (fun a => ! a.initialized) ||
      srcAnd B (fun b => ! b.initialized)) = true
  · refine ⟨{ ok := false, roi := roi, dst := dst.error "Uninitialized input image" },
      ?_, rfl, rfl, ?_⟩
    · unfold IBAprep
      rw [if_pos hu]
    · intro hA hB
      simp [hA, hB] at hu
  · refine ⟨prep_checks (if roi.defined then roi_intersection roi (get_roi dst.spec)
        else get_roi dst.spec) dst A B prepflags, ?_, ?_, ?_, ?_⟩
    · unfold IBAprep
      rw [if_neg hu, if_pos hinit, if_neg hnc]
    · exact prep_checks_spec _ _ _ _ _
    · exact prep_checks_pixels _ _ _ _ _
    · intro _ _
      rw [prep_checks_roi]
      constructor
      · intro h
        rw [if_pos h]
      · intro h
        rw [if_neg (by simp [h])]

/-- An instance of `IBAprep_initialized_dst_roi`: the 4 × 4 RGBA image as
destination and a defined roi that sticks out of it. -/
theorem IBAprep_initialized_dst_roi_witness :
    rgba4x4.initialized = true ∧ rgba4x4.storage ≠ IBStorage.IMAGECACHE ∧
    ∃ out, IBAprep id roi_2_9 rgba4x4 none none none {} = some out ∧
      out.dst.spec = rgba4x4.spec ∧ out.dst.pixels = rgba4x4.pixels ∧
      (srcAnd none (fun a => ! a.initialized) = false →
       srcAnd none (fun b => ! b.initialized) = false →
        (roi_2_9.defined = true →
          out.roi = roi_intersection roi_2_9 (get_roi rgba4x4.spec)) ∧
        (roi_2_9.defined = false → out.roi = get_roi rgba4x4.spec)) :=
  ⟨rfl, by decide,
    IBAprep_initialized_dst_roi id roi_2_9 rgba4x4 none none none {} rfl (by decide)⟩

theorem initialized_of_alloc (roi : ROI) (dst : ImageBuf) (spec : ImageSpec)
    (A B : Option ImageBuf) (prepflags : PrepFlags) :
    (prep_checks roi (dst.alloc spec) A B prepflags).dst.initialized = true := by
  unfold ImageBuf.initialized
  rw [prep_checks_storage]
  rfl

/-- C3: for an uninitialized destination, an undefined roi, an initialized
source `A` and an optional initialized `B`, `IBAprep` returns; the roi after
the call is the bounding-box union of the pixel windows of the sources (that
of `A` alone without `B`), `dst` is allocated with that roi as pixel window,
and its display window is the bounding-box union of the display windows of
the sources. -/
theorem IBAprep_uninitialized_dst_undefined_roi
    (default_channel_names : ImageSpec → ImageSpec)
    (roi : ROI) (dst : ImageBuf) (a : ImageBuf) (B : Option ImageBuf)
    (force_spec : Option ImageSpec) (prepflags : PrepFlags)
    (hd : dst.initialized = false) (hr : roi.defined = false)
    (ha : a.initialized = true)
    (hB : srcAnd B (fun b => ! b.initialized) = false) :
    ∃ out, IBAprep default_channel_names roi dst (some a) B force_spec prepflags = some out ∧
      out.roi = (match B with
        | some b => roi_union (get_roi a.spec) (get_roi b.spec)
        | none => get_roi a.spec) ∧
      out.dst.initialized = true ∧
      pixel_window_is out.dst.spec out.roi ∧
      display_window_is out.dst.spec (match B with
        | some b => roi_union (get_roi_full a.spec) (get_roi_full b.spec)
        | none => get_roi_full a.spec) := by
  have hA : srcAnd (some a) (fun a => ! a.initialized) = false := by
    simp [srcAnd, ha]
  cases B with
  | none =>
    have hp : prep_rois roi (some a) none prepflags =
        some (get_roi a.spec, get_roi_full a.spec) := by
      simp [prep_rois, hr]
    refine ⟨_, IBAprep_uninit_eq default_channel_names roi dst (some a) none force_spec
      prepflags hd hA hB (Or.inl rfl) _ _ hp, ?_, ?_, ?_, ?_⟩
    · rw [prep_checks_roi]
    · exact initialized_of_alloc _ _ _ _ _ _
    · rw [prep_checks_spec, prep_checks_roi]
      exact prep_alloc_spec_pixel_window _ _ _ _ _ _ _
    · rw [prep_checks_spec]
      have h := prep_alloc_spec_display_window default_channel_names (get_roi a.spec)
        (get_roi_full a.spec) (some a) none force_spec prepflags
      rw [if_pos (get_roi_full_defined a.spec)] at h
      exact h
  | some b =>
    have hp : prep_rois roi (some a) (some b) prepflags =
        some (roi_union (get_roi a.spec) (get_roi b.spec),
          roi_union (get_roi_full a.spec) (get_roi_full b.spec)) := by
      simp [prep_rois, hr]
    refine ⟨_, IBAprep_uninit_eq default_channel_names roi dst (some a) (some b) force_spec
      prepflags hd hA hB (Or.inl rfl) _ _ hp, ?_, ?_, ?_, ?_⟩
    · rw [prep_checks_roi]
    · exact initialized_of_alloc _ _ _ _ _ _
    · rw [prep_checks_spec, prep_checks_roi]
      exact prep_alloc_spec_pixel_window _ _ _ _ _ _ _
    · rw [prep_checks_spec]
      have h := prep_alloc_spec_display_window default_channel_names
        (roi_union (get_roi a.spec) (get_roi b.spec))
        (roi_union (get_roi_full a.spec) (get_roi_full b.spec)) (some a) (some b)
        force_spec prepflags
      rw [if_pos (roi_union_defined _ _ (get_roi_full_defined a.spec)
        (get_roi_full_defined b.spec))] at h
      exact h

/-- An instance of `IBAprep_uninitialized_dst_undefined_roi`: two sources
with different pixel and display windows. -/
theorem IBAprep_uninitialized_dst_undefined_roi_witness :
    ImageBuf.uninit.initialized = false ∧ ROI.All.defined = false ∧
    rgb_offset.initialized = true ∧
    srcAnd (some rgba4x4) (fun b => ! b.initialized) = false ∧
    ∃ out, IBAprep id ROI.All ImageBuf.uninit (some rgb_offset) (some rgba4x4) none {} =
        some out ∧
      out.roi = (match some rgba4x4 with
        | some b => roi_union (get_roi rgb_offset.spec) (get_roi b.spec)
        | none => get_roi rgb_offset.spec) ∧
      out.dst.initialized = true ∧
      pixel_window_is out.dst.spec out.roi ∧
      display_window_is out.dst.spec (match some rgba4x4 with
        | some b => roi_union (get_roi_full rgb_offset.spec) (get_roi_full b.spec)
        | none => get_roi_full rgb_offset.spec) :=
  ⟨rfl, rfl, rfl, rfl,
    IBAprep_uninitialized_dst_undefined_roi id ROI.All ImageBuf.uninit rgb_offset
      (some rgba4x4) none {} rfl rfl rfl rfl⟩

/-- C4: for an uninitialized destination, a defined roi and an initialized
source `A` (any other supplied source passing the input validation),
`IBAprep` returns; after the call `roi.chend` is `min (roi.chend, A.nchannels)`
and the other bounds of the roi are those of the input; `dst` is allocated
with the roi as pixel window; its display window is that of `A` when
`NO_COPY_ROI_FULL` is not set and the roi when it is set. -/
theorem IBAprep_uninitialized_dst_defined_roi
    (default_channel_names : ImageSpec → ImageSpec)
    (roi : ROI) (dst : ImageBuf) (a : ImageBuf) (B : Option ImageBuf)
    (force_spec : Option ImageSpec) (prepflags : PrepFlags)
    (hd : dst.initialized = false) (hr : roi.defined = true)
    (ha : a.initialized = true)
    (hB : srcAnd B (fun b => ! b.initialized) = false) :
    ∃ out, IBAprep default_channel_names roi dst (some a) B force_spec prepflags = some out ∧
      out.roi = { roi with chend := min roi.chend a.spec.nchannels } ∧
      out.dst.initialized = true ∧
      pixel_window_is out.dst.spec out.roi ∧
      (prepflags.NO_COPY_ROI_FULL = false →
        out.dst.spec.full_x = a.spec.full_x ∧ out.dst.spec.full_y = a.spec.full_y ∧
        out.dst.spec.full_z = a.spec.full_z ∧
        out.dst.spec.full_width = a.spec.full_width ∧
        out.dst.spec.full_height = a.spec.full_height ∧
        out.dst.spec.full_depth = a.spec.full_depth) ∧
      (prepflags.NO_COPY_ROI_FULL = true → display_window_is out.dst.spec out.roi) := by
  have hA : srcAnd (some a) (fun a => ! a.initialized) = false := by
    simp [srcAnd, ha]
  cases hf : prepflags.NO_COPY_ROI_FULL with
  | false =>
    have hp : prep_rois roi (some a) B prepflags =
        some ({ roi with chend := min roi.chend a.spec.nchannels }, a.roi_full) := by
      simp [prep_rois, hr, hf, ImageBuf.nchannels]
    refine ⟨_, IBAprep_uninit_eq default_channel_names roi dst (some a) B force_spec
      prepflags hd hA hB (Or.inl rfl) _ _ hp, ?_, ?_, ?_, ?_, ?_⟩
    · rw [prep_checks_roi]
    · exact initialized_of_alloc _ _ _ _ _ _
    · rw [prep_checks_spec, prep_checks_roi]
      exact prep_alloc_spec_pixel_window _ _ _ _ _ _ _
    · intro _
      rw [prep_checks_spec]
      have h := prep_alloc_spec_display_window default_channel_names
        { roi with chend := min roi.chend a.spec.nchannels } a.roi_full (some a) B
        force_spec prepflags
      rw [if_pos (show a.roi_full.defined = true from rfl)] at h
      obtain ⟨h1, h2, h3, h4, h5, h6⟩ := h
      simp only [ImageBuf.alloc]
      refine ⟨h1, h2, h3, ?_, ?_, ?_⟩
      · rw [h4]; simp [ImageBuf.roi_full, get_roi_full]
      · rw [h5]; simp [ImageBuf.roi_full, get_roi_full]
      · rw [h6]; simp [ImageBuf.roi_full, get_roi_full]
    · intro h
      simp at h
  | true =>
    have hp : prep_rois roi (some a) B prepflags =
        some ({ roi with chend := min roi.chend a.spec.nchannels }, ROI.All) := by
      simp [prep_rois, hr, hf, ImageBuf.nchannels]
    refine ⟨_, IBAprep_uninit_eq default_channel_names roi dst (some a) B force_spec
      prepflags hd hA hB (Or.inl rfl) _ _ hp, ?_, ?_, ?_, ?_, ?_⟩
    · rw [prep_checks_roi]
    · exact initialized_of_alloc _ _ _ _ _ _
    · rw [prep_checks_spec, prep_checks_roi]
      exact prep_alloc_spec_pixel_window _ _ _ _ _ _ _
    · intro h
      simp at h
    · intro _
      rw [prep_checks_spec, prep_checks_roi]
      have h := prep_alloc_spec_display_window default_channel_names
        { roi with chend := min roi.chend a.spec.nchannels } ROI.All (some a) B
        force_spec prepflags
      rw [if_neg (by decide)] at h
      exact h

/-- An instance of `IBAprep_uninitialized_dst_defined_roi`: a roi with seven
channels and a source with three. -/
theorem IBAprep_uninitialized_dst_defined_roi_witness :
    ImageBuf.uninit.initialized = false ∧ roi_2_9.defined = true ∧
    rgb_offset.initialized = true ∧
    srcAnd none (fun b => ! b.initialized) = false ∧
    ∃ out, IBAprep id roi_2_9 ImageBuf.uninit (some rgb_offset) none none {} = some out ∧
      out.roi = { roi_2_9 with chend := min roi_2_9.chend rgb_offset.spec.nchannels } ∧
      out.dst.initialized = true ∧
      pixel_window_is out.dst.spec out.roi ∧
      (({} : PrepFlags).NO_COPY_ROI_FULL = false →
        out.dst.spec.full_x = rgb_offset.spec.full_x ∧
        out.dst.spec.full_y = rgb_offset.spec.full_y ∧
        out.dst.spec.full_z = rgb_offset.spec.full_z ∧
        out.dst.spec.full_width = rgb_offset.spec.full_width ∧
        out.dst.spec.full_height = rgb_offset.spec.full_height ∧
        out.dst.spec.full_depth = rgb_offset.spec.full_depth) ∧
      (({} : PrepFlags).NO_COPY_ROI_FULL = true → display_window_is out.dst.spec out.roi) :=
  ⟨rfl, rfl, rfl, rfl,
    IBAprep_uninitialized_dst_defined_roi id roi_2_9 ImageBuf.uninit rgb_offset none none {}
      rfl rfl rfl rfl⟩

theorem prep_metadata_no_sha (spec : ImageSpec) (prepflags : PrepFlags)
    (hc : prepflags.COPY_ALL_METADATA = false) :
    (prep_metadata spec prepflags).has_attribute "oiio:SHA-1" = false := by
  unfold prep_metadata
  dsimp only
  split_ifs with h1 h2 h3
  · rfl
  · simp [ImageSpec.has_attribute, ImageSpec.set_attribute, ImageSpec.erase_attribute]
  · simp [ImageSpec.has_attribute, ImageSpec.erase_attribute]
  · simp [hc] at h2

theorem prep_metadata_wipe (spec : ImageSpec) (prepflags : PrepFlags)
    (hn : prepflags.NO_COPY_METADATA = true) :
    (prep_metadata spec prepflags).extra_attribs = [] := by
  unfold prep_metadata
  rw [if_pos hn]

/-- A successful run of `IBAprep` on an uninitialized destination allocates it
with `prep_alloc_spec`. -/
theorem IBAprep_uninit_ok_spec (default_channel_names : ImageSpec → ImageSpec)
    (roi : ROI) (dst : ImageBuf) (A B : Option ImageBuf)
    (force_spec : Option ImageSpec) (prepflags : PrepFlags) (out : PrepOut)
    (hd : dst.initialized = false)
    (h : IBAprep default_channel_names roi dst A B force_spec prepflags = some out)
    (hok : out.ok = true) :
    ∃ roi1 full_roi, out.dst.spec =
      prep_alloc_spec default_channel_names roi1 full_roi A B force_spec prepflags := by
  unfold IBAprep at h
  by_cases h1 : (srcAnd A (fun a => ! a.initialized) ||
      srcAnd B (fun b => ! b.initialized)) = true
  · rw [if_pos h1] at h
    simp only [Option.some.injEq] at h
    rw [← h] at hok
    simp at hok
  · rw [if_neg h1, if_neg (by simp [hd])] at h
    by_cases h3 : (! (A.isSome || roi.defined)) = true
    · rw [if_pos h3] at h
      simp at h
    · rw [if_neg h3] at h
      cases hp : prep_rois roi A B prepflags with
      | none => rw [hp] at h; simp at h
      | some p =>
        obtain ⟨roi1, full_roi⟩ := p
        rw [hp] at h
        simp only [Option.some.injEq] at h
        refine ⟨roi1, full_roi, ?_⟩
        rw [← h, prep_checks_spec]
        rfl

/-- C5 (as stated) fails: `IBAprep` with default flags succeeds on an
initialized destination that carries "oiio:SHA-1" and leaves the attribute in
the spec of `dst`. -/
theorem IBAprep_initialized_dst_keeps_sha :
    rgba_hashed.initialized = true ∧ ({} : PrepFlags).COPY_ALL_METADATA = false ∧
    (IBAprep id ROI.All rgba_hashed none none none {}).map
      (fun out => (out.ok, out.dst.spec.has_attribute "oiio:SHA-1")) = some (true, true) := by
  refine ⟨rfl, rfl, ?_⟩
  decide

/-- C5 (amended): after a successful `IBAprep` call, an uninitialized `dst`
whose flags do not include `COPY_ALL_METADATA` has a spec without an
"oiio:SHA-1" attribute, and with `NO_COPY_METADATA` an empty attribute bag; an
already initialized `dst` keeps the attributes it had. -/
theorem IBAprep_sha_policy (default_channel_names : ImageSpec → ImageSpec)
    (roi : ROI) (dst : ImageBuf) (A B : Option ImageBuf)
    (force_spec : Option ImageSpec) (prepflags : PrepFlags) (out : PrepOut)
    (h : IBAprep default_channel_names roi dst A B force_spec prepflags = some out)
    (hok : out.ok = true) :
    (dst.initialized = false →
      (prepflags.COPY_ALL_METADATA = false →
        out.dst.spec.has_attribute "oiio:SHA-1" = false) ∧
      (prepflags.NO_COPY_METADATA = true → out.dst.spec.extra_attribs = [])) ∧
    (dst.initialized = true → out.dst.spec.extra_attribs = dst.spec.extra_attribs) := by
  constructor
  · intro hd
    obtain ⟨roi1, full_roi, hs⟩ := IBAprep_uninit_ok_spec default_channel_names roi dst A B
      force_spec prepflags out hd h hok
    rw [hs]
    exact ⟨fun hc => prep_metadata_no_sha _ _ hc, fun hn => prep_metadata_wipe _ _ hn⟩
  · intro hinit
    unfold IBAprep at h
    by_cases h1 : (srcAnd A (fun a => ! a.initialized) ||
        srcAnd B (fun b => ! b.initialized)) = true
    · rw [if_pos h1] at h
      simp only [Option.some.injEq] at h
      rw [← h]
      rfl
    · rw [if_neg h1, if_pos hinit] at h
      simp only [Option.some.injEq] at h
      rw [← h, prep_checks_spec]
      split_ifs <;> rfl

/-- An instance of `IBAprep_sha_policy`: an uninitialized destination
prepared from the source that carries "oiio:SHA-1". -/
theorem IBAprep_sha_policy_witness :
    IBAprep id ROI.All ImageBuf.uninit (some rgba_hashed) none none {} = some sha_out ∧
    sha_out.ok = true ∧
    (ImageBuf.uninit.initialized = false →
      (({} : PrepFlags).COPY_ALL_METADATA = false →
        sha_out.dst.spec.has_attribute "oiio:SHA-1" = false) ∧
      (({} : PrepFlags).NO_COPY_METADATA = true → sha_out.dst.spec.extra_attribs = [])) ∧
    (ImageBuf.uninit.initialized = true →
      sha_out.dst.spec.extra_attribs = ImageBuf.uninit.spec.extra_attribs) :=
  ⟨IBAprep_uninit_eq id ROI.All ImageBuf.uninit (some rgba_hashed) none none {} rfl rfl rfl
      (Or.inl rfl) _ _ rfl, rfl,
    IBAprep_sha_policy id ROI.All ImageBuf.uninit (some rgba_hashed) none none {} sha_out
      (IBAprep_uninit_eq id ROI.All ImageBuf.uninit (some rgba_hashed) none none {} rfl rfl
        rfl (Or.inl rfl) _ _ rfl) rfl⟩

/-! ## Properties of `fill` and `checker` -/

theorem mem_irange (a b i : Int) : i ∈ irange a b ↔ a ≤ i ∧ i < b := by
  unfold irange
  simp only [List.mem_map, List.mem_range]
  constructor
  · rintro ⟨n, hn, rfl⟩
    omega
  · intro h
    exact ⟨(i - a).toNat, by omega, by omega⟩

theorem mem_iter_positions (dst : ImageBuf) (roi : ROI) (x y z : Int) :
    (x, y, z) ∈ iter_positions dst roi ↔
      (if roi.defined then roi else get_roi dst.spec).containsPos x y z = true := by
  unfold iter_positions ROI.containsPos
  simp only [List.mem_flatMap, List.mem_map, mem_irange, Prod.mk.injEq, Bool.and_eq_true,
    decide_eq_true_eq]
  constructor
  · rintro ⟨z1, hz, y1, hy, x1, hx, rfl, rfl, rfl⟩
    exact ⟨⟨⟨⟨⟨hx.1, hx.2⟩, hy.1⟩, hy.2⟩, hz.1⟩, hz.2⟩
  · rintro ⟨⟨⟨⟨⟨h1, h2⟩, h3⟩, h4⟩, h5⟩, h6⟩
    exact ⟨z, ⟨h5, h6⟩, y, ⟨h3, h4⟩, x, ⟨h1, h2⟩, rfl, rfl, rfl⟩

theorem store_spec (b : ImageBuf) (x y z c : Int) (v : ℚ) :
    (b.store x y z c v).spec = b.spec := by
  unfold ImageBuf.store
  split_ifs <;> rfl

theorem store_channels_spec (dst : ImageBuf) (pos : Int × Int × Int) (chbegin chend : Int)
    (values : Int → ℚ) : (store_channels dst pos chbegin chend values).spec = dst.spec := by
  unfold store_channels
  generalize irange chbegin chend = cs
  induction cs generalizing dst with
  | nil => rfl
  | cons c cs ih =>
    rw [List.foldl_cons, ih, store_spec]

theorem foldl_store_pixels (cs : List Int) (pos : Int × Int × Int) (values : Int → ℚ)
    (dst : ImageBuf) (x y z c : Int) :
    (cs.foldl (fun d c => d.store pos.1 pos.2.1 pos.2.2 c (values c)) dst).pixels x y z c =
      if (get_roi dst.spec).containsPos pos.1 pos.2.1 pos.2.2 = true ∧
          (x, y, z) = pos ∧ c ∈ cs then values c
      else dst.pixels x y z c := by
  induction cs generalizing dst with
  | nil => simp
  | cons c0 cs ih =>
    rw [List.foldl_cons, ih, store_spec]
    obtain ⟨px, py, pz⟩ := pos
    unfold ImageBuf.store
    by_cases hw : (get_roi dst.spec).containsPos px py pz = true
    · by_cases hp : (x, y, z) = (px, py, pz)
      · by_cases hc : c ∈ cs
        · simp [hw, hp, hc]
        · by_cases hc0 : c = c0
          · simp only [Prod.mk.injEq] at hp
            obtain ⟨rfl, rfl, rfl⟩ := hp
            subst hc0
            simp [hw, hc]
          · simp only [Prod.mk.injEq] at hp
            obtain ⟨rfl, rfl, rfl⟩ := hp
            simp [hw, hc, hc0]
      · have hp2 : ¬ (x = px ∧ y = py ∧ z = pz ∧ c = c0) := by
          intro h
          exact hp (by simp [h.1, h.2.1, h.2.2.1])
        simp [hw, hp, hp2]
    · simp [hw]

theorem store_channels_pixels (dst : ImageBuf) (pos : Int × Int × Int) (chbegin chend : Int)
    (values : Int → ℚ) (x y z c : Int) :
    (store_channels dst pos chbegin chend values).pixels x y z c =
      if (get_roi dst.spec).containsPos pos.1 pos.2.1 pos.2.2 = true ∧
          (x, y, z) = pos ∧ (chbegin ≤ c ∧ c < chend) then values c
      else dst.pixels x y z c := by
  unfold store_channels
  rw [foldl_store_pixels]
  simp only [mem_irange]

theorem foldl_paint_spec (ps : List (Int × Int × Int)) (cb ce : Int)
    (colour : Int × Int × Int → Int → ℚ) (dst : ImageBuf) :
    (ps.foldl (fun d p => store_channels d p cb ce (colour p)) dst).spec = dst.spec := by
  induction ps generalizing dst with
  | nil => rfl
  | cons p ps ih => rw [List.foldl_cons, ih, store_channels_spec]

/-- A loop that stores, at every position of `ps`, a colour that depends on
the position only: the pixel values it leaves. -/
theorem foldl_paint_pixels (ps : List (Int × Int × Int)) (cb ce : Int)
    (colour : Int × Int × Int → Int → ℚ) (dst : ImageBuf) (x y z c : Int) :
    (ps.foldl (fun d p => store_channels d p cb ce (colour p)) dst).pixels x y z c =
      if (x, y, z) ∈ ps ∧ (get_roi dst.spec).containsPos x y z = true ∧
          (cb ≤ c ∧ c < ce) then colour (x, y, z) c
      else dst.pixels x y z c := by
  induction ps generalizing dst with
  | nil => simp
  | cons p ps ih =>
    rw [List.foldl_cons, ih, store_channels_spec, store_channels_pixels]
    by_cases hw : (get_roi dst.spec).containsPos x y z = true
    · by_cases hc : cb ≤ c ∧ c < ce
      · by_cases hm : (x, y, z) ∈ ps
        · simp [hw, hc, hm]
        · by_cases hp : (x, y, z) = p
          · subst hp
            simp [hw, hc]
          · simp [hw, hc, hm, hp]
      · simp [hc]
    · by_cases hp : (x, y, z) = p
      · subst hp
        simp [hw]
      · simp [hw, hp]

theorem foldl_tiles_spec (colour : Int × Int × Int → Int → ℚ) (tiles : List ROI)
    (dst : ImageBuf) :
    (tiles.foldl (fun d t => (iter_positions d t).foldl
      (fun d p => store_channels d p t.chbegin t.chend (colour p)) d) dst).spec = dst.spec := by
  induction tiles generalizing dst with
  | nil => rfl
  | cons t ts ih => rw [List.foldl_cons, ih, foldl_paint_spec]

/-- The serial loop run on one tile after the other, all tiles with the same
channel range: the pixel values it leaves. -/
theorem foldl_tiles_pixels (colour : Int × Int × Int → Int → ℚ) (tiles : List ROI)
    (cb ce : Int)
    (htiles : ∀ t ∈ tiles, t.defined = true ∧ t.chbegin = cb ∧ t.chend = ce)
    (dst : ImageBuf) (x y z c : Int) :
    (tiles.foldl (fun d t => (iter_positions d t).foldl
      (fun d p => store_channels d p t.chbegin t.chend (colour p)) d) dst).pixels x y z c =
      if tiles.any (fun t => t.containsPos x y z) = true ∧
          (get_roi dst.spec).containsPos x y z = true ∧ (cb ≤ c ∧ c < ce)
      then colour (x, y, z) c
      else dst.pixels x y z c := by
  induction tiles generalizing dst with
  | nil => simp
  | cons t ts ih =>
    have ht := htiles t (List.mem_cons_self t ts)
    have hts : ∀ u ∈ ts, u.defined = true ∧ u.chbegin = cb ∧ u.chend = ce :=
      fun u hu => htiles u (List.mem_cons_of_mem t hu)
    have hm := mem_iter_positions dst t x y z
    rw [if_pos ht.1] at hm
    rw [List.foldl_cons, ih hts, foldl_paint_spec, foldl_paint_pixels]
    simp only [hm, ht.2.1, ht.2.2]
    by_cases hw : (get_roi dst.spec).containsPos x y z = true
    · by_cases hc : cb ≤ c ∧ c < ce
      · by_cases h1 : t.containsPos x y z = true
        · by_cases h2 : (ts.any fun t => t.containsPos x y z) = true
          · simp [hw, hc, h1, h2]
          · simp [hw, hc, h1, h2]
        · by_cases h2 : (ts.any fun t => t.containsPos x y z) = true
          · simp [hw, hc, h1, h2]
          · simp [hw, hc, h1, h2]
      · simp [hc]
    · simp [hw]

theorem serial_pixels (colour : Int × Int × Int → Int → ℚ) (r : ROI) (dst : ImageBuf)
    (hr : r.defined = true) (x y z c : Int) :
    ((iter_positions dst r).foldl
      (fun d p => store_channels d p r.chbegin r.chend (colour p)) dst).pixels x y z c =
      if r.containsPos x y z = true ∧ (get_roi dst.spec).containsPos x y z = true ∧
          (r.chbegin ≤ c ∧ c < r.chend) then colour (x, y, z) c
      else dst.pixels x y z c := by
  have hm := mem_iter_positions dst r x y z
  rw [if_pos hr] at hm
  rw [foldl_paint_pixels]
  simp only [hm]

theorem parallel_pixels (colour : Int × Int × Int → Int → ℚ)
    (split : ROI → Int → List ROI) (r : ROI) (nthreads : Int) (dst : ImageBuf)
    (ht : IsTiling (split r nthreads) r) (x y z c : Int) :
    (parallel_image split (fun t d => (iter_positions d t).foldl
      (fun d p => store_channels d p t.chbegin t.chend (colour p)) d) r nthreads
        dst).pixels x y z c =
      if r.containsPos x y z = true ∧ (get_roi dst.spec).containsPos x y z = true ∧
          (r.chbegin ≤ c ∧ c < r.chend) then colour (x, y, z) c
      else dst.pixels x y z c := by
  unfold parallel_image
  rw [foldl_tiles_pixels colour (split r nthreads) r.chbegin r.chend ht.1, ← ht.2 x y z]

theorem parallel_spec (colour : Int × Int × Int → Int → ℚ)
    (split : ROI → Int → List ROI) (r : ROI) (nthreads : Int) (dst : ImageBuf) :
    (parallel_image split (fun t d => (iter_positions d t).foldl
      (fun d p => store_channels d p t.chbegin t.chend (colour p)) d) r nthreads
        dst).spec = dst.spec := by
  unfold parallel_image
  rw [foldl_tiles_spec]

theorem checker_serial_eq (dst : ImageBuf) (size : Dim3) (color1 color2 : Int → ℚ)
    (offset : Dim3) (roi : ROI) :
    checker_serial dst size color1 color2 offset roi =
      (iter_positions dst roi).foldl
        (fun d p => store_channels d p roi.chbegin roi.chend
          (checker_colour size color1 color2 offset p)) dst := by
  unfold checker_serial
  congr 1
  funext d p
  unfold checker_colour
  dsimp only
  split_ifs <;> rfl

/-- The pixels and the spec that `fill_` leaves, for a defined roi. -/
theorem fill__pixels (split : ROI → Int → List ROI) (dst : ImageBuf) (values : Int → ℚ)
    (r : ROI) (nthreads : Int) (hr : r.defined = true)
    (ht : IsTiling (split r nthreads) r) :
    (fill_ split dst values r nthreads).2 = true ∧
    (fill_ split dst values r nthreads).1.spec = dst.spec ∧
    ∀ x y z c : Int, (fill_ split dst values r nthreads).1.pixels x y z c =
      if r.containsPos x y z = true ∧ (get_roi dst.spec).containsPos x y z = true ∧
          (r.chbegin ≤ c ∧ c < r.chend) then values c
      else dst.pixels x y z c := by
  unfold fill_
  split_ifs with hpar
  · refine ⟨rfl, parallel_spec (fun _ => values) split r nthreads dst, ?_⟩
    intro x y z c
    exact parallel_pixels (fun _ => values) split r nthreads dst ht x y z c
  · refine ⟨rfl, foldl_paint_spec _ _ _ (fun _ => values) dst, ?_⟩
    intro x y z c
    exact serial_pixels (fun _ => values) r dst hr x y z c

/-- The pixels and the spec that `checker_` leaves, for a defined roi. -/
theorem checker__pixels (split : ROI → Int → List ROI) (dst : ImageBuf) (size : Dim3)
    (color1 color2 : Int → ℚ) (offset : Dim3) (r : ROI) (nthreads : Int)
    (hr : r.defined = true) (ht : IsTiling (split r nthreads) r) :
    (checker_ split dst size color1 color2 offset r nthreads).2 = true ∧
    (checker_ split dst size color1 color2 offset r nthreads).1.spec = dst.spec ∧
    ∀ x y z c : Int,
      (checker_ split dst size color1 color2 offset r nthreads).1.pixels x y z c =
      if r.containsPos x y z = true ∧ (get_roi dst.spec).containsPos x y z = true ∧
          (r.chbegin ≤ c ∧ c < r.chend)
      then checker_colour size color1 color2 offset (x, y, z) c
      else dst.pixels x y z c := by
  unfold checker_
  simp only [checker_serial_eq]
  split_ifs with hpar
  · refine ⟨rfl, parallel_spec (checker_colour size color1 color2 offset) split r nthreads
      dst, ?_⟩
    intro x y z c
    exact parallel_pixels (checker_colour size color1 color2 offset) split r nthreads dst ht
      x y z c
  · refine ⟨rfl, foldl_paint_spec _ _ _ (checker_colour size color1 color2 offset) dst, ?_⟩
    intro x y z c
    exact serial_pixels (checker_colour size color1 color2 offset) r dst hr x y z c

theorem normalized_roi_defined (roi : ROI) (dst : ImageBuf) :
    (normalized_roi roi dst).defined = true := by
  unfold normalized_roi
  by_cases h : roi.defined = true
  · rw [if_pos h]
    unfold roi_intersection
    rw [if_pos (by simp [h, get_roi_defined])]
    rfl
  · rw [if_neg h]
    rfl

theorem normalized_roi_in_window (roi : ROI) (dst : ImageBuf) (x y z : Int)
    (h : (normalized_roi roi dst).containsPos x y z = true) :
    (get_roi dst.spec).containsPos x y z = true := by
  unfold normalized_roi at h
  by_cases hd : roi.defined = true
  · rw [if_pos hd] at h
    unfold roi_intersection at h
    rw [if_pos (by simp [hd, get_roi_defined])] at h
    simp only [ROI.containsPos, Bool.and_eq_true, decide_eq_true_eq] at h ⊢
    omega
  · rw [if_neg hd] at h
    exact h

/-- The run of `IBAprep (roi, &dst)` on an initialized destination. -/
theorem IBAprep_plain (default_channel_names : ImageSpec → ImageSpec) (roi : ROI)
    (dst : ImageBuf) (hinit : dst.initialized = true) :
    IBAprep default_channel_names roi dst none none none {} =
      some { ok := true, roi := normalized_roi roi dst,
             dst := if dst.storage = IBStorage.IMAGECACHE then dst.read else dst } := by
  unfold IBAprep
  rw [if_neg (by simp [srcAnd]), if_pos hinit]
  rfl

theorem prepared_spec (dst : ImageBuf) :
    (if dst.storage = IBStorage.IMAGECACHE then dst.read else dst).spec = dst.spec := by
  split_ifs <;> rfl

theorem prepared_pixels (dst : ImageBuf) :
    (if dst.storage = IBStorage.IMAGECACHE then dst.read else dst).pixels = dst.pixels := by
  split_ifs <;> rfl

theorem single_tile_tiling (r : ROI) (n : Int) (hr : r.defined = true) :
    IsTiling (single_tile r n) r := by
  unfold IsTiling single_tile
  constructor
  · intro t ht
    rw [List.mem_singleton] at ht
    subst ht
    exact ⟨hr, rfl, rfl⟩
  · intro x y z
    simp

/-- The run of `fill` on an initialized destination. -/
theorem fill_run (default_channel_names : ImageSpec → ImageSpec)
    (split : ROI → Int → List ROI) (dst : ImageBuf) (values : Int → ℚ) (roi : ROI)
    (nthreads : Int) (hinit : dst.initialized = true)
    (hsplit : ∀ r n, r.defined = true → IsTiling (split r n) r) :
    ∃ dst1 ok, fill default_channel_names split dst values roi nthreads = some (dst1, ok) ∧
      (ok = true ↔ dispatch_supported dst.spec.format = true) ∧
      dst1.spec = dst.spec ∧
      (ok = true → ∀ x y z c : Int, dst1.pixels x y z c =
        if (normalized_roi roi dst).containsPos x y z = true ∧
            (normalized_roi roi dst).containsCh c = true then values c
        else dst.pixels x y z c) ∧
      (ok = false → dst1.pixels = dst.pixels) := by
  have hr := normalized_roi_defined roi dst
  have hrun := fill__pixels split
    (if dst.storage = IBStorage.IMAGECACHE then dst.read else dst) values
    (normalized_roi roi dst) nthreads hr (hsplit _ _ hr)
  rw [prepared_spec, prepared_pixels] at hrun
  by_cases hfmt : dispatch_supported dst.spec.format = true
  · refine ⟨(fill_ split (if dst.storage = IBStorage.IMAGECACHE then dst.read else dst) values
        (normalized_roi roi dst) nthreads).1,
      (fill_ split (if dst.storage = IBStorage.IMAGECACHE then dst.read else dst) values
        (normalized_roi roi dst) nthreads).2, ?_, ?_, hrun.2.1, ?_, ?_⟩
    · unfold fill
      rw [IBAprep_plain default_channel_names roi dst hinit]
      simp only [Bool.not_true, Bool.false_eq_true, if_false, prepared_spec, if_pos hfmt]
    · rw [hrun.1]
      simp [hfmt]
    · intro _ x y z c
      rw [hrun.2.2 x y z c]
      by_cases hp : (normalized_roi roi dst).containsPos x y z = true
      · have hw := normalized_roi_in_window roi dst x y z hp
        simp [hp, hw, ROI.containsCh]
      · simp [hp]
    · intro h
      rw [hrun.1] at h
      simp at h
  · refine ⟨(if dst.storage = IBStorage.IMAGECACHE then dst.read else dst).error
        "fill: Unsupported pixel data format", false, ?_, ?_, ?_, ?_, ?_⟩
    · unfold fill
      rw [IBAprep_plain default_channel_names roi dst hinit]
      simp only [Bool.not_true, Bool.false_eq_true, if_false, prepared_spec, if_neg hfmt]
    · simp [hfmt]
    · exact prepared_spec dst
    · intro h
      simp at h
    · intro _
      exact prepared_pixels dst

/-- The run of `checker` on an initialized destination. -/
theorem checker_run (default_channel_names : ImageSpec → ImageSpec)
    (split : ROI → Int → List ROI) (dst : ImageBuf) (width height depth : Int)
    (color1 color2 : Int → ℚ) (xoffset yoffset zoffset : Int) (roi : ROI)
    (nthreads : Int) (hinit : dst.initialized = true)
    (hsplit : ∀ r n, r.defined = true → IsTiling (split r n) r) :
    ∃ dst1 ok, checker default_channel_names split dst width height depth color1 color2
        xoffset yoffset zoffset roi nthreads = some (dst1, ok) ∧
      (ok = true ↔ dispatch_supported dst.spec.format = true) ∧
      dst1.spec = dst.spec ∧
      (ok = true → ∀ x y z c : Int, dst1.pixels x y z c =
        if (normalized_roi roi dst).containsPos x y z = true ∧
            (normalized_roi roi dst).containsCh c = true
        then checker_colour { x := width, y := height, z := depth } color1 color2
          { x := xoffset, y := yoffset, z := zoffset } (x, y, z) c
        else dst.pixels x y z c) ∧
      (ok = false → dst1.pixels = dst.pixels) := by
  have hr := normalized_roi_defined roi dst
  have hrun := checker__pixels split
    (if dst.storage = IBStorage.IMAGECACHE then dst.read else dst)
    { x := width, y := height, z := depth } color1 color2
    { x := xoffset, y := yoffset, z := zoffset }
    (normalized_roi roi dst) nthreads hr (hsplit _ _ hr)
  rw [prepared_spec, prepared_pixels] at hrun
  by_cases hfmt : dispatch_supported dst.spec.format = true
  · refine ⟨(checker_ split (if dst.storage = IBStorage.IMAGECACHE then dst.read else dst)
        { x := width, y := height, z := depth } color1 color2
        { x := xoffset, y := yoffset, z := zoffset } (normalized_roi roi dst) nthreads).1,
      (checker_ split (if dst.storage = IBStorage.IMAGECACHE then dst.read else dst)
        { x := width, y := height, z := depth } color1 color2
        { x := xoffset, y := yoffset, z := zoffset } (normalized_roi roi dst) nthreads).2,
      ?_, ?_, hrun.2.1, ?_, ?_⟩
    · unfold checker
      rw [IBAprep_plain default_channel_names roi dst hinit]
      simp only [Bool.not_true, Bool.false_eq_true, if_false, prepared_spec, if_pos hfmt]
    · rw [hrun.1]
      simp [hfmt]
    · intro _ x y z c
      rw [hrun.2.2 x y z c]
      by_cases hp : (normalized_roi roi dst).containsPos x y z = true
      · have hw := normalized_roi_in_window roi dst x y z hp
        simp [hp, hw, ROI.containsCh]
      · simp [hp]
    · intro h
      rw [hrun.1] at h
      simp at h
  · refine ⟨(if dst.storage = IBStorage.IMAGECACHE then dst.read else dst).error
        "checker: Unsupported pixel data format", false, ?_, ?_, ?_, ?_, ?_⟩
    · unfold checker
      rw [IBAprep_plain default_channel_names roi dst hinit]
      simp only [Bool.not_true, Bool.false_eq_true, if_false, prepared_spec, if_neg hfmt]
    · simp [hfmt]
    · exact prepared_spec dst
    · intro h
      simp at h
    · intro _
      exact prepared_pixels dst

theorem ldiff_one (n : Nat) : Nat.ldiff 1 n = (n + 1) % 2 := by
  apply Nat.eq_of_testBit_eq
  intro i
  rw [Nat.ldiff, Nat.testBit_bitwise rfl]
  cases i with
  | zero =>
    simp [Nat.testBit_zero]
    rcases Nat.mod_two_eq_zero_or_one n with h | h <;> simp [h, Nat.add_mod]
  | succ k =>
    have h1 : Nat.testBit 1 (k + 1) = false := by
      simp [Nat.testBit_succ]
    have h2 : Nat.testBit ((n + 1) % 2) (k + 1) = false := by
      rcases Nat.mod_two_eq_zero_or_one (n + 1) with h | h <;> simp [h, Nat.testBit_succ]
    simp [h1, h2]

/-- The low bit `v & 1` of a two's complement integer is `v mod 2`. -/
theorem land_one_eq (v : Int) : Int.land v 1 = v % 2 := by
  cases v with
  | ofNat n =>
    show ((Nat.land n 1 : Nat) : Int) = _
    have h : Nat.land n 1 = n % 2 := Nat.and_one_is_mod n
    rw [h]
    rfl
  | negSucc n =>
    show ((Nat.ldiff 1 n : Nat) : Int) = _
    rw [ldiff_one]
    have h : Int.negSucc n = -((n : Int) + 1) := by simp [Int.negSucc_eq]
    rw [h]
    omega

/-- At a pixel that does not lie before the offset on any axis, `checker_`
picks the colour by the parity of the sum of the floored quotients. -/
theorem checker_colour_nonneg (width height depth : Int) (color1 color2 : Int → ℚ)
    (xoffset yoffset zoffset x y z : Int)
    (hw : 0 < width) (hh : 0 < height) (hd : 0 < depth)
    (hx : xoffset ≤ x) (hy : yoffset ≤ y) (hz : zoffset ≤ z) :
    checker_colour { x := width, y := height, z := depth } color1 color2
        { x := xoffset, y := yoffset, z := zoffset } (x, y, z) =
      if (Int.fdiv (x - xoffset) width + Int.fdiv (y - yoffset) height +
          Int.fdiv (z - zoffset) depth) % 2 = 0 then color1 else color2 := by
  have h1 : ¬ x < xoffset := by omega
  have h2 : ¬ y < yoffset := by omega
  have h3 : ¬ z < zoffset := by omega
  unfold checker_colour checker_tile
  dsimp only
  rw [land_one_eq, Int.tdiv_eq_ediv (by omega) (le_of_lt hw),
    Int.tdiv_eq_ediv (by omega) (le_of_lt hh),
    Int.tdiv_eq_ediv (by omega) (le_of_lt hd), Int.fdiv_eq_ediv _ (le_of_lt hw),
    Int.fdiv_eq_ediv _ (le_of_lt hh), Int.fdiv_eq_ediv _ (le_of_lt hd)]
  simp only [if_neg h1, if_neg h2, if_neg h3, add_zero]
  split_ifs <;> first | rfl | contradiction

/-- C6: `fill` on an initialized destination returns; it returns true exactly
when the format of `dst` has an instantiation, and then every pixel of `dst`
inside the normalized roi (the roi intersected with the pixel window of
`dst`, or that window for an undefined roi) holds `values[c]` in every
channel `c` of the channel range of that roi. -/
theorem fill_writes_values (default_channel_names : ImageSpec → ImageSpec)
    (split : ROI → Int → List ROI) (dst : ImageBuf) (values : Int → ℚ) (roi : ROI)
    (nthreads : Int) (hinit : dst.initialized = true)
    (hsplit : ∀ r n, r.defined = true → IsTiling (split r n) r) :
    ∃ dst1 ok, fill default_channel_names split dst values roi nthreads = some (dst1, ok) ∧
      (ok = true ↔ dispatch_supported dst.spec.format = true) ∧
      (ok = true → ∀ x y z c : Int,
        (normalized_roi roi dst).containsPos x y z = true →
        (normalized_roi roi dst).containsCh c = true →
          dst1.pixels x y z c = values c) := by
  obtain ⟨dst1, ok, hrun, hok, _, hpix, _⟩ :=
    fill_run default_channel_names split dst values roi nthreads hinit hsplit
  refine ⟨dst1, ok, hrun, hok, ?_⟩
  intro h x y z c hp hc
  rw [hpix h x y z c, if_pos ⟨hp, hc⟩]

/-- An instance of `fill_writes_values`: the 4 × 4 RGBA image filled over a
roi that sticks out of it, in one task. -/
theorem fill_writes_values_witness :
    rgba4x4.initialized = true ∧
    (∀ r n, r.defined = true → IsTiling (single_tile r n) r) ∧
    ∃ dst1 ok, fill id single_tile rgba4x4 (fun c => (c : ℚ) / 4) roi_2_9 1 = some (dst1, ok) ∧
      (ok = true ↔ dispatch_supported rgba4x4.spec.format = true) ∧
      (ok = true → ∀ x y z c : Int,
        (normalized_roi roi_2_9 rgba4x4).containsPos x y z = true →
        (normalized_roi roi_2_9 rgba4x4).containsCh c = true →
          dst1.pixels x y z c = (fun c => (c : ℚ) / 4) c) :=
  ⟨rfl, single_tile_tiling,
    fill_writes_values id single_tile rgba4x4 (fun c => (c : ℚ) / 4) roi_2_9 1 rfl
      single_tile_tiling⟩

/-- C7: on an initialized destination, `fill` and `checker` leave the spec of
`dst` as it was and change no value outside the normalized roi: no pixel
outside its box, no channel outside its channel range, and so no channel
outside `[roi.chbegin, roi.chend)` of a defined input roi. -/
theorem fill_checker_frame (default_channel_names : ImageSpec → ImageSpec)
    (split : ROI → Int → List ROI) (dst : ImageBuf) (roi : ROI) (nthreads : Int)
    (values : Int → ℚ) (width height depth : Int) (color1 color2 : Int → ℚ)
    (xoffset yoffset zoffset : Int)
    (hinit : dst.initialized = true)
    (hsplit : ∀ r n, r.defined = true → IsTiling (split r n) r) :
    (∃ dst1 ok, fill default_channel_names split dst values roi nthreads = some (dst1, ok) ∧
      dst1.spec = dst.spec ∧
      (∀ x y z c : Int,
        ¬ ((normalized_roi roi dst).containsPos x y z = true ∧
           (normalized_roi roi dst).containsCh c = true) →
          dst1.pixels x y z c = dst.pixels x y z c) ∧
      (roi.defined = true → ∀ x y z c : Int, ¬ (roi.chbegin ≤ c ∧ c < roi.chend) →
          dst1.pixels x y z c = dst.pixels x y z c)) ∧
    (∃ dst1 ok, checker default_channel_names split dst width height depth color1 color2
        xoffset yoffset zoffset roi nthreads = some (dst1, ok) ∧
      dst1.spec = dst.spec ∧
      (∀ x y z c : Int,
        ¬ ((normalized_roi roi dst).containsPos x y z = true ∧
           (normalized_roi roi dst).containsCh c = true) →
          dst1.pixels x y z c = dst.pixels x y z c) ∧
      (roi.defined = true → ∀ x y z c : Int, ¬ (roi.chbegin ≤ c ∧ c < roi.chend) →
          dst1.pixels x y z c = dst.pixels x y z c)) := by
  have hch : roi.defined = true → ∀ c : Int, ¬ (roi.chbegin ≤ c ∧ c < roi.chend) →
      ¬ ((normalized_roi roi dst).containsCh c = true) := by
    intro hd c hc h
    apply hc
    unfold normalized_roi at h
    rw [if_pos hd] at h
    unfold roi_intersection at h
    rw [if_pos (by simp [hd, get_roi_defined])] at h
    simp only [ROI.containsCh, Bool.and_eq_true, decide_eq_true_eq] at h
    omega
  constructor
  · obtain ⟨dst1, ok, hrun, _, hspec, hpix, hfail⟩ :=
      fill_run default_channel_names split dst values roi nthreads hinit hsplit
    have hout : ∀ x y z c : Int,
        ¬ ((normalized_roi roi dst).containsPos x y z = true ∧
           (normalized_roi roi dst).containsCh c = true) →
          dst1.pixels x y z c = dst.pixels x y z c := by
      intro x y z c hn
      cases hk : ok with
      | true => rw [hpix hk x y z c, if_neg hn]
      | false => rw [hfail hk]
    exact ⟨dst1, ok, hrun, hspec, hout,
      fun hd x y z c hc => hout x y z c (fun h => hch hd c hc h.2)⟩
  · obtain ⟨dst1, ok, hrun, _, hspec, hpix, hfail⟩ :=
      checker_run default_channel_names split dst width height depth color1 color2
        xoffset yoffset zoffset roi nthreads hinit hsplit
    have hout : ∀ x y z c : Int,
        ¬ ((normalized_roi roi dst).containsPos x y z = true ∧
           (normalized_roi roi dst).containsCh c = true) →
          dst1.pixels x y z c = dst.pixels x y z c := by
      intro x y z c hn
      cases hk : ok with
      | true => rw [hpix hk x y z c, if_neg hn]
      | false => rw [hfail hk]
    exact ⟨dst1, ok, hrun, hspec, hout,
      fun hd x y z c hc => hout x y z c (fun h => hch hd c hc h.2)⟩

/-- An instance of `fill_checker_frame`: the 4 × 4 RGBA image, a roi that
sticks out of it, one task. -/
theorem fill_checker_frame_witness :
    rgba4x4.initialized = true ∧
    (∀ r n, r.defined = true → IsTiling (single_tile r n) r) ∧
    (∃ dst1 ok, fill id single_tile rgba4x4 (fun _ => 1) roi_2_9 1 = some (dst1, ok) ∧
      dst1.spec = rgba4x4.spec ∧
      (∀ x y z c : Int,
        ¬ ((normalized_roi roi_2_9 rgba4x4).containsPos x y z = true ∧
           (normalized_roi roi_2_9 rgba4x4).containsCh c = true) →
          dst1.pixels x y z c = rgba4x4.pixels x y z c) ∧
      (roi_2_9.defined = true → ∀ x y z c : Int,
        ¬ (roi_2_9.chbegin ≤ c ∧ c < roi_2_9.chend) →
          dst1.pixels x y z c = rgba4x4.pixels x y z c)) ∧
    (∃ dst1 ok, checker id single_tile rgba4x4 2 2 1 (fun _ => 0) (fun _ => 1)
        0 0 0 roi_2_9 1 = some (dst1, ok) ∧
      dst1.spec = rgba4x4.spec ∧
      (∀ x y z c : Int,
        ¬ ((normalized_roi roi_2_9 rgba4x4).containsPos x y z = true ∧
           (normalized_roi roi_2_9 rgba4x4).containsCh c = true) →
          dst1.pixels x y z c = rgba4x4.pixels x y z c) ∧
      (roi_2_9.defined = true → ∀ x y z c : Int,
        ¬ (roi_2_9.chbegin ≤ c ∧ c < roi_2_9.chend) →
          dst1.pixels x y z c = rgba4x4.pixels x y z c)) :=
  ⟨rfl, single_tile_tiling,
    fill_checker_frame id single_tile rgba4x4 roi_2_9 1 (fun _ => 1) 2 2 1 (fun _ => 0)
      (fun _ => 1) 0 0 0 rfl single_tile_tiling⟩

/-- C8 at a failing input: on the 8 × 1 image with `x ∈ [-4, 4)`, tile size
`(2, 1, 1)`, offset `(0, 0, 0)`, `c1 = 0` and `c2 = 1`, the pixel `x = -2`
(that is `ox + i·w` with `i = -1`, where `⌊(x - ox)/w⌋ = -1` is odd) is given
`c1`, like the pixel `x = 0`, and the pixel `x = -1` of the same tile is
given `c2`. -/
theorem checker_negative_multiple :
    (Int.fdiv (-2 - 0) 2 + Int.fdiv (0 - 0) 1 + Int.fdiv (0 - 0) 1) % 2 = 1 ∧
    (checker id single_tile row_around_origin 2 1 1 (fun _ => 0) (fun _ => 1) 0 0 0
        ROI.All 1).map
      (fun r => (r.2, r.1.pixels (-2) 0 0 0, r.1.pixels (-1) 0 0 0, r.1.pixels 0 0 0 0)) =
      some (true, 0, 1, 0) := by
  refine ⟨by decide, ?_⟩
  obtain ⟨dst1, ok, hrun, hok, _, hpix, _⟩ :=
    checker_run id single_tile row_around_origin 2 1 1 (fun _ => 0) (fun _ => 1) 0 0 0
      ROI.All 1 rfl single_tile_tiling
  have hk : ok = true := hok.2 (by decide)
  have hp := hpix hk
  rw [hrun, Option.map_some', hk, hp (-2) 0 0 0, hp (-1) 0 0 0, hp 0 0 0 0,
    if_pos (by decide), if_pos (by decide), if_pos (by decide)]
  have e1 : checker_colour { x := 2, y := 1, z := 1 } (fun _ => 0) (fun _ => 1)
      { x := 0, y := 0, z := 0 } (-2, 0, 0) 0 = 0 := by
    unfold checker_colour
    rw [if_neg (by decide)]
  have e2 : checker_colour { x := 2, y := 1, z := 1 } (fun _ => 0) (fun _ => 1)
      { x := 0, y := 0, z := 0 } (-1, 0, 0) 0 = 1 := by
    unfold checker_colour
    rw [if_pos (by decide)]
  have e3 : checker_colour { x := 2, y := 1, z := 1 } (fun _ => 0) (fun _ => 1)
      { x := 0, y := 0, z := 0 } (0, 0, 0) 0 = 0 := by
    unfold checker_colour
    rw [if_neg (by decide)]
  rw [e1, e2, e3]

/-- C9: for tile sizes `w, h, d > 0`, `checker` on an initialized destination
returns, with true exactly when the format of `dst` has an instantiation, and
then every pixel `(x, y, z)` of the normalized roi with `x ≥ ox`, `y ≥ oy`
and `z ≥ oz` holds, in every channel of the roi, `c1` when
`⌊(x-ox)/w⌋ + ⌊(y-oy)/h⌋ + ⌊(z-oz)/d⌋` is even and `c2` when it is odd. -/
theorem checker_parity_at_or_after_offset (default_channel_names : ImageSpec → ImageSpec)
    (split : ROI → Int → List ROI) (dst : ImageBuf) (width height depth : Int)
    (color1 color2 : Int → ℚ) (xoffset yoffset zoffset : Int) (roi : ROI)
    (nthreads : Int) (hinit : dst.initialized = true)
    (hsplit : ∀ r n, r.defined = true → IsTiling (split r n) r)
    (hw : 0 < width) (hh : 0 < height) (hd : 0 < depth) :
    ∃ dst1 ok, checker default_channel_names split dst width height depth color1 color2
        xoffset yoffset zoffset roi nthreads = some (dst1, ok) ∧
      (ok = true ↔ dispatch_supported dst.spec.format = true) ∧
      (ok = true → ∀ x y z c : Int,
        (normalized_roi roi dst).containsPos x y z = true →
        (normalized_roi roi dst).containsCh c = true →
        xoffset ≤ x → yoffset ≤ y → zoffset ≤ z →
          dst1.pixels x y z c =
            if (Int.fdiv (x - xoffset) width + Int.fdiv (y - yoffset) height +
                Int.fdiv (z - zoffset) depth) % 2 = 0 then color1 c else color2 c) := by
  obtain ⟨dst1, ok, hrun, hok, _, hpix, _⟩ :=
    checker_run default_channel_names split dst width height depth color1 color2
      xoffset yoffset zoffset roi nthreads hinit hsplit
  refine ⟨dst1, ok, hrun, hok, ?_⟩
  intro h x y z c hp hc hx hy hz
  rw [hpix h x y z c, if_pos ⟨hp, hc⟩,
    checker_colour_nonneg width height depth color1 color2 xoffset yoffset zoffset x y z
      hw hh hd hx hy hz]
  split_ifs <;> rfl

/-- The scenario S6 as an instance of `checker_parity_at_or_after_offset`:
`checker` on the 8 × 8 image with size `(2, 2, 1)`, `c1 = 0`, `c2 = 1` and
offset `(0, 0, 0)` gives pixel `(3, 0) = 1`, `(0, 3) = 1` and `(2, 2) = 0`. -/
theorem checker_parity_at_or_after_offset_witness :
    gray8x8.initialized = true ∧
    (∀ r n, r.defined = true → IsTiling (single_tile r n) r) ∧
    (0 : Int) < 2 ∧ (0 : Int) < 2 ∧ (0 : Int) < 1 ∧
    ∃ dst1, checker id single_tile gray8x8 2 2 1 (fun _ => 0) (fun _ => 1) 0 0 0 ROI.All 1 =
        some (dst1, true) ∧
      dst1.pixels 3 0 0 0 = 1 ∧ dst1.pixels 0 3 0 0 = 1 ∧ dst1.pixels 2 2 0 0 = 0 := by
  refine ⟨rfl, single_tile_tiling, by decide, by decide, by decide, ?_⟩
  obtain ⟨dst1, ok, hrun, hok, hpix⟩ :=
    checker_parity_at_or_after_offset id single_tile gray8x8 2 2 1 (fun _ => 0) (fun _ => 1)
      0 0 0 ROI.All 1 rfl single_tile_tiling (by decide) (by decide) (by decide)
  have hk : ok = true := hok.2 (by decide)
  subst hk
  refine ⟨dst1, hrun, ?_, ?_, ?_⟩
  · rw [hpix rfl 3 0 0 0 (by decide) (by decide) (by decide) (by decide) (by decide),
      if_neg (by decide)]
  · rw [hpix rfl 0 3 0 0 (by decide) (by decide) (by decide) (by decide) (by decide),
      if_neg (by decide)]
  · rw [hpix rfl 2 2 0 0 (by decide) (by decide) (by decide) (by decide) (by decide),
      if_pos (by decide)]

/-! ## Properties of `resize` -/

/-- In the separable path the horizontal weights are never divided by a zero
sum, and a pixel whose horizontal or vertical tap sum is zero is written as
zero in every channel. -/
theorem resize_separable_pixel_zero (src : ImageBuf) (filter : Filter2D)
    (g : ResizeLocals) (yw : YWeights) (x : Int) :
    (∀ d ∈ (resize_separable_pixel src filter g yw x).divisors, d ≠ 0) ∧
    (yw.totalweight_y = 0 ∨ (resize_separable_pixel src filter g yw x).totalweight_x = 0 →
      ∀ c : Int, (resize_separable_pixel src filter g yw x).out c = 0) := by
  unfold resize_separable_pixel
  dsimp only
  constructor
  · intro d hd
    split_ifs at hd with h
    · rw [List.mem_map] at hd
      obtain ⟨_, _, rfl⟩ := hd
      exact h
    · simp at hd
  · intro h c
    by_cases hy : yw.totalweight_y = 0
    · rw [if_pos hy]
    · rw [if_neg hy]
      rcases h with h | h
      · exact absurd h hy
      · rw [if_neg (not_not.mpr h)]

/-- C10 at a failing input: resizing a 2 × 2 image to 4 × 4 with the box
filter of width 1/2 (separable), the vertical weights of scanline `y = 0` sum
to zero and each of the three `yfiltval[i] /= totalweight_y` divides by that
zero sum. -/
theorem resize_divides_yfiltval_by_zero :
    (box_filter (1 / 2)).separable = true ∧
    (resize_yweights (box_filter (1 / 2)) upscale_locals 0).totalweight_y = 0 ∧
    (resize_yweights (box_filter (1 / 2)) upscale_locals 0).divisors = [0, 0, 0] := by
  have hc : ⌈(1 / 8 : ℚ)⌉ = 1 := by
    rw [Int.ceil_eq_iff]
    norm_num
  have hf : ⌊(1 / 4 : ℚ)⌋ = 0 := by
    rw [Int.floor_eq_iff]
    norm_num
  have hl : upscale_locals.ytaps = 3 ∧ upscale_locals.radj = 1 ∧ upscale_locals.yratio = 2 ∧
      upscale_locals.dstfy = 0 ∧ upscale_locals.dstpixelheight = 1 / 4 ∧
      upscale_locals.srcfy = 0 ∧ upscale_locals.srcfh = 2 := by
    unfold upscale_locals resize_locals plain_spec box_filter
    norm_num [ImageSpec.empty, hc]
  obtain ⟨h1, h2, h3, h4, h5, h6, h7⟩ := hl
  have hr : irange 0 3 = [0, 1, 2] := by decide
  have hraw : (irange 0 upscale_locals.ytaps).map (fun (j : Int) =>
      (box_filter (1 / 2)).yfilt (upscale_locals.yratio * ((j : ℚ) - upscale_locals.radj -
        ((floorfrac (upscale_locals.srcfy + ((0 : Int) - upscale_locals.dstfy + 1 / 2) *
          upscale_locals.dstpixelheight * upscale_locals.srcfh)).1 - 1 / 2)))) = [0, 0, 0] := by
    rw [h1, h2, h3, h4, h5, h6, h7, hr]
    have e : ((0 : ℚ) + (((0 : Int) : ℚ) - 0 + 1 / 2) * (1 / 4) * 2) = 1 / 4 := by norm_num
    rw [e]
    unfold floorfrac box_filter
    rw [hf]
    norm_num [abs_le]
  refine ⟨rfl, ?_, ?_⟩
  · unfold resize_yweights
    dsimp only
    rw [if_pos (show (box_filter (1 / 2)).separable = true from rfl)]
    dsimp only
    rw [hraw]
    norm_num [sum_weights]
  · unfold resize_yweights
    dsimp only
    rw [if_pos (show (box_filter (1 / 2)).separable = true from rfl)]
    dsimp only
    rw [hraw]
    norm_num [sum_weights]

/-! ## Properties of `make_kernel`, `transform` and `resample` -/

theorem nat_lor_one (n : Nat) : n ||| 1 = if n % 2 = 0 then n + 1 else n := by
  apply Nat.eq_of_testBit_eq
  intro i
  rw [Nat.testBit_or]
  rcases Nat.mod_two_eq_zero_or_one n with h | h
  · rw [if_pos h]
    cases i with
    | zero => simp [Nat.testBit_zero, h, Nat.add_mod]
    | succ k =>
      have h1 : Nat.testBit 1 (k + 1) = false := by simp [Nat.testBit_succ]
      rw [h1, Bool.or_false]
      simp only [Nat.testBit_succ]
      congr 1
      omega
  · rw [if_neg (by omega)]
    cases i with
    | zero => simp [Nat.testBit_zero, h]
    | succ k =>
      have h1 : Nat.testBit 1 (k + 1) = false := by simp [Nat.testBit_succ]
      rw [h1, Bool.or_false]

/-- The statement `w |= 1` on a non-negative `int`. -/
theorem int_lor_one (n : Int) (h : 0 ≤ n) :
    Int.lor n 1 = if n % 2 = 0 then n + 1 else n := by
  obtain ⟨m, rfl⟩ := Int.eq_ofNat_of_zero_le h
  show ((m ||| 1 : Nat) : Int) = _
  rw [nat_lor_one]
  split_ifs with h1 h2 h2 <;> first | rfl | omega

theorem kernel_size_bounds (r : ℚ) :
    kernel_size r % 2 = 1 ∧ 1 ≤ kernel_size r ∧
    max 1 ⌈r⌉ ≤ kernel_size r ∧ kernel_size r ≤ max 1 ⌈r⌉ + 1 := by
  unfold kernel_size
  have h1 : (1 : Int) ≤ max 1 ⌈r⌉ := le_max_left _ _
  rw [int_lor_one _ (by omega)]
  split_ifs with h <;> omega

theorem tdiv_neg_odd (n : Int) (h1 : 1 ≤ n) (h2 : n % 2 = 1) :
    Int.tdiv (-n) 2 = -((n - 1) / 2) := by
  rw [Int.neg_tdiv, Int.tdiv_eq_ediv (by omega) (by omega)]
  omega

/-- C20 (as stated) fails: for the requested width `-1` the kernel is 1 pixel
wide, which is more than `ceil (-1) + 1 = 0`. -/
theorem make_kernel_negative_request :
    (make_kernel_alloc id ImageBuf.uninit (-1) 1 1).spec.width = 1 ∧
    ¬ ((make_kernel_alloc id ImageBuf.uninit (-1) 1 1).spec.width ≤ ⌈(-1 : ℚ)⌉ + 1) := by
  have hc : ⌈(-1 : ℚ)⌉ = -1 := by
    rw [Int.ceil_eq_iff]
    norm_num
  have hw : (make_kernel_alloc id ImageBuf.uninit (-1) 1 1).spec.width = 1 := by
    show kernel_size (-1) = 1
    unfold kernel_size
    rw [hc]
    decide
  rw [hw, hc]
  exact ⟨rfl, by decide⟩

/-- C20 (amended): for all requested width, height and depth, `make_kernel`
allocates a 1-channel float image whose size along each axis is
`n = max (1, ceil requested) | 1`; `n` is odd, `n ≥ 1` and
`max (1, ceil requested) ≤ n ≤ max (1, ceil requested) + 1`, hence
`ceil requested ≤ n ≤ ceil requested + 1` whenever `ceil requested ≥ 0`; the
pixel window along each axis is `[-(n-1)/2, (n-1)/2]`, and the display window
equals the pixel window. -/
theorem make_kernel_geometry (default_channel_names : ImageSpec → ImageSpec)
    (dst : ImageBuf) (width height depth : ℚ) :
    (make_kernel_alloc default_channel_names dst width height depth).initialized = true ∧
    (make_kernel_alloc default_channel_names dst width height depth).spec.nchannels = 1 ∧
    (make_kernel_alloc default_channel_names dst width height depth).spec.format =
      TypeDesc.FLOAT ∧
    (make_kernel_alloc default_channel_names dst width height depth).spec.width =
      Int.lor (max 1 ⌈width⌉) 1 ∧
    (make_kernel_alloc default_channel_names dst width height depth).spec.height =
      Int.lor (max 1 ⌈height⌉) 1 ∧
    (make_kernel_alloc default_channel_names dst width height depth).spec.depth =
      Int.lor (max 1 ⌈depth⌉) 1 ∧
    (∀ r : ℚ, Int.lor (max 1 ⌈r⌉) 1 % 2 = 1 ∧ 1 ≤ Int.lor (max 1 ⌈r⌉) 1 ∧
      max 1 ⌈r⌉ ≤ Int.lor (max 1 ⌈r⌉) 1 ∧ Int.lor (max 1 ⌈r⌉) 1 ≤ max 1 ⌈r⌉ + 1 ∧
      (0 ≤ ⌈r⌉ → ⌈r⌉ ≤ Int.lor (max 1 ⌈r⌉) 1 ∧ Int.lor (max 1 ⌈r⌉) 1 ≤ ⌈r⌉ + 1)) ∧
    (make_kernel_alloc default_channel_names dst width height depth).spec.x =
      -((Int.lor (max 1 ⌈width⌉) 1 - 1) / 2) ∧
    (make_kernel_alloc default_channel_names dst width height depth).spec.x +
      (make_kernel_alloc default_channel_names dst width height depth).spec.width - 1 =
      (Int.lor (max 1 ⌈width⌉) 1 - 1) / 2 ∧
    (make_kernel_alloc default_channel_names dst width height depth).spec.y =
      -((Int.lor (max 1 ⌈height⌉) 1 - 1) / 2) ∧
    (make_kernel_alloc default_channel_names dst width height depth).spec.y +
      (make_kernel_alloc default_channel_names dst width height depth).spec.height - 1 =
      (Int.lor (max 1 ⌈height⌉) 1 - 1) / 2 ∧
    (make_kernel_alloc default_channel_names dst width height depth).spec.z =
      -((Int.lor (max 1 ⌈depth⌉) 1 - 1) / 2) ∧
    (make_kernel_alloc default_channel_names dst width height depth).spec.z +
      (make_kernel_alloc default_channel_names dst width height depth).spec.depth - 1 =
      (Int.lor (max 1 ⌈depth⌉) 1 - 1) / 2 ∧
    get_roi_full (make_kernel_alloc default_channel_names dst width height depth).spec =
      get_roi (make_kernel_alloc default_channel_names dst width height depth).spec := by
  have hb : ∀ r : ℚ, Int.lor (max 1 ⌈r⌉) 1 % 2 = 1 ∧ 1 ≤ Int.lor (max 1 ⌈r⌉) 1 ∧
      max 1 ⌈r⌉ ≤ Int.lor (max 1 ⌈r⌉) 1 ∧ Int.lor (max 1 ⌈r⌉) 1 ≤ max 1 ⌈r⌉ + 1 :=
    fun r => kernel_size_bounds r
  have hx : ∀ r : ℚ, Int.tdiv (-(Int.lor (max 1 ⌈r⌉) 1)) 2 =
      -((Int.lor (max 1 ⌈r⌉) 1 - 1) / 2) :=
    fun r => tdiv_neg_odd _ (hb r).2.1 (hb r).1
  have hs : ∀ r : ℚ, -((Int.lor (max 1 ⌈r⌉) 1 - 1) / 2) + Int.lor (max 1 ⌈r⌉) 1 - 1 =
      (Int.lor (max 1 ⌈r⌉) 1 - 1) / 2 := by
    intro r
    have h := hb r
    omega
  refine ⟨rfl, rfl, rfl, rfl, rfl, rfl, ?_, ?_, ?_, ?_, ?_, ?_, ?_, rfl⟩
  · intro r
    refine ⟨(hb r).1, (hb r).2.1, (hb r).2.2.1, (hb r).2.2.2, ?_⟩
    intro h0
    have h := hb r
    have hm : max 1 ⌈r⌉ = 1 ∨ max 1 ⌈r⌉ = ⌈r⌉ := by
      rcases le_total (1 : Int) ⌈r⌉ with h1 | h1
      · right; exact max_eq_right h1
      · left; exact max_eq_left h1
    rcases hm with hm | hm
    · rw [hm] at h ⊢
      have hl : Int.lor 1 1 = 1 := by decide
      rw [hl]
      have : ⌈r⌉ ≤ 1 := by
        have := le_max_right (1 : Int) ⌈r⌉
        omega
      omega
    · rw [hm] at h ⊢
      omega
  · exact hx width
  · show Int.tdiv (-(Int.lor (max 1 ⌈width⌉) 1)) 2 + Int.lor (max 1 ⌈width⌉) 1 - 1 = _
    rw [hx width]
    exact hs width
  · exact hx height
  · show Int.tdiv (-(Int.lor (max 1 ⌈height⌉) 1)) 2 + Int.lor (max 1 ⌈height⌉) 1 - 1 = _
    rw [hx height]
    exact hs height
  · exact hx depth
  · show Int.tdiv (-(Int.lor (max 1 ⌈depth⌉) 1)) 2 + Int.lor (max 1 ⌈depth⌉) 1 - 1 = _
    rw [hx depth]
    exact hs depth

/-- C13 at a failing input: resampling the 4 × 1 ramp into an 8 × 1
destination without interpolation, the destination pixel `x = 2` maps to
`src_xf = 5/4` under the display-window mapping of `resize_`, whose floor is
the source pixel 1, but `resample_` subtracts 1/2 first and copies the source
pixel 0; the destination pixel `x = 0` reads the source position `-1`,
outside the source. -/
theorem resample_half_pixel_shift :
    (⌊(resize_src_xyf gray8x1.spec ramp4x1.spec 2 0).1⌋,
      ⌊(resize_src_xyf gray8x1.spec ramp4x1.spec 2 0).2⌋) = (1, 0) ∧
    resample_src_xy gray8x1.spec ramp4x1.spec 2 0 = (0, 0) ∧
    resample_pixel (fun _ _ _ _ => 0) gray8x1 ramp4x1 false 2 0 0 = ramp4x1.pixels 0 0 0 0 ∧
    ramp4x1.pixels 0 0 0 0 ≠ ramp4x1.pixels 1 0 0 0 ∧
    resample_src_xy gray8x1.spec ramp4x1.spec 0 0 = (-1, 0) := by
  have f1 : ⌊(5 / 4 : ℚ)⌋ = 1 := by
    rw [Int.floor_eq_iff]
    norm_num
  have f2 : ⌊(1 / 2 : ℚ)⌋ = 0 := by
    rw [Int.floor_eq_iff]
    norm_num
  have f3 : ⌊(3 / 4 : ℚ)⌋ = 0 := by
    rw [Int.floor_eq_iff]
    norm_num
  have f4 : ⌊(-1 / 4 : ℚ)⌋ = -1 := by
    rw [Int.floor_eq_iff]
    norm_num
  have e1 : resize_src_xyf gray8x1.spec ramp4x1.spec 2 0 = (5 / 4, 1 / 2) := by
    unfold resize_src_xyf resize_locals gray8x1 ramp4x1 ImageBuf.local_buffer plain_spec
    norm_num [ImageSpec.empty]
  have e2 : resample_src_xyf gray8x1.spec ramp4x1.spec 2 0 = (3 / 4, 0) := by
    unfold resample_src_xyf gray8x1 ramp4x1 ImageBuf.local_buffer plain_spec
    norm_num [ImageSpec.empty]
  have e3 : resample_src_xyf gray8x1.spec ramp4x1.spec 0 0 = (-1 / 4, 0) := by
    unfold resample_src_xyf gray8x1 ramp4x1 ImageBuf.local_buffer plain_spec
    norm_num [ImageSpec.empty]
  have e4 : resample_src_xy gray8x1.spec ramp4x1.spec 2 0 = (0, 0) := by
    unfold resample_src_xy floorfrac
    rw [e2]
    simp [f3]
  refine ⟨?_, e4, ?_, ?_, ?_⟩
  · rw [e1]
    show (⌊(5 / 4 : ℚ)⌋, ⌊(1 / 2 : ℚ)⌋) = (1, 0)
    rw [f1, f2]
  · unfold resample_pixel
    rw [e4]
    simp [ImageBuf.getchannel_black, ROI.containsPos, get_roi, ramp4x1,
      ImageBuf.local_buffer, plain_spec, ImageSpec.empty]
  · simp [ramp4x1, ImageBuf.local_buffer]
  · unfold resample_src_xy floorfrac
    rw [e3]
    simp [f4]

/-! ## Properties of `warp` and `convolve` -/

/-- A function of the shape of `fill_`, `warp_` and `convolve_` (the serial
loop stores at each pixel a colour that depends on the position only, the
parallel case runs it tile by tile): the result for a defined roi. -/
theorem painted_pixels (colour : Int × Int × Int → Int → ℚ)
    (split : ROI → Int → List ROI) (dst : ImageBuf) (r : ROI) (nthreads : Int)
    (hr : r.defined = true) (ht : IsTiling (split r nthreads) r) :
    (if nthreads ≠ 1 ∧ r.npixels ≥ 1000 then
        (parallel_image split (fun t d => (iter_positions d t).foldl
          (fun d p => store_channels d p t.chbegin t.chend (colour p)) d) r nthreads dst,
          true)
      else ((iter_positions dst r).foldl
          (fun d p => store_channels d p r.chbegin r.chend (colour p)) dst, true)).2 = true ∧
    (if nthreads ≠ 1 ∧ r.npixels ≥ 1000 then
        (parallel_image split (fun t d => (iter_positions d t).foldl
          (fun d p => store_channels d p t.chbegin t.chend (colour p)) d) r nthreads dst,
          true)
      else ((iter_positions dst r).foldl
          (fun d p => store_channels d p r.chbegin r.chend (colour p)) dst, true)).1.spec =
      dst.spec ∧
    ∀ x y z c : Int,
      (if nthreads ≠ 1 ∧ r.npixels ≥ 1000 then
        (parallel_image split (fun t d => (iter_positions d t).foldl
          (fun d p => store_channels d p t.chbegin t.chend (colour p)) d) r nthreads dst,
          true)
      else ((iter_positions dst r).foldl
          (fun d p => store_channels d p r.chbegin r.chend (colour p)) dst,
          true)).1.pixels x y z c =
      if r.containsPos x y z = true ∧ (get_roi dst.spec).containsPos x y z = true ∧
          (r.chbegin ≤ c ∧ c < r.chend) then colour (x, y, z) c
      else dst.pixels x y z c := by
  split_ifs with hpar
  · refine ⟨rfl, parallel_spec colour split r nthreads dst, ?_⟩
    intro x y z c
    exact parallel_pixels colour split r nthreads dst ht x y z c
  · refine ⟨rfl, foldl_paint_spec _ _ _ colour dst, ?_⟩
    intro x y z c
    exact serial_pixels colour r dst hr x y z c

/-- The pixels and the spec that `warp_` leaves, for a defined roi. -/
theorem warp__pixels (split : ROI → Int → List ROI) (dst src : ImageBuf) (M : M33)
    (filter : Filter2D) (wrap : WrapMode) (r : ROI) (nthreads : Int)
    (hr : r.defined = true) (ht : IsTiling (split r nthreads) r) :
    (warp_ split dst src M filter wrap r nthreads).2 = true ∧
    (warp_ split dst src M filter wrap r nthreads).1.spec = dst.spec ∧
    ∀ x y z c : Int, (warp_ split dst src M filter wrap r nthreads).1.pixels x y z c =
      if r.containsPos x y z = true ∧ (get_roi dst.spec).containsPos x y z = true ∧
          (r.chbegin ≤ c ∧ c < r.chend) then warp_colour src M filter wrap (x, y, z) c
      else dst.pixels x y z c :=
  painted_pixels (warp_colour src M filter wrap) split dst r nthreads hr ht

/-- The pixels and the spec that `convolve_` leaves, for a defined roi. -/
theorem convolve__pixels (split : ROI → Int → List ROI) (dst src kernel : ImageBuf)
    (normalize : Bool) (r : ROI) (nthreads : Int)
    (hr : r.defined = true) (ht : IsTiling (split r nthreads) r) :
    (convolve_ split dst src kernel normalize r nthreads).2 = true ∧
    (convolve_ split dst src kernel normalize r nthreads).1.spec = dst.spec ∧
    ∀ x y z c : Int, (convolve_ split dst src kernel normalize r nthreads).1.pixels x y z c =
      if r.containsPos x y z = true ∧ (get_roi dst.spec).containsPos x y z = true ∧
          (r.chbegin ≤ c ∧ c < r.chend) then convolve_colour src kernel normalize (x, y, z) c
      else dst.pixels x y z c :=
  painted_pixels (convolve_colour src kernel normalize) split dst r nthreads hr ht

/-- A destination pixel whose homogeneous denominator is zero is mapped to
the source point `(0, 0)` with zero derivatives. -/
theorem warp_colour_zero_denominator (src : ImageBuf) (M : M33) (filter : Filter2D)
    (wrap : WrapMode) (x y z : Int) (hden : warp_denominator M.inverse x y = 0) :
    warp_colour src M filter wrap (x, y, z) =
      fun c => if 0 ≤ c ∧ c < src.nchannels
        then filtered_sample src 0 0 0 0 0 0 filter wrap c else 0 := by
  unfold warp_denominator at hden
  unfold warp_colour robust_multVecMatrix
  simp only [Dual2.add, Dual2.addf, Dual2.mulf]
  rw [if_neg (not_not.mpr hden)]
  rfl

theorem floor_neg_half : ⌊(0 - 1 / 2 * 1 * 1 : ℚ)⌋ = -1 := by
  rw [Int.floor_eq_iff]
  norm_num

theorem ceil_half : ⌈(0 + 1 / 2 * 1 * 1 : ℚ)⌉ = 1 := by
  rw [Int.ceil_eq_iff]
  norm_num

/-- C14 (as stated) fails: with the matrix `projective_M` the destination
pixel `(0, 0)` has a zero homogeneous denominator, and `warp_` with the box
filter of width 1 and black wrap writes 1/4 there, not 0, from a source whose
pixels are all 1. -/
theorem warp_zero_denominator_not_zero :
    warp_denominator projective_M.inverse 0 0 = 0 ∧
    (warp_ single_tile gray4x4 ones4x4 projective_M (box_filter 1) WrapMode.WrapBlack
      (get_roi gray4x4.spec) 1).1.pixels 0 0 0 0 = 1 / 4 := by
  have hden : warp_denominator projective_M.inverse 0 0 = 0 := by
    norm_num [warp_denominator, M33.inverse, M33.det, projective_M]
  refine ⟨hden, ?_⟩
  rw [(warp__pixels single_tile gray4x4 ones4x4 projective_M (box_filter 1)
    WrapMode.WrapBlack (get_roi gray4x4.spec) 1 rfl (single_tile_tiling _ _ rfl)).2.2 0 0 0 0,
    if_pos (by decide), warp_colour_zero_denominator _ _ _ _ 0 0 0 hden]
  have hr1 : irange (-1) 1 = [-1, 0] := by decide
  have hmax : max (1 : ℚ) (max |0| |0|) = 1 := by norm_num
  have hwd : (box_filter 1).width = 1 := rfl
  unfold filtered_sample
  simp only [hmax, hwd]
  rw [floor_neg_half, ceil_half, hr1]
  norm_num [box_filter, pel_accum, ImageBuf.getchannel_wrap, wrap_coord, ones4x4,
    ImageBuf.local_buffer, plain_spec, ImageSpec.empty, ImageBuf.nchannels, abs_le]

/-- C14 (amended): for a destination pixel of the roi whose inverse-mapped
homogeneous denominator is 0, `warp_` writes to every channel of the roi that
the source has the filtered sample of `src` taken at the source point
`(0, 0)` with zero derivatives (the point to which `robust_multVecMatrix`
sends such a pixel). -/
theorem warp_zero_denominator (split : ROI → Int → List ROI) (dst src : ImageBuf)
    (M : M33) (filter : Filter2D) (wrap : WrapMode) (r : ROI) (nthreads : Int)
    (x y z c : Int)
    (hr : r.defined = true) (ht : IsTiling (split r nthreads) r)
    (hpos : r.containsPos x y z = true)
    (hwin : (get_roi dst.spec).containsPos x y z = true)
    (hc : r.chbegin ≤ c ∧ c < r.chend) (hsc : 0 ≤ c ∧ c < src.nchannels)
    (hden : warp_denominator M.inverse x y = 0) :
    (warp_ split dst src M filter wrap r nthreads).1.pixels x y z c =
      filtered_sample src 0 0 0 0 0 0 filter wrap c := by
  rw [(warp__pixels split dst src M filter wrap r nthreads hr ht).2.2 x y z c,
    if_pos ⟨hpos, hwin, hc⟩, warp_colour_zero_denominator _ _ _ _ x y z hden]
  simp only []
  rw [if_pos hsc]

/-- An instance of `warp_zero_denominator`: the pixel `(0, 0)` under
`projective_M`. -/
theorem warp_zero_denominator_witness :
    (get_roi gray4x4.spec).defined = true ∧
    IsTiling (single_tile (get_roi gray4x4.spec) 1) (get_roi gray4x4.spec) ∧
    (get_roi gray4x4.spec).containsPos 0 0 0 = true ∧
    (get_roi gray4x4.spec).containsPos 0 0 0 = true ∧
    ((get_roi gray4x4.spec).chbegin ≤ 0 ∧ 0 < (get_roi gray4x4.spec).chend) ∧
    ((0 : Int) ≤ 0 ∧ 0 < ones4x4.nchannels) ∧
    warp_denominator projective_M.inverse 0 0 = 0 ∧
    (warp_ single_tile gray4x4 ones4x4 projective_M (box_filter 1) WrapMode.WrapBlack
      (get_roi gray4x4.spec) 1).1.pixels 0 0 0 0 =
      filtered_sample ones4x4 0 0 0 0 0 0 (box_filter 1) WrapMode.WrapBlack 0 :=
  ⟨rfl, single_tile_tiling _ _ rfl, by decide, by decide, by decide, by decide,
    by norm_num [warp_denominator, M33.inverse, M33.det, projective_M],
    warp_zero_denominator single_tile gray4x4 ones4x4 projective_M (box_filter 1)
      WrapMode.WrapBlack (get_roi gray4x4.spec) 1 0 0 0 0 rfl (single_tile_tiling _ _ rfl)
      (by decide) (by decide) (by decide) (by decide)
      (by norm_num [warp_denominator, M33.inverse, M33.det, projective_M])⟩

theorem foldl_add_eq_sum {α : Type} (L : List α) (f : α → ℚ) (a : ℚ) :
    L.foldl (fun acc k => acc + f k) a = a + (L.map f).sum := by
  induction L generalizing a with
  | nil => simp
  | cons k L ih =>
    rw [List.foldl_cons, ih, List.map_cons, List.sum_cons, add_assoc]

theorem sum_map_flatMap {α β : Type} (l : List α) (g : α → List β) (f : β → ℚ) :
    ((l.flatMap g).map f).sum = (l.map (fun a => ((g a).map f).sum)).sum := by
  induction l with
  | nil => simp
  | cons a l ih =>
    rw [List.flatMap_cons, List.map_append, List.sum_append, ih, List.map_cons, List.sum_cons]

theorem nodup_irange (a b : Int) : (irange a b).Nodup := by
  unfold irange
  apply List.Nodup.map _ (List.nodup_range _)
  intro i j h
  simp only at h
  omega

theorem sum_irange (a b : Int) (f : Int → ℚ) :
    ((irange a b).map f).sum = ∑ i ∈ Finset.Ico a b, f i := by
  rw [← List.sum_toFinset f (nodup_irange a b)]
  congr 1
  ext i
  simp [mem_irange]

/-- A sum taken in the order of an iterator over a defined roi is the sum
over the box of the roi. -/
theorem sum_iter_positions (b : ImageBuf) (r : ROI) (hr : r.defined = true)
    (f : Int × Int × Int → ℚ) :
    ((iter_positions b r).map f).sum =
      ∑ z ∈ Finset.Ico r.zbegin r.zend, ∑ y ∈ Finset.Ico r.ybegin r.yend,
        ∑ x ∈ Finset.Ico r.xbegin r.xend, f (x, y, z) := by
  unfold iter_positions
  simp only [hr, if_true]
  rw [sum_map_flatMap, sum_irange]
  apply Finset.sum_congr rfl
  intro z _
  rw [sum_map_flatMap, sum_irange]
  apply Finset.sum_congr rfl
  intro y _
  rw [List.map_map, sum_irange]
  rfl

/-- The value of `scale` in `convolve_`, as a sum over the pixel window of
the kernel. -/
theorem convolve_scale_eq (kernel : ImageBuf) (normalize : Bool) :
    convolve_scale kernel normalize =
      if normalize = true then
        1 / ∑ kz ∈ Finset.Ico kernel.spec.z (kernel.spec.z + kernel.spec.depth),
          ∑ ky ∈ Finset.Ico kernel.spec.y (kernel.spec.y + kernel.spec.height),
            ∑ kx ∈ Finset.Ico kernel.spec.x (kernel.spec.x + kernel.spec.width),
              kernel.pixels kx ky kz 0
      else 1 := by
  unfold convolve_scale
  split_ifs with h
  · have hp : iter_positions kernel ROI.All = iter_positions kernel (get_roi kernel.spec) := rfl
    rw [hp, foldl_add_eq_sum _
      (fun (k : Int × Int × Int) => kernel.pixels k.1 k.2.1 k.2.2 0), zero_add,
      sum_iter_positions kernel (get_roi kernel.spec) rfl]
    rfl
  · rfl

/-- The value of `sum[c]` in `convolve_`, as a sum over the pixel window of
the kernel. -/
theorem convolve_sum_eq (src kernel : ImageBuf) (x y z c : Int) :
    convolve_sum src kernel (x, y, z) c =
      ∑ kz ∈ Finset.Ico kernel.spec.z (kernel.spec.z + kernel.spec.depth),
        ∑ ky ∈ Finset.Ico kernel.spec.y (kernel.spec.y + kernel.spec.height),
          ∑ kx ∈ Finset.Ico kernel.spec.x (kernel.spec.x + kernel.spec.width),
            kernel.pixels kx ky kz 0 * src.getchannel_clamp (x + kx) (y + ky) (z + kz) c := by
  unfold convolve_sum
  dsimp only
  rw [foldl_add_eq_sum _ (fun (k : Int × Int × Int) => kernel.pixels k.1 k.2.1 k.2.2 0 *
      src.getchannel_clamp (x + k.1) (y + k.2.1) (z + k.2.2) c), zero_add,
    sum_iter_positions kernel (get_roi kernel.spec) rfl]
  rfl

/-- C17: for every pixel `(x, y, z)` of the roi (inside the pixel window of
`dst`) and every channel `c` of the roi, `convolve_` returns true and writes
`scale * Σ kernel (kx,ky,kz) * src (x+kx, y+ky, z+kz)[c]`, the sum running
over the pixel window of the kernel and `src` being read with Clamp wrap,
where `scale` is `1 / Σ kernel` if `normalize` and 1 otherwise; with
`normalize` the kernel values are to have a nonzero sum, so that
`1 / Σ kernel` is a number (`scale * Σ kernel = 1`). -/
theorem convolve_formula (split : ROI → Int → List ROI) (dst src kernel : ImageBuf)
    (normalize : Bool) (r : ROI) (nthreads : Int) (x y z c : Int)
    (hr : r.defined = true) (ht : IsTiling (split r nthreads) r)
    (hpos : r.containsPos x y z = true)
    (hwin : (get_roi dst.spec).containsPos x y z = true)
    (hc : r.chbegin ≤ c ∧ c < r.chend)
    (hsum : normalize = true →
      (∑ kz ∈ Finset.Ico kernel.spec.z (kernel.spec.z + kernel.spec.depth),
        ∑ ky ∈ Finset.Ico kernel.spec.y (kernel.spec.y + kernel.spec.height),
          ∑ kx ∈ Finset.Ico kernel.spec.x (kernel.spec.x + kernel.spec.width),
            kernel.pixels kx ky kz 0) ≠ 0) :
    (convolve_ split dst src kernel normalize r nthreads).2 = true ∧
    (convolve_ split dst src kernel normalize r nthreads).1.pixels x y z c =
      (if normalize = true then
        1 / ∑ kz ∈ Finset.Ico kernel.spec.z (kernel.spec.z + kernel.spec.depth),
          ∑ ky ∈ Finset.Ico kernel.spec.y (kernel.spec.y + kernel.spec.height),
            ∑ kx ∈ Finset.Ico kernel.spec.x (kernel.spec.x + kernel.spec.width),
              kernel.pixels kx ky kz 0
       else 1) *
      ∑ kz ∈ Finset.Ico kernel.spec.z (kernel.spec.z + kernel.spec.depth),
        ∑ ky ∈ Finset.Ico kernel.spec.y (kernel.spec.y + kernel.spec.height),
          ∑ kx ∈ Finset.Ico kernel.spec.x (kernel.spec.x + kernel.spec.width),
            kernel.pixels kx ky kz 0 * src.getchannel_clamp (x + kx) (y + ky) (z + kz) c ∧
    (normalize = true →
      convolve_scale kernel normalize *
        ∑ kz ∈ Finset.Ico kernel.spec.z (kernel.spec.z + kernel.spec.depth),
          ∑ ky ∈ Finset.Ico kernel.spec.y (kernel.spec.y + kernel.spec.height),
            ∑ kx ∈ Finset.Ico kernel.spec.x (kernel.spec.x + kernel.spec.width),
              kernel.pixels kx ky kz 0 = 1) := by
  have h := convolve__pixels split dst src kernel normalize r nthreads hr ht
  refine ⟨h.1, ?_, ?_⟩
  · rw [h.2.2 x y z c, if_pos ⟨hpos, hwin, hc⟩]
    unfold convolve_colour
    rw [convolve_scale_eq, convolve_sum_eq]
  · intro hn
    rw [convolve_scale_eq, if_pos hn]
    exact one_div_mul_cancel (hsum hn)

/-- The scenario S2 as an instance of `convolve_formula`: the 8 × 1 image
`[0,1,0,1,0,1,0,1]` convolved with the origin-centred 3 × 1 kernel `[1,1,1]`,
`normalize = true`, gives `[1/3,1/3,2/3,1/3,2/3,1/3,2/3,2/3]`. -/
theorem convolve_formula_witness :
    (get_roi gray8x1.spec).defined = true ∧
    IsTiling (single_tile (get_roi gray8x1.spec) 1) (get_roi gray8x1.spec) ∧
    ((get_roi gray8x1.spec).chbegin ≤ 0 ∧ 0 < (get_roi gray8x1.spec).chend) ∧
    (∑ kz ∈ Finset.Ico ones_kernel3.spec.z (ones_kernel3.spec.z + ones_kernel3.spec.depth),
      ∑ ky ∈ Finset.Ico ones_kernel3.spec.y (ones_kernel3.spec.y + ones_kernel3.spec.height),
        ∑ kx ∈ Finset.Ico ones_kernel3.spec.x (ones_kernel3.spec.x + ones_kernel3.spec.width),
          ones_kernel3.pixels kx ky kz 0) = 3 ∧
    (convolve_ single_tile gray8x1 alternating8x1 ones_kernel3 true (get_roi gray8x1.spec)
      1).2 = true ∧
    (List.range 8).map (fun (x : Nat) =>
      (convolve_ single_tile gray8x1 alternating8x1 ones_kernel3 true (get_roi gray8x1.spec)
        1).1.pixels x 0 0 0) = [1 / 3, 1 / 3, 2 / 3, 1 / 3, 2 / 3, 1 / 3, 2 / 3, 2 / 3] := by
  have hk3 : (∑ kz ∈ Finset.Ico ones_kernel3.spec.z
        (ones_kernel3.spec.z + ones_kernel3.spec.depth),
      ∑ ky ∈ Finset.Ico ones_kernel3.spec.y (ones_kernel3.spec.y + ones_kernel3.spec.height),
        ∑ kx ∈ Finset.Ico ones_kernel3.spec.x (ones_kernel3.spec.x + ones_kernel3.spec.width),
          ones_kernel3.pixels kx ky kz 0) = 3 := by
    have hz : Finset.Ico ones_kernel3.spec.z
        (ones_kernel3.spec.z + ones_kernel3.spec.depth) = {0} := by decide
    have hy : Finset.Ico ones_kernel3.spec.y
        (ones_kernel3.spec.y + ones_kernel3.spec.height) = {0} := by decide
    have hxx : Finset.Ico ones_kernel3.spec.x
        (ones_kernel3.spec.x + ones_kernel3.spec.width) = {-1, 0, 1} := by decide
    rw [hz, hy, hxx]
    have hk : ∀ kx ky kz : Int, ones_kernel3.pixels kx ky kz 0 = 1 := fun _ _ _ => rfl
    simp only [hk, Finset.sum_singleton]
    rw [Finset.sum_insert (by decide), Finset.sum_insert (by decide), Finset.sum_singleton]
    norm_num
  have hsum : true = true →
      (∑ kz ∈ Finset.Ico ones_kernel3.spec.z (ones_kernel3.spec.z + ones_kernel3.spec.depth),
        ∑ ky ∈ Finset.Ico ones_kernel3.spec.y
            (ones_kernel3.spec.y + ones_kernel3.spec.height),
          ∑ kx ∈ Finset.Ico ones_kernel3.spec.x
              (ones_kernel3.spec.x + ones_kernel3.spec.width),
            ones_kernel3.pixels kx ky kz 0) ≠ 0 := by
    intro _
    rw [hk3]
    norm_num
  have key : ∀ x : Int, 0 ≤ x ∧ x < 8 →
      (convolve_ single_tile gray8x1 alternating8x1 ones_kernel3 true (get_roi gray8x1.spec)
        1).1.pixels x 0 0 0 =
        1 / 3 * (alternating8x1.getchannel_clamp (x - 1) 0 0 0 +
          alternating8x1.getchannel_clamp x 0 0 0 +
          alternating8x1.getchannel_clamp (x + 1) 0 0 0) := by
    intro x hx
    have hpos : (get_roi gray8x1.spec).containsPos x 0 0 = true := by
      simp [ROI.containsPos, get_roi, gray8x1, ImageBuf.local_buffer, plain_spec,
        ImageSpec.empty, hx.1, hx.2]
    rw [(convolve_formula single_tile gray8x1 alternating8x1 ones_kernel3 true
      (get_roi gray8x1.spec) 1 x 0 0 0 rfl (single_tile_tiling _ _ rfl) hpos hpos
      (by decide) hsum).2.1]
    have hz : Finset.Ico ones_kernel3.spec.z
        (ones_kernel3.spec.z + ones_kernel3.spec.depth) = {0} := by decide
    have hy : Finset.Ico ones_kernel3.spec.y
        (ones_kernel3.spec.y + ones_kernel3.spec.height) = {0} := by decide
    have hxx : Finset.Ico ones_kernel3.spec.x
        (ones_kernel3.spec.x + ones_kernel3.spec.width) = {-1, 0, 1} := by decide
    rw [hz, hy, hxx]
    have hk : ∀ kx ky kz : Int, ones_kernel3.pixels kx ky kz 0 = 1 := fun _ _ _ => rfl
    simp only [hk, Finset.sum_singleton, if_true, one_mul, add_zero]
    rw [Finset.sum_insert (by decide), Finset.sum_insert (by decide), Finset.sum_singleton,
      Finset.sum_insert (by decide), Finset.sum_insert (by decide), Finset.sum_singleton]
    norm_num
    ring_nf
  refine ⟨rfl, single_tile_tiling _ _ rfl, by decide, hk3,
    (convolve_formula single_tile gray8x1 alternating8x1 ones_kernel3 true
      (get_roi gray8x1.spec) 1 0 0 0 0 rfl (single_tile_tiling _ _ rfl) (by decide)
      (by decide) (by decide) hsum).1, ?_⟩
  simp only [List.range, List.range.loop, List.map]
  rw [key _ (by norm_num), key _ (by norm_num), key _ (by norm_num), key _ (by norm_num),
    key _ (by norm_num), key _ (by norm_num), key _ (by norm_num), key _ (by norm_num)]
  norm_num [ImageBuf.getchannel_clamp, clampInt, alternating8x1, ImageBuf.local_buffer,
    plain_spec, ImageSpec.empty]

/-- A read with Clamp wrap lands inside a non-empty pixel window. -/
theorem clamp_in_window (b : ImageBuf) (x y z : Int)
    (hw : 1 ≤ b.spec.width) (hh : 1 ≤ b.spec.height) (hd : 1 ≤ b.spec.depth) :
    (get_roi b.spec).containsPos (clampInt x b.spec.x (b.spec.x + b.spec.width - 1))
      (clampInt y b.spec.y (b.spec.y + b.spec.height - 1))
      (clampInt z b.spec.z (b.spec.z + b.spec.depth - 1)) = true := by
  simp only [ROI.containsPos, get_roi, clampInt, Bool.and_eq_true, decide_eq_true_eq]
  refine ⟨⟨⟨⟨⟨?_, ?_⟩, ?_⟩, ?_⟩, ?_⟩, ?_⟩ <;> split_ifs <;> omega

/-- A read with Clamp wrap at a position of the pixel window reads that
pixel. -/
theorem clamp_inside (b : ImageBuf) (x y z c : Int)
    (h : (get_roi b.spec).containsPos x y z = true) :
    b.getchannel_clamp x y z c = b.pixels x y z c := by
  simp only [ROI.containsPos, get_roi, Bool.and_eq_true, decide_eq_true_eq] at h
  unfold ImageBuf.getchannel_clamp clampInt
  rw [if_neg (by omega), if_neg (by omega), if_neg (by omega), if_neg (by omega),
    if_neg (by omega), if_neg (by omega)]

/-- C18: for a kernel whose pixel window holds the origin, with value 1 at
the origin and 0 at every other kernel pixel, `convolve_` with
`normalize = false` writes to every pixel and channel of the roi the source
value at that pixel and channel (read with Clamp wrap, so the source pixel
itself wherever the pixel lies in the pixel window of the source). -/
theorem convolve_impulse (split : ROI → Int → List ROI) (dst src kernel : ImageBuf)
    (r : ROI) (nthreads : Int) (x y z c : Int)
    (hr : r.defined = true) (ht : IsTiling (split r nthreads) r)
    (hpos : r.containsPos x y z = true)
    (hwin : (get_roi dst.spec).containsPos x y z = true)
    (hc : r.chbegin ≤ c ∧ c < r.chend)
    (horigin : (get_roi kernel.spec).containsPos 0 0 0 = true)
    (hone : kernel.pixels 0 0 0 0 = 1)
    (hzero : ∀ kx ky kz : Int, (get_roi kernel.spec).containsPos kx ky kz = true →
      ¬ (kx = 0 ∧ ky = 0 ∧ kz = 0) → kernel.pixels kx ky kz 0 = 0) :
    (convolve_ split dst src kernel false r nthreads).1.pixels x y z c =
      src.getchannel_clamp x y z c ∧
    ((get_roi src.spec).containsPos x y z = true →
      (convolve_ split dst src kernel false r nthreads).1.pixels x y z c =
        src.pixels x y z c) := by
  have hval : (convolve_ split dst src kernel false r nthreads).1.pixels x y z c =
      src.getchannel_clamp x y z c := by
    rw [(convolve__pixels split dst src kernel false r nthreads hr ht).2.2 x y z c,
      if_pos ⟨hpos, hwin, hc⟩]
    unfold convolve_colour
    rw [convolve_scale_eq, convolve_sum_eq, if_neg (by simp), one_mul]
    simp only [ROI.containsPos, get_roi, Bool.and_eq_true, decide_eq_true_eq] at horigin hzero
    rw [Finset.sum_eq_single 0, Finset.sum_eq_single 0, Finset.sum_eq_single 0]
    · rw [hone, one_mul, add_zero, add_zero, add_zero]
    · intro kx hkx hne
      rw [Finset.mem_Ico] at hkx
      rw [hzero kx 0 0 (by omega) (fun h => hne h.1), zero_mul]
    · intro h
      exact absurd (Finset.mem_Ico.mpr (by omega)) h
    · intro ky hky hne
      rw [Finset.mem_Ico] at hky
      apply Finset.sum_eq_zero
      intro kx hkx
      rw [Finset.mem_Ico] at hkx
      rw [hzero kx ky 0 (by omega) (fun h => hne h.2.1), zero_mul]
    · intro h
      exact absurd (Finset.mem_Ico.mpr (by omega)) h
    · intro kz hkz hne
      rw [Finset.mem_Ico] at hkz
      apply Finset.sum_eq_zero
      intro ky hky
      apply Finset.sum_eq_zero
      intro kx hkx
      rw [Finset.mem_Ico] at hkx hky
      rw [hzero kx ky kz (by omega) (fun h => hne h.2.2), zero_mul]
    · intro h
      exact absurd (Finset.mem_Ico.mpr (by omega)) h
  exact ⟨hval, fun hs => by rw [hval, clamp_inside src x y z c hs]⟩

/-- An instance of `convolve_impulse`: the 8 × 1 alternating image and the
3 × 3 impulse kernel, at the pixel `x = 3`. -/
theorem convolve_impulse_witness :
    (get_roi gray8x1.spec).defined = true ∧
    IsTiling (single_tile (get_roi gray8x1.spec) 1) (get_roi gray8x1.spec) ∧
    (get_roi gray8x1.spec).containsPos 3 0 0 = true ∧
    ((get_roi gray8x1.spec).chbegin ≤ 0 ∧ 0 < (get_roi gray8x1.spec).chend) ∧
    (get_roi impulse_kernel3.spec).containsPos 0 0 0 = true ∧
    impulse_kernel3.pixels 0 0 0 0 = 1 ∧
    (∀ kx ky kz : Int, (get_roi impulse_kernel3.spec).containsPos kx ky kz = true →
      ¬ (kx = 0 ∧ ky = 0 ∧ kz = 0) → impulse_kernel3.pixels kx ky kz 0 = 0) ∧
    (convolve_ single_tile gray8x1 alternating8x1 impulse_kernel3 false
      (get_roi gray8x1.spec) 1).1.pixels 3 0 0 0 = alternating8x1.getchannel_clamp 3 0 0 0 ∧
    ((get_roi alternating8x1.spec).containsPos 3 0 0 = true →
      (convolve_ single_tile gray8x1 alternating8x1 impulse_kernel3 false
        (get_roi gray8x1.spec) 1).1.pixels 3 0 0 0 = alternating8x1.pixels 3 0 0 0) :=
  ⟨rfl, single_tile_tiling _ _ rfl, by decide, by decide, by decide, by
      simp [impulse_kernel3, ImageBuf.local_buffer],
    fun kx ky kz _ h => by simp [impulse_kernel3, ImageBuf.local_buffer, h],
    convolve_impulse single_tile gray8x1 alternating8x1 impulse_kernel3
      (get_roi gray8x1.spec) 1 3 0 0 0 rfl (single_tile_tiling _ _ rfl) (by decide)
      (by decide) (by decide) (by decide) (by simp [impulse_kernel3, ImageBuf.local_buffer])
      (fun kx ky kz _ h => by simp [impulse_kernel3, ImageBuf.local_buffer, h])⟩

/-- C19: for a source whose (non-empty) pixel window holds one value `v` in
every pixel and a kernel with strictly positive entries (and at least one
pixel), `convolve_` with `normalize = true` writes `v` to every pixel and
channel of the roi, at the border too. -/
theorem convolve_constant (split : ROI → Int → List ROI) (dst src kernel : ImageBuf)
    (r : ROI) (nthreads : Int) (v : Int → ℚ) (x y z c : Int)
    (hr : r.defined = true) (ht : IsTiling (split r nthreads) r)
    (hpos : r.containsPos x y z = true)
    (hwin : (get_roi dst.spec).containsPos x y z = true)
    (hc : r.chbegin ≤ c ∧ c < r.chend)
    (hsw : 1 ≤ src.spec.width) (hsh : 1 ≤ src.spec.height) (hsd : 1 ≤ src.spec.depth)
    (hsrc : ∀ sx sy sz : Int, (get_roi src.spec).containsPos sx sy sz = true →
      src.pixels sx sy sz c = v c)
    (hkw : 1 ≤ kernel.spec.width) (hkh : 1 ≤ kernel.spec.height)
    (hkd : 1 ≤ kernel.spec.depth)
    (hkpos : ∀ kx ky kz : Int, (get_roi kernel.spec).containsPos kx ky kz = true →
      0 < kernel.pixels kx ky kz 0) :
    (convolve_ split dst src kernel true r nthreads).1.pixels x y z c = v c := by
  rw [(convolve__pixels split dst src kernel true r nthreads hr ht).2.2 x y z c,
    if_pos ⟨hpos, hwin, hc⟩]
  unfold convolve_colour
  rw [convolve_scale_eq, convolve_sum_eq, if_pos rfl]
  have hcl : ∀ sx sy sz : Int, src.getchannel_clamp sx sy sz c = v c := by
    intro sx sy sz
    unfold ImageBuf.getchannel_clamp
    exact hsrc _ _ _ (clamp_in_window src sx sy sz hsw hsh hsd)
  simp only [hcl, ← Finset.sum_mul]
  have hsum : 0 < ∑ kz ∈ Finset.Ico kernel.spec.z (kernel.spec.z + kernel.spec.depth),
      ∑ ky ∈ Finset.Ico kernel.spec.y (kernel.spec.y + kernel.spec.height),
        ∑ kx ∈ Finset.Ico kernel.spec.x (kernel.spec.x + kernel.spec.width),
          kernel.pixels kx ky kz 0 := by
    simp only [ROI.containsPos, get_roi, Bool.and_eq_true, decide_eq_true_eq] at hkpos
    apply Finset.sum_pos
    · intro kz hkz
      rw [Finset.mem_Ico] at hkz
      apply Finset.sum_pos
      · intro ky hky
        rw [Finset.mem_Ico] at hky
        apply Finset.sum_pos
        · intro kx hkx
          rw [Finset.mem_Ico] at hkx
          exact hkpos kx ky kz (by omega)
        · exact ⟨kernel.spec.x, Finset.mem_Ico.mpr (by omega)⟩
      · exact ⟨kernel.spec.y, Finset.mem_Ico.mpr (by omega)⟩
    · exact ⟨kernel.spec.z, Finset.mem_Ico.mpr (by omega)⟩
  field_simp

/-- An instance of `convolve_constant`: the flat 4 × 4 image and a positive
3 × 3 kernel, at the corner pixel `(0, 0)`. -/
theorem convolve_constant_witness :
    (get_roi gray4x4.spec).defined = true ∧
    IsTiling (single_tile (get_roi gray4x4.spec) 1) (get_roi gray4x4.spec) ∧
    (get_roi gray4x4.spec).containsPos 0 0 0 = true ∧
    ((get_roi gray4x4.spec).chbegin ≤ 0 ∧ 0 < (get_roi gray4x4.spec).chend) ∧
    (1 ≤ flat4x4.spec.width ∧ 1 ≤ flat4x4.spec.height ∧ 1 ≤ flat4x4.spec.depth) ∧
    (∀ sx sy sz : Int, (get_roi flat4x4.spec).containsPos sx sy sz = true →
      flat4x4.pixels sx sy sz 0 = (fun _ => 5 / 2) (0 : Int)) ∧
    (1 ≤ bowl_kernel3.spec.width ∧ 1 ≤ bowl_kernel3.spec.height ∧
      1 ≤ bowl_kernel3.spec.depth) ∧
    (∀ kx ky kz : Int, (get_roi bowl_kernel3.spec).containsPos kx ky kz = true →
      0 < bowl_kernel3.pixels kx ky kz 0) ∧
    (convolve_ single_tile gray4x4 flat4x4 bowl_kernel3 true (get_roi gray4x4.spec)
      1).1.pixels 0 0 0 0 = (fun _ => 5 / 2) (0 : Int) := by
  have hk : ∀ kx ky kz : Int, (get_roi bowl_kernel3.spec).containsPos kx ky kz = true →
      0 < bowl_kernel3.pixels kx ky kz 0 := by
    intro kx ky kz _
    show (0 : ℚ) < 1 + (kx : ℚ) * kx + (ky : ℚ) * ky
    nlinarith [mul_self_nonneg (kx : ℚ), mul_self_nonneg (ky : ℚ)]
  exact ⟨rfl, single_tile_tiling _ _ rfl, by decide, by decide,
    ⟨by decide, by decide, by decide⟩, fun _ _ _ _ => rfl,
    ⟨by decide, by decide, by decide⟩, hk,
    convolve_constant single_tile gray4x4 flat4x4 bowl_kernel3 (get_roi gray4x4.spec) 1
      (fun _ => 5 / 2) 0 0 0 0 rfl (single_tile_tiling _ _ rfl) (by decide) (by decide)
      (by decide) (by decide) (by decide) (by decide) (fun _ _ _ _ => rfl)
      (by decide) (by decide) (by decide) hk⟩

/-! ## Sums computed by the sampling loops -/

theorem pel_accum_fold {α : Type} (L : List α) (w : α → ℚ) (s : α → Int → ℚ) (n : Int)
    (pel : Int → ℚ) :
    L.foldl (fun pel p => pel_accum n pel (w p) (s p)) pel =
      fun c => if 0 ≤ c ∧ c < n then pel c + (L.map (fun p => w p * s p c)).sum
        else pel c := by
  induction L generalizing pel with
  | nil =>
    funext c
    simp
  | cons p L ih =>
    rw [List.foldl_cons, ih]
    funext c
    unfold pel_accum
    by_cases hc : 0 ≤ c ∧ c < n
    · simp only [hc, and_self, if_true, List.map_cons, List.sum_cons]
      ring
    · simp only [hc, if_false]

/-- The sums that the loop of `filtered_sample` accumulates. -/
theorem sample_fold {α : Type} (L : List α) (w : α → ℚ) (s : α → Int → ℚ) (n : Int)
    (acc : SampleSums) :
    L.foldl (fun (acc : SampleSums) p =>
        { sum := pel_accum n acc.sum (w p) (s p), total_w := acc.total_w + w p }) acc =
      { sum := fun c => if 0 ≤ c ∧ c < n then acc.sum c + (L.map (fun p => w p * s p c)).sum
          else acc.sum c,
        total_w := acc.total_w + (L.map w).sum } := by
  induction L generalizing acc with
  | nil =>
    simp
  | cons p L ih =>
    rw [List.foldl_cons, ih]
    congr 1
    · funext c
      unfold pel_accum
      by_cases hc : 0 ≤ c ∧ c < n
      · simp only [hc, and_self, if_true, List.map_cons, List.sum_cons]
        ring
      · simp only [hc, if_false]
    · simp only [List.map_cons, List.sum_cons]
      ring

/-- A sum taken in the order of an iterator over `[xb,xe) × [yb,ye)`, x
running fastest. -/
theorem sum_grid (xb xe yb ye : Int) (f : Int × Int → ℚ) :
    (((irange yb ye).flatMap fun (sy : Int) =>
        (irange xb xe).map fun (sx : Int) => (sx, sy)).map f).sum =
      ∑ sy ∈ Finset.Ico yb ye, ∑ sx ∈ Finset.Ico xb xe, f (sx, sy) := by
  rw [sum_map_flatMap, sum_irange]
  apply Finset.sum_congr rfl
  intro sy _
  rw [List.map_map, sum_irange]
  rfl

/-- A sum over a grid of a function that vanishes off one point of it. -/
theorem sum_grid_single (xb xe yb ye : Int) (f : Int × Int → ℚ) (x0 y0 : Int)
    (hx : xb ≤ x0 ∧ x0 < xe) (hy : yb ≤ y0 ∧ y0 < ye)
    (h0 : ∀ sx sy : Int, ¬ (sx = x0 ∧ sy = y0) → f (sx, sy) = 0) :
    ∑ sy ∈ Finset.Ico yb ye, ∑ sx ∈ Finset.Ico xb xe, f (sx, sy) = f (x0, y0) := by
  rw [Finset.sum_eq_single y0, Finset.sum_eq_single x0]
  · intro sx _ hne
    exact h0 sx y0 (fun h => hne h.1)
  · intro h
    exact absurd (Finset.mem_Ico.mpr hx) h
  · intro sy _ hne
    apply Finset.sum_eq_zero
    intro sx _
    exact h0 sx sy (fun h => hne h.2)
  · intro h
    exact absurd (Finset.mem_Ico.mpr hy) h

theorem identity_inverse : M33.identity.inverse = M33.identity := by
  unfold M33.inverse
  have hd : M33.identity.det = 1 := by norm_num [M33.det, M33.identity]
  rw [hd, if_neg one_ne_zero]
  simp [M33.identity]

/-- With the identity matrix `warp_` samples the source at the centre of the
destination pixel, with unit derivatives. -/
theorem warp_colour_identity (src : ImageBuf) (filter : Filter2D) (wrap : WrapMode)
    (x y z : Int) :
    warp_colour src M33.identity filter wrap (x, y, z) =
      fun c => if 0 ≤ c ∧ c < src.nchannels
        then filtered_sample src ((x : ℚ) + 1 / 2) ((y : ℚ) + 1 / 2) 1 0 0 1 filter wrap c
        else 0 := by
  unfold warp_colour
  rw [identity_inverse]
  have h : robust_multVecMatrix M33.identity
      { val := (x : ℚ) + 1 / 2, dx := 1, dy := 0 } { val := (y : ℚ) + 1 / 2, dx := 0, dy := 1 } =
      ({ val := (x : ℚ) + 1 / 2, dx := 1, dy := 0 }, { val := (y : ℚ) + 1 / 2, dx := 0, dy := 1 }) := by
    unfold robust_multVecMatrix
    simp [Dual2.add, Dual2.addf, Dual2.mulf, Dual2.div, M33.identity]
  simp only [h]

/-- With unit derivatives and a filter that is zero at every integer offset
but `(0, 0)`, where it is not zero, `filtered_sample` at the centre of the
pixel `(x, y)` returns the source pixel `(x, y, 0)` as the wrap mode reads
it. -/
theorem filtered_sample_interpolating (src : ImageBuf) (filter : Filter2D) (wrap : WrapMode)
    (x y c : Int) (hwd : 0 ≤ filter.width)
    (h00 : filter.eval 0 0 ≠ 0)
    (hint : ∀ k l : Int, ¬ (k = 0 ∧ l = 0) → filter.eval (k : ℚ) (l : ℚ) = 0)
    (hc : 0 ≤ c ∧ c < src.nchannels) :
    filtered_sample src ((x : ℚ) + 1 / 2) ((y : ℚ) + 1 / 2) 1 0 0 1 filter wrap c =
      src.getchannel_wrap wrap x y 0 c := by
  have hmax1 : max (1 : ℚ) (max |1| |0|) = 1 := by norm_num
  have hmax2 : max (1 : ℚ) (max |0| |1|) = 1 := by norm_num
  unfold filtered_sample
  simp only [hmax1, hmax2]
  rw [sample_fold _
    (fun (p : Int × Int) => filter.eval (1 / 1 * ((p.1 : ℚ) + 1 / 2 - ((x : ℚ) + 1 / 2)))
      (1 / 1 * ((p.2 : ℚ) + 1 / 2 - ((y : ℚ) + 1 / 2))))
    (fun (p : Int × Int) => fun c => src.getchannel_wrap wrap p.1 p.2 0 c)]
  simp only [zero_add]
  have hw : ∀ sx sy : Int,
      filter.eval (1 / 1 * ((sx : ℚ) + 1 / 2 - ((x : ℚ) + 1 / 2)))
        (1 / 1 * ((sy : ℚ) + 1 / 2 - ((y : ℚ) + 1 / 2))) =
      filter.eval (((sx - x : Int)) : ℚ) (((sy - y : Int)) : ℚ) := by
    intro sx sy
    congr 1 <;> (push_cast; ring)
  have hx : ⌊(x : ℚ) + 1 / 2 - 1 / 2 * 1 * filter.width⌋ ≤ x ∧
      x < ⌈(x : ℚ) + 1 / 2 + 1 / 2 * 1 * filter.width⌉ := by
    constructor
    · have : ⌊(x : ℚ) + 1 / 2 - 1 / 2 * 1 * filter.width⌋ < x + 1 := by
        rw [Int.floor_lt]
        push_cast
        linarith
      omega
    · rw [Int.lt_ceil]
      linarith
  have hy : ⌊(y : ℚ) + 1 / 2 - 1 / 2 * 1 * filter.width⌋ ≤ y ∧
      y < ⌈(y : ℚ) + 1 / 2 + 1 / 2 * 1 * filter.width⌉ := by
    constructor
    · have : ⌊(y : ℚ) + 1 / 2 - 1 / 2 * 1 * filter.width⌋ < y + 1 := by
        rw [Int.floor_lt]
        push_cast
        linarith
      omega
    · rw [Int.lt_ceil]
      linarith
  have hoff : ∀ sx sy : Int, ¬ (sx = x ∧ sy = y) →
      filter.eval (((sx - x : Int)) : ℚ) (((sy - y : Int)) : ℚ) = 0 := by
    intro sx sy hne
    apply hint
    intro h
    apply hne
    constructor <;> omega
  rw [sum_grid _ _ _ _ (fun (p : Int × Int) =>
      filter.eval (1 / 1 * ((p.1 : ℚ) + 1 / 2 - ((x : ℚ) + 1 / 2)))
        (1 / 1 * ((p.2 : ℚ) + 1 / 2 - ((y : ℚ) + 1 / 2)))),
    sum_grid _ _ _ _ (fun (p : Int × Int) =>
      filter.eval (1 / 1 * ((p.1 : ℚ) + 1 / 2 - ((x : ℚ) + 1 / 2)))
        (1 / 1 * ((p.2 : ℚ) + 1 / 2 - ((y : ℚ) + 1 / 2))) *
      src.getchannel_wrap wrap p.1 p.2 0 c)]
  simp only [hw]
  rw [sum_grid_single _ _ _ _ (fun (p : Int × Int) =>
      filter.eval (((p.1 - x : Int)) : ℚ) (((p.2 - y : Int)) : ℚ)) x y hx hy
      (fun sx sy hne => hoff sx sy hne),
    sum_grid_single _ _ _ _ (fun (p : Int × Int) =>
      filter.eval (((p.1 - x : Int)) : ℚ) (((p.2 - y : Int)) : ℚ) *
        src.getchannel_wrap wrap p.1 p.2 0 c) x y hx hy
      (fun sx sy hne => by
        show filter.eval (((sx - x : Int)) : ℚ) (((sy - y : Int)) : ℚ) *
          src.getchannel_wrap wrap sx sy 0 c = 0
        rw [hoff sx sy hne, zero_mul])]
  simp only [sub_self, Int.cast_zero]
  rw [if_pos h00, if_pos hc]
  field_simp

/-- A read at a position of the pixel window reads that pixel, whatever the
wrap mode. -/
theorem wrap_inside (b : ImageBuf) (wrap : WrapMode) (x y z c : Int)
    (h : (get_roi b.spec).containsPos x y z = true) :
    b.getchannel_wrap wrap x y z c = b.pixels x y z c := by
  simp only [ROI.containsPos, get_roi, Bool.and_eq_true, decide_eq_true_eq] at h
  unfold ImageBuf.getchannel_wrap wrap_coord
  rw [if_pos ⟨h.1.1.1.1.1, h.1.1.1.1.2⟩, if_pos ⟨h.1.1.1.2, h.1.1.2⟩, if_pos ⟨h.1.2, h.2⟩]

/-- C15 (as stated) fails: `warp_` with the identity matrix and the box
filter of width 3 turns the centre pixel of the 5 × 5 impulse image, whose
footprint `[1,4) × [1,4)` lies inside the pixel window, from 1 into 1/9. -/
theorem warp_identity_box_blurs :
    impulse5x5.pixels 2 2 0 0 = 1 ∧
    (warp_ single_tile gray5x5 impulse5x5 M33.identity (box_filter 3) WrapMode.WrapClamp
      (get_roi gray5x5.spec) 1).1.pixels 2 2 0 0 = 1 / 9 := by
  refine ⟨by simp [impulse5x5, ImageBuf.local_buffer], ?_⟩
  rw [(warp__pixels single_tile gray5x5 impulse5x5 M33.identity (box_filter 3)
    WrapMode.WrapClamp (get_roi gray5x5.spec) 1 rfl (single_tile_tiling _ _ rfl)).2.2 2 2 0 0,
    if_pos (by decide), warp_colour_identity]
  have hmax1 : max (1 : ℚ) (max |1| |0|) = 1 := by norm_num
  have hmax2 : max (1 : ℚ) (max |0| |1|) = 1 := by norm_num
  have hwd : (box_filter 3).width = 3 := rfl
  have hf : ⌊(((2 : Int) : ℚ) + 1 / 2 - 1 / 2 * 1 * 3)⌋ = 1 := by
    rw [Int.floor_eq_iff]
    norm_num
  have hcl : ⌈(((2 : Int) : ℚ) + 1 / 2 + 1 / 2 * 1 * 3)⌉ = 4 := by
    rw [Int.ceil_eq_iff]
    norm_num
  have hI : Finset.Ico (1 : Int) 4 = {1, 2, 3} := by decide
  simp only []
  rw [if_pos (by decide)]
  unfold filtered_sample
  simp only [hmax1, hmax2, hwd]
  rw [hf, hcl, sample_fold _
    (fun (p : Int × Int) => (box_filter 3).eval
      (1 / 1 * ((p.1 : ℚ) + 1 / 2 - (((2 : Int) : ℚ) + 1 / 2)))
      (1 / 1 * ((p.2 : ℚ) + 1 / 2 - (((2 : Int) : ℚ) + 1 / 2))))
    (fun (p : Int × Int) => fun c => impulse5x5.getchannel_wrap WrapMode.WrapClamp p.1 p.2 0 c)]
  simp only [zero_add]
  rw [sum_grid _ _ _ _ (fun (p : Int × Int) => (box_filter 3).eval
      (1 / 1 * ((p.1 : ℚ) + 1 / 2 - (((2 : Int) : ℚ) + 1 / 2)))
      (1 / 1 * ((p.2 : ℚ) + 1 / 2 - (((2 : Int) : ℚ) + 1 / 2)))),
    sum_grid _ _ _ _ (fun (p : Int × Int) => (box_filter 3).eval
      (1 / 1 * ((p.1 : ℚ) + 1 / 2 - (((2 : Int) : ℚ) + 1 / 2)))
      (1 / 1 * ((p.2 : ℚ) + 1 / 2 - (((2 : Int) : ℚ) + 1 / 2))) *
      impulse5x5.getchannel_wrap WrapMode.WrapClamp p.1 p.2 0 0), hI]
  simp only [Finset.sum_insert (show (1 : Int) ∉ ({2, 3} : Finset Int) by decide),
    Finset.sum_insert (show (2 : Int) ∉ ({3} : Finset Int) by decide), Finset.sum_singleton]
  norm_num [box_filter, ImageBuf.getchannel_wrap, wrap_coord, impulse5x5,
    ImageBuf.local_buffer, plain_spec, ImageSpec.empty, ImageBuf.nchannels, abs_le]

/-- C15 (amended): for a filter of non-negative width that is zero at every
integer offset except `(0, 0)`, where it is not zero, `warp_` with the
identity matrix writes to every pixel `(x, y, z)` of the roi, in every
channel of the roi that the source has, the source value at `(x, y, 0)` as
the wrap mode reads it, hence the source pixel itself wherever `(x, y, 0)`
lies in the pixel window of the source. -/
theorem warp_identity_interpolating (split : ROI → Int → List ROI) (dst src : ImageBuf)
    (filter : Filter2D) (wrap : WrapMode) (r : ROI) (nthreads : Int) (x y z c : Int)
    (hr : r.defined = true) (ht : IsTiling (split r nthreads) r)
    (hpos : r.containsPos x y z = true)
    (hwin : (get_roi dst.spec).containsPos x y z = true)
    (hc : r.chbegin ≤ c ∧ c < r.chend) (hsc : 0 ≤ c ∧ c < src.nchannels)
    (hwd : 0 ≤ filter.width) (h00 : filter.eval 0 0 ≠ 0)
    (hint : ∀ k l : Int, ¬ (k = 0 ∧ l = 0) → filter.eval (k : ℚ) (l : ℚ) = 0) :
    (warp_ split dst src M33.identity filter wrap r nthreads).1.pixels x y z c =
      src.getchannel_wrap wrap x y 0 c ∧
    ((get_roi src.spec).containsPos x y 0 = true →
      (warp_ split dst src M33.identity filter wrap r nthreads).1.pixels x y z c =
        src.pixels x y 0 c) := by
  have hval : (warp_ split dst src M33.identity filter wrap r nthreads).1.pixels x y z c =
      src.getchannel_wrap wrap x y 0 c := by
    rw [(warp__pixels split dst src M33.identity filter wrap r nthreads hr ht).2.2 x y z c,
      if_pos ⟨hpos, hwin, hc⟩, warp_colour_identity]
    simp only []
    rw [if_pos hsc, filtered_sample_interpolating src filter wrap x y c hwd h00 hint hsc]
  exact ⟨hval, fun hs => by rw [hval, wrap_inside src wrap x y 0 c hs]⟩

theorem triangle2_at_zero : (triangle_filter 2).eval 0 0 ≠ 0 := by
  norm_num [triangle_filter]

theorem triangle2_at_integers (k l : Int) (h : ¬ (k = 0 ∧ l = 0)) :
    (triangle_filter 2).eval (k : ℚ) (l : ℚ) = 0 := by
  have hz : ∀ m : Int, m ≠ 0 → ¬ (|(m : ℚ)| < 2 / 2) := by
    intro m hm hlt
    have h1 : (1 : ℚ) ≤ |(m : ℚ)| := by
      have := Int.one_le_abs hm
      exact_mod_cast this
    norm_num at hlt
    linarith
  show (if |(k : ℚ)| < 2 / 2 then 1 - |(k : ℚ)| / (2 / 2) else 0) *
      (if |(l : ℚ)| < 2 / 2 then 1 - |(l : ℚ)| / (2 / 2) else 0) = 0
  by_cases hk : k = 0
  · have hl : l ≠ 0 := fun hl => h ⟨hk, hl⟩
    rw [if_neg (hz l hl), mul_zero]
  · rw [if_neg (hz k hk), zero_mul]

/-- An instance of `warp_identity_interpolating`: the 5 × 5 impulse image
warped by the identity with the triangle filter of width 2, at its centre. -/
theorem warp_identity_interpolating_witness :
    (get_roi gray5x5.spec).defined = true ∧
    IsTiling (single_tile (get_roi gray5x5.spec) 1) (get_roi gray5x5.spec) ∧
    (get_roi gray5x5.spec).containsPos 2 2 0 = true ∧
    ((get_roi gray5x5.spec).chbegin ≤ 0 ∧ 0 < (get_roi gray5x5.spec).chend) ∧
    ((0 : Int) ≤ 0 ∧ 0 < impulse5x5.nchannels) ∧
    0 ≤ (triangle_filter 2).width ∧ (triangle_filter 2).eval 0 0 ≠ 0 ∧
    (∀ k l : Int, ¬ (k = 0 ∧ l = 0) → (triangle_filter 2).eval (k : ℚ) (l : ℚ) = 0) ∧
    (warp_ single_tile gray5x5 impulse5x5 M33.identity (triangle_filter 2)
      WrapMode.WrapBlack (get_roi gray5x5.spec) 1).1.pixels 2 2 0 0 =
      impulse5x5.getchannel_wrap WrapMode.WrapBlack 2 2 0 0 ∧
    ((get_roi impulse5x5.spec).containsPos 2 2 0 = true →
      (warp_ single_tile gray5x5 impulse5x5 M33.identity (triangle_filter 2)
        WrapMode.WrapBlack (get_roi gray5x5.spec) 1).1.pixels 2 2 0 0 =
        impulse5x5.pixels 2 2 0 0) :=
  ⟨rfl, single_tile_tiling _ _ rfl, by decide, by decide, by decide,
    by norm_num [triangle_filter], triangle2_at_zero, triangle2_at_integers,
    warp_identity_interpolating single_tile gray5x5 impulse5x5 (triangle_filter 2)
      WrapMode.WrapBlack (get_roi gray5x5.spec) 1 2 2 0 0 rfl (single_tile_tiling _ _ rfl)
      (by decide) (by decide) (by decide) (by decide) (by norm_num [triangle_filter])
      triangle2_at_zero triangle2_at_integers⟩

/-! ## Properties of `resize`: the separable path as a sum -/

theorem getD_map_irange (n : Int) (f : Int → ℚ) (i : Int) (hi : 0 ≤ i ∧ i < n) :
    ((irange 0 n).map f).getD i.toNat 0 = f i := by
  unfold irange
  rw [List.map_map, List.getD_eq_getElem?_getD, List.getElem?_map,
    List.getElem?_range (by omega)]
  simp
  congr 1
  omega

theorem irange_cons (a b : Int) (h : a < b) : irange a b = a :: irange (a + 1) b := by
  unfold irange
  have : (b - a).toNat = (b - (a + 1)).toNat + 1 := by omega
  rw [this, List.range_succ_eq_map, List.map_cons, List.map_map]
  simp only [Nat.cast_zero, add_zero, List.cons.injEq, true_and]
  apply List.map_congr_left
  intro k _
  simp only [Function.comp, Nat.cast_succ]
  omega

theorem sum_weights_eq (n : Int) (f : Int → ℚ) :
    sum_weights ((irange 0 n).map f) = ∑ i ∈ Finset.Ico 0 n, f i := by
  unfold sum_weights
  rw [foldl_add_eq_sum _ (fun (w : ℚ) => w), zero_add, List.map_id', sum_irange]

/-- A loop that adds to `pel`, for each element of a list, a contribution
that does not depend on `pel`. -/
theorem pel_add_fold {α : Type} (L : List α) (n : Int) (contrib : α → Int → ℚ)
    (pel : Int → ℚ) :
    L.foldl (fun pel a => fun c => if 0 ≤ c ∧ c < n then pel c + contrib a c else pel c) pel =
      fun c => if 0 ≤ c ∧ c < n then pel c + (L.map (fun a => contrib a c)).sum
        else pel c := by
  induction L generalizing pel with
  | nil =>
    funext c
    simp
  | cons a L ih =>
    rw [List.foldl_cons, ih]
    funext c
    by_cases hc : 0 ≤ c ∧ c < n
    · simp only [hc, and_self, if_true, List.map_cons, List.sum_cons]
      ring
    · simp only [hc, if_false]

/-- The totals of the separable path. -/
theorem resize_separable_totals (src : ImageBuf) (filter : Filter2D) (g : ResizeLocals)
    (x y : Int) (hsep : filter.separable = true) :
    (resize_yweights filter g y).totalweight_y =
      ∑ j ∈ Finset.Ico 0 g.ytaps, ytap_weight filter g y j ∧
    (resize_separable_pixel src filter g (resize_yweights filter g y) x).totalweight_x =
      ∑ i ∈ Finset.Ico 0 g.xtaps, xtap_weight filter g x i := by
  constructor
  · unfold resize_yweights
    dsimp only
    rw [if_pos hsep]
    exact sum_weights_eq g.ytaps (fun j => ytap_weight filter g y j)
  · unfold resize_separable_pixel
    exact sum_weights_eq g.xtaps (fun i => xtap_weight filter g x i)

/-- The value that the separable path of `resize_` writes, as a double sum
over the taps. -/
theorem resize_separable_out (src : ImageBuf) (filter : Filter2D) (g : ResizeLocals)
    (x y c : Int) (hsep : filter.separable = true)
    (hty : g.ytaps = 2 * g.radj + 1)
    (hc : 0 ≤ c ∧ c < g.nchannels) :
    (resize_separable_pixel src filter g (resize_yweights filter g y) x).out c =
      if (∑ j ∈ Finset.Ico 0 g.ytaps, ytap_weight filter g y j) = 0 then 0
      else if (∑ i ∈ Finset.Ico 0 g.xtaps, xtap_weight filter g x i) ≠ 0 then
        ∑ j ∈ Finset.Ico (-g.radj) (g.radj + 1), ∑ i ∈ Finset.Ico 0 g.xtaps,
          (ytap_weight filter g y (j + g.radj) /
              ∑ j ∈ Finset.Ico 0 g.ytaps, ytap_weight filter g y j) *
            (xtap_weight filter g x i /
              ∑ i ∈ Finset.Ico 0 g.xtaps, xtap_weight filter g x i) *
            src.getchannel_clamp ((resize_src_x g x).2 - g.radi + i)
              ((resize_src_y g y).2 + j) 0 c
      else 0 := by
  have hT := resize_separable_totals src filter g x y hsep
  have hyw : (resize_yweights filter g y).yfiltval =
      (irange 0 g.ytaps).map (fun (j : Int) => ytap_weight filter g y j /
        ∑ j ∈ Finset.Ico 0 g.ytaps, ytap_weight filter g y j) := by
    rw [← hT.1]
    unfold resize_yweights
    dsimp only
    rw [if_pos hsep]
    dsimp only
    rw [List.map_map]
    rfl
  have hsy : (resize_yweights filter g y).src_y = (resize_src_y g y).2 := by
    unfold resize_yweights
    dsimp only
    rw [if_pos hsep]
    rfl
  have hout : (resize_separable_pixel src filter g (resize_yweights filter g y) x).out c =
      if (resize_yweights filter g y).totalweight_y = 0 then 0
      else (if (resize_separable_pixel src filter g (resize_yweights filter g y)
            x).totalweight_x ≠ 0 then
          (irange (-g.radj) (g.radj + 1)).foldl
            (fun pel (j : Int) =>
              if (resize_yweights filter g y).yfiltval.getD (j + g.radj).toNat 0 = 0 then pel
              else
                (irange 0 g.xtaps).foldl
                  (fun pel (i : Int) =>
                    pel_accum g.nchannels pel
                      ((resize_yweights filter g y).yfiltval.getD (j + g.radj).toNat 0 *
                        (((irange 0 g.xtaps).map (fun (i : Int) =>
                          xtap_weight filter g x i)).map (fun w => w /
                            (resize_separable_pixel src filter g (resize_yweights filter g y)
                              x).totalweight_x)).getD i.toNat 0)
                      (fun c => src.getchannel_clamp ((resize_src_x g x).2 - g.radi + i)
                        ((resize_yweights filter g y).src_y + j) 0 c))
                  pel)
            (fun _ => 0)
        else (fun _ => 0)) c := rfl
  rw [hout, hT.1, hT.2, hyw, hsy]
  by_cases hy0 : (∑ j ∈ Finset.Ico 0 g.ytaps, ytap_weight filter g y j) = 0
  · rw [if_pos hy0, if_pos hy0]
  · rw [if_neg hy0, if_neg hy0]
    by_cases hx0 : (∑ i ∈ Finset.Ico 0 g.xtaps, xtap_weight filter g x i) ≠ 0
    · rw [if_pos hx0, if_pos hx0]
      have hstep : (fun (pel : Int → ℚ) (j : Int) =>
          if ((irange 0 g.ytaps).map (fun (j : Int) => ytap_weight filter g y j /
              ∑ j ∈ Finset.Ico 0 g.ytaps, ytap_weight filter g y j)).getD
                (j + g.radj).toNat 0 = 0 then pel
          else
            (irange 0 g.xtaps).foldl
              (fun pel (i : Int) =>
                pel_accum g.nchannels pel
                  (((irange 0 g.ytaps).map (fun (j : Int) => ytap_weight filter g y j /
                      ∑ j ∈ Finset.Ico 0 g.ytaps, ytap_weight filter g y j)).getD
                        (j + g.radj).toNat 0 *
                    (((irange 0 g.xtaps).map (fun (i : Int) =>
                      xtap_weight filter g x i)).map (fun w => w /
                        ∑ i ∈ Finset.Ico 0 g.xtaps, xtap_weight filter g x i)).getD i.toNat 0)
                  (fun c => src.getchannel_clamp ((resize_src_x g x).2 - g.radi + i)
                    ((resize_src_y g y).2 + j) 0 c))
              pel) =
          (fun (pel : Int → ℚ) (j : Int) => fun c =>
            if 0 ≤ c ∧ c < g.nchannels then
              pel c + ((irange 0 g.xtaps).map (fun (i : Int) =>
                ((irange 0 g.ytaps).map (fun (j : Int) => ytap_weight filter g y j /
                    ∑ j ∈ Finset.Ico 0 g.ytaps, ytap_weight filter g y j)).getD
                      (j + g.radj).toNat 0 *
                  (((irange 0 g.xtaps).map (fun (i : Int) =>
                    xtap_weight filter g x i)).map (fun w => w /
                      ∑ i ∈ Finset.Ico 0 g.xtaps, xtap_weight filter g x i)).getD i.toNat 0 *
                  src.getchannel_clamp ((resize_src_x g x).2 - g.radi + i)
                    ((resize_src_y g y).2 + j) 0 c)).sum
            else pel c) := by
        funext pel j
        rw [pel_accum_fold]
        split_ifs with hz
        · funext c
          split_ifs with hcc
          · simp only [hz, zero_mul, List.map_const', List.sum_replicate, smul_zero, add_zero]
          · rfl
        · rfl
      rw [hstep, pel_add_fold]
      dsimp only
      rw [if_pos hc, zero_add, sum_irange]
      apply Finset.sum_congr rfl
      intro j hj
      rw [Finset.mem_Ico] at hj
      rw [sum_irange]
      apply Finset.sum_congr rfl
      intro i hi
      rw [Finset.mem_Ico] at hi
      rw [getD_map_irange _ _ _ (by omega), List.map_map, getD_map_irange _ _ _ hi]
      rfl
    · rw [if_neg hx0, if_neg hx0]

theorem foldl_flatMap_eq {α β σ : Type} (f : σ → β → σ) (g : α → List β) (L : List α)
    (s : σ) :
    (L.flatMap g).foldl f s = L.foldl (fun s a => (g a).foldl f s) s := by
  induction L generalizing s with
  | nil => rfl
  | cons a L ih =>
    rw [List.flatMap_cons, List.foldl_append, ih, List.foldl_cons]

/-- One pass of the inner loop of the non-separable path while `srcpel`
stands on a pixel. -/
theorem nonsep_step_some (src : ImageBuf) (nchannels xbegin xend ybegin yend : Int)
    (st : NonSepState) (w : ℚ) (p : Int × Int) (h : st.srcpel = some p) :
    nonsep_step src nchannels xbegin xend ybegin yend st w =
      { pel := pel_accum nchannels st.pel w (fun c => src.getchannel_clamp p.1 p.2 0 c),
        totalweight := st.totalweight + w,
        srcpel := cursor_next xbegin xend ybegin yend (some p),
        reads_ok := st.reads_ok } := by
  unfold nonsep_step
  by_cases hw : w = 0
  · rw [if_pos hw, h]
    have : st.pel = pel_accum nchannels st.pel w
        (fun c => src.getchannel_clamp p.1 p.2 0 c) := by
      funext c
      unfold pel_accum
      rw [hw, zero_mul, add_zero, ite_self]
    rw [← this]
  · rw [if_neg hw, h]

/-- One row of taps of the non-separable path, started with `srcpel` on the
pixel `(src_x + a, cy)` of a row of its range: the row is read left to
right and `srcpel` ends at the start of the next row of the range, or
finished when there is none. -/
theorem nonsep_row (src : ImageBuf) (nchannels src_x radi ybegin yend cy : Int)
    (W : Int → ℚ) (k : Nat) :
    ∀ (a : Int) (st : NonSepState), radi - a = k →
      st.srcpel = some (src_x + a, cy) →
      (irange a (radi + 1)).foldl
          (fun st (i : Int) =>
            nonsep_step src nchannels (src_x - radi) (src_x + radi + 1) ybegin yend st (W i))
          st =
        { pel := fun c => if 0 ≤ c ∧ c < nchannels then
              st.pel c + ((irange a (radi + 1)).map
                (fun (i : Int) => W i * src.getchannel_clamp (src_x + i) cy 0 c)).sum
            else st.pel c,
          totalweight := st.totalweight + ((irange a (radi + 1)).map W).sum,
          srcpel := if cy + 1 < yend then some (src_x - radi, cy + 1) else none,
          reads_ok := st.reads_ok } := by
  induction k with
  | zero =>
    intro a st ha hst
    have hra : a = radi := by omega
    subst hra
    rw [irange_cons a (a + 1) (by omega)]
    have he : irange (a + 1) (a + 1) = [] := by
      unfold irange
      simp
    rw [he, List.foldl_cons, List.foldl_nil, nonsep_step_some _ _ _ _ _ _ _ _ _ hst]
    simp only [List.map_cons, List.map_nil, List.sum_cons, List.sum_nil, add_zero]
    congr 1
    unfold cursor_next
    dsimp only
    rw [if_neg (by omega)]
  | succ k ih =>
    intro a st ha hst
    rw [irange_cons a (radi + 1) (by omega), List.foldl_cons,
      nonsep_step_some _ _ _ _ _ _ _ _ _ hst]
    have hn : cursor_next (src_x - radi) (src_x + radi + 1) ybegin yend (some (src_x + a, cy)) =
        some (src_x + (a + 1), cy) := by
      unfold cursor_next
      dsimp only
      rw [if_pos (by omega), add_assoc]
    rw [ih (a + 1) _ (by omega) (by rw [hn])]
    simp only [List.map_cons, List.sum_cons]
    congr 1
    · funext c
      unfold pel_accum
      by_cases hc : 0 ≤ c ∧ c < nchannels
      · rw [if_pos hc, if_pos hc, if_pos hc, add_assoc]
      · rw [if_neg hc, if_neg hc, if_neg hc]
    · rw [add_assoc]
/-- The rows `b .. radj` of taps of the non-separable path, started with
`srcpel` on the first pixel of the row `cy` of its range, when the range has
a row for each of them: row `j` of taps is read from the row `cy + (j - b)`
of the source. -/
theorem nonsep_rows (src : ImageBuf) (nchannels src_x radi radj ybegin yend : Int)
    (W : Int × Int → ℚ) (hri : 0 ≤ radi) (k : Nat) :
    ∀ (b cy : Int) (st : NonSepState), radj - b = k →
      st.srcpel = some (src_x - radi, cy) → cy + (radj - b) < yend →
      (irange b (radj + 1)).foldl
          (fun st (j : Int) =>
            (irange (-radi) (radi + 1)).foldl
              (fun st (i : Int) =>
                nonsep_step src nchannels (src_x - radi) (src_x + radi + 1) ybegin yend st
                  (W (i, j)))
              st)
          st =
        { pel := fun c => if 0 ≤ c ∧ c < nchannels then
              st.pel c + ((irange b (radj + 1)).map (fun (j : Int) =>
                ((irange (-radi) (radi + 1)).map (fun (i : Int) =>
                  W (i, j) * src.getchannel_clamp (src_x + i) (cy + (j - b)) 0 c)).sum)).sum
            else st.pel c,
          totalweight := st.totalweight + ((irange b (radj + 1)).map (fun (j : Int) =>
            ((irange (-radi) (radi + 1)).map (fun (i : Int) => W (i, j))).sum)).sum,
          srcpel := if cy + (radj - b) + 1 < yend then some (src_x - radi, cy + (radj - b) + 1)
            else none,
          reads_ok := st.reads_ok } := by
  induction k with
  | zero =>
    intro b cy st hb hst hy
    have hrb : b = radj := by omega
    subst hrb
    rw [irange_cons b (b + 1) (by omega)]
    have he : irange (b + 1) (b + 1) = [] := by
      unfold irange
      simp
    rw [he, List.foldl_cons, List.foldl_nil,
      nonsep_row src nchannels src_x radi ybegin yend cy (fun i => W (i, b))
        (radi - -radi).toNat (-radi) st (by omega) (by rw [hst]; congr 1)]
    simp only [List.map_cons, List.map_nil, List.sum_cons, List.sum_nil, add_zero, sub_self]
  | succ k ih =>
    intro b cy st hb hst hy
    rw [irange_cons b (radj + 1) (by omega), List.foldl_cons,
      nonsep_row src nchannels src_x radi ybegin yend cy (fun i => W (i, b))
        (radi - -radi).toNat (-radi) st (by omega) (by rw [hst]; congr 1)]
    rw [if_pos (by omega)]
    rw [ih (b + 1) (cy + 1) _ (by omega) rfl (by omega)]
    simp only [List.map_cons, List.sum_cons, sub_self, add_zero]
    have hmap : ∀ c : Int, (irange (b + 1) (radj + 1)).map (fun (j : Int) =>
          ((irange (-radi) (radi + 1)).map (fun (i : Int) =>
            W (i, j) * src.getchannel_clamp (src_x + i) (cy + 1 + (j - (b + 1))) 0 c)).sum) =
        (irange (b + 1) (radj + 1)).map (fun (j : Int) =>
          ((irange (-radi) (radi + 1)).map (fun (i : Int) =>
            W (i, j) * src.getchannel_clamp (src_x + i) (cy + (j - b)) 0 c)).sum) := by
      intro c
      apply List.map_congr_left
      intro j _
      have : cy + 1 + (j - (b + 1)) = cy + (j - b) := by ring
      rw [this]
    congr 1
    · funext c
      by_cases hc : 0 ≤ c ∧ c < nchannels
      · rw [if_pos hc, if_pos hc, if_pos hc, hmap, add_assoc]
      · rw [if_neg hc, if_neg hc, if_neg hc]
    · rw [add_assoc]
    · have e1 : cy + 1 + (radj - (b + 1)) + 1 = cy + (radj - b) + 1 := by ring
      rw [e1]

/-- The value that the non-separable path of `resize_` writes when its
iterator has a row for every row of taps (`radj ≤ radi`): the weighted sum
over the taps divided by the total weight, row `j` of taps being read from
the row `src_y - radi + radj + j` of the source. -/
theorem resize_nonseparable_out (src : ImageBuf) (filter : Filter2D) (g : ResizeLocals)
    (x y : Int) (hri : 0 ≤ g.radi) (hrj : 0 ≤ g.radj) (hle : g.radj ≤ g.radi) :
    resize_nonseparable_pixel src filter g x y =
      some (fun c =>
        if (∑ j ∈ Finset.Ico (-g.radj) (g.radj + 1), ∑ i ∈ Finset.Ico (-g.radi) (g.radi + 1),
            tap_weight filter g x y (i, j)) = 0 then 0
        else (if 0 ≤ c ∧ c < g.nchannels then
            ∑ j ∈ Finset.Ico (-g.radj) (g.radj + 1), ∑ i ∈ Finset.Ico (-g.radi) (g.radi + 1),
              tap_weight filter g x y (i, j) *
                src.getchannel_clamp ((resize_src_x g x).2 + i)
                  ((resize_src_y g y).2 - g.radi + g.radj + j) 0 c
          else 0) /
          (∑ j ∈ Finset.Ico (-g.radj) (g.radj + 1), ∑ i ∈ Finset.Ico (-g.radi) (g.radi + 1),
            tap_weight filter g x y (i, j))) := by
  have hdef : resize_nonseparable_pixel src filter g x y =
      (fun (st : NonSepState) =>
        if st.reads_ok then
          some (fun c => if st.totalweight = 0 then 0 else st.pel c / st.totalweight)
        else none)
      ((nonsep_taps g.radi g.radj).foldl
        (fun st (ij : Int × Int) =>
          nonsep_step src g.nchannels ((resize_src_x g x).2 - g.radi)
            ((resize_src_x g x).2 + g.radi + 1)
            ((resize_src_y g y).2 - g.radi) ((resize_src_y g y).2 + g.radi + 1) st
            (tap_weight filter g x y ij))
        { pel := fun _ => 0, totalweight := 0,
          srcpel := cursor_start ((resize_src_x g x).2 - g.radi)
            ((resize_src_x g x).2 + g.radi + 1)
            ((resize_src_y g y).2 - g.radi) ((resize_src_y g y).2 + g.radi + 1),
          reads_ok := true }) := rfl
  rw [hdef]
  unfold nonsep_taps
  rw [foldl_flatMap_eq]
  simp only [List.foldl_map]
  have hcs : cursor_start ((resize_src_x g x).2 - g.radi) ((resize_src_x g x).2 + g.radi + 1)
      ((resize_src_y g y).2 - g.radi) ((resize_src_y g y).2 + g.radi + 1) =
        some ((resize_src_x g x).2 - g.radi, (resize_src_y g y).2 - g.radi) := by
    unfold cursor_start
    rw [if_pos (by constructor <;> omega)]
  rw [nonsep_rows src g.nchannels (resize_src_x g x).2 g.radi g.radj
    ((resize_src_y g y).2 - g.radi) ((resize_src_y g y).2 + g.radi + 1)
    (tap_weight filter g x y) hri (g.radj - -g.radj).toNat (-g.radj)
    ((resize_src_y g y).2 - g.radi) _ (by omega) hcs (by omega)]
  dsimp only
  rw [if_pos rfl, zero_add, sum_irange]
  have hin : ∀ j : Int, ((irange (-g.radi) (g.radi + 1)).map (fun (i : Int) =>
      tap_weight filter g x y (i, j))).sum =
        ∑ i ∈ Finset.Ico (-g.radi) (g.radi + 1), tap_weight filter g x y (i, j) := by
    intro j
    rw [sum_irange]
  simp only [hin]
  congr 1
  funext c
  by_cases h0 : (∑ j ∈ Finset.Ico (-g.radj) (g.radj + 1),
      ∑ i ∈ Finset.Ico (-g.radi) (g.radi + 1), tap_weight filter g x y (i, j)) = 0
  · rw [if_pos h0, if_pos h0]
  · rw [if_neg h0, if_neg h0]
    congr 1
    by_cases hc : 0 ≤ c ∧ c < g.nchannels
    · rw [if_pos hc, if_pos hc, zero_add, sum_irange]
      apply Finset.sum_congr rfl
      intro j _
      rw [sum_irange]
      apply Finset.sum_congr rfl
      intro i _
      have : (resize_src_y g y).2 - g.radi + (j - -g.radj) =
          (resize_src_y g y).2 - g.radi + g.radj + j := by ring
      rw [this]
    · rw [if_neg hc, if_neg hc]

/-! ## Properties of `resize`: equal display windows -/

theorem floor_int_add_half (x : Int) : ⌊(x : ℚ) + 1 / 2⌋ = x := by
  rw [Int.floor_eq_iff]
  constructor <;> linarith

/-- The locals and source positions of `resize_` when the destination has
the display window of the source: both ratios are 1, both radii are
`⌈width/2⌉`, and the destination pixel `(x, y)` maps to the centre of the
source pixel `(x, y)`. -/
theorem resize_identity_locals (dstspec srcspec : ImageSpec) (filter : Filter2D)
    (hfx : dstspec.full_x = srcspec.full_x) (hfy : dstspec.full_y = srcspec.full_y)
    (hfw : dstspec.full_width = srcspec.full_width)
    (hfh : dstspec.full_height = srcspec.full_height)
    (hw : srcspec.full_width ≠ 0) (hh : srcspec.full_height ≠ 0) (x y : Int) :
    (resize_locals dstspec srcspec filter).xratio = 1 ∧
    (resize_locals dstspec srcspec filter).yratio = 1 ∧
    (resize_locals dstspec srcspec filter).radi = ⌈filter.width / 2⌉ ∧
    (resize_locals dstspec srcspec filter).radj = ⌈filter.width / 2⌉ ∧
    (resize_locals dstspec srcspec filter).xtaps = 2 * ⌈filter.width / 2⌉ + 1 ∧
    (resize_locals dstspec srcspec filter).ytaps = 2 * ⌈filter.width / 2⌉ + 1 ∧
    (resize_locals dstspec srcspec filter).nchannels = dstspec.nchannels ∧
    resize_src_x (resize_locals dstspec srcspec filter) x = (1 / 2, x) ∧
    resize_src_y (resize_locals dstspec srcspec filter) y = (1 / 2, y) := by
  have hwq : (srcspec.full_width : ℚ) ≠ 0 := by exact_mod_cast hw
  have hhq : (srcspec.full_height : ℚ) ≠ 0 := by exact_mod_cast hh
  have hxr : ((dstspec.full_width : ℚ)) / (srcspec.full_width : ℚ) = 1 := by
    rw [hfw, div_self hwq]
  have hyr : ((dstspec.full_height : ℚ)) / (srcspec.full_height : ℚ) = 1 := by
    rw [hfh, div_self hhq]
  have hsx : ((srcspec.full_x : ℚ) + (((x : ℚ) - (dstspec.full_x : ℚ) + 1 / 2) *
      (1 / (dstspec.full_width : ℚ))) * (srcspec.full_width : ℚ)) = (x : ℚ) + 1 / 2 := by
    rw [hfx, hfw]
    field_simp
    ring
  have hsy : ((srcspec.full_y : ℚ) + (((y : ℚ) - (dstspec.full_y : ℚ) + 1 / 2) *
      (1 / (dstspec.full_height : ℚ))) * (srcspec.full_height : ℚ)) = (y : ℚ) + 1 / 2 := by
    rw [hfy, hfh]
    field_simp
    ring
  refine ⟨hxr, hyr, ?_, ?_, ?_, ?_, rfl, ?_, ?_⟩
  · show ⌈filter.width / 2 / ((dstspec.full_width : ℚ) / (srcspec.full_width : ℚ))⌉ = _
    rw [hxr, div_one]
  · show ⌈filter.width / 2 / ((dstspec.full_height : ℚ) / (srcspec.full_height : ℚ))⌉ = _
    rw [hyr, div_one]
  · show 2 * ⌈filter.width / 2 / ((dstspec.full_width : ℚ) / (srcspec.full_width : ℚ))⌉ + 1 = _
    rw [hxr, div_one]
  · show 2 * ⌈filter.width / 2 / ((dstspec.full_height : ℚ) / (srcspec.full_height : ℚ))⌉ + 1
      = _
    rw [hyr, div_one]
  · show floorfrac ((srcspec.full_x : ℚ) + (((x : ℚ) - (dstspec.full_x : ℚ) + 1 / 2) *
      (1 / (dstspec.full_width : ℚ))) * (srcspec.full_width : ℚ)) = _
    rw [hsx]
    unfold floorfrac
    rw [floor_int_add_half]
    congr 1
    ring
  · show floorfrac ((srcspec.full_y : ℚ) + (((y : ℚ) - (dstspec.full_y : ℚ) + 1 / 2) *
      (1 / (dstspec.full_height : ℚ))) * (srcspec.full_height : ℚ)) = _
    rw [hsy]
    unfold floorfrac
    rw [floor_int_add_half]
    congr 1
    ring

/-- With equal display windows the taps of `resize_` fall on integer
offsets: the weights are the filter evaluated at integers. -/
theorem resize_identity_weights (dstspec srcspec : ImageSpec) (filter : Filter2D)
    (hfx : dstspec.full_x = srcspec.full_x) (hfy : dstspec.full_y = srcspec.full_y)
    (hfw : dstspec.full_width = srcspec.full_width)
    (hfh : dstspec.full_height = srcspec.full_height)
    (hw : srcspec.full_width ≠ 0) (hh : srcspec.full_height ≠ 0) (x y : Int) :
    (∀ i : Int, xtap_weight filter (resize_locals dstspec srcspec filter) x i =
      filter.xfilt ((i - ⌈filter.width / 2⌉ : Int) : ℚ)) ∧
    (∀ j : Int, ytap_weight filter (resize_locals dstspec srcspec filter) y j =
      filter.yfilt ((j - ⌈filter.width / 2⌉ : Int) : ℚ)) ∧
    (∀ i j : Int, tap_weight filter (resize_locals dstspec srcspec filter) x y (i, j) =
      filter.eval (i : ℚ) (j : ℚ)) := by
  obtain ⟨h1, h2, h3, h4, _, _, _, h8, h9⟩ :=
    resize_identity_locals dstspec srcspec filter hfx hfy hfw hfh hw hh x y
  refine ⟨?_, ?_, ?_⟩
  · intro i
    unfold xtap_weight
    rw [h1, h3, h8]
    congr 1
    push_cast
    ring
  · intro j
    unfold ytap_weight
    rw [h2, h4, h9]
    congr 1
    push_cast
    ring
  · intro i j
    unfold tap_weight
    rw [h1, h2, h8, h9]
    congr 1 <;> ring

theorem ceil_half_width_nonneg (filter : Filter2D) (h : 0 ≤ filter.width) :
    0 ≤ ⌈filter.width / 2⌉ := by
  apply Int.ceil_nonneg
  linarith

/-- C12 (as stated) fails: resizing the 5 × 5 impulse image into a
destination with the same display window with the box filter of width 3
turns the centre pixel, whose footprint `[0,5) × [0,5)` (radius 2) lies
inside the pixel window, from 1 into 1/9. -/
theorem resize_identity_box_blurs :
    impulse5x5.pixels 2 2 0 0 = 1 ∧
    (resize_locals (plain_spec 0 0 5 5 1) impulse5x5.spec (box_filter 3)).xratio = 1 ∧
    (resize_locals (plain_spec 0 0 5 5 1) impulse5x5.spec (box_filter 3)).yratio = 1 ∧
    (resize_locals (plain_spec 0 0 5 5 1) impulse5x5.spec (box_filter 3)).radi = 2 ∧
    (resize_locals (plain_spec 0 0 5 5 1) impulse5x5.spec (box_filter 3)).radj = 2 ∧
    (resize_pixel impulse5x5 (box_filter 3)
      (resize_locals (plain_spec 0 0 5 5 1) impulse5x5.spec (box_filter 3)) 2 2).map
        (fun out => out 0) = some (1 / 9) ∧
    ¬ |(1 / 9 : ℚ) - impulse5x5.pixels 2 2 0 0| ≤ 1 / 10000 := by
  have hcl : ⌈((box_filter 3).width / 2 : ℚ)⌉ = 2 := by
    show ⌈((3 : ℚ) / 2 : ℚ)⌉ = 2
    rw [Int.ceil_eq_iff]
    norm_num
  obtain ⟨h1, h2, h3, h4, h5, h6, h7, h8, h9⟩ :=
    resize_identity_locals (plain_spec 0 0 5 5 1) impulse5x5.spec (box_filter 3)
      rfl rfl rfl rfl (by decide) (by decide) 2 2
  obtain ⟨hwx, hwy, _⟩ :=
    resize_identity_weights (plain_spec 0 0 5 5 1) impulse5x5.spec (box_filter 3)
      rfl rfl rfl rfl (by decide) (by decide) 2 2
  rw [hcl] at h3 h4 h5 h6
  have hI5 : irange 0 5 = [0, 1, 2, 3, 4] := by decide
  have hI2 : irange (-2) 3 = [-2, -1, 0, 1, 2] := by decide
  have hbx : ∀ i : Int, (box_filter 3).xfilt ((i - 2 : Int) : ℚ) =
      if |((i - 2 : Int) : ℚ)| ≤ 3 / 2 then 1 else 0 := fun _ => rfl
  have hby : ∀ j : Int, (box_filter 3).yfilt ((j - 2 : Int) : ℚ) =
      if |((j - 2 : Int) : ℚ)| ≤ 3 / 2 then 1 else 0 := fun _ => rfl
  have hpx : ∀ a b : Int, impulse5x5.getchannel_clamp a b 0 0 =
      if clampInt a 0 4 = 2 ∧ clampInt b 0 4 = 2 then 1 else 0 := fun _ _ => rfl
  refine ⟨by decide, h1, h2, h3, h4, ?_, ?_⟩
  · unfold resize_pixel
    rw [if_pos (show (box_filter 3).separable = true from rfl), Option.map_some']
    congr 1
    rw [resize_separable_out impulse5x5 (box_filter 3) _ 2 2 0 rfl (by rw [h6, h4])
      (by rw [h7]; decide)]
    simp only [h3, h4, h5, h6, h8, h9, hwx, hwy, hcl]
    norm_num only [← sum_irange, hI5, hI2, hbx, hby, hpx, abs_le, clampInt,
      List.map_cons, List.map_nil, List.sum_cons, List.sum_nil]
    norm_num
  · rw [show impulse5x5.pixels 2 2 0 0 = 1 by decide]
    norm_num [abs_le]

/-- C12 (amended): into a destination with the display window of the source
(non-empty), `resize_` with a filter of non-negative width whose weight is
nonzero at offset 0 and zero at every other integer offset (the x and y
profiles of a separable filter, the two-dimensional evaluation of a
non-separable one) writes, at every pixel of the pixel window of the source
and every channel, exactly the source value. -/
theorem resize_identity_interpolating (src : ImageBuf) (dstspec : ImageSpec)
    (filter : Filter2D) (x y c : Int)
    (hfx : dstspec.full_x = src.spec.full_x) (hfy : dstspec.full_y = src.spec.full_y)
    (hfw : dstspec.full_width = src.spec.full_width)
    (hfh : dstspec.full_height = src.spec.full_height)
    (hw : src.spec.full_width ≠ 0) (hh : src.spec.full_height ≠ 0)
    (hwidth : 0 ≤ filter.width)
    (hsep : filter.separable = true →
      filter.xfilt 0 ≠ 0 ∧ filter.yfilt 0 ≠ 0 ∧
        ∀ n : Int, n ≠ 0 → filter.xfilt (n : ℚ) = 0 ∧ filter.yfilt (n : ℚ) = 0)
    (hnon : filter.separable = false →
      filter.eval 0 0 ≠ 0 ∧
        ∀ i j : Int, ¬ (i = 0 ∧ j = 0) → filter.eval (i : ℚ) (j : ℚ) = 0)
    (hin : (get_roi src.spec).containsPos x y 0 = true)
    (hc : 0 ≤ c ∧ c < dstspec.nchannels) :
    ∃ out : Int → ℚ,
      resize_pixel src filter (resize_locals dstspec src.spec filter) x y = some out ∧
      out c = src.pixels x y 0 c := by
  obtain ⟨_, _, h3, h4, h5, h6, h7, h8, h9⟩ :=
    resize_identity_locals dstspec src.spec filter hfx hfy hfw hfh hw hh x y
  obtain ⟨hwx, hwy, hwe⟩ :=
    resize_identity_weights dstspec src.spec filter hfx hfy hfw hfh hw hh x y
  have hr := ceil_half_width_nonneg filter hwidth
  unfold resize_pixel
  by_cases hs : filter.separable = true
  · obtain ⟨hx0, hy0, hn⟩ := hsep hs
    rw [if_pos hs]
    refine ⟨_, rfl, ?_⟩
    rw [resize_separable_out src filter _ x y c hs (by rw [h6, h4]) (by rw [h7]; exact hc)]
    simp only [h3, h4, h5, h6, h8, h9, hwx, hwy]
    have hTX : (∑ i ∈ Finset.Ico 0 (2 * ⌈filter.width / 2⌉ + 1),
        filter.xfilt ((i - ⌈filter.width / 2⌉ : Int) : ℚ)) = filter.xfilt 0 := by
      rw [Finset.sum_eq_single ⌈filter.width / 2⌉]
      · rw [sub_self, Int.cast_zero]
      · intro i _ hne
        exact (hn (i - ⌈filter.width / 2⌉) (sub_ne_zero.mpr hne)).1
      · intro h
        exact absurd (Finset.mem_Ico.mpr ⟨hr, by omega⟩) h
    have hTY : (∑ j ∈ Finset.Ico 0 (2 * ⌈filter.width / 2⌉ + 1),
        filter.yfilt ((j - ⌈filter.width / 2⌉ : Int) : ℚ)) = filter.yfilt 0 := by
      rw [Finset.sum_eq_single ⌈filter.width / 2⌉]
      · rw [sub_self, Int.cast_zero]
      · intro j _ hne
        exact (hn (j - ⌈filter.width / 2⌉) (sub_ne_zero.mpr hne)).2
      · intro h
        exact absurd (Finset.mem_Ico.mpr ⟨hr, by omega⟩) h
    rw [hTX, hTY, if_neg hy0, if_pos hx0, Finset.sum_eq_single 0,
      Finset.sum_eq_single ⌈filter.width / 2⌉]
    · rw [zero_add, sub_self, Int.cast_zero, div_self hx0, div_self hy0, one_mul, one_mul,
        add_zero, sub_add_cancel, clamp_inside src x y 0 c hin]
    · intro i _ hne
      rw [(hn (i - ⌈filter.width / 2⌉) (sub_ne_zero.mpr hne)).1, zero_div, mul_zero, zero_mul]
    · intro h
      exact absurd (Finset.mem_Ico.mpr ⟨hr, by omega⟩) h
    · intro j _ hne
      apply Finset.sum_eq_zero
      intro i _
      have hj : j + ⌈filter.width / 2⌉ - ⌈filter.width / 2⌉ ≠ 0 := by omega
      rw [(hn _ hj).2, zero_div, zero_mul, zero_mul]
    · intro h
      exact absurd (Finset.mem_Ico.mpr ⟨by omega, by omega⟩) h
  · have hs2 : filter.separable = false := by
      cases hb : filter.separable
      · rfl
      · exact absurd hb hs
    obtain ⟨h00, hn⟩ := hnon hs2
    rw [if_neg hs]
    rw [resize_nonseparable_out src filter _ x y (by rw [h3]; exact hr) (by rw [h4]; exact hr)
      (by rw [h3, h4])]
    refine ⟨_, rfl, ?_⟩
    simp only [h3, h4, h7, h8, h9, hwe]
    have hT : (∑ j ∈ Finset.Ico (-⌈filter.width / 2⌉) (⌈filter.width / 2⌉ + 1),
        ∑ i ∈ Finset.Ico (-⌈filter.width / 2⌉) (⌈filter.width / 2⌉ + 1),
          filter.eval (i : ℚ) (j : ℚ)) = filter.eval 0 0 := by
      rw [sum_grid_single _ _ _ _ (fun (p : Int × Int) => filter.eval (p.1 : ℚ) (p.2 : ℚ)) 0 0
        ⟨by omega, by omega⟩ ⟨by omega, by omega⟩ (fun sx sy h => hn sx sy h)]
      simp only [Int.cast_zero]
    rw [hT, if_neg h00, if_pos hc]
    rw [sum_grid_single _ _ _ _ (fun (p : Int × Int) => filter.eval (p.1 : ℚ) (p.2 : ℚ) *
        src.getchannel_clamp (x + p.1) (y - ⌈filter.width / 2⌉ + ⌈filter.width / 2⌉ + p.2) 0 c)
      0 0 ⟨by omega, by omega⟩ ⟨by omega, by omega⟩
      (fun sx sy h => by
        show filter.eval (sx : ℚ) (sy : ℚ) * _ = 0
        rw [hn sx sy h, zero_mul])]
    simp only [Int.cast_zero, add_zero, sub_add_cancel]
    rw [clamp_inside src x y 0 c hin]
    field_simp

theorem triangle2_profiles :
    (triangle_filter 2).xfilt 0 ≠ 0 ∧ (triangle_filter 2).yfilt 0 ≠ 0 ∧
      ∀ n : Int, n ≠ 0 →
        (triangle_filter 2).xfilt (n : ℚ) = 0 ∧ (triangle_filter 2).yfilt (n : ℚ) = 0 := by
  refine ⟨by norm_num [triangle_filter], by norm_num [triangle_filter], ?_⟩
  intro n hn
  have h1 : (1 : ℚ) ≤ |(n : ℚ)| := by
    have := Int.one_le_abs hn
    exact_mod_cast this
  have hz : ¬ (|(n : ℚ)| < 2 / 2) := by
    intro hlt
    norm_num at hlt
    linarith
  constructor
  · show (if |(n : ℚ)| < 2 / 2 then 1 - |(n : ℚ)| / (2 / 2) else 0) = 0
    rw [if_neg hz]
  · show (if |(n : ℚ)| < 2 / 2 then 1 - |(n : ℚ)| / (2 / 2) else 0) = 0
    rw [if_neg hz]

/-- An instance of `resize_identity_interpolating`: the 5 × 5 impulse image
resized into a 5 × 5 destination with the triangle filter of width 2, at its
centre. -/
theorem resize_identity_interpolating_witness :
    (plain_spec 0 0 5 5 1).full_x = impulse5x5.spec.full_x ∧
    (plain_spec 0 0 5 5 1).full_y = impulse5x5.spec.full_y ∧
    (plain_spec 0 0 5 5 1).full_width = impulse5x5.spec.full_width ∧
    (plain_spec 0 0 5 5 1).full_height = impulse5x5.spec.full_height ∧
    impulse5x5.spec.full_width ≠ 0 ∧ impulse5x5.spec.full_height ≠ 0 ∧
    0 ≤ (triangle_filter 2).width ∧
    (triangle_filter 2).separable = true ∧
    (get_roi impulse5x5.spec).containsPos 2 2 0 = true ∧
    ((0 : Int) ≤ 0 ∧ 0 < (plain_spec 0 0 5 5 1).nchannels) ∧
    ∃ out : Int → ℚ,
      resize_pixel impulse5x5 (triangle_filter 2)
        (resize_locals (plain_spec 0 0 5 5 1) impulse5x5.spec (triangle_filter 2)) 2 2 =
          some out ∧
      out 0 = impulse5x5.pixels 2 2 0 0 :=
  ⟨rfl, rfl, rfl, rfl, by decide, by decide, by norm_num [triangle_filter], rfl, by decide,
    by decide,
    resize_identity_interpolating impulse5x5 (plain_spec 0 0 5 5 1) (triangle_filter 2) 2 2 0
      rfl rfl rfl rfl (by decide) (by decide) (by norm_num [triangle_filter])
      (fun _ => triangle2_profiles) (fun h => Bool.noConfusion h) (by decide) (by decide)⟩

/-! ## Properties of `resize`: constant images -/

/-- The non-separable path of `resize_` as a loop over the list of its tap
weights. -/
theorem resize_nonseparable_pixel_eq (src : ImageBuf) (filter : Filter2D) (g : ResizeLocals)
    (x y : Int) :
    resize_nonseparable_pixel src filter g x y =
      (fun (st : NonSepState) =>
        if st.reads_ok then
          some (fun c => if st.totalweight = 0 then 0 else st.pel c / st.totalweight)
        else none)
      (((nonsep_taps g.radi g.radj).map (tap_weight filter g x y)).foldl
        (fun st (w : ℚ) =>
          nonsep_step src g.nchannels ((resize_src_x g x).2 - g.radi)
            ((resize_src_x g x).2 + g.radi + 1)
            ((resize_src_y g y).2 - g.radi) ((resize_src_y g y).2 + g.radi + 1) st w)
        { pel := fun _ => 0, totalweight := 0,
          srcpel := cursor_start ((resize_src_x g x).2 - g.radi)
            ((resize_src_x g x).2 + g.radi + 1)
            ((resize_src_y g y).2 - g.radi) ((resize_src_y g y).2 + g.radi + 1),
          reads_ok := true }) := by
  rw [List.foldl_map]
  rfl

/-- C11 at a failing input: resizing the constant 4 × 4 image (display
window 4 × 4) into a destination with display window 4 × 2 with the disk
filter of width 2 (not separable), `radi = 1` and `radj = 2`; at the
destination pixel `(0, 0)` the tap weights sum to 4, and the tap
`(i, j) = (0, 1)`, of weight 1, is the eleventh of the loop while `srcpel`
ranges over nine pixels: `srcpel[c]` is read through the finished iterator
and no colour is defined for the pixel. -/
theorem resize_constant_reads_finished_iterator :
    (∀ x y z c : Int, flat4x4.pixels x y z c = 5 / 2) ∧
    (disk_filter 2).separable = false ∧
    (resize_locals (plain_spec 0 0 4 2 1) flat4x4.spec (disk_filter 2)).radi = 1 ∧
    (resize_locals (plain_spec 0 0 4 2 1) flat4x4.spec (disk_filter 2)).radj = 2 ∧
    ((nonsep_taps 1 2).map (tap_weight (disk_filter 2)
      (resize_locals (plain_spec 0 0 4 2 1) flat4x4.spec (disk_filter 2)) 0 0)) =
        [0, 1, 0, 0, 1, 0, 0, 1, 0, 0, 1, 0, 0, 0, 0] ∧
    resize_pixel flat4x4 (disk_filter 2)
      (resize_locals (plain_spec 0 0 4 2 1) flat4x4.spec (disk_filter 2)) 0 0 = none := by
  have hc1 : ⌈(1 : ℚ)⌉ = 1 := Int.ceil_one
  have hc2 : ⌈(2 : ℚ)⌉ = 2 := by
    rw [Int.ceil_eq_iff]
    norm_num
  have hf1 : ⌊(1 / 2 : ℚ)⌋ = 0 := by
    rw [Int.floor_eq_iff]
    norm_num
  have hf2 : ⌊(1 : ℚ)⌋ = 1 := Int.floor_one
  have hl : (resize_locals (plain_spec 0 0 4 2 1) flat4x4.spec (disk_filter 2)).radi = 1 ∧
      (resize_locals (plain_spec 0 0 4 2 1) flat4x4.spec (disk_filter 2)).radj = 2 ∧
      (resize_locals (plain_spec 0 0 4 2 1) flat4x4.spec (disk_filter 2)).xratio = 1 ∧
      (resize_locals (plain_spec 0 0 4 2 1) flat4x4.spec (disk_filter 2)).yratio = 1 / 2 ∧
      (resize_locals (plain_spec 0 0 4 2 1) flat4x4.spec (disk_filter 2)).nchannels = 1 ∧
      resize_src_x (resize_locals (plain_spec 0 0 4 2 1) flat4x4.spec (disk_filter 2)) 0 =
        (1 / 2, 0) ∧
      resize_src_y (resize_locals (plain_spec 0 0 4 2 1) flat4x4.spec (disk_filter 2)) 0 =
        (0, 1) := by
    unfold resize_src_x resize_src_y floorfrac resize_locals flat4x4 ImageBuf.local_buffer
      plain_spec disk_filter
    norm_num [ImageSpec.empty, hc1, hc2, hf1, hf2]
  obtain ⟨h1, h2, h3, h4, h5, h6, h7⟩ := hl
  have htaps : nonsep_taps 1 2 = [(-1, -2), (0, -2), (1, -2), (-1, -1), (0, -1), (1, -1),
      (-1, 0), (0, 0), (1, 0), (-1, 1), (0, 1), (1, 1), (-1, 2), (0, 2), (1, 2)] := by
    decide
  have hws : ((nonsep_taps 1 2).map (tap_weight (disk_filter 2)
      (resize_locals (plain_spec 0 0 4 2 1) flat4x4.spec (disk_filter 2)) 0 0)) =
        [0, 1, 0, 0, 1, 0, 0, 1, 0, 0, 1, 0, 0, 0, 0] := by
    rw [htaps]
    unfold tap_weight
    rw [h3, h4, h6, h7]
    norm_num [disk_filter]
  refine ⟨fun _ _ _ _ => rfl, rfl, h1, h2, hws, ?_⟩
  unfold resize_pixel
  rw [if_neg (by decide), resize_nonseparable_pixel_eq, h1, h2, hws, h5, h6, h7]
  norm_num [nonsep_step, cursor_next, cursor_start]

/-- On the separable path a constant image is preserved: where both tap
sums are nonzero, `resize_` writes the colour of the source. -/
theorem resize_separable_constant (src : ImageBuf) (filter : Filter2D) (g : ResizeLocals)
    (v : Int → ℚ) (x y c : Int) (hsep : filter.separable = true)
    (hty : g.ytaps = 2 * g.radj + 1)
    (hsrc : ∀ sx sy sz : Int, src.pixels sx sy sz c = v c)
    (hc : 0 ≤ c ∧ c < g.nchannels)
    (hTY : (∑ j ∈ Finset.Ico 0 g.ytaps, ytap_weight filter g y j) ≠ 0)
    (hTX : (∑ i ∈ Finset.Ico 0 g.xtaps, xtap_weight filter g x i) ≠ 0) :
    (resize_separable_pixel src filter g (resize_yweights filter g y) x).out c = v c := by
  rw [resize_separable_out src filter g x y c hsep hty hc, if_neg hTY, if_pos hTX]
  have hread : ∀ a b : Int, src.getchannel_clamp a b 0 c = v c := by
    intro a b
    unfold ImageBuf.getchannel_clamp
    rw [hsrc]
  simp only [hread]
  have hre : (∑ j ∈ Finset.Ico (-g.radj) (g.radj + 1), ytap_weight filter g y (j + g.radj)) =
      ∑ j ∈ Finset.Ico 0 g.ytaps, ytap_weight filter g y j := by
    rw [Finset.sum_Ico_add' (fun j => ytap_weight filter g y j) (-g.radj) (g.radj + 1) g.radj]
    congr 2
    · omega
    · omega
  have hinner : ∀ j : Int, (∑ i ∈ Finset.Ico 0 g.xtaps,
      ytap_weight filter g y (j + g.radj) /
          (∑ j ∈ Finset.Ico 0 g.ytaps, ytap_weight filter g y j) *
        (xtap_weight filter g x i / ∑ i ∈ Finset.Ico 0 g.xtaps, xtap_weight filter g x i) *
        v c) =
      ytap_weight filter g y (j + g.radj) /
        (∑ j ∈ Finset.Ico 0 g.ytaps, ytap_weight filter g y j) * v c := by
    intro j
    rw [← Finset.sum_mul, ← Finset.mul_sum, ← Finset.sum_div, div_self hTX, mul_one]
  simp only [hinner]
  rw [← Finset.sum_mul, ← Finset.sum_div, hre, div_self hTY, one_mul]

/-- On the non-separable path a constant image is preserved when the
iterator has a row for every row of taps (`radj ≤ radi`) and the weights do
not sum to zero. -/
theorem resize_nonseparable_constant (src : ImageBuf) (filter : Filter2D) (g : ResizeLocals)
    (v : Int → ℚ) (x y c : Int) (hri : 0 ≤ g.radi) (hrj : 0 ≤ g.radj) (hle : g.radj ≤ g.radi)
    (hsrc : ∀ sx sy sz : Int, src.pixels sx sy sz c = v c)
    (hc : 0 ≤ c ∧ c < g.nchannels)
    (hT : (∑ j ∈ Finset.Ico (-g.radj) (g.radj + 1), ∑ i ∈ Finset.Ico (-g.radi) (g.radi + 1),
      tap_weight filter g x y (i, j)) ≠ 0) :
    ∃ out : Int → ℚ, resize_nonseparable_pixel src filter g x y = some out ∧ out c = v c := by
  rw [resize_nonseparable_out src filter g x y hri hrj hle]
  refine ⟨_, rfl, ?_⟩
  have hread : ∀ a b : Int, src.getchannel_clamp a b 0 c = v c := by
    intro a b
    unfold ImageBuf.getchannel_clamp
    rw [hsrc]
  simp only [hread]
  rw [if_neg hT, if_pos hc]
  simp only [← Finset.sum_mul]
  field_simp

/-! ## What the stores of an iterator leave alone -/

/-- A store through an iterator changes neither the storage kind nor the
error string of the buffer. -/
theorem store_frame (b : ImageBuf) (x y z c : Int) (v : ℚ) :
    (b.store x y z c v).storage = b.storage ∧ (b.store x y z c v).err = b.err := by
  unfold ImageBuf.store
  split_ifs <;> exact ⟨rfl, rfl⟩

theorem store_channels_frame (dst : ImageBuf) (pos : Int × Int × Int) (chbegin chend : Int)
    (values : Int → ℚ) :
    (store_channels dst pos chbegin chend values).storage = dst.storage ∧
    (store_channels dst pos chbegin chend values).err = dst.err := by
  unfold store_channels
  generalize irange chbegin chend = cs
  induction cs generalizing dst with
  | nil => exact ⟨rfl, rfl⟩
  | cons c cs ih =>
    rw [List.foldl_cons]
    obtain ⟨h1, h2⟩ := ih (dst.store pos.1 pos.2.1 pos.2.2 c (values c))
    obtain ⟨h3, h4⟩ := store_frame dst pos.1 pos.2.1 pos.2.2 c (values c)
    exact ⟨h1.trans h3, h2.trans h4⟩

theorem foldl_paint_frame (ps : List (Int × Int × Int)) (cb ce : Int)
    (colour : Int × Int × Int → Int → ℚ) (dst : ImageBuf) :
    (ps.foldl (fun d p => store_channels d p cb ce (colour p)) dst).storage = dst.storage ∧
    (ps.foldl (fun d p => store_channels d p cb ce (colour p)) dst).err = dst.err := by
  induction ps generalizing dst with
  | nil => exact ⟨rfl, rfl⟩
  | cons p ps ih =>
    rw [List.foldl_cons]
    obtain ⟨h1, h2⟩ := ih (store_channels dst p cb ce (colour p))
    obtain ⟨h3, h4⟩ := store_channels_frame dst p cb ce (colour p)
    exact ⟨h1.trans h3, h2.trans h4⟩

theorem foldl_tiles_frame (colour : Int × Int × Int → Int → ℚ) (tiles : List ROI)
    (dst : ImageBuf) :
    (tiles.foldl (fun d t => (iter_positions d t).foldl
      (fun d p => store_channels d p t.chbegin t.chend (colour p)) d) dst).storage =
        dst.storage ∧
    (tiles.foldl (fun d t => (iter_positions d t).foldl
      (fun d p => store_channels d p t.chbegin t.chend (colour p)) d) dst).err = dst.err := by
  induction tiles generalizing dst with
  | nil => exact ⟨rfl, rfl⟩
  | cons t ts ih =>
    rw [List.foldl_cons]
    obtain ⟨h1, h2⟩ := ih ((iter_positions dst t).foldl
      (fun d p => store_channels d p t.chbegin t.chend (colour p)) dst)
    obtain ⟨h3, h4⟩ := foldl_paint_frame (iter_positions dst t) t.chbegin t.chend colour dst
    exact ⟨h1.trans h3, h2.trans h4⟩

/-- Two buffers with the same storage kind, spec, pixel values and error
string are the same buffer. -/
theorem ImageBuf.ext_fields (a b : ImageBuf) (h1 : a.storage = b.storage)
    (h2 : a.spec = b.spec) (h3 : ∀ x y z c : Int, a.pixels x y z c = b.pixels x y z c)
    (h4 : a.err = b.err) : a = b := by
  cases a
  cases b
  simp only [ImageBuf.mk.injEq]
  simp only at h1 h2 h3 h4
  refine ⟨h1, h2, ?_, h4⟩
  funext x y z c
  exact h3 x y z c

theorem warp__frame (split : ROI → Int → List ROI) (dst src : ImageBuf) (M : M33)
    (filter : Filter2D) (wrap : WrapMode) (r : ROI) (nthreads : Int) :
    (warp_ split dst src M filter wrap r nthreads).1.spec = dst.spec ∧
    (warp_ split dst src M filter wrap r nthreads).1.storage = dst.storage := by
  unfold warp_
  split_ifs
  · exact ⟨parallel_spec (warp_colour src M filter wrap) split r nthreads dst,
      (foldl_tiles_frame (warp_colour src M filter wrap) (split r nthreads) dst).1⟩
  · exact ⟨foldl_paint_spec _ _ _ _ dst, (foldl_paint_frame _ _ _ _ dst).1⟩
/-! ## Properties of `transform`: translations -/

/-- The image of a point under a translation. -/
theorem multVecMatrix_translation (tx ty : ℚ) (p : ℚ × ℚ) :
    (M33.translation tx ty).multVecMatrix p = (p.1 + tx, p.2 + ty) := by
  unfold M33.multVecMatrix M33.translation
  simp only [mul_one, mul_zero, zero_add, add_zero, div_one]

theorem floor_int_sub_half (x : Int) : ⌊(x : ℚ) - 1 / 2⌋ = x - 1 := by
  rw [Int.floor_eq_iff]
  push_cast
  constructor <;> linarith

/-- The roi that `transform` returns for the translation by the integers
`(tx, ty)` and a roi that is not empty in x and y. -/
theorem transform_translation_eq (r : ROI) (tx ty : Int)
    (hx : r.xbegin < r.xend) (hy : r.ybegin < r.yend) :
    transform (M33.translation tx ty) r =
      { xbegin := r.xbegin + tx, xend := r.xend + tx,
        ybegin := r.ybegin + ty, yend := r.yend + ty,
        zbegin := r.zbegin, zend := r.zend, chbegin := r.chbegin, chend := r.chend } := by
  have hxq : (r.xbegin : ℚ) + 1 ≤ (r.xend : ℚ) := by exact_mod_cast hx
  have hyq : (r.ybegin : ℚ) + 1 ≤ (r.yend : ℚ) := by exact_mod_cast hy
  unfold transform
  simp only [multVecMatrix_translation]
  have mn1 : ∀ a b : ℚ, a ≤ b → min (min (min a a) b) b = a := by
    intro a b h
    rw [min_self, min_eq_left h, min_eq_left h]
  have mx1 : ∀ a b : ℚ, a ≤ b → max (max (max a a) b) b = b := by
    intro a b h
    rw [max_self, max_eq_right h, max_self]
  have mn2 : ∀ a b : ℚ, a ≤ b → min (min (min a b) a) b = a := by
    intro a b h
    rw [min_eq_left h, min_self, min_eq_left h]
  have mx2 : ∀ a b : ℚ, a ≤ b → max (max (max a b) a) b = b := by
    intro a b h
    rw [max_eq_right h, max_eq_left h, max_self]
  have h1 : (r.xbegin : ℚ) + 1 / 2 + tx = ((r.xbegin + tx : Int) : ℚ) + 1 / 2 := by
    push_cast
    ring
  have h2 : (r.xend : ℚ) - 1 / 2 + tx = ((r.xend + tx : Int) : ℚ) - 1 / 2 := by
    push_cast
    ring
  have h3 : (r.ybegin : ℚ) + 1 / 2 + ty = ((r.ybegin + ty : Int) : ℚ) + 1 / 2 := by
    push_cast
    ring
  have h4 : (r.yend : ℚ) - 1 / 2 + ty = ((r.yend + ty : Int) : ℚ) - 1 / 2 := by
    push_cast
    ring
  rw [mn1 _ _ (by linarith), mx1 _ _ (by linarith), mn2 _ _ (by linarith),
    mx2 _ _ (by linarith)]
  rw [h1, h2, h3, h4, floor_int_add_half, floor_int_add_half, floor_int_sub_half,
    floor_int_sub_half]
  simp only [sub_add_cancel]
/-- The identity matrix is the translation by `(0, 0)`. -/
theorem identity_eq_translation : M33.identity = M33.translation 0 0 := rfl

/-- C30: for a roi that is not empty in x and y and integers `tx`, `ty`,
`transform` with the translation by `(tx, ty)` returns the roi shifted by
`(tx, ty)`, with the same z and channel ranges; with the identity matrix it
returns the roi itself; and `warp` with the identity matrix,
`recompute_roi = true`, an undefined roi and an uninitialized `dst` returns
with `dst` allocated with the pixel window of `src`. -/
theorem transform_translation (default_channel_names : ImageSpec → ImageSpec)
    (split : ROI → Int → List ROI) (r : ROI) (tx ty : Int)
    (hx : r.xbegin < r.xend) (hy : r.ybegin < r.yend) :
    transform (M33.translation tx ty) r =
      { xbegin := r.xbegin + tx, xend := r.xend + tx,
        ybegin := r.ybegin + ty, yend := r.yend + ty,
        zbegin := r.zbegin, zend := r.zend, chbegin := r.chbegin, chend := r.chend } ∧
    (r.defined = true → transform M33.identity r = r) ∧
    ∀ (dst src : ImageBuf) (filter : Filter2D) (wrap : WrapMode) (roi : ROI) (nthreads : Int),
      dst.initialized = false → roi.defined = false → src.initialized = true →
      src.roi = r →
      ∃ res, warp default_channel_names split dst src M33.identity filter true wrap roi
          nthreads = some res ∧
        res.1.initialized = true ∧ pixel_window_is res.1.spec src.roi := by
  have hid : transform M33.identity r = { r with isdef := true } := by
    rw [identity_eq_translation]
    have := transform_translation_eq r 0 0 hx hy
    simp only [Int.cast_zero, add_zero] at this
    exact this
  refine ⟨transform_translation_eq r tx ty hx hy, ?_, ?_⟩
  · intro hr
    rw [hid]
    cases r
    simp only [ROI.defined] at hr
    simp [hr]
  · intro dst src filter wrap roi nthreads hd hroi hs hsr
    have hA : srcAnd (some src) (fun a => ! a.initialized) = false := by
      simp [srcAnd, hs]
    have hdr : warp_dst_roi dst src M33.identity true roi =
        { r with isdef := true, chend := min r.chend src.nchannels } := by
      unfold warp_dst_roi
      simp only [hd, hroi, Bool.false_eq_true, if_false, if_true, hsr, hid]
    have hp : prep_rois (warp_dst_roi dst src M33.identity true roi) (some src) none
        { NO_SUPPORT_VOLUME := true } =
        some ({ r with isdef := true, chend := min (min r.chend src.nchannels) src.nchannels },
              src.roi_full) := by
      rw [hdr]
      simp [prep_rois, ROI.defined]
    have hprep := IBAprep_uninit_eq default_channel_names _ dst (some src) none none
      { NO_SUPPORT_VOLUME := true } hd hA rfl (Or.inl rfl) _ _ hp
    have hwin := prep_alloc_spec_pixel_window default_channel_names
      { r with isdef := true, chend := min (min r.chend src.nchannels) src.nchannels }
      src.roi_full (some src) none none { NO_SUPPORT_VOLUME := true }
    have hinit : ∀ (o : PrepOut), o = prep_checks
        { r with isdef := true, chend := min (min r.chend src.nchannels) src.nchannels }
        (dst.alloc (prep_alloc_spec default_channel_names
          { r with isdef := true, chend := min (min r.chend src.nchannels) src.nchannels }
          src.roi_full (some src) none none { NO_SUPPORT_VOLUME := true }))
        (some src) none { NO_SUPPORT_VOLUME := true } →
        o.dst.initialized = true ∧ pixel_window_is o.dst.spec src.roi := by
      intro o ho
      subst ho
      constructor
      · unfold ImageBuf.initialized
        rw [prep_checks_storage]
        rfl
      · rw [prep_checks_spec, hsr]
        exact hwin
    unfold warp warp_prep
    rw [hprep]
    dsimp only
    obtain ⟨h1, h2⟩ := hinit _ rfl
    split_ifs
    · exact ⟨_, rfl, h1, h2⟩
    · refine ⟨_, rfl, ?_, ?_⟩
      · unfold ImageBuf.initialized
        rw [(warp__frame _ _ _ _ _ _ _ _).2]
        exact h1
      · rw [(warp__frame _ _ _ _ _ _ _ _).1]
        exact h2
    · exact ⟨_, rfl, h1, h2⟩

/-- An instance of `transform_translation`: the roi `[2,9) × [-1,3)` moved by
`(10, -4)`. -/
theorem transform_translation_witness :
    roi_2_9.xbegin < roi_2_9.xend ∧ roi_2_9.ybegin < roi_2_9.yend ∧
    transform (M33.translation ((10 : Int) : ℚ) ((-4 : Int) : ℚ)) roi_2_9 =
      { xbegin := 12, xend := 19, ybegin := -5, yend := -1, zbegin := 0, zend := 1,
        chbegin := 1, chend := 7 } :=
  ⟨by decide, by decide,
    (transform_translation id single_tile roi_2_9 10 (-4) (by decide) (by decide)).1⟩

/-! ## Properties of `fillholes_pushpull`: the pyramid loop -/

theorem pyramid_levels_done (w h : Int) (hw : w ≤ 1) (hh : h ≤ 1) :
    pyramid_levels w h = [] := by
  rw [pyramid_levels, if_neg (by omega)]

theorem pyramid_levels_step (w h : Int) (hw : 1 ≤ w) (hh : 1 ≤ h) (hm : 1 < max w h) :
    pyramid_levels w h =
      (max 1 (w / 2), max 1 (h / 2)) :: pyramid_levels (max 1 (w / 2)) (max 1 (h / 2)) := by
  rw [pyramid_levels, if_pos (by omega), Int.tdiv_eq_ediv (by omega) (by decide),
    Int.tdiv_eq_ediv (by omega) (by decide)]

theorem int_div_div_two_pow (v : Int) (hv : 0 ≤ v) (k : Nat) :
    v / 2 / 2 ^ (k + 1) = v / 2 ^ (k + 2) := by
  obtain ⟨m, rfl⟩ := Int.eq_ofNat_of_zero_le hv
  have h : ((m / 2 / 2 ^ (k + 1) : Nat) : Int) = ((m / 2 ^ (k + 2) : Nat) : Int) := by
    rw [Nat.div_div_eq_div_mul, ← pow_succ']
  exact_mod_cast h

theorem one_div_two_pow (k : Nat) : (1 : Int) / 2 ^ (k + 1) = 0 := by
  apply Int.ediv_eq_zero_of_lt (by decide)
  have h1 : (2 : Int) ^ (k + 1) = 2 * 2 ^ k := by rw [pow_succ']
  have h2 : (0 : Int) < 2 ^ k := pow_pos (by decide) k
  rw [h1]
  generalize (2 : Int) ^ k = p at h2
  omega

theorem halved_level (v : Int) (hv : 1 ≤ v) (k : Nat) :
    max 1 (max 1 (v / 2) / 2 ^ (k + 1)) = max 1 (v / 2 ^ (k + 2)) := by
  rw [← int_div_div_two_pow v (by omega) k]
  by_cases h2 : 2 ≤ v
  · rw [max_eq_right (show (1 : Int) ≤ v / 2 by omega)]
  · have hv1 : v = 1 := by omega
    subst hv1
    have h0 : (1 : Int) / 2 = 0 := by decide
    rw [h0, Int.zero_ediv, max_eq_left (by decide : (0 : Int) ≤ 1), one_div_two_pow]
    decide

/-- The levels that the pyramid loop builds, for a source of size
`w × h ≥ 1 × 1`: it makes `⌊log₂ (max w h)⌋` passes and the pass `k + 1`
builds the level of size `max (1, ⌊w/2^(k+1)⌋) × max (1, ⌊h/2^(k+1)⌋)`. -/
theorem pyramid_levels_eq (n : Nat) : ∀ (w h : Int), 1 ≤ w → 1 ≤ h →
    Nat.log 2 (max w h).toNat = n →
    pyramid_levels w h = (List.range n).map
      (fun (k : Nat) => (max 1 (w / 2 ^ (k + 1)), max 1 (h / 2 ^ (k + 1)))) := by
  induction n with
  | zero =>
    intro w h hw hh hn
    rw [Nat.log_eq_zero_iff] at hn
    rw [pyramid_levels_done w h (by omega) (by omega)]
    rfl
  | succ n ih =>
    intro w h hw hh hn
    have hm : 1 < max w h := by
      by_contra hc
      have : (max w h).toNat < 2 := by omega
      rw [Nat.log_of_lt this] at hn
      omega
    rw [pyramid_levels_step w h hw hh hm]
    have hlog : Nat.log 2 (max (max 1 (w / 2)) (max 1 (h / 2))).toNat = n := by
      have e : (max (max 1 (w / 2)) (max 1 (h / 2))).toNat = (max w h).toNat / 2 := by
        omega
      rw [e, Nat.log_div_base, hn]
      rfl
    rw [ih (max 1 (w / 2)) (max 1 (h / 2)) (by omega) (by omega) hlog, List.range_succ_eq_map,
      List.map_cons, List.map_map]
    congr 1
    apply List.map_congr_left
    intro k _
    simp only [Function.comp]
    have e1 : max (1 : Int) (max 1 (w / 2) / 2 ^ (k + 1)) = max 1 (w / 2 ^ (k + 1 + 1)) :=
      halved_level w hw k
    have e2 : max (1 : Int) (max 1 (h / 2) / 2 ^ (k + 1)) = max 1 (h / 2 ^ (k + 1 + 1)) :=
      halved_level h hh k
    rw [e1, e2]
/-- C28: for a source of width `w ≥ 1` and height `h ≥ 1` the pyramid loop of
`fillholes_pushpull` stops after exactly `⌊log₂ (max w h)⌋` passes; its pass
number `k + 1` builds the level of size
`max (1, ⌊w/2^(k+1)⌋) × max (1, ⌊h/2^(k+1)⌋)`; every level has both
dimensions at least 1; the last level is 1 × 1; and a 1 × 1 source builds no
level. -/
theorem pyramid_loop_levels (w h : Int) (hw : 1 ≤ w) (hh : 1 ≤ h) :
    (pyramid_levels w h).length = Nat.log 2 (max w h).toNat ∧
    (∀ k : Nat, k < Nat.log 2 (max w h).toNat →
      (pyramid_levels w h)[k]? =
        some (max 1 (w / 2 ^ (k + 1)), max 1 (h / 2 ^ (k + 1)))) ∧
    (∀ p ∈ pyramid_levels w h, 1 ≤ p.1 ∧ 1 ≤ p.2) ∧
    (1 < max w h → (pyramid_levels w h).getLast? = some (1, 1)) ∧
    (w = 1 ∧ h = 1 → pyramid_levels w h = []) := by
  have heq := pyramid_levels_eq (Nat.log 2 (max w h).toNat) w h hw hh rfl
  have hk : ∀ k : Nat, k < Nat.log 2 (max w h).toNat →
      (pyramid_levels w h)[k]? =
        some (max 1 (w / 2 ^ (k + 1)), max 1 (h / 2 ^ (k + 1))) := by
    intro k hk
    rw [heq, List.getElem?_map, List.getElem?_range hk]
    rfl
  refine ⟨?_, hk, ?_, ?_, ?_⟩
  · rw [heq, List.length_map, List.length_range]
  · intro p hp
    rw [heq, List.mem_map] at hp
    obtain ⟨k, _, rfl⟩ := hp
    exact ⟨le_max_left _ _, le_max_left _ _⟩
  · intro hm
    have hpos : 0 < Nat.log 2 (max w h).toNat := by
      apply Nat.log_pos (by decide)
      omega
    have hlen : (pyramid_levels w h).length = Nat.log 2 (max w h).toNat := by
      rw [heq, List.length_map, List.length_range]
    rw [List.getLast?_eq_getElem?, hlen, hk _ (by omega)]
    have hn : Nat.log 2 (max w h).toNat - 1 + 1 = Nat.log 2 (max w h).toNat := by omega
    rw [hn]
    have hlt : (max w h).toNat < 2 ^ (Nat.log 2 (max w h).toNat + 1) :=
      Nat.lt_pow_succ_log_self (by decide) _
    have hlt2 : max w h < 2 * 2 ^ Nat.log 2 (max w h).toNat := by
      have h1 : ((max w h).toNat : Int) < ((2 ^ (Nat.log 2 (max w h).toNat + 1) : Nat) : Int) := by
        exact_mod_cast hlt
      rw [Int.toNat_of_nonneg (by omega)] at h1
      push_cast at h1
      rw [pow_succ'] at h1
      exact h1
    have hp : (0 : Int) < 2 ^ Nat.log 2 (max w h).toNat := pow_pos (by decide) _
    have h1 : w / 2 ^ Nat.log 2 (max w h).toNat < 2 :=
      Int.ediv_lt_of_lt_mul hp (lt_of_le_of_lt (le_max_left w h) hlt2)
    have h2 : h / 2 ^ Nat.log 2 (max w h).toNat < 2 :=
      Int.ediv_lt_of_lt_mul hp (lt_of_le_of_lt (le_max_right w h) hlt2)
    rw [max_eq_left (by omega), max_eq_left (by omega)]
  · rintro ⟨rfl, rfl⟩
    exact pyramid_levels_done 1 1 (by decide) (by decide)

/-- An instance of `pyramid_loop_levels`: a 5 × 3 source builds the levels
2 × 1 and 1 × 1. -/
theorem pyramid_loop_levels_witness :
    (1 : Int) ≤ 5 ∧ (1 : Int) ≤ 3 ∧
    (pyramid_levels 5 3).length = Nat.log 2 (max (5 : Int) 3).toNat ∧
    Nat.log 2 (max (5 : Int) 3).toNat = 2 ∧
    (pyramid_levels 5 3)[0]? = some (2, 1) ∧ (pyramid_levels 5 3)[1]? = some (1, 1) :=
  have key := pyramid_loop_levels 5 3 (by decide) (by decide)
  have hlog : Nat.log 2 (max (5 : Int) 3).toNat = 2 := by
    rw [show (max (5 : Int) 3).toNat = 5 by decide]
    rw [Nat.log_eq_iff (by decide)]
    decide
  ⟨by decide, by decide, key.1, hlog,
    by rw [key.2.1 0 (by rw [hlog]; decide)]; decide,
    by rw [key.2.1 1 (by rw [hlog]; decide)]; decide⟩

/-! ## Loops that update each pixel from its own value -/

/-- A loop whose pass at a position replaces the channels `v` of that pixel
by `F v` (idempotent) and touches nothing else: the pixel values it leaves. -/
theorem foldl_update_pixels (step : ImageBuf → Int × Int × Int → ImageBuf)
    (F : ImageSpec → (Int → ℚ) → Int → ℚ)
    (hspec : ∀ d p, (step d p).spec = d.spec)
    (hpix : ∀ d p x y z c, (step d p).pixels x y z c =
      if (x, y, z) = p ∧ (get_roi d.spec).containsPos x y z = true
      then F d.spec (d.pixels x y z) c else d.pixels x y z c)
    (ps : List (Int × Int × Int)) (dst : ImageBuf)
    (hF : ∀ v, F dst.spec (F dst.spec v) = F dst.spec v) :
    (ps.foldl step dst).spec = dst.spec ∧
    ∀ x y z c : Int, (ps.foldl step dst).pixels x y z c =
      if (x, y, z) ∈ ps ∧ (get_roi dst.spec).containsPos x y z = true
      then F dst.spec (dst.pixels x y z) c else dst.pixels x y z c := by
  induction ps generalizing dst with
  | nil =>
    refine ⟨rfl, ?_⟩
    intro x y z c
    simp
  | cons p ps ih =>
    obtain ⟨ih1, ih2⟩ := ih (step dst p) (by rw [hspec]; exact hF)
    rw [List.foldl_cons]
    refine ⟨ih1.trans (hspec dst p), ?_⟩
    intro x y z c
    rw [ih2, hspec]
    have hv : (step dst p).pixels x y z =
        if (x, y, z) = p ∧ (get_roi dst.spec).containsPos x y z = true
        then F dst.spec (dst.pixels x y z) else dst.pixels x y z := by
      funext c1
      rw [hpix]
      split_ifs <;> rfl
    rw [hv]
    by_cases hw : (get_roi dst.spec).containsPos x y z = true
    · by_cases hp : (x, y, z) = p
      · by_cases hm : (x, y, z) ∈ ps
        · simp [hw, hp, hm, hF]
        · subst hp
          simp [hw, hm]
      · by_cases hm : (x, y, z) ∈ ps
        · simp [hw, hp, hm]
        · simp [hw, hp, hm]
    · simp [hw]

theorem foldl_update_frame (step : ImageBuf → Int × Int × Int → ImageBuf)
    (hfr : ∀ d p, (step d p).storage = d.storage ∧ (step d p).err = d.err)
    (ps : List (Int × Int × Int)) (dst : ImageBuf) :
    (ps.foldl step dst).storage = dst.storage ∧ (ps.foldl step dst).err = dst.err := by
  induction ps generalizing dst with
  | nil => exact ⟨rfl, rfl⟩
  | cons p ps ih =>
    rw [List.foldl_cons]
    obtain ⟨h1, h2⟩ := ih (step dst p)
    obtain ⟨h3, h4⟩ := hfr dst p
    exact ⟨h1.trans h3, h2.trans h4⟩

/-- The loop of `foldl_update_pixels` run over one tile after the other. -/
theorem foldl_update_tiles (step : ImageBuf → Int × Int × Int → ImageBuf)
    (F : ImageSpec → (Int → ℚ) → Int → ℚ)
    (hspec : ∀ d p, (step d p).spec = d.spec)
    (hpix : ∀ d p x y z c, (step d p).pixels x y z c =
      if (x, y, z) = p ∧ (get_roi d.spec).containsPos x y z = true
      then F d.spec (d.pixels x y z) c else d.pixels x y z c)
    (tiles : List ROI) (htiles : ∀ t ∈ tiles, t.defined = true) (dst : ImageBuf)
    (hF : ∀ v, F dst.spec (F dst.spec v) = F dst.spec v) :
    (tiles.foldl (fun d t => (iter_positions d t).foldl step d) dst).spec = dst.spec ∧
    ∀ x y z c : Int,
      (tiles.foldl (fun d t => (iter_positions d t).foldl step d) dst).pixels x y z c =
        if tiles.any (fun t => t.containsPos x y z) = true ∧
            (get_roi dst.spec).containsPos x y z = true
        then F dst.spec (dst.pixels x y z) c else dst.pixels x y z c := by
  induction tiles generalizing dst with
  | nil =>
    refine ⟨rfl, ?_⟩
    intro x y z c
    simp
  | cons t ts ih =>
    have ht := htiles t (List.mem_cons_self t ts)
    obtain ⟨s1, s2⟩ := foldl_update_pixels step F hspec hpix (iter_positions dst t) dst hF
    obtain ⟨ih1, ih2⟩ := ih (fun u hu => htiles u (List.mem_cons_of_mem t hu))
      ((iter_positions dst t).foldl step dst) (by rw [s1]; exact hF)
    rw [List.foldl_cons]
    refine ⟨ih1.trans s1, ?_⟩
    intro x y z c
    rw [ih2, s1]
    have hm := mem_iter_positions dst t x y z
    rw [if_pos ht] at hm
    have hv : ((iter_positions dst t).foldl step dst).pixels x y z =
        if t.containsPos x y z = true ∧ (get_roi dst.spec).containsPos x y z = true
        then F dst.spec (dst.pixels x y z) else dst.pixels x y z := by
      funext c1
      rw [s2]
      simp only [hm]
      split_ifs <;> rfl
    rw [hv]
    by_cases hw : (get_roi dst.spec).containsPos x y z = true
    · by_cases h1 : t.containsPos x y z = true
      · by_cases h2 : (ts.any fun t => t.containsPos x y z) = true
        · simp [hw, h1, h2, hF]
        · simp [hw, h1, h2]
      · by_cases h2 : (ts.any fun t => t.containsPos x y z) = true
        · simp [hw, h1, h2]
        · simp [hw, h1, h2]
    · simp [hw]

theorem foldl_update_tiles_frame (step : ImageBuf → Int × Int × Int → ImageBuf)
    (hfr : ∀ d p, (step d p).storage = d.storage ∧ (step d p).err = d.err)
    (tiles : List ROI) (dst : ImageBuf) :
    (tiles.foldl (fun d t => (iter_positions d t).foldl step d) dst).storage = dst.storage ∧
    (tiles.foldl (fun d t => (iter_positions d t).foldl step d) dst).err = dst.err := by
  induction tiles generalizing dst with
  | nil => exact ⟨rfl, rfl⟩
  | cons t ts ih =>
    rw [List.foldl_cons]
    obtain ⟨h1, h2⟩ := ih ((iter_positions dst t).foldl step dst)
    obtain ⟨h3, h4⟩ := foldl_update_frame step hfr (iter_positions dst t) dst
    exact ⟨h1.trans h3, h2.trans h4⟩

/-- A fold whose step functions agree on the elements of the list. -/
theorem foldl_congr_mem {α β : Type} (f g : β → α → β) (l : List α) (b : β)
    (h : ∀ a ∈ l, ∀ b, f b a = g b a) : l.foldl f b = l.foldl g b := by
  induction l generalizing b with
  | nil => rfl
  | cons a l ih =>
    rw [List.foldl_cons, List.foldl_cons, h a (List.mem_cons_self a l) b]
    exact ih _ (fun a1 ha1 b1 => h a1 (List.mem_cons_of_mem a ha1) b1)
/-- The pixel values after one store. -/
theorem store_pixels (b : ImageBuf) (px py pz c0 : Int) (v : ℚ) (x y z c : Int) :
    (b.store px py pz c0 v).pixels x y z c =
      if (get_roi b.spec).containsPos px py pz = true ∧ (x, y, z) = (px, py, pz) ∧ c = c0
      then v else b.pixels x y z c := by
  unfold ImageBuf.store
  by_cases hw : (get_roi b.spec).containsPos px py pz = true
  · simp only [hw, if_true, true_and, Prod.mk.injEq]
    by_cases h : x = px ∧ y = py ∧ z = pz ∧ c = c0
    · rw [if_pos h, if_pos ⟨⟨h.1, h.2.1, h.2.2.1⟩, h.2.2.2⟩]
    · rw [if_neg h, if_neg (fun h1 => h ⟨h1.1.1, h1.1.2.1, h1.1.2.2, h1.2⟩)]
  · simp [hw]

/-- A loop over distinct channels that replaces, at one position, the value
`v` of each channel `c` by `g c v`. -/
theorem foldl_channels (g : Int → ℚ → ℚ) (pos : Int × Int × Int) (cs : List Int)
    (hnd : cs.Nodup) (dst : ImageBuf) :
    (cs.foldl (fun d c => d.store pos.1 pos.2.1 pos.2.2 c
      (g c (d.getchannel_black pos.1 pos.2.1 pos.2.2 c))) dst).spec = dst.spec ∧
    (cs.foldl (fun d c => d.store pos.1 pos.2.1 pos.2.2 c
      (g c (d.getchannel_black pos.1 pos.2.1 pos.2.2 c))) dst).storage = dst.storage ∧
    (cs.foldl (fun d c => d.store pos.1 pos.2.1 pos.2.2 c
      (g c (d.getchannel_black pos.1 pos.2.1 pos.2.2 c))) dst).err = dst.err ∧
    ∀ x y z c : Int,
      (cs.foldl (fun d c => d.store pos.1 pos.2.1 pos.2.2 c
        (g c (d.getchannel_black pos.1 pos.2.1 pos.2.2 c))) dst).pixels x y z c =
        if (x, y, z) = pos ∧ (get_roi dst.spec).containsPos x y z = true ∧ c ∈ cs
        then g c (dst.pixels x y z c) else dst.pixels x y z c := by
  induction cs generalizing dst with
  | nil =>
    refine ⟨rfl, rfl, rfl, ?_⟩
    intro x y z c
    simp
  | cons c0 cs ih =>
    obtain ⟨px, py, pz⟩ := pos
    rw [List.nodup_cons] at hnd
    obtain ⟨i1, i2, i3, i4⟩ := ih hnd.2
      (dst.store px py pz c0 (g c0 (dst.getchannel_black px py pz c0)))
    obtain ⟨f1, f2⟩ := store_frame dst px py pz c0 (g c0 (dst.getchannel_black px py pz c0))
    rw [List.foldl_cons]
    refine ⟨i1.trans (store_spec _ _ _ _ _ _), i2.trans f1, i3.trans f2, ?_⟩
    intro x y z c
    rw [i4, store_spec, store_pixels]
    by_cases hp : (x, y, z) = (px, py, pz)
    · have hp' := hp
      simp only [Prod.mk.injEq] at hp'
      obtain ⟨rfl, rfl, rfl⟩ := hp'
      by_cases hw : (get_roi dst.spec).containsPos x y z = true
      · by_cases hc0 : c = c0
        · subst hc0
          have hr : dst.getchannel_black x y z c = dst.pixels x y z c := by
            unfold ImageBuf.getchannel_black
            rw [if_pos hw]
          simp [hw, hnd.1, hr]
        · by_cases hc : c ∈ cs
          · simp [hw, hc, hc0]
          · simp [hw, hc, hc0]
      · simp [hw]
    · simp [hp]

theorem threshold_value_idem (threshold v : ℚ) :
    threshold_value threshold (threshold_value threshold v) = threshold_value threshold v := by
  unfold threshold_value
  by_cases h : |v| < threshold
  · rw [if_pos h]
    by_cases h0 : |(0 : ℚ)| < threshold
    · rw [if_pos h0]
    · rw [if_neg h0]
  · rw [if_neg h, if_neg h]

/-- One pass of the loop of `threshold_to_zero`, as a loop of stores. -/
theorem threshold_pixel_eq (dst : ImageBuf) (threshold : ℚ) (pos : Int × Int × Int)
    (chbegin chend : Int) :
    threshold_pixel dst threshold pos chbegin chend =
      (irange chbegin chend).foldl (fun d c => d.store pos.1 pos.2.1 pos.2.2 c
        (threshold_value threshold (d.getchannel_black pos.1 pos.2.1 pos.2.2 c))) dst := by
  unfold threshold_pixel
  congr 1
  funext d c
  unfold threshold_value
  by_cases h : |d.getchannel_black pos.1 pos.2.1 pos.2.2 c| < threshold
  · rw [if_pos h, if_pos h]
  · rw [if_neg h, if_neg h]
    apply ImageBuf.ext_fields
    · exact (store_frame _ _ _ _ _ _).1.symm
    · exact (store_spec _ _ _ _ _ _).symm
    · intro x y z c1
      rw [store_pixels]
      by_cases hh : (get_roi d.spec).containsPos pos.1 pos.2.1 pos.2.2 = true ∧
          (x, y, z) = (pos.1, pos.2.1, pos.2.2) ∧ c1 = c
      · rw [if_pos hh]
        obtain ⟨hw, hp, rfl⟩ := hh
        simp only [Prod.mk.injEq] at hp
        obtain ⟨rfl, rfl, rfl⟩ := hp
        unfold ImageBuf.getchannel_black
        rw [if_pos hw]
      · rw [if_neg hh]
    · exact (store_frame _ _ _ _ _ _).2.symm

/-- What one pass of the loop of `threshold_to_zero` leaves. -/
theorem threshold_pixel_pixels (dst : ImageBuf) (threshold : ℚ) (pos : Int × Int × Int)
    (cb ce : Int) :
    (threshold_pixel dst threshold pos cb ce).spec = dst.spec ∧
    ((threshold_pixel dst threshold pos cb ce).storage = dst.storage ∧
      (threshold_pixel dst threshold pos cb ce).err = dst.err) ∧
    ∀ x y z c : Int, (threshold_pixel dst threshold pos cb ce).pixels x y z c =
      if (x, y, z) = pos ∧ (get_roi dst.spec).containsPos x y z = true
      then (fun (v : Int → ℚ) c => if cb ≤ c ∧ c < ce then threshold_value threshold (v c)
        else v c) (dst.pixels x y z) c
      else dst.pixels x y z c := by
  rw [threshold_pixel_eq]
  obtain ⟨h1, h2, h3, h4⟩ := foldl_channels (fun _ v => threshold_value threshold v) pos
    (irange cb ce) (nodup_irange cb ce) dst
  refine ⟨h1, ⟨h2, h3⟩, ?_⟩
  intro x y z c
  rw [h4]
  simp only [mem_irange]
  by_cases hp : (x, y, z) = pos
  · by_cases hw : (get_roi dst.spec).containsPos x y z = true
    · by_cases hc : cb ≤ c ∧ c < ce
      · simp [hp, hw, hc]
      · simp [hp, hw, hc]
    · simp [hw]
  · simp [hp]

/-- What one pass of the loop of `divide_by_alpha` leaves. -/
theorem divide_pixel_pixels (dst : ImageBuf) (pos : Int × Int × Int) :
    (divide_pixel dst pos).spec = dst.spec ∧
    ((divide_pixel dst pos).storage = dst.storage ∧ (divide_pixel dst pos).err = dst.err) ∧
    ∀ x y z c : Int, (divide_pixel dst pos).pixels x y z c =
      if (x, y, z) = pos ∧ (get_roi dst.spec).containsPos x y z = true
      then divided_pixel dst.spec.nchannels dst.spec.alpha_channel (dst.pixels x y z) c
      else dst.pixels x y z c := by
  unfold divide_pixel
  dsimp only
  by_cases ha : dst.getchannel_black pos.1 pos.2.1 pos.2.2 dst.spec.alpha_channel ≠ 0
  · rw [if_pos ha]
    obtain ⟨h1, h2, h3, h4⟩ := foldl_channels
      (fun _ v => v / dst.getchannel_black pos.1 pos.2.1 pos.2.2 dst.spec.alpha_channel) pos
      (irange 0 dst.spec.nchannels) (nodup_irange 0 dst.spec.nchannels) dst
    refine ⟨h1, ⟨h2, h3⟩, ?_⟩
    intro x y z c
    rw [h4]
    simp only [mem_irange]
    unfold divided_pixel
    by_cases hp : (x, y, z) = pos
    · subst hp
      by_cases hw : (get_roi dst.spec).containsPos x y z = true
      · have hr : dst.getchannel_black x y z dst.spec.alpha_channel =
            dst.pixels x y z dst.spec.alpha_channel := by
          unfold ImageBuf.getchannel_black
          rw [if_pos hw]
        simp only at ha
        rw [hr] at ha
        simp only
        rw [hr]
        by_cases hc : 0 ≤ c ∧ c < dst.spec.nchannels
        · simp [hw, hc, ha]
        · simp [hw, hc]
      · simp [hw]
    · simp [hp]
  · rw [if_neg ha]
    refine ⟨rfl, ⟨rfl, rfl⟩, ?_⟩
    intro x y z c
    unfold divided_pixel
    by_cases hp : (x, y, z) = pos
    · subst hp
      by_cases hw : (get_roi dst.spec).containsPos x y z = true
      · have hr : dst.getchannel_black x y z dst.spec.alpha_channel =
            dst.pixels x y z dst.spec.alpha_channel := by
          unfold ImageBuf.getchannel_black
          rw [if_pos hw]
        simp only at ha
        rw [hr] at ha
        simp [hw, not_not.mp ha]
      · simp [hw]
    · simp [hp]

/-- Dividing a divided pixel again changes nothing, when the alpha channel is
one of the channels. -/
theorem divided_pixel_idem (nc ac : Int) (hac : 0 ≤ ac ∧ ac < nc) (v : Int → ℚ) :
    divided_pixel nc ac (divided_pixel nc ac v) = divided_pixel nc ac v := by
  funext c
  unfold divided_pixel
  by_cases ha : v ac ≠ 0
  · simp only [ha, hac, and_self, true_and, ne_eq, not_false_eq_true, if_true, div_self,
      one_ne_zero, div_one]
    split_ifs <;> rfl
  · simp only [ha, false_and, if_false]
/-- A function of the shape of `threshold_to_zero` and `divide_by_alpha` (the
serial loop replaces the channels `v` of each pixel of the roi by `F v`, the
parallel case runs it tile by tile): the tiles leave what the serial loop
over the whole roi leaves. -/
theorem updated_tiles_eq_serial (step : ImageBuf → Int × Int × Int → ImageBuf)
    (F : ImageSpec → (Int → ℚ) → Int → ℚ)
    (hspec : ∀ d p, (step d p).spec = d.spec)
    (hfr : ∀ d p, (step d p).storage = d.storage ∧ (step d p).err = d.err)
    (hpix : ∀ d p x y z c, (step d p).pixels x y z c =
      if (x, y, z) = p ∧ (get_roi d.spec).containsPos x y z = true
      then F d.spec (d.pixels x y z) c else d.pixels x y z c)
    (tiles : List ROI) (r : ROI) (hr : r.defined = true) (ht : IsTiling tiles r)
    (dst : ImageBuf) (hF : ∀ v, F dst.spec (F dst.spec v) = F dst.spec v) :
    tiles.foldl (fun d t => (iter_positions d t).foldl step d) dst =
      (iter_positions dst r).foldl step dst := by
  obtain ⟨a1, a2⟩ := foldl_update_tiles step F hspec hpix tiles (fun t h => (ht.1 t h).1) dst hF
  obtain ⟨b1, b2⟩ := foldl_update_pixels step F hspec hpix (iter_positions dst r) dst hF
  obtain ⟨a3, a4⟩ := foldl_update_tiles_frame step hfr tiles dst
  obtain ⟨b3, b4⟩ := foldl_update_frame step hfr (iter_positions dst r) dst
  apply ImageBuf.ext_fields
  · rw [a3, b3]
  · rw [a1, b1]
  · intro x y z c
    have hm := mem_iter_positions dst r x y z
    rw [if_pos hr] at hm
    rw [a2, b2, ← ht.2 x y z]
    simp only [hm]
  · rw [a4, b4]

/-- A function of the shape of `fill_`, `checker_`, `warp_` and `convolve_`
(the serial loop stores at each pixel a colour that depends on the position
only): the tiles leave what the serial loop over the whole roi leaves. -/
theorem painted_tiles_eq_serial (colour : Int × Int × Int → Int → ℚ) (tiles : List ROI)
    (r : ROI) (hr : r.defined = true) (ht : IsTiling tiles r) (dst : ImageBuf) :
    tiles.foldl (fun d t => (iter_positions d t).foldl
      (fun d p => store_channels d p t.chbegin t.chend (colour p)) d) dst =
    (iter_positions dst r).foldl
      (fun d p => store_channels d p r.chbegin r.chend (colour p)) dst := by
  apply ImageBuf.ext_fields
  · rw [(foldl_tiles_frame colour tiles dst).1, (foldl_paint_frame _ _ _ _ dst).1]
  · rw [foldl_tiles_spec, foldl_paint_spec]
  · intro x y z c
    rw [foldl_tiles_pixels colour tiles r.chbegin r.chend ht.1, serial_pixels colour r dst hr,
      ← ht.2 x y z]
  · rw [(foldl_tiles_frame colour tiles dst).2, (foldl_paint_frame _ _ _ _ dst).2]
/-! ## Properties of `divide_by_alpha` and `threshold_to_zero` -/

/-- Run tile by tile, `divide_by_alpha` leaves what its serial loop over the
whole roi leaves. -/
theorem divide_tiles_eq_serial (tiles : List ROI) (r : ROI) (hr : r.defined = true)
    (ht : IsTiling tiles r) (dst : ImageBuf)
    (hac : 0 ≤ dst.spec.alpha_channel ∧ dst.spec.alpha_channel < dst.spec.nchannels) :
    tiles.foldl (fun d t => divide_by_alpha_serial d t) dst = divide_by_alpha_serial dst r :=
  updated_tiles_eq_serial divide_pixel
    (fun s v => divided_pixel s.nchannels s.alpha_channel v)
    (fun d p => (divide_pixel_pixels d p).1) (fun d p => (divide_pixel_pixels d p).2.1)
    (fun d p => (divide_pixel_pixels d p).2.2) tiles r hr ht dst
    (fun v => divided_pixel_idem _ _ hac v)

/-- The buffer that `divide_by_alpha` returns is the one that its serial loop
leaves, whether it runs serially or tile by tile. -/
theorem divide_by_alpha_eq (split : ROI → Int → List ROI) (dst : ImageBuf) (r : ROI)
    (nthreads : Int)
    (hac : 0 ≤ dst.spec.alpha_channel ∧ dst.spec.alpha_channel < dst.spec.nchannels)
    (ht : nthreads ≠ 1 ∧ r.npixels ≥ 1000 → r.defined = true ∧ IsTiling (split r nthreads) r) :
    divide_by_alpha split dst r nthreads = (divide_by_alpha_serial dst r, true) := by
  unfold divide_by_alpha
  by_cases hp : nthreads ≠ 1 ∧ r.npixels ≥ 1000
  · rw [if_pos hp]
    unfold parallel_image
    rw [divide_tiles_eq_serial _ r (ht hp).1 (ht hp).2 dst hac]
  · rw [if_neg hp]

/-- The pixels that the serial loop of `divide_by_alpha` leaves. -/
theorem divide_by_alpha_serial_pixels (dst : ImageBuf) (r : ROI)
    (hac : 0 ≤ dst.spec.alpha_channel ∧ dst.spec.alpha_channel < dst.spec.nchannels) :
    (divide_by_alpha_serial dst r).spec = dst.spec ∧
    ∀ x y z c : Int, (divide_by_alpha_serial dst r).pixels x y z c =
      if (if r.defined then r else get_roi dst.spec).containsPos x y z = true ∧
          (get_roi dst.spec).containsPos x y z = true
      then divided_pixel dst.spec.nchannels dst.spec.alpha_channel (dst.pixels x y z) c
      else dst.pixels x y z c := by
  obtain ⟨h1, h2⟩ := foldl_update_pixels divide_pixel
    (fun s v => divided_pixel s.nchannels s.alpha_channel v)
    (fun d p => (divide_pixel_pixels d p).1) (fun d p => (divide_pixel_pixels d p).2.2)
    (iter_positions dst r) dst (fun v => divided_pixel_idem _ _ hac v)
  refine ⟨h1, ?_⟩
  intro x y z c
  unfold divide_by_alpha_serial
  rw [h2]
  simp only [mem_iter_positions]

/-- C29: for a buffer whose alpha channel `ac` is one of its channels,
`divide_by_alpha` returns true with the spec of `dst` unchanged; a pixel of
the roi (of the pixel window, for an undefined roi) whose alpha `a` is not
zero has every channel `0 ≤ c < nchannels` divided by that original `a`, so
that its alpha becomes exactly 1; every other value (pixels with alpha 0,
pixels outside the roi) is unchanged; and a second call changes nothing. -/
theorem divide_by_alpha_pixels (split : ROI → Int → List ROI) (dst : ImageBuf) (r : ROI)
    (nthreads : Int)
    (hac : 0 ≤ dst.spec.alpha_channel ∧ dst.spec.alpha_channel < dst.spec.nchannels)
    (ht : nthreads ≠ 1 ∧ r.npixels ≥ 1000 → r.defined = true ∧ IsTiling (split r nthreads) r) :
    (divide_by_alpha split dst r nthreads).2 = true ∧
    (divide_by_alpha split dst r nthreads).1.spec = dst.spec ∧
    (∀ x y z c : Int, (divide_by_alpha split dst r nthreads).1.pixels x y z c =
      if (if r.defined then r else get_roi dst.spec).containsPos x y z = true ∧
          (get_roi dst.spec).containsPos x y z = true ∧
          dst.pixels x y z dst.spec.alpha_channel ≠ 0 ∧ (0 ≤ c ∧ c < dst.spec.nchannels)
      then dst.pixels x y z c / dst.pixels x y z dst.spec.alpha_channel
      else dst.pixels x y z c) ∧
    (∀ x y z : Int,
      (if r.defined then r else get_roi dst.spec).containsPos x y z = true →
      (get_roi dst.spec).containsPos x y z = true →
      dst.pixels x y z dst.spec.alpha_channel ≠ 0 →
      (divide_by_alpha split dst r nthreads).1.pixels x y z dst.spec.alpha_channel = 1) ∧
    divide_by_alpha split (divide_by_alpha split dst r nthreads).1 r nthreads =
      ((divide_by_alpha split dst r nthreads).1, true) := by
  rw [divide_by_alpha_eq split dst r nthreads hac ht]
  obtain ⟨hs, hp⟩ := divide_by_alpha_serial_pixels dst r hac
  have hpix : ∀ x y z c : Int, (divide_by_alpha_serial dst r).pixels x y z c =
      if (if r.defined then r else get_roi dst.spec).containsPos x y z = true ∧
          (get_roi dst.spec).containsPos x y z = true ∧
          dst.pixels x y z dst.spec.alpha_channel ≠ 0 ∧ (0 ≤ c ∧ c < dst.spec.nchannels)
      then dst.pixels x y z c / dst.pixels x y z dst.spec.alpha_channel
      else dst.pixels x y z c := by
    intro x y z c
    rw [hp]
    unfold divided_pixel
    by_cases h1 : (if r.defined then r else get_roi dst.spec).containsPos x y z = true
    · by_cases h2 : (get_roi dst.spec).containsPos x y z = true
      · simp [h1, h2]
      · simp [h2]
    · simp [h1]
  refine ⟨rfl, hs, hpix, ?_, ?_⟩
  · intro x y z h1 h2 h3
    show (divide_by_alpha_serial dst r).pixels x y z dst.spec.alpha_channel = 1
    rw [hpix, if_pos ⟨h1, h2, h3, hac⟩, div_self h3]
  · show divide_by_alpha split (divide_by_alpha_serial dst r) r nthreads =
      (divide_by_alpha_serial dst r, true)
    have hac2 : 0 ≤ (divide_by_alpha_serial dst r).spec.alpha_channel ∧
        (divide_by_alpha_serial dst r).spec.alpha_channel <
          (divide_by_alpha_serial dst r).spec.nchannels := by
      rw [hs]
      exact hac
    rw [divide_by_alpha_eq split _ r nthreads hac2 ht]
    congr 1
    obtain ⟨hs2, hp2⟩ := divide_by_alpha_serial_pixels (divide_by_alpha_serial dst r) r hac2
    obtain ⟨f1, f2⟩ := foldl_update_frame divide_pixel
      (fun d p => (divide_pixel_pixels d p).2.1)
      (iter_positions (divide_by_alpha_serial dst r) r) (divide_by_alpha_serial dst r)
    apply ImageBuf.ext_fields
    · exact f1
    · exact hs2
    · intro x y z c
      rw [hp2, hs]
      have hv : (divide_by_alpha_serial dst r).pixels x y z =
          if (if r.defined then r else get_roi dst.spec).containsPos x y z = true ∧
              (get_roi dst.spec).containsPos x y z = true
          then divided_pixel dst.spec.nchannels dst.spec.alpha_channel (dst.pixels x y z)
          else dst.pixels x y z := by
        funext c1
        rw [hp]
        split_ifs <;> rfl
      by_cases hh : (if r.defined then r else get_roi dst.spec).containsPos x y z = true ∧
          (get_roi dst.spec).containsPos x y z = true
      · rw [if_pos hh, hv, if_pos hh, divided_pixel_idem _ _ hac]
      · rw [if_neg hh]
    · exact f2
/-- An instance of `divide_by_alpha_pixels`: on the 2 × 1 image with pixels
`(1/2, 1/4, 0, 1/2)` and `(3, 3, 3, 0)` the first pixel becomes
`(1, 1/2, 0, 1)` and the second one is kept. -/
theorem divide_by_alpha_pixels_witness :
    (0 ≤ premult2x1.spec.alpha_channel ∧
      premult2x1.spec.alpha_channel < premult2x1.spec.nchannels) ∧
    (divide_by_alpha single_tile premult2x1 ROI.All 1).1.pixels 0 0 0 0 = 1 ∧
    (divide_by_alpha single_tile premult2x1 ROI.All 1).1.pixels 0 0 0 1 = 1 / 2 ∧
    (divide_by_alpha single_tile premult2x1 ROI.All 1).1.pixels 0 0 0 3 = 1 ∧
    (divide_by_alpha single_tile premult2x1 ROI.All 1).1.pixels 1 0 0 0 = 3 :=
  have key := divide_by_alpha_pixels single_tile premult2x1 ROI.All 1 (by decide)
    (fun h => absurd rfl h.1)
  have hspec : premult2x1.spec = plain_spec 0 0 2 1 4 := rfl
  ⟨by decide,
    by rw [key.2.2.1 0 0 0 0, if_pos ⟨by decide, by decide,
        by norm_num [premult2x1, ImageBuf.local_buffer, hspec, plain_spec], by decide⟩]
       norm_num [premult2x1, ImageBuf.local_buffer, plain_spec],
    by rw [key.2.2.1 0 0 0 1, if_pos ⟨by decide, by decide,
        by norm_num [premult2x1, ImageBuf.local_buffer, hspec, plain_spec], by decide⟩]
       norm_num [premult2x1, ImageBuf.local_buffer, plain_spec],
    by rw [key.2.2.1 0 0 0 3, if_pos ⟨by decide, by decide,
        by norm_num [premult2x1, ImageBuf.local_buffer, hspec, plain_spec], by decide⟩]
       norm_num [premult2x1, ImageBuf.local_buffer, plain_spec],
    by rw [key.2.2.1 1 0 0 0, if_neg (fun h => h.2.2.1
        (by norm_num [premult2x1, ImageBuf.local_buffer, plain_spec]))]
       norm_num [premult2x1, ImageBuf.local_buffer]⟩

/-! ## Serial and tiled runs -/

theorem irange_single (a : Int) : irange a (a + 1) = [a] := by
  unfold irange
  have : (a + 1 - a).toNat = 1 := by omega
  rw [this, show List.range 1 = [0] from rfl]
  simp

/-- For a defined roi with one z-slice the positions of `resample_` are the
positions of an iterator over the roi. -/
theorem resample_positions_eq (d : ImageBuf) (t : ROI) (ht : t.defined = true)
    (hz : t.zend = t.zbegin + 1) : resample_positions t = iter_positions d t := by
  unfold resample_positions iter_positions
  simp only [ht, if_true, hz, irange_single, List.flatMap_cons, List.flatMap_nil,
    List.append_nil]

theorem resample_pixel_spec (interppixel : ImageBuf → ℚ → ℚ → Int → ℚ) (d dst src : ImageBuf)
    (interpolate : Bool) (x y : Int) (h : d.spec = dst.spec) :
    resample_pixel interppixel d src interpolate x y =
      resample_pixel interppixel dst src interpolate x y := by
  have e : ∀ b : ImageBuf, resample_pixel interppixel b src interpolate x y =
      if interpolate then
        interppixel src (resample_src_xyf b.spec src.spec x y).1
          (resample_src_xyf b.spec src.spec x y).2
      else
        fun c => src.getchannel_black (resample_src_xy b.spec src.spec x y).1
          (resample_src_xy b.spec src.spec x y).2 0 c := fun _ => rfl
  rw [e d, e dst, h]

/-- The serial case of `resample_` on a tile with one z-slice, in terms of
the display window of the buffer that the whole run started with. -/
theorem resample_serial_eq (interppixel : ImageBuf → ℚ → ℚ → Int → ℚ) (d dst src : ImageBuf)
    (interpolate : Bool) (t : ROI) (ht : t.defined = true) (hz : t.zend = t.zbegin + 1)
    (h : d.spec = dst.spec) :
    resample_serial interppixel d src interpolate t =
      (iter_positions d t).foldl
        (fun d1 p => store_channels d1 p t.chbegin t.chend
          (resample_pixel interppixel dst src interpolate p.1 p.2.1)) d := by
  unfold resample_serial
  rw [resample_positions_eq d t ht hz]
  congr 1
  funext d1 p
  rw [resample_pixel_spec interppixel d dst src interpolate p.1 p.2.1 h]

/-- A fold whose step functions agree on the elements of the list as long as
an invariant holds. -/
theorem foldl_congr_inv {α β : Type} (f g : β → α → β) (P : β → Prop) (l : List α) (b : β)
    (hb : P b) (h : ∀ a ∈ l, ∀ b, P b → f b a = g b a ∧ P (g b a)) :
    l.foldl f b = l.foldl g b := by
  induction l generalizing b with
  | nil => rfl
  | cons a l ih =>
    obtain ⟨h1, h2⟩ := h a (List.mem_cons_self a l) b hb
    rw [List.foldl_cons, List.foldl_cons, h1]
    exact ih _ h2 (fun a1 ha1 b1 => h a1 (List.mem_cons_of_mem a ha1) b1)

theorem resample_tiles_eq (interppixel : ImageBuf → ℚ → ℚ → Int → ℚ) (dst src : ImageBuf)
    (interpolate : Bool) (tiles : List ROI)
    (htiles : ∀ t ∈ tiles, t.defined = true ∧ t.zend = t.zbegin + 1) :
    tiles.foldl (fun d t => resample_serial interppixel d src interpolate t) dst =
      tiles.foldl (fun d t => (iter_positions d t).foldl
        (fun d1 p => store_channels d1 p t.chbegin t.chend
          (resample_pixel interppixel dst src interpolate p.1 p.2.1)) d) dst := by
  apply foldl_congr_inv _ _ (fun d => d.spec = dst.spec) tiles dst rfl
  intro t ht d hd
  constructor
  · exact resample_serial_eq interppixel d dst src interpolate t (htiles t ht).1
      (htiles t ht).2 hd
  · show ((iter_positions d t).foldl _ d).spec = dst.spec
    rw [foldl_paint_spec]
    exact hd

/-- Run tile by tile (tiles with one z-slice), `resample_` leaves what its
serial loop over the whole roi leaves. -/
theorem resample_tiles_eq_serial (interppixel : ImageBuf → ℚ → ℚ → Int → ℚ)
    (dst src : ImageBuf) (interpolate : Bool) (tiles : List ROI) (r : ROI)
    (hr : r.defined = true) (ht : IsTiling tiles r) (hz : r.zend = r.zbegin + 1)
    (htz : ∀ t ∈ tiles, t.zend = t.zbegin + 1) :
    tiles.foldl (fun d t => resample_serial interppixel d src interpolate t) dst =
      resample_serial interppixel dst src interpolate r := by
  rw [resample_tiles_eq interppixel dst src interpolate tiles
      (fun t h => ⟨(ht.1 t h).1, htz t h⟩),
    resample_serial_eq interppixel dst dst src interpolate r hr hz rfl]
  exact painted_tiles_eq_serial
    (fun p => resample_pixel interppixel dst src interpolate p.1 p.2.1) tiles r hr ht dst

/-- Run tile by tile, `threshold_to_zero` leaves what its serial loop over
the whole roi leaves. -/
theorem threshold_tiles_eq_serial (dst : ImageBuf) (threshold : ℚ) (tiles : List ROI)
    (r : ROI) (hr : r.defined = true) (ht : IsTiling tiles r) :
    tiles.foldl (fun d t => threshold_to_zero_serial d threshold t) dst =
      threshold_to_zero_serial dst threshold r := by
  have hstep : tiles.foldl (fun d t => threshold_to_zero_serial d threshold t) dst =
      tiles.foldl (fun d t => (iter_positions d t).foldl
        (fun d p => threshold_pixel d threshold p r.chbegin r.chend) d) dst := by
    apply foldl_congr_mem
    intro t hmem d
    unfold threshold_to_zero_serial
    rw [(ht.1 t hmem).2.1, (ht.1 t hmem).2.2]
  rw [hstep]
  exact updated_tiles_eq_serial (fun d p => threshold_pixel d threshold p r.chbegin r.chend)
    (fun _ v c => if r.chbegin ≤ c ∧ c < r.chend then threshold_value threshold (v c) else v c)
    (fun d p => (threshold_pixel_pixels d threshold p _ _).1)
    (fun d p => (threshold_pixel_pixels d threshold p _ _).2.1)
    (fun d p => (threshold_pixel_pixels d threshold p _ _).2.2) tiles r hr ht dst
    (fun v => by
      funext c
      by_cases hc : r.chbegin ≤ c ∧ c < r.chend
      · simp only [hc, and_self, if_true, threshold_value_idem]
      · simp only [hc, if_false])

/-- C26: for a defined roi and any list of tiles that cover exactly its
positions with its channel range (disjoint or not, in any order), running
the serial body of `fill_`, `checker_`, `convolve_`, `threshold_to_zero`,
`divide_by_alpha` (alpha channel among the channels) or `resample_` (roi and
tiles with one z-slice, as `resample` admits no volume) once on each tile
leaves `dst` in exactly the state in which one run on the whole roi leaves
it; so each function returns the same buffer for `nthreads = 1` and for any
other `nthreads`. -/
theorem parallel_equals_serial (interppixel : ImageBuf → ℚ → ℚ → Int → ℚ)
    (tiles : List ROI) (dst src kernel : ImageBuf) (values color1 color2 : Int → ℚ)
    (size offset : Dim3) (interpolate normalize : Bool) (threshold : ℚ) (r : ROI)
    (nthreads : Int) (hr : r.defined = true) (ht : IsTiling tiles r) :
    (tiles.foldl (fun d t => fill_serial d values t) dst = fill_serial dst values r ∧
     tiles.foldl (fun d t => checker_serial d size color1 color2 offset t) dst =
       checker_serial dst size color1 color2 offset r ∧
     tiles.foldl (fun d t => convolve_serial d src kernel normalize t) dst =
       convolve_serial dst src kernel normalize r ∧
     tiles.foldl (fun d t => threshold_to_zero_serial d threshold t) dst =
       threshold_to_zero_serial dst threshold r ∧
     (0 ≤ dst.spec.alpha_channel ∧ dst.spec.alpha_channel < dst.spec.nchannels →
       tiles.foldl (fun d t => divide_by_alpha_serial d t) dst =
         divide_by_alpha_serial dst r) ∧
     (r.zend = r.zbegin + 1 → (∀ t ∈ tiles, t.zend = t.zbegin + 1) →
       tiles.foldl (fun d t => resample_serial interppixel d src interpolate t) dst =
         resample_serial interppixel dst src interpolate r)) ∧
    (fill_ (fun _ _ => tiles) dst values r nthreads =
       fill_ (fun _ _ => tiles) dst values r 1 ∧
     checker_ (fun _ _ => tiles) dst size color1 color2 offset r nthreads =
       checker_ (fun _ _ => tiles) dst size color1 color2 offset r 1 ∧
     convolve_ (fun _ _ => tiles) dst src kernel normalize r nthreads =
       convolve_ (fun _ _ => tiles) dst src kernel normalize r 1 ∧
     threshold_to_zero (fun _ _ => tiles) dst threshold r nthreads =
       threshold_to_zero (fun _ _ => tiles) dst threshold r 1 ∧
     (0 ≤ dst.spec.alpha_channel ∧ dst.spec.alpha_channel < dst.spec.nchannels →
       divide_by_alpha (fun _ _ => tiles) dst r nthreads =
         divide_by_alpha (fun _ _ => tiles) dst r 1) ∧
     (r.zend = r.zbegin + 1 → (∀ t ∈ tiles, t.zend = t.zbegin + 1) →
       resample_ interppixel (fun _ _ => tiles) dst src interpolate r nthreads =
         resample_ interppixel (fun _ _ => tiles) dst src interpolate r 1)) := by
  have h1 : tiles.foldl (fun d t => fill_serial d values t) dst = fill_serial dst values r :=
    painted_tiles_eq_serial (fun _ => values) tiles r hr ht dst
  have h2 : tiles.foldl (fun d t => checker_serial d size color1 color2 offset t) dst =
      checker_serial dst size color1 color2 offset r := by
    simp only [checker_serial_eq]
    exact painted_tiles_eq_serial (checker_colour size color1 color2 offset) tiles r hr ht dst
  have h3 : tiles.foldl (fun d t => convolve_serial d src kernel normalize t) dst =
      convolve_serial dst src kernel normalize r :=
    painted_tiles_eq_serial (convolve_colour src kernel normalize) tiles r hr ht dst
  have h4 := threshold_tiles_eq_serial dst threshold tiles r hr ht
  have h5 := divide_tiles_eq_serial tiles r hr ht dst
  have h6 := resample_tiles_eq_serial interppixel dst src interpolate tiles r hr ht
  refine ⟨⟨h1, h2, h3, h4, h5, h6⟩, ?_, ?_, ?_, ?_, ?_, ?_⟩
  · unfold fill_ parallel_image
    rw [h1]
    simp
  · unfold checker_ parallel_image
    rw [h2]
    simp
  · unfold convolve_ parallel_image
    rw [h3]
    simp
  · unfold threshold_to_zero parallel_image
    rw [h4]
    simp
  · intro hac
    unfold divide_by_alpha parallel_image
    rw [h5 hac]
    simp
  · intro hz htz
    unfold resample_ parallel_image
    rw [h6 hz htz]
    simp
theorem halves4x4_tiling : IsTiling halves4x4 (get_roi gray4x4.spec) := by
  constructor
  · intro t ht
    simp only [halves4x4, List.mem_cons, List.mem_singleton, List.not_mem_nil, or_false] at ht
    rcases ht with rfl | rfl <;> exact ⟨rfl, rfl, rfl⟩
  · intro x y z
    rw [Bool.eq_iff_iff]
    simp only [halves4x4, ROI.containsPos, get_roi, gray4x4, ImageBuf.local_buffer, plain_spec,
      ImageSpec.empty, List.any_cons, List.any_nil, Bool.or_false, Bool.and_eq_true,
      Bool.or_eq_true, decide_eq_true_eq]
    omega

/-- An instance of `parallel_equals_serial`: the 4 × 4 image filled half by
half. -/
theorem parallel_equals_serial_witness :
    (get_roi gray4x4.spec).defined = true ∧ IsTiling halves4x4 (get_roi gray4x4.spec) ∧
    halves4x4.foldl (fun d t => fill_serial d (fun _ => 7) t) gray4x4 =
      fill_serial gray4x4 (fun _ => 7) (get_roi gray4x4.spec) ∧
    fill_ (fun _ _ => halves4x4) gray4x4 (fun _ => 7) (get_roi gray4x4.spec) 2 =
      fill_ (fun _ _ => halves4x4) gray4x4 (fun _ => 7) (get_roi gray4x4.spec) 1 :=
  have key := parallel_equals_serial (fun _ _ _ _ => 0) halves4x4 gray4x4 gray4x4 gray4x4
    (fun _ => 7) (fun _ => 0) (fun _ => 1) { x := 1 } { x := 0 } false false 0
    (get_roi gray4x4.spec) 2 rfl halves4x4_tiling
  ⟨rfl, halves4x4_tiling, key.1.1, key.2.1⟩

/-! ## Properties of `resize`: the footprint of the non-separable path -/

/-- C27 at a failing input: resizing the 8 × 8 image whose pixel `(x, y)`
holds `y` (display window 8 × 8) into a destination with display window
4 × 8 with the disk filter of width 2 (not separable), `radi = 2` and
`radj = 1`; at the destination pixel `(1, 3)` the four taps of weight 1 are
`(i, 0)`, `-2 ≤ i ≤ 1`; the description weighs the source row `src_y = 3`
with them and gives 3, while the code, whose iterator starts at the row
`src_y - radi`, reads them from the row 2 and writes 2. -/
theorem resize_nonseparable_reads_shifted_rows :
    (disk_filter 2).separable = false ∧
    (resize_locals (plain_spec 0 0 4 8 1) yramp8x8.spec (disk_filter 2)).radi = 2 ∧
    (resize_locals (plain_spec 0 0 4 8 1) yramp8x8.spec (disk_filter 2)).radj = 1 ∧
    (resize_pixel yramp8x8 (disk_filter 2)
      (resize_locals (plain_spec 0 0 4 8 1) yramp8x8.spec (disk_filter 2)) 1 3).map
        (fun out => out 0) = some 2 ∧
    resize_nonseparable_described yramp8x8 (disk_filter 2)
      (resize_locals (plain_spec 0 0 4 8 1) yramp8x8.spec (disk_filter 2)) 1 3 0 = 3 := by
  have hc1 : ⌈(1 : ℚ)⌉ = 1 := Int.ceil_one
  have hc2 : ⌈(2 : ℚ)⌉ = 2 := by
    rw [Int.ceil_eq_iff]
    norm_num
  have hf1 : ⌊(3 : ℚ)⌋ = 3 := by
    rw [Int.floor_eq_iff]
    norm_num
  have hf2 : ⌊(7 / 2 : ℚ)⌋ = 3 := by
    rw [Int.floor_eq_iff]
    norm_num
  have hl : (resize_locals (plain_spec 0 0 4 8 1) yramp8x8.spec (disk_filter 2)).radi = 2 ∧
      (resize_locals (plain_spec 0 0 4 8 1) yramp8x8.spec (disk_filter 2)).radj = 1 ∧
      (resize_locals (plain_spec 0 0 4 8 1) yramp8x8.spec (disk_filter 2)).xratio = 1 / 2 ∧
      (resize_locals (plain_spec 0 0 4 8 1) yramp8x8.spec (disk_filter 2)).yratio = 1 ∧
      (resize_locals (plain_spec 0 0 4 8 1) yramp8x8.spec (disk_filter 2)).nchannels = 1 ∧
      resize_src_x (resize_locals (plain_spec 0 0 4 8 1) yramp8x8.spec (disk_filter 2)) 1 =
        (0, 3) ∧
      resize_src_y (resize_locals (plain_spec 0 0 4 8 1) yramp8x8.spec (disk_filter 2)) 3 =
        (1 / 2, 3) := by
    unfold resize_src_x resize_src_y floorfrac resize_locals yramp8x8 ImageBuf.local_buffer
      plain_spec disk_filter
    norm_num [ImageSpec.empty, hc1, hc2, hf1, hf2]
  obtain ⟨h1, h2, h3, h4, h5, h6, h7⟩ := hl
  have hw : ∀ i j : Int, tap_weight (disk_filter 2)
      (resize_locals (plain_spec 0 0 4 8 1) yramp8x8.spec (disk_filter 2)) 1 3 (i, j) =
      if (1 / 2 * ((i : ℚ) + 1 / 2)) * (1 / 2 * ((i : ℚ) + 1 / 2)) + (j : ℚ) * (j : ℚ) ≤ 1
      then 1 else 0 := by
    intro i j
    unfold tap_weight
    rw [h3, h4, h6, h7]
    unfold disk_filter
    norm_num
  have hpx : ∀ a b : Int, yramp8x8.getchannel_clamp a b 0 0 = ((clampInt b 0 7 : Int) : ℚ) :=
    fun _ _ => rfl
  have hI2 : irange (-2) 3 = [-2, -1, 0, 1, 2] := by decide
  have hI1 : irange (-1) 2 = [-1, 0, 1] := by decide
  have htaps : nonsep_taps 2 1 = [(-2, -1), (-1, -1), (0, -1), (1, -1), (2, -1),
      (-2, 0), (-1, 0), (0, 0), (1, 0), (2, 0), (-2, 1), (-1, 1), (0, 1), (1, 1), (2, 1)] := by
    decide
  refine ⟨rfl, h1, h2, ?_, ?_⟩
  · unfold resize_pixel
    rw [if_neg (by decide), resize_nonseparable_out _ _ _ _ _ (by rw [h1]; decide)
      (by rw [h2]; decide) (by rw [h1, h2]; decide), Option.map_some']
    congr 1
    simp only [h1, h2, h5, h6, h7, hw, hpx]
    norm_num only [← sum_irange, hI2, hI1, clampInt, List.map_cons, List.map_nil, List.sum_cons,
      List.sum_nil]
    norm_num
  · unfold resize_nonseparable_described
    simp only [h1, h2, h6, h7, htaps, List.map_cons, List.map_nil, hw, hpx, List.sum_cons,
      List.sum_nil]
    norm_num [clampInt]

/-! ## Properties of `make_kernel`: the binomial kernel -/

/-- The loop of `binomial` for `n = m + k`: the product of `(m + i) / i`,
`1 ≤ i ≤ k`, is the binomial coefficient. -/
theorem binomial_loop (m : Nat) (k : Nat) :
    (irange 1 ((k : Int) + 1)).foldl
      (fun (p : ℚ) (i : Int) => p * ((((m : Int) + i : Int) : ℚ) / (i : ℚ))) 1 =
      ((m + k).choose k : ℚ) := by
  induction k with
  | zero =>
    have : irange 1 (((0 : Nat) : Int) + 1) = [] := by decide
    rw [this]
    simp
  | succ k ih =>
    have hsplit : irange 1 (((k + 1 : Nat) : Int) + 1) =
        irange 1 ((k : Int) + 1) ++ [(k : Int) + 1] := by
      unfold irange
      have h1 : (((k + 1 : Nat) : Int) + 1 - 1).toNat = k + 1 := by omega
      have h2 : ((k : Int) + 1 - 1).toNat = k := by omega
      rw [h1, h2, List.range_succ, List.map_append]
      simp
      omega
    rw [hsplit, List.foldl_append, ih, List.foldl_cons, List.foldl_nil]
    have hk : ((k : ℚ) + 1) ≠ 0 := by positivity
    have hc := Nat.succ_mul_choose_eq (m + k) k
    have hc2 : ((m + k + 1 : Nat) : ℚ) * ((m + k).choose k : ℚ) =
        ((m + k + 1).choose (k + 1) : ℚ) * ((k + 1 : Nat) : ℚ) := by
      exact_mod_cast hc
    push_cast at hc2 ⊢
    rw [show m + (k + 1) = m + k + 1 from rfl]
    field_simp
    linarith

/-- The helper `binomial (n, k)` returns the binomial coefficient `C(n, k)`
for `0 ≤ k ≤ n`. -/
theorem binomial_eq_choose (n k : Nat) (h : k ≤ n) :
    binomial (n : Int) (k : Int) = (n.choose k : ℚ) := by
  unfold binomial
  have hstep : (fun (p : ℚ) (i : Int) => p * ((((n : Int) - ((k : Int) - i) : Int) : ℚ) / (i : ℚ))) =
      (fun (p : ℚ) (i : Int) => p * (((((n - k : Nat) : Int) + i : Int) : ℚ) / (i : ℚ))) := by
    funext p i
    congr 3
    omega
  rw [hstep, binomial_loop (n - k) k, Nat.sub_add_cancel h]
/-- C21 at a failing input: `make_kernel` with the name `binomial` and the
even request `width = height = 2`, `depth = 1`. The kernel is 3 × 3 × 1 with
x range `[-1, 2)`, but the tables `wfilter` and `hfilter` are filled from the
requested size 2, not from the size 3 of the kernel: they hold the two
entries `C(1,0), C(1,1)`. The centre pixel gets `1 * 1 * 1 = 1` where the
outer product of the coefficients `C(2, i)` is `2 * 2 * 1 = 4`, and the
pixels of the column `x = 1` read `wfilter[2]`, outside the table. -/
theorem make_kernel_binomial_even_request :
    kernel_size 2 = 3 ∧
    (make_kernel_spec id 2 2 1).x = -1 ∧ (make_kernel_spec id 2 2 1).width = 3 ∧
    binomial_tables 2 2 1 = ([1, 1], [1, 1], [1]) ∧
    binomial_value 2 2 1 (make_kernel_spec id 2 2 1) (0, 0, 0) = some 1 ∧
    ((Nat.choose 2 1 : ℚ) * (Nat.choose 2 1 : ℚ) * (Nat.choose 0 0 : ℚ) = 4) ∧
    binomial_value 2 2 1 (make_kernel_spec id 2 2 1) (1, 0, 0) = none ∧
    make_kernel id no_filters ImageBuf.uninit "binomial" 2 2 1 false = none := by
  have hc2 : ⌈(2 : ℚ)⌉ = 2 := by
    rw [Int.ceil_eq_iff]
    norm_num
  have hc1 : ⌈(1 : ℚ)⌉ = 1 := Int.ceil_one
  have hf1 : ⌊(1 : ℚ)⌋ = 1 := Int.floor_one
  have hk2 : kernel_size 2 = 3 := by
    unfold kernel_size
    rw [hc2]
    decide
  have hk1 : kernel_size 1 = 1 := by
    unfold kernel_size
    rw [hc1]
    decide
  have hb0 : binomial 1 0 = 1 := by
    unfold binomial
    rw [show irange 1 (0 + 1) = [] by decide]
    rfl
  have hb1 : binomial 1 1 = 1 := by
    unfold binomial
    rw [show irange 1 (1 + 1) = [1] by decide]
    norm_num
  have ht : binomial_table 2 = [1, 1] := by
    unfold binomial_table float_to_int
    rw [hc2, show irange 0 2 = [0, 1] by decide]
    norm_num [hf1, hb0, hb1]
  have hts : binomial_tables 2 2 1 = ([1, 1], [1, 1], [1]) := by
    unfold binomial_tables
    simp only [ht, if_true]
  have hspec : make_kernel_spec id 2 2 1 =
      { ImageSpec.empty with
        x := -1, y := -1, z := 0, width := 3, height := 3, depth := 1,
        full_x := -1, full_y := -1, full_z := 0, full_width := 3, full_height := 3,
        full_depth := 1, tile_width := 0, tile_height := 0, tile_depth := 1,
        nchannels := 1, format := TypeDesc.FLOAT, extra_attribs := [] } := by
    unfold make_kernel_spec ImageSpec.create
    simp only [hk2, hk1, id]
    rfl
  have hv0 : binomial_value 2 2 1 (make_kernel_spec id 2 2 1) (0, 0, 0) = some 1 := by
    unfold binomial_value
    rw [hts, hspec]
    simp [table_get]
  have hv1 : binomial_value 2 2 1 (make_kernel_spec id 2 2 1) (1, 0, 0) = none := by
    unfold binomial_value
    rw [hts, hspec]
    simp [table_get]
  refine ⟨hk2, by rw [hspec], by rw [hspec], hts, hv0, by norm_num [Nat.choose], hv1, ?_⟩
  unfold make_kernel
  simp only [no_filters, if_true]
  rw [if_neg]
  rw [Bool.not_eq_true, List.all_eq_false]
  refine ⟨(1, 0, 0), ?_, ?_⟩
  · rw [mem_iter_positions]
    unfold make_kernel_alloc ImageBuf.alloc
    simp only [ROI.All, ROI.defined, Bool.false_eq_true, if_false, hspec]
    decide
  · unfold make_kernel_alloc ImageBuf.alloc
    simp only [hv1]
    decide

/-! ## Properties of `polar_to_complex` and `complex_to_polar` -/

/-- The argument of the complex number `amp·(cos φ + i sin φ)`, `amp > 0`,
differs from `φ` by a multiple of `2π`. -/
theorem arg_polar (amp phase : ℝ) (h : 0 < amp) :
    ∃ k : ℤ, Complex.arg ⟨amp * Real.cos phase, amp * Real.sin phase⟩ =
      phase + k * (2 * Real.pi) := by
  have hz : (⟨amp * Real.cos phase, amp * Real.sin phase⟩ : ℂ) =
      (amp : ℂ) * Complex.exp ((phase : ℂ) * Complex.I) := by
    rw [Complex.exp_mul_I]
    apply Complex.ext
    · simp [Complex.cos_ofReal_re, Complex.sin_ofReal_re, Complex.cos_ofReal_im,
        Complex.sin_ofReal_im]
    · simp [Complex.cos_ofReal_re, Complex.sin_ofReal_re, Complex.cos_ofReal_im,
        Complex.sin_ofReal_im]
  rw [hz, Complex.arg_real_mul _ h, Complex.arg_exp_mul_I]
  refine ⟨-toIocDiv (mul_pos two_pos Real.pi_pos) (-Real.pi) phase, ?_⟩
  have := toIocMod_add_toIocDiv_zsmul (mul_pos two_pos Real.pi_pos) (-Real.pi) phase
  rw [zsmul_eq_mul] at this
  push_cast
  linarith

/-- In exact real arithmetic, that is with the math library computing the
real functions (`atan2 (y, x)` the argument of `x + iy` in `(-π, π]`, `hypot`
the Euclidean norm) and sums that are not rounded, every pixel that
`complex_to_polar` writes has the amplitude
`hypot (real, imag) ≥ 0` and a phase in `[0, 2π)`; and for `amp > 0`,
`complex_to_polar` after `polar_to_complex` turns the pixel `(amp, phase)`
into `(amp, phase')`, `phase'` being the representative of `phase` modulo
`2π` in `[0, 2π)`. -/
theorem polar_complex_round_trip (m : FloatMath ℝ) (amp phase : ℝ)
    (hsin : m.sin = Real.sin) (hcos : m.cos = Real.cos)
    (hatan : ∀ y x : ℝ, m.atan2 y x = Complex.arg ⟨x, y⟩)
    (hhyp : ∀ x y : ℝ, m.hypot x y = Real.sqrt (x ^ 2 + y ^ 2))
    (hpi : m.two_pi = 2 * Real.pi) (hamp : 0 < amp) :
    (∀ real imag : ℝ,
      (complex_to_polar_pixel m (real, imag)).1 = Real.sqrt (real ^ 2 + imag ^ 2) ∧
      0 ≤ (complex_to_polar_pixel m (real, imag)).1 ∧
      0 ≤ (complex_to_polar_pixel m (real, imag)).2 ∧
      (complex_to_polar_pixel m (real, imag)).2 < 2 * Real.pi) ∧
    (complex_to_polar_pixel m (polar_to_complex_pixel m (amp, phase))).1 = amp ∧
    0 ≤ (complex_to_polar_pixel m (polar_to_complex_pixel m (amp, phase))).2 ∧
    (complex_to_polar_pixel m (polar_to_complex_pixel m (amp, phase))).2 < 2 * Real.pi ∧
    ∃ k : ℤ, (complex_to_polar_pixel m (polar_to_complex_pixel m (amp, phase))).2 =
      phase + k * (2 * Real.pi) := by
  have hrange : ∀ real imag : ℝ,
      (complex_to_polar_pixel m (real, imag)).1 = Real.sqrt (real ^ 2 + imag ^ 2) ∧
      0 ≤ (complex_to_polar_pixel m (real, imag)).1 ∧
      0 ≤ (complex_to_polar_pixel m (real, imag)).2 ∧
      (complex_to_polar_pixel m (real, imag)).2 < 2 * Real.pi := by
    intro real imag
    unfold complex_to_polar_pixel
    simp only [hatan, hhyp, hpi]
    have h1 := Complex.neg_pi_lt_arg ⟨real, imag⟩
    have h2 := Complex.arg_le_pi ⟨real, imag⟩
    have hp := Real.pi_pos
    refine ⟨trivial, Real.sqrt_nonneg _, ?_, ?_⟩
    · split_ifs with h
      · linarith
      · linarith
    · split_ifs with h
      · linarith
      · linarith
  obtain ⟨r1, _, r3, r4⟩ := hrange (polar_to_complex_pixel m (amp, phase)).1
    (polar_to_complex_pixel m (amp, phase)).2
  refine ⟨hrange, ?_, r3, r4, ?_⟩
  · rw [r1]
    unfold polar_to_complex_pixel
    simp only [hsin, hcos]
    have e : (amp * Real.cos phase) ^ 2 + (amp * Real.sin phase) ^ 2 = amp ^ 2 := by
      have := Real.sin_sq_add_cos_sq phase
      nlinarith
    rw [e, Real.sqrt_sq hamp.le]
  · obtain ⟨k, hk⟩ := arg_polar amp phase hamp
    unfold complex_to_polar_pixel polar_to_complex_pixel
    simp only [hatan, hsin, hcos, hpi]
    split_ifs with h
    · refine ⟨k + 1, ?_⟩
      rw [hk]
      push_cast
      ring
    · exact ⟨k, hk⟩

/-- An instance of `polar_complex_round_trip`: the pixel `(2, 7)` with the
real functions of Mathlib as the math library. -/
theorem polar_complex_round_trip_witness :
    (0 : ℝ) < 2 ∧
    (complex_to_polar_pixel
      { sin := Real.sin, cos := Real.cos, atan2 := fun y x => Complex.arg ⟨x, y⟩,
        hypot := fun x y => Real.sqrt (x ^ 2 + y ^ 2), two_pi := 2 * Real.pi }
      (polar_to_complex_pixel
      { sin := Real.sin, cos := Real.cos, atan2 := fun y x => Complex.arg ⟨x, y⟩,
        hypot := fun x y => Real.sqrt (x ^ 2 + y ^ 2), two_pi := 2 * Real.pi }
        ((2 : ℝ), (7 : ℝ)))).1 = 2 ∧
    0 ≤ (complex_to_polar_pixel
      { sin := Real.sin, cos := Real.cos, atan2 := fun y x => Complex.arg ⟨x, y⟩,
        hypot := fun x y => Real.sqrt (x ^ 2 + y ^ 2), two_pi := 2 * Real.pi }
      (polar_to_complex_pixel
      { sin := Real.sin, cos := Real.cos, atan2 := fun y x => Complex.arg ⟨x, y⟩,
        hypot := fun x y => Real.sqrt (x ^ 2 + y ^ 2), two_pi := 2 * Real.pi }
        ((2 : ℝ), (7 : ℝ)))).2 ∧
    (complex_to_polar_pixel
      { sin := Real.sin, cos := Real.cos, atan2 := fun y x => Complex.arg ⟨x, y⟩,
        hypot := fun x y => Real.sqrt (x ^ 2 + y ^ 2), two_pi := 2 * Real.pi }
      (polar_to_complex_pixel
      { sin := Real.sin, cos := Real.cos, atan2 := fun y x => Complex.arg ⟨x, y⟩,
        hypot := fun x y => Real.sqrt (x ^ 2 + y ^ 2), two_pi := 2 * Real.pi }
        ((2 : ℝ), (7 : ℝ)))).2 < 2 * Real.pi ∧
    ∃ k : ℤ, (complex_to_polar_pixel
      { sin := Real.sin, cos := Real.cos, atan2 := fun y x => Complex.arg ⟨x, y⟩,
        hypot := fun x y => Real.sqrt (x ^ 2 + y ^ 2), two_pi := 2 * Real.pi }
      (polar_to_complex_pixel
      { sin := Real.sin, cos := Real.cos, atan2 := fun y x => Complex.arg ⟨x, y⟩,
        hypot := fun x y => Real.sqrt (x ^ 2 + y ^ 2), two_pi := 2 * Real.pi }
        ((2 : ℝ), (7 : ℝ)))).2 = 7 + k * (2 * Real.pi) :=
  ⟨by norm_num,
    (polar_complex_round_trip
      { sin := Real.sin, cos := Real.cos, atan2 := fun y x => Complex.arg ⟨x, y⟩,
        hypot := fun x y => Real.sqrt (x ^ 2 + y ^ 2), two_pi := 2 * Real.pi }
      2 7 rfl rfl (fun _ _ => rfl) (fun _ _ => rfl) rfl (by norm_num)).2⟩

/-! ## Properties of `unsharp_mask` -/

/-- With `IBAprep_REQUIRE_SAME_NCHANNELS`, a successful run of `IBAprep`
leaves a destination with as many channels as the source. -/
theorem IBAprep_ok_same_nchannels (default_channel_names : ImageSpec → ImageSpec) (roi : ROI)
    (dst src : ImageBuf) (prepflags : PrepFlags) (out : PrepOut)
    (hf : prepflags.REQUIRE_SAME_NCHANNELS = true)
    (h : IBAprep default_channel_names roi dst (some src) none none prepflags = some out)
    (hok : out.ok = true) : src.spec.nchannels = out.dst.spec.nchannels := by
  have key : ∀ (r : ROI) (d : ImageBuf), out = prep_checks r d (some src) none prepflags →
      src.spec.nchannels = out.dst.spec.nchannels := by
    intro r d ho
    rw [ho] at hok
    have hne : ¬ ((prep_checks r d (some src) none prepflags).ok = false) := by
      rw [hok]
      decide
    rw [prep_checks_false_iff_out] at hne
    rw [ho]
    by_contra hc
    apply hne
    right
    right
    left
    refine ⟨hf, Or.inl ?_⟩
    simp [srcAnd, hc]
  unfold IBAprep at h
  by_cases hA : (srcAnd (some src) (fun a => ! a.initialized) ||
      srcAnd none (fun b => ! b.initialized)) = true
  · rw [if_pos hA] at h
    simp only [Option.some.injEq] at h
    subst h
    exact absurd hok (by simp)
  · rw [if_neg hA] at h
    by_cases hd : dst.initialized = true
    · rw [if_pos hd] at h
      simp only [Option.some.injEq] at h
      exact key _ _ h.symm
    · rw [if_neg hd, if_neg (by simp)] at h
      cases hp : prep_rois roi (some src) none prepflags with
      | none =>
        rw [hp] at h
        exact absurd h (by simp)
      | some rr =>
        obtain ⟨roi1, full_roi⟩ := rr
        rw [hp] at h
        simp only [Option.some.injEq] at h
        exact key _ _ h.symm

theorem paste_frame (dst : ImageBuf) (xb yb zb cb : Int) (src : ImageBuf) (sr : ROI)
    (n : Int) :
    (paste dst xb yb zb cb src sr n).1.spec = dst.spec ∧
    (paste dst xb yb zb cb src sr n).1.storage = dst.storage ∧
    (paste dst xb yb zb cb src sr n).1.err = dst.err := by
  unfold paste
  exact ⟨foldl_paint_spec _ _ _ _ dst, (foldl_paint_frame _ _ _ _ dst).1,
    (foldl_paint_frame _ _ _ _ dst).2⟩

/-- The pixels that `paste` of a whole image leaves. -/
theorem paste_all_pixels (dst : ImageBuf) (xb yb zb : Int) (src : ImageBuf) (n : Int)
    (x y z c : Int) :
    (paste dst xb yb zb 0 src ROI.All n).1.pixels x y z c =
      if ((xb ≤ x ∧ x < xb + src.spec.width) ∧ (yb ≤ y ∧ y < yb + src.spec.height) ∧
          (zb ≤ z ∧ z < zb + src.spec.depth)) ∧
          (get_roi dst.spec).containsPos x y z = true ∧
          (0 ≤ c ∧ c < src.spec.nchannels) then
        src.getchannel_black (x - xb + src.spec.x) (y - yb + src.spec.y)
          (z - zb + src.spec.z) c
      else dst.pixels x y z c := by
  unfold paste
  dsimp only
  rw [foldl_paint_pixels]
  simp only [mem_iter_positions, show ROI.All.defined = false from rfl, Bool.false_eq_true,
    if_false, show ∀ r : ROI, ({ r with isdef := true } : ROI).defined = true from fun _ => rfl,
    if_true]
  have e : ∀ s : ImageSpec, (get_roi s).width = s.width ∧ (get_roi s).height = s.height ∧
      (get_roi s).depth = s.depth ∧ (get_roi s).xbegin = s.x ∧ (get_roi s).ybegin = s.y ∧
      (get_roi s).zbegin = s.z ∧ (get_roi s).chbegin = 0 ∧ (get_roi s).chend = s.nchannels := by
    intro s
    unfold get_roi ROI.width ROI.height ROI.depth
    simp
  obtain ⟨e1, e2, e3, e4, e5, e6, e7, e8⟩ := e src.spec
  simp only [e1, e2, e3, e4, e5, e6, e7, e8, sub_zero, zero_add, add_zero]
  have hm : (ROI.containsPos
      { xbegin := xb, xend := xb + src.spec.width, ybegin := yb, yend := yb + src.spec.height,
        zbegin := zb, zend := zb + src.spec.depth, chbegin := 0,
        chend := src.spec.nchannels } x y z = true) ↔
      ((xb ≤ x ∧ x < xb + src.spec.width) ∧ (yb ≤ y ∧ y < yb + src.spec.height) ∧
        (zb ≤ z ∧ z < zb + src.spec.depth)) := by
    simp only [ROI.containsPos, Bool.and_eq_true, decide_eq_true_eq]
    tauto
  simp only [ROI.defined, if_true, hm]

theorem over_frame (R A B : ImageBuf) (roi : ROI) (n : Int) :
    (over R A B roi n).1.spec = R.spec ∧ (over R A B roi n).1.storage = R.storage := by
  unfold over
  exact ⟨foldl_paint_spec _ _ _ _ R, (foldl_paint_frame _ _ _ _ R).1⟩

/-- The pixels that `over` leaves when it runs over the whole of `R`. -/
theorem over_all_pixels (R A B : ImageBuf) (n : Int) (x y z c : Int) :
    (over R A B ROI.All n).1.pixels x y z c =
      if (get_roi R.spec).containsPos x y z = true ∧ (0 ≤ c ∧ c < R.spec.nchannels) then
        A.getchannel_black x y z c +
          (1 - A.getchannel_black x y z A.spec.alpha_channel) * B.getchannel_black x y z c
      else R.pixels x y z c := by
  unfold over
  dsimp only
  rw [foldl_paint_pixels]
  simp only [mem_iter_positions, show ROI.All.defined = false from rfl, Bool.false_eq_true,
    if_false, and_self_left]

/-- The run of `IBAprep` with one source on a destination that owns its
pixels. -/
theorem IBAprep_local (default_channel_names : ImageSpec → ImageSpec) (roi : ROI)
    (dst src : ImageBuf) (prepflags : PrepFlags) (hd : dst.storage = IBStorage.LOCALBUFFER)
    (hs : src.initialized = true) :
    IBAprep default_channel_names roi dst (some src) none none prepflags =
      some (prep_checks (normalized_roi roi dst) dst (some src) none prepflags) := by
  unfold IBAprep
  have hA : (srcAnd (some src) (fun a => ! a.initialized) ||
      srcAnd none (fun b => ! b.initialized)) = false := by
    simp [srcAnd, hs]
  have hi : dst.initialized = true := by
    unfold ImageBuf.initialized
    rw [hd]
    rfl
  rw [if_neg (by rw [hA]; decide), if_pos hi]
  simp only [hd]
  rfl

/-- The post-checks of `resize` pass for images without depth that have the
same number of channels. -/
theorem prep_checks_resize (r : ROI) (dst src : ImageBuf)
    (hch : src.spec.nchannels = dst.spec.nchannels) (hdd : dst.spec.depth ≤ 1)
    (hsd : src.spec.depth ≤ 1) :
    prep_checks r dst (some src) none
      { REQUIRE_SAME_NCHANNELS := true, NO_SUPPORT_VOLUME := true,
        NO_COPY_ROI_FULL := true } = { ok := true, roi := r, dst := dst } := by
  unfold prep_checks
  simp [srcAnd, hch, not_lt.mpr hdd, not_lt.mpr hsd]

/-- On the separable path the loops of `resize_` store at every position. -/
theorem resize_serial_separable (dst src : ImageBuf) (filter : Filter2D) (roi : ROI)
    (hsep : filter.separable = true) :
    resize_serial dst src filter roi =
      some ((resample_positions roi).foldl
        (fun d p => store_channels d p 0 dst.spec.nchannels
          (resize_separable_pixel src filter (resize_locals dst.spec src.spec filter)
            (resize_yweights filter (resize_locals dst.spec src.spec filter) p.2.1) p.1).out)
        dst) := by
  unfold resize_serial
  generalize resample_positions roi = ps
  have key : ∀ (ps : List (Int × Int × Int)) (d : ImageBuf),
      ps.foldl
        (fun (d : Option ImageBuf) p =>
          match d with
          | none => none
          | some d =>
            match resize_pixel src filter (resize_locals dst.spec src.spec filter) p.1
                p.2.1 with
            | none => none
            | some out => some (store_channels d p 0 dst.spec.nchannels out))
        (some d) =
      some (ps.foldl
        (fun d p => store_channels d p 0 dst.spec.nchannels
          (resize_separable_pixel src filter (resize_locals dst.spec src.spec filter)
            (resize_yweights filter (resize_locals dst.spec src.spec filter) p.2.1) p.1).out)
        d) := by
    intro ps
    induction ps with
    | nil => intro d; rfl
    | cons p ps ih =>
      intro d
      rw [List.foldl_cons, List.foldl_cons]
      have hp : resize_pixel src filter (resize_locals dst.spec src.spec filter) p.1 p.2.1 =
          some (resize_separable_pixel src filter (resize_locals dst.spec src.spec filter)
            (resize_yweights filter (resize_locals dst.spec src.spec filter) p.2.1) p.1).out := by
        unfold resize_pixel
        rw [if_pos hsep]
      simp only [hp]
      exact ih _
  exact key ps dst

theorem mem_resample_positions (roi : ROI) (x y z : Int) :
    (x, y, z) ∈ resample_positions roi ↔
      (roi.xbegin ≤ x ∧ x < roi.xend) ∧ (roi.ybegin ≤ y ∧ y < roi.yend) ∧ z = roi.zbegin := by
  unfold resample_positions
  simp only [List.mem_flatMap, List.mem_map, mem_irange, Prod.mk.injEq]
  constructor
  · rintro ⟨y1, hy, x1, hx, rfl, rfl, rfl⟩
    exact ⟨hx, hy, rfl⟩
  · rintro ⟨hx, hy, rfl⟩
    exact ⟨y, hy, x, hx, rfl, rfl, rfl⟩

/-- The run of the named `resize` over a whole destination that owns its
pixels and has fewer than 1000 of them, for a separable filter that the
registry knows: it returns true, and a pixel of the first z-slice of the
pixel window holds in every channel the value of the separable path. -/
theorem resize_named_separable (default_channel_names : ImageSpec → ImageSpec)
    (desc_width : String → Option ℚ) (create : String → ℚ → ℚ → Option Filter2D)
    (split : ROI → Int → List ROI) (dst src : ImageBuf) (name : String) (wd : ℚ)
    (f : Filter2D) (n : Int)
    (hd : dst.storage = IBStorage.LOCALBUFFER) (hs : src.initialized = true)
    (hch : src.spec.nchannels = dst.spec.nchannels) (hdd : dst.spec.depth ≤ 1)
    (hsd : src.spec.depth ≤ 1) (hname : name ≠ "") (hdw : desc_width name = some wd)
    (hcr : create name
      (wd * max 1 ((dst.spec.full_width : ℚ) / (src.spec.full_width : ℚ)))
      (wd * max 1 ((dst.spec.full_height : ℚ) / (src.spec.full_height : ℚ))) = some f)
    (hsep : f.separable = true)
    (hfd : dispatch_supported dst.spec.format = true)
    (hfs : dispatch_supported src.spec.format = true)
    (hsmall : (get_roi dst.spec).npixels < 1000) :
    ∃ r : ImageBuf,
      resize_named default_channel_names desc_width create split dst src name 0 ROI.All n =
        some (r, true) ∧
      r.spec = dst.spec ∧ r.storage = dst.storage ∧
      ∀ x y z c : Int, r.pixels x y z c =
        if ((get_roi dst.spec).containsPos x y z = true ∧ z = dst.spec.z) ∧
            (0 ≤ c ∧ c < dst.spec.nchannels) then
          (resize_separable_pixel src f (resize_locals dst.spec src.spec f)
            (resize_yweights f (resize_locals dst.spec src.spec f) y) x).out c
        else dst.pixels x y z c := by
  refine ⟨(resample_positions (get_roi dst.spec)).foldl
        (fun d p => store_channels d p 0 dst.spec.nchannels
          (resize_separable_pixel src f (resize_locals dst.spec src.spec f)
            (resize_yweights f (resize_locals dst.spec src.spec f) p.2.1) p.1).out)
        dst, ?_, foldl_paint_spec _ _ _ _ dst, (foldl_paint_frame _ _ _ _ dst).1, ?_⟩
  · unfold resize_named
    rw [IBAprep_local default_channel_names ROI.All dst src _ hd hs,
      prep_checks_resize _ dst src hch hdd hsd]
    simp only [Bool.not_true, Bool.false_eq_true, if_false, if_neg hname, hdw,
      lt_irrefl, gt_iff_lt, hcr, hfd, hfs, Bool.and_self, if_true]
    unfold resize_
    have hroi : normalized_roi ROI.All dst = get_roi dst.spec := rfl
    rw [hroi, if_neg (by omega), resize_serial_separable dst src f _ hsep]
    rfl
  · intro x y z c
    rw [foldl_paint_pixels]
    simp only [mem_resample_positions]
    have hw : (get_roi dst.spec).containsPos x y z = true ↔
        ((dst.spec.x ≤ x ∧ x < dst.spec.x + dst.spec.width) ∧
          (dst.spec.y ≤ y ∧ y < dst.spec.y + dst.spec.height) ∧
          (dst.spec.z ≤ z ∧ z < dst.spec.z + dst.spec.depth)) := by
      simp only [get_roi, ROI.containsPos, Bool.and_eq_true, decide_eq_true_eq]
      tauto
    simp only [hw, show (get_roi dst.spec).xbegin = dst.spec.x from rfl,
      show (get_roi dst.spec).xend = dst.spec.x + dst.spec.width from rfl,
      show (get_roi dst.spec).ybegin = dst.spec.y from rfl,
      show (get_roi dst.spec).yend = dst.spec.y + dst.spec.height from rfl,
      show (get_roi dst.spec).zbegin = dst.spec.z from rfl]
    by_cases h1 : (((dst.spec.x ≤ x ∧ x < dst.spec.x + dst.spec.width) ∧
          (dst.spec.y ≤ y ∧ y < dst.spec.y + dst.spec.height) ∧
          (dst.spec.z ≤ z ∧ z < dst.spec.z + dst.spec.depth)) ∧ z = dst.spec.z) ∧
          (0 ≤ c ∧ c < dst.spec.nchannels)
    · rw [if_pos h1, if_pos ⟨⟨h1.1.1.1, h1.1.1.2.1, h1.1.2⟩, h1.1.1, h1.2⟩]
    · rw [if_neg h1, if_neg]
      rintro ⟨⟨hx, hy, hz⟩, hwin, hc⟩
      exact h1 ⟨⟨hwin, hz⟩, hc⟩

/-! ## Properties of `fillholes_pushpull` -/

/-- The top level of the pyramid: a buffer with the spec of `src` (as
floats) that holds the pixels of `src`. -/
theorem fillholes_top_facts (src : ImageBuf) :
    (fillholes_top src).spec = src.spec.set_format TypeDesc.FLOAT ∧
    (fillholes_top src).storage = IBStorage.LOCALBUFFER ∧
    (fillholes_top src).err = "" ∧
    ∀ x y z c : Int, (fillholes_top src).pixels x y z c =
      if (get_roi src.spec).containsPos x y z = true ∧ (0 ≤ c ∧ c < src.spec.nchannels) then
        src.pixels x y z c
      else 0 := by
  obtain ⟨h1, h2, h3⟩ := paste_frame (ImageBuf.uninit.alloc (src.spec.set_format TypeDesc.FLOAT))
    src.spec.x src.spec.y src.spec.z 0 src ROI.All 0
  refine ⟨h1, h2, h3, ?_⟩
  intro x y z c
  have hp := paste_all_pixels (ImageBuf.uninit.alloc (src.spec.set_format TypeDesc.FLOAT))
    src.spec.x src.spec.y src.spec.z src 0 x y z c
  have hw : (get_roi src.spec).containsPos x y z = true ↔
      ((src.spec.x ≤ x ∧ x < src.spec.x + src.spec.width) ∧
        (src.spec.y ≤ y ∧ y < src.spec.y + src.spec.height) ∧
        (src.spec.z ≤ z ∧ z < src.spec.z + src.spec.depth)) := by
    simp only [get_roi, ROI.containsPos, Bool.and_eq_true, decide_eq_true_eq]
    tauto
  have hw2 : (get_roi (ImageBuf.uninit.alloc (src.spec.set_format TypeDesc.FLOAT)).spec) =
      get_roi src.spec := rfl
  show (paste (ImageBuf.uninit.alloc (src.spec.set_format TypeDesc.FLOAT))
    src.spec.x src.spec.y src.spec.z 0 src ROI.All 0).1.pixels x y z c = _
  rw [hp, hw2]
  by_cases hin : (get_roi src.spec).containsPos x y z = true
  · by_cases hc : 0 ≤ c ∧ c < src.spec.nchannels
    · rw [if_pos ⟨hw.mp hin, hin, hc⟩, if_pos ⟨hin, hc⟩]
      unfold ImageBuf.getchannel_black
      rw [show x - src.spec.x + src.spec.x = x by ring,
        show y - src.spec.y + src.spec.y = y by ring,
        show z - src.spec.z + src.spec.z = z by ring, if_pos hin]
    · rw [if_neg (fun h => hc h.2.2), if_neg (fun h => hc h.2)]
      rfl
  · rw [if_neg (fun h => hin h.2.1), if_neg (fun h => hin h.1)]
    rfl

/-- The loop that pulls back up the pyramid keeps the spec of a level. -/
theorem pull_up_spec (default_channel_names : ImageSpec → ImageSpec)
    (desc_width : String → Option ℚ) (create : String → ℚ → ℚ → Option Filter2D)
    (split : ROI → Int → List ROI) (big : ImageBuf) (lower : List ImageBuf) (base : ImageBuf)
    (h : pull_up default_channel_names desc_width create split big lower = some base) :
    base.spec = big.spec := by
  cases lower with
  | nil =>
    rw [pull_up] at h
    simp only [Option.some.injEq] at h
    rw [← h]
  | cons small rest =>
    rw [pull_up] at h
    cases h1 : pull_up default_channel_names desc_width create split small rest with
    | none =>
      rw [h1] at h
      exact absurd h (by simp)
    | some small1 =>
      simp only [h1] at h
      cases h2 : resize_named default_channel_names desc_width create split
          (ImageBuf.uninit.alloc big.spec) small1 "triangle" 0 ROI.All 0 with
      | none =>
        rw [h2] at h
        exact absurd h (by simp)
      | some blow =>
        simp only [h2, Option.some.injEq] at h
        rw [← h]
        exact (over_frame big big blow.1 ROI.All 0).1

/-- The last pass of the loop that pulls back up the pyramid: the level is
composited over the resized copy of the completed level below. -/
theorem pull_up_cons (default_channel_names : ImageSpec → ImageSpec)
    (desc_width : String → Option ℚ) (create : String → ℚ → ℚ → Option Filter2D)
    (split : ROI → Int → List ROI) (big small : ImageBuf) (rest : List ImageBuf)
    (base : ImageBuf)
    (h : pull_up default_channel_names desc_width create split big (small :: rest) =
      some base) :
    ∃ (small1 : ImageBuf) (blow : ImageBuf × Bool),
      pull_up default_channel_names desc_width create split small rest = some small1 ∧
      resize_named default_channel_names desc_width create split
        (ImageBuf.uninit.alloc big.spec) small1 "triangle" 0 ROI.All 0 = some blow ∧
      base = (over big big blow.1 ROI.All 0).1 := by
  rw [pull_up] at h
  cases h1 : pull_up default_channel_names desc_width create split small rest with
  | none =>
    rw [h1] at h
    exact absurd h (by simp)
  | some small1 =>
    simp only [h1] at h
    cases h2 : resize_named default_channel_names desc_width create split
        (ImageBuf.uninit.alloc big.spec) small1 "triangle" 0 ROI.All 0 with
    | none =>
      rw [h2] at h
      exact absurd h (by simp)
    | some blow =>
      simp only [h2, Option.some.injEq] at h
      exact ⟨small1, blow, rfl, h2, h.symm⟩

/-- What a run of `fillholes_pushpull` that returns true went through. -/
theorem fillholes_run_facts (default_channel_names : ImageSpec → ImageSpec)
    (desc_width : String → Option ℚ) (create : String → ℚ → ℚ → Option Filter2D)
    (split : ROI → Int → List ROI) (dst src : ImageBuf) (roi : ROI) (nthreads : Int)
    (res : ImageBuf)
    (h : fillholes_pushpull default_channel_names desc_width create split dst src roi
      nthreads = some (res, true)) :
    ∃ (out : PrepOut) (lower : List ImageBuf) (base : ImageBuf),
      IBAprep default_channel_names roi dst (some src) none none {} = some out ∧
      out.ok = true ∧ out.dst.spec.nchannels = src.spec.nchannels ∧
      0 ≤ src.spec.alpha_channel ∧
      build_pyramid default_channel_names desc_width create split nthreads src.nchannels
        (fillholes_top src) (pyramid_levels src.spec.width src.spec.height) = some lower ∧
      pull_up default_channel_names desc_width create split (fillholes_top src) lower =
        some base ∧
      res = (paste out.dst out.dst.spec.x out.dst.spec.y out.dst.spec.z 0 base ROI.All 0).1 := by
  unfold fillholes_pushpull at h
  cases hp : IBAprep default_channel_names roi dst (some src) none none {} with
  | none =>
    rw [hp] at h
    exact absurd h (by simp)
  | some out =>
    rw [hp] at h
    dsimp only at h
    split_ifs at h with c1 c2 c3 c4
    · simp at h
    · simp at h
    · simp at h
    · simp at h
    · cases hb : build_pyramid default_channel_names desc_width create split nthreads
          src.nchannels (fillholes_top src)
          (pyramid_levels src.spec.width src.spec.height) with
      | none =>
        rw [hb] at h
        exact absurd h (by simp)
      | some lower =>
        simp only [hb] at h
        cases hu : pull_up default_channel_names desc_width create split (fillholes_top src)
            lower with
        | none =>
          rw [hu] at h
          exact absurd h (by simp)
        | some base =>
          simp only [hu, Option.some.injEq, Prod.mk.injEq, and_true] at h
          refine ⟨out, lower, base, rfl, by simpa using c1, ?_, ?_, rfl, hu, h.symm⟩
          · simpa [ImageBuf.nchannels] using c2
          · push_neg at c4
            omega

/-- C25 (amended): a run of `fillholes_pushpull` that returns true, on a
source whose alpha channel is one of its channels, leaves in every pixel of
`dst` that the final `paste` reaches (the pixel window of `src` moved to the
origin of the pixel window of `dst`) and every channel the source pixel
composited over the resized copy `blow` of the completed next level of the
pyramid, `src + (1 - alpha_src) · blow`; a pixel whose source alpha is 1, and
every pixel of a source no larger than 1 × 1, is the source pixel, and every
other value of `dst` is kept. -/
theorem fillholes_pushpull_composites (default_channel_names : ImageSpec → ImageSpec)
    (desc_width : String → Option ℚ) (create : String → ℚ → ℚ → Option Filter2D)
    (split : ROI → Int → List ROI) (dst src : ImageBuf) (roi : ROI) (nthreads : Int)
    (res : ImageBuf)
    (hrun : fillholes_pushpull default_channel_names desc_width create split dst src roi
      nthreads = some (res, true))
    (hac : src.spec.alpha_channel < src.spec.nchannels) :
    ∃ (out : PrepOut) (lower : List ImageBuf),
      IBAprep default_channel_names roi dst (some src) none none {} = some out ∧
      build_pyramid default_channel_names desc_width create split nthreads src.nchannels
        (fillholes_top src) (pyramid_levels src.spec.width src.spec.height) = some lower ∧
      res.spec = out.dst.spec ∧
      (∀ (small : ImageBuf) (rest : List ImageBuf), lower = small :: rest →
        ∃ (small1 : ImageBuf) (blow : ImageBuf × Bool),
          pull_up default_channel_names desc_width create split small rest = some small1 ∧
          resize_named default_channel_names desc_width create split
            (ImageBuf.uninit.alloc (fillholes_top src).spec) small1 "triangle" 0 ROI.All 0 =
              some blow ∧
          ∀ x y z c : Int, (get_roi out.dst.spec).containsPos x y z = true →
            (get_roi src.spec).containsPos (x - out.dst.spec.x + src.spec.x)
              (y - out.dst.spec.y + src.spec.y) (z - out.dst.spec.z + src.spec.z) = true →
            0 ≤ c ∧ c < src.spec.nchannels →
            res.pixels x y z c =
              src.pixels (x - out.dst.spec.x + src.spec.x) (y - out.dst.spec.y + src.spec.y)
                (z - out.dst.spec.z + src.spec.z) c +
              (1 - src.pixels (x - out.dst.spec.x + src.spec.x)
                (y - out.dst.spec.y + src.spec.y) (z - out.dst.spec.z + src.spec.z)
                src.spec.alpha_channel) *
                blow.1.getchannel_black (x - out.dst.spec.x + src.spec.x)
                  (y - out.dst.spec.y + src.spec.y) (z - out.dst.spec.z + src.spec.z) c) ∧
      (∀ x y z c : Int, (get_roi out.dst.spec).containsPos x y z = true →
        (get_roi src.spec).containsPos (x - out.dst.spec.x + src.spec.x)
          (y - out.dst.spec.y + src.spec.y) (z - out.dst.spec.z + src.spec.z) = true →
        0 ≤ c ∧ c < src.spec.nchannels →
        (src.spec.width ≤ 1 ∧ src.spec.height ≤ 1) ∨
          src.pixels (x - out.dst.spec.x + src.spec.x) (y - out.dst.spec.y + src.spec.y)
            (z - out.dst.spec.z + src.spec.z) src.spec.alpha_channel = 1 →
        res.pixels x y z c =
          src.pixels (x - out.dst.spec.x + src.spec.x) (y - out.dst.spec.y + src.spec.y)
            (z - out.dst.spec.z + src.spec.z) c) ∧
      (∀ x y z c : Int,
        ¬ ((get_roi out.dst.spec).containsPos x y z = true ∧
          (get_roi src.spec).containsPos (x - out.dst.spec.x + src.spec.x)
            (y - out.dst.spec.y + src.spec.y) (z - out.dst.spec.z + src.spec.z) = true ∧
          (0 ≤ c ∧ c < src.spec.nchannels)) →
        res.pixels x y z c = out.dst.pixels x y z c) := by
  obtain ⟨out, lower, base, hp, hok, hnch, hac0, hb, hu, hres⟩ :=
    fillholes_run_facts default_channel_names desc_width create split dst src roi nthreads
      res hrun
  obtain ⟨ht1, ht2, ht3, ht4⟩ := fillholes_top_facts src
  have hbs : base.spec = src.spec.set_format TypeDesc.FLOAT :=
    (pull_up_spec default_channel_names desc_width create split _ lower base hu).trans ht1
  have hwin : ∀ (s : ImageSpec) (a b d : Int), (get_roi s).containsPos a b d = true ↔
      ((s.x ≤ a ∧ a < s.x + s.width) ∧ (s.y ≤ b ∧ b < s.y + s.height) ∧
        (s.z ≤ d ∧ d < s.z + s.depth)) := by
    intro s a b d
    simp only [get_roi, ROI.containsPos, Bool.and_eq_true, decide_eq_true_eq]
    tauto
  have hbw : get_roi base.spec = get_roi src.spec := by
    rw [hbs]
    rfl
  have htw : get_roi (fillholes_top src).spec = get_roi src.spec := by
    rw [ht1]
    rfl
  -- the pixels that the final `paste` leaves
  have hpix : ∀ x y z c : Int, res.pixels x y z c =
      if (get_roi out.dst.spec).containsPos x y z = true ∧
          (get_roi src.spec).containsPos (x - out.dst.spec.x + src.spec.x)
            (y - out.dst.spec.y + src.spec.y) (z - out.dst.spec.z + src.spec.z) = true ∧
          (0 ≤ c ∧ c < src.spec.nchannels) then
        base.pixels (x - out.dst.spec.x + src.spec.x) (y - out.dst.spec.y + src.spec.y)
          (z - out.dst.spec.z + src.spec.z) c
      else out.dst.pixels x y z c := by
    intro x y z c
    rw [hres, paste_all_pixels]
    have e1 : base.spec.width = src.spec.width := by rw [hbs]; rfl
    have e2 : base.spec.height = src.spec.height := by rw [hbs]; rfl
    have e3 : base.spec.depth = src.spec.depth := by rw [hbs]; rfl
    have e4 : base.spec.x = src.spec.x := by rw [hbs]; rfl
    have e5 : base.spec.y = src.spec.y := by rw [hbs]; rfl
    have e6 : base.spec.z = src.spec.z := by rw [hbs]; rfl
    have e7 : base.spec.nchannels = src.spec.nchannels := by rw [hbs]; rfl
    rw [e1, e2, e3, e4, e5, e6, e7]
    by_cases hq : (get_roi src.spec).containsPos (x - out.dst.spec.x + src.spec.x)
        (y - out.dst.spec.y + src.spec.y) (z - out.dst.spec.z + src.spec.z) = true
    · have hq2 := (hwin src.spec _ _ _).mp hq
      by_cases hd : (get_roi out.dst.spec).containsPos x y z = true
      · by_cases hc : 0 ≤ c ∧ c < src.spec.nchannels
        · rw [if_pos ⟨by omega, hd, hc⟩, if_pos ⟨hd, hq, hc⟩]
          unfold ImageBuf.getchannel_black
          rw [hbw, if_pos hq]
        · rw [if_neg (fun h => hc h.2.2), if_neg (fun h => hc h.2.2)]
      · rw [if_neg (fun h => hd h.2.1), if_neg (fun h => hd h.1)]
    · rw [if_neg, if_neg (fun h => hq h.2.1)]
      intro h
      apply hq
      rw [hwin]
      omega
  -- the top level holds the pixels of the source
  have htop : ∀ a b d c : Int, (get_roi src.spec).containsPos a b d = true →
      0 ≤ c ∧ c < src.spec.nchannels →
      (fillholes_top src).getchannel_black a b d c = src.pixels a b d c := by
    intro a b d c hq hc
    unfold ImageBuf.getchannel_black
    rw [htw, if_pos hq, ht4, if_pos ⟨hq, hc⟩]
  have hcons : ∀ (small : ImageBuf) (rest : List ImageBuf), lower = small :: rest →
      ∃ (small1 : ImageBuf) (blow : ImageBuf × Bool),
        pull_up default_channel_names desc_width create split small rest = some small1 ∧
        resize_named default_channel_names desc_width create split
          (ImageBuf.uninit.alloc (fillholes_top src).spec) small1 "triangle" 0 ROI.All 0 =
            some blow ∧
        ∀ x y z c : Int, (get_roi out.dst.spec).containsPos x y z = true →
          (get_roi src.spec).containsPos (x - out.dst.spec.x + src.spec.x)
            (y - out.dst.spec.y + src.spec.y) (z - out.dst.spec.z + src.spec.z) = true →
          0 ≤ c ∧ c < src.spec.nchannels →
          res.pixels x y z c =
            src.pixels (x - out.dst.spec.x + src.spec.x) (y - out.dst.spec.y + src.spec.y)
              (z - out.dst.spec.z + src.spec.z) c +
            (1 - src.pixels (x - out.dst.spec.x + src.spec.x)
              (y - out.dst.spec.y + src.spec.y) (z - out.dst.spec.z + src.spec.z)
              src.spec.alpha_channel) *
              blow.1.getchannel_black (x - out.dst.spec.x + src.spec.x)
                (y - out.dst.spec.y + src.spec.y) (z - out.dst.spec.z + src.spec.z) c := by
    intro small rest hl
    rw [hl] at hu
    obtain ⟨small1, blow, h1, h2, h3⟩ :=
      pull_up_cons default_channel_names desc_width create split _ small rest base hu
    refine ⟨small1, blow, h1, h2, ?_⟩
    intro x y z c hd hq hc
    rw [hpix, if_pos ⟨hd, hq, hc⟩, h3, over_all_pixels, htw,
      if_pos ⟨hq, by rw [ht1]; exact hc⟩, htop _ _ _ _ hq hc,
      htop _ _ _ _ hq ⟨by rw [ht1]; exact hac0, by rw [ht1]; exact hac⟩]
    rw [ht1]
    rfl
  refine ⟨out, lower, hp, hb, ?_, hcons, ?_, ?_⟩
  · rw [hres]
    exact (paste_frame _ _ _ _ _ _ _ _).1
  · intro x y z c hd hq hc hcase
    cases hl : lower with
    | nil =>
      rw [hl] at hu
      rw [pull_up] at hu
      simp only [Option.some.injEq] at hu
      rw [hpix, if_pos ⟨hd, hq, hc⟩, ← hu, ht4, if_pos ⟨hq, hc⟩]
    | cons small rest =>
      obtain ⟨small1, blow, _, _, h3⟩ := hcons small rest hl
      rw [h3 x y z c hd hq hc]
      rcases hcase with hsz | ha
      · exfalso
        rw [pyramid_levels_done _ _ hsz.1 hsz.2, build_pyramid, hl] at hb
        simp at hb
      · rw [ha]
        ring
  · intro x y z c hn
    rw [hpix, if_neg hn]

/-! ## `fillholes_pushpull` on a 3 × 3 image with one opaque pixel -/

/-- On the separable path, a source whose clamped reads all give the same
value in a channel is preserved in that channel where both tap sums are
nonzero. -/
theorem resize_separable_constant_reads (src : ImageBuf) (filter : Filter2D)
    (g : ResizeLocals) (v : ℚ) (x y c : Int) (hsep : filter.separable = true)
    (hty : g.ytaps = 2 * g.radj + 1)
    (hread : ∀ a b : Int, src.getchannel_clamp a b 0 c = v)
    (hc : 0 ≤ c ∧ c < g.nchannels)
    (hTY : (∑ j ∈ Finset.Ico 0 g.ytaps, ytap_weight filter g y j) ≠ 0)
    (hTX : (∑ i ∈ Finset.Ico 0 g.xtaps, xtap_weight filter g x i) ≠ 0) :
    (resize_separable_pixel src filter g (resize_yweights filter g y) x).out c = v := by
  rw [resize_separable_out src filter g x y c hsep hty hc, if_neg hTY, if_pos hTX]
  simp only [hread]
  have hre : (∑ j ∈ Finset.Ico (-g.radj) (g.radj + 1), ytap_weight filter g y (j + g.radj)) =
      ∑ j ∈ Finset.Ico 0 g.ytaps, ytap_weight filter g y j := by
    rw [Finset.sum_Ico_add' (fun j => ytap_weight filter g y j) (-g.radj) (g.radj + 1) g.radj]
    congr 2
    · omega
    · omega
  have hinner : ∀ j : Int, (∑ i ∈ Finset.Ico 0 g.xtaps,
      ytap_weight filter g y (j + g.radj) /
          (∑ j ∈ Finset.Ico 0 g.ytaps, ytap_weight filter g y j) *
        (xtap_weight filter g x i / ∑ i ∈ Finset.Ico 0 g.xtaps, xtap_weight filter g x i) *
        v) =
      ytap_weight filter g y (j + g.radj) /
        (∑ j ∈ Finset.Ico 0 g.ytaps, ytap_weight filter g y j) * v := by
    intro j
    rw [← Finset.sum_mul, ← Finset.mul_sum, ← Finset.sum_div, div_self hTX, mul_one]
  simp only [hinner]
  rw [← Finset.sum_mul, ← Finset.sum_div, hre, div_self hTY, one_mul]

/-- The float copy of the image `hole3x3` is the image itself. -/
theorem fillholes_top_hole3x3 : fillholes_top hole3x3 = hole3x3 := by
  obtain ⟨h1, h2, h3, h4⟩ := fillholes_top_facts hole3x3
  apply ImageBuf.ext_fields
  · rw [h2]
    rfl
  · rw [h1]
    rfl
  · intro x y z c
    rw [h4]
    show (if _ then (if x = 1 ∧ y = 1 ∧ z = 0 ∧ 0 ≤ c ∧ c < 4 then (1 : ℚ) else 0) else 0) =
      (if x = 1 ∧ y = 1 ∧ z = 0 ∧ 0 ≤ c ∧ c < 4 then (1 : ℚ) else 0)
    by_cases hp : x = 1 ∧ y = 1 ∧ z = 0 ∧ 0 ≤ c ∧ c < 4
    · obtain ⟨rfl, rfl, rfl, hc⟩ := hp
      rw [if_pos ⟨by decide, hc⟩]
    · rw [if_neg hp]
      split_ifs <;> rfl
  · rw [h3]
    rfl

/-- The values of the triangle profile of width 2 at the thirds. -/
theorem triangle2_thirds :
    (triangle_wh 2 2).xfilt (-1) = 0 ∧ (triangle_wh 2 2).xfilt (-2 / 3) = 1 / 3 ∧
    (triangle_wh 2 2).xfilt (-1 / 3) = 2 / 3 ∧ (triangle_wh 2 2).xfilt 0 = 1 ∧
    (triangle_wh 2 2).xfilt (1 / 3) = 2 / 3 ∧ (triangle_wh 2 2).xfilt (2 / 3) = 1 / 3 ∧
    (triangle_wh 2 2).xfilt 1 = 0 ∧
    (triangle_wh 2 2).yfilt (-1) = 0 ∧ (triangle_wh 2 2).yfilt (-2 / 3) = 1 / 3 ∧
    (triangle_wh 2 2).yfilt (-1 / 3) = 2 / 3 ∧ (triangle_wh 2 2).yfilt 0 = 1 ∧
    (triangle_wh 2 2).yfilt (1 / 3) = 2 / 3 ∧ (triangle_wh 2 2).yfilt (2 / 3) = 1 / 3 ∧
    (triangle_wh 2 2).yfilt 1 = 0 := by
  have a1 : |(-2 / 3 : ℚ)| = 2 / 3 := by rw [abs_of_nonpos (by norm_num)]; norm_num
  have a2 : |(-1 / 3 : ℚ)| = 1 / 3 := by rw [abs_of_nonpos (by norm_num)]; norm_num
  have a3 : |(1 / 3 : ℚ)| = 1 / 3 := abs_of_nonneg (by norm_num)
  have a4 : |(2 / 3 : ℚ)| = 2 / 3 := abs_of_nonneg (by norm_num)
  have a5 : |(-1 : ℚ)| = 1 := by rw [abs_neg, abs_one]
  unfold triangle_wh
  simp only [a1, a2, a3, a4, a5, abs_zero, abs_one]
  norm_num

/-- The first level that the pyramid loop builds for `hole3x3`: the pixel of
the 1 × 1 image is `1/9` in every channel. -/
theorem hole3x3_level1 (c : Int) (hc : 0 ≤ c ∧ c < 4) :
    (resize_separable_pixel hole3x3 (triangle_wh 2 2)
      (resize_locals (ImageSpec.create rgba_names 1 1 4 TypeDesc.FLOAT) hole3x3.spec
        (triangle_wh 2 2))
      (resize_yweights (triangle_wh 2 2)
        (resize_locals (ImageSpec.create rgba_names 1 1 4 TypeDesc.FLOAT) hole3x3.spec
          (triangle_wh 2 2)) 0) 0).out c = 1 / 9 := by
  have hc3 : ⌈(3 : ℚ)⌉ = 3 := by
    rw [Int.ceil_eq_iff]
    norm_num
  have hf : ⌊(3 / 2 : ℚ)⌋ = 1 := by
    rw [Int.floor_eq_iff]
    norm_num
  have hl :
      (resize_locals (ImageSpec.create rgba_names 1 1 4 TypeDesc.FLOAT) hole3x3.spec
        (triangle_wh 2 2)).radi = 3 ∧
      (resize_locals (ImageSpec.create rgba_names 1 1 4 TypeDesc.FLOAT) hole3x3.spec
        (triangle_wh 2 2)).radj = 3 ∧
      (resize_locals (ImageSpec.create rgba_names 1 1 4 TypeDesc.FLOAT) hole3x3.spec
        (triangle_wh 2 2)).xtaps = 7 ∧
      (resize_locals (ImageSpec.create rgba_names 1 1 4 TypeDesc.FLOAT) hole3x3.spec
        (triangle_wh 2 2)).ytaps = 7 ∧
      (resize_locals (ImageSpec.create rgba_names 1 1 4 TypeDesc.FLOAT) hole3x3.spec
        (triangle_wh 2 2)).xratio = 1 / 3 ∧
      (resize_locals (ImageSpec.create rgba_names 1 1 4 TypeDesc.FLOAT) hole3x3.spec
        (triangle_wh 2 2)).yratio = 1 / 3 ∧
      (resize_locals (ImageSpec.create rgba_names 1 1 4 TypeDesc.FLOAT) hole3x3.spec
        (triangle_wh 2 2)).nchannels = 4 ∧
      resize_src_x (resize_locals (ImageSpec.create rgba_names 1 1 4 TypeDesc.FLOAT)
        hole3x3.spec (triangle_wh 2 2)) 0 = (1 / 2, 1) ∧
      resize_src_y (resize_locals (ImageSpec.create rgba_names 1 1 4 TypeDesc.FLOAT)
        hole3x3.spec (triangle_wh 2 2)) 0 = (1 / 2, 1) := by
    unfold resize_src_x resize_src_y floorfrac resize_locals hole3x3 ImageBuf.local_buffer
      plain_spec ImageSpec.create triangle_wh
    norm_num [ImageSpec.empty, hc3, hf]
  obtain ⟨h1, h2, h3, h4, h5, h6, h7, h8, h9⟩ := hl
  obtain ⟨t1, t2, t3, t4, t5, t6, t7, u1, u2, u3, u4, u5, u6, u7⟩ := triangle2_thirds
  have hpx : ∀ a b : Int, hole3x3.getchannel_clamp a b 0 c =
      if clampInt a 0 2 = 1 ∧ clampInt b 0 2 = 1 then 1 else 0 := by
    intro a b
    show (if clampInt a 0 (0 + 3 - 1) = 1 ∧ clampInt b 0 (0 + 3 - 1) = 1 ∧
      clampInt 0 0 (0 + 1 - 1) = 0 ∧ 0 ≤ c ∧ c < 4 then (1 : ℚ) else 0) = _
    have hz : clampInt 0 0 (0 + 1 - 1) = 0 := by decide
    simp only [hz, hc, and_self, and_true, true_and]
    rfl
  have hI7 : irange 0 7 = [0, 1, 2, 3, 4, 5, 6] := by decide
  have hI3 : irange (-3) 4 = [-3, -2, -1, 0, 1, 2, 3] := by decide
  rw [resize_separable_out hole3x3 (triangle_wh 2 2) _ 0 0 c rfl (by rw [h4, h2]; decide)
    (by rw [h7]; exact hc)]
  unfold xtap_weight ytap_weight
  simp only [h1, h2, h3, h4, h5, h6, h8, h9, hpx]
  norm_num only [← sum_irange, hI7, hI3, clampInt, List.map_cons, List.map_nil,
    List.sum_cons, List.sum_nil, t1, t2, t3, t4, t5, t6, t7, u1, u2, u3, u4, u5, u6, u7]
  have e2 : (-(2 / 3) : ℚ) = -2 / 3 := by norm_num
  have e3 : (-(1 / 3) : ℚ) = -1 / 3 := by norm_num
  rw [e2, e3, t2, t3, u2, u3]
  norm_num

/-- The values of the triangle profile of width 6 at the offsets of the taps
that `resize_` uses to enlarge a 1 × 1 image to 3 × 3. -/
theorem triangle6_values :
    (triangle_wh 6 6).xfilt (-4) = 0 ∧ (triangle_wh 6 6).xfilt (-3) = 0 ∧
    (triangle_wh 6 6).xfilt (-2) = 1 / 3 ∧ (triangle_wh 6 6).xfilt (-1) = 2 / 3 ∧
    (triangle_wh 6 6).xfilt 0 = 1 ∧ (triangle_wh 6 6).xfilt 1 = 2 / 3 ∧
    (triangle_wh 6 6).xfilt 2 = 1 / 3 ∧ (triangle_wh 6 6).xfilt 3 = 0 ∧
    (triangle_wh 6 6).xfilt 4 = 0 ∧
    (triangle_wh 6 6).yfilt (-4) = 0 ∧ (triangle_wh 6 6).yfilt (-3) = 0 ∧
    (triangle_wh 6 6).yfilt (-2) = 1 / 3 ∧ (triangle_wh 6 6).yfilt (-1) = 2 / 3 ∧
    (triangle_wh 6 6).yfilt 0 = 1 ∧ (triangle_wh 6 6).yfilt 1 = 2 / 3 ∧
    (triangle_wh 6 6).yfilt 2 = 1 / 3 ∧ (triangle_wh 6 6).yfilt 3 = 0 ∧
    (triangle_wh 6 6).yfilt 4 = 0 := by
  have a1 : |(-4 : ℚ)| = 4 := by rw [abs_neg]; exact abs_of_nonneg (by norm_num)
  have a2 : |(-3 : ℚ)| = 3 := by rw [abs_neg]; exact abs_of_nonneg (by norm_num)
  have a3 : |(-2 : ℚ)| = 2 := by rw [abs_neg]; exact abs_of_nonneg (by norm_num)
  have a4 : |(-1 : ℚ)| = 1 := by rw [abs_neg, abs_one]
  have a5 : |(2 : ℚ)| = 2 := abs_of_nonneg (by norm_num)
  have a6 : |(3 : ℚ)| = 3 := abs_of_nonneg (by norm_num)
  have a7 : |(4 : ℚ)| = 4 := abs_of_nonneg (by norm_num)
  unfold triangle_wh
  simp only [a1, a2, a3, a4, a5, a6, a7, abs_zero, abs_one]
  norm_num

/-- The tap sums of `resize_` when it enlarges a 1 × 1 image to the size of
`hole3x3` with the triangle filter of width 6: they are 1 at every column
and every row. -/
theorem hole3x3_blowup_taps (x : Int) (hx : 0 ≤ x ∧ x < 3) :
    (resize_locals hole3x3.spec (ImageSpec.create rgba_names 1 1 4 TypeDesc.FLOAT)
      (triangle_wh 6 6)).ytaps =
      2 * (resize_locals hole3x3.spec (ImageSpec.create rgba_names 1 1 4 TypeDesc.FLOAT)
        (triangle_wh 6 6)).radj + 1 ∧
    (resize_locals hole3x3.spec (ImageSpec.create rgba_names 1 1 4 TypeDesc.FLOAT)
      (triangle_wh 6 6)).nchannels = 4 ∧
    (∑ i ∈ Finset.Ico 0
        (resize_locals hole3x3.spec (ImageSpec.create rgba_names 1 1 4 TypeDesc.FLOAT)
          (triangle_wh 6 6)).xtaps,
      xtap_weight (triangle_wh 6 6)
        (resize_locals hole3x3.spec (ImageSpec.create rgba_names 1 1 4 TypeDesc.FLOAT)
          (triangle_wh 6 6)) x i) = 1 ∧
    (∑ j ∈ Finset.Ico 0
        (resize_locals hole3x3.spec (ImageSpec.create rgba_names 1 1 4 TypeDesc.FLOAT)
          (triangle_wh 6 6)).ytaps,
      ytap_weight (triangle_wh 6 6)
        (resize_locals hole3x3.spec (ImageSpec.create rgba_names 1 1 4 TypeDesc.FLOAT)
          (triangle_wh 6 6)) x j) = 1 := by
  have hc1 : ⌈(1 : ℚ)⌉ = 1 := Int.ceil_one
  have hf0 : ⌊(1 / 6 : ℚ)⌋ = 0 := by
    rw [Int.floor_eq_iff]
    norm_num
  have hf1 : ⌊(1 / 2 : ℚ)⌋ = 0 := by
    rw [Int.floor_eq_iff]
    norm_num
  have hf2 : ⌊(5 / 6 : ℚ)⌋ = 0 := by
    rw [Int.floor_eq_iff]
    norm_num
  have hl :
      (resize_locals hole3x3.spec (ImageSpec.create rgba_names 1 1 4 TypeDesc.FLOAT)
        (triangle_wh 6 6)).radi = 1 ∧
      (resize_locals hole3x3.spec (ImageSpec.create rgba_names 1 1 4 TypeDesc.FLOAT)
        (triangle_wh 6 6)).radj = 1 ∧
      (resize_locals hole3x3.spec (ImageSpec.create rgba_names 1 1 4 TypeDesc.FLOAT)
        (triangle_wh 6 6)).xtaps = 3 ∧
      (resize_locals hole3x3.spec (ImageSpec.create rgba_names 1 1 4 TypeDesc.FLOAT)
        (triangle_wh 6 6)).ytaps = 3 ∧
      (resize_locals hole3x3.spec (ImageSpec.create rgba_names 1 1 4 TypeDesc.FLOAT)
        (triangle_wh 6 6)).xratio = 3 ∧
      (resize_locals hole3x3.spec (ImageSpec.create rgba_names 1 1 4 TypeDesc.FLOAT)
        (triangle_wh 6 6)).yratio = 3 ∧
      (resize_locals hole3x3.spec (ImageSpec.create rgba_names 1 1 4 TypeDesc.FLOAT)
        (triangle_wh 6 6)).nchannels = 4 ∧
      resize_src_x (resize_locals hole3x3.spec
        (ImageSpec.create rgba_names 1 1 4 TypeDesc.FLOAT) (triangle_wh 6 6)) 0 = (1 / 6, 0) ∧
      resize_src_x (resize_locals hole3x3.spec
        (ImageSpec.create rgba_names 1 1 4 TypeDesc.FLOAT) (triangle_wh 6 6)) 1 = (1 / 2, 0) ∧
      resize_src_x (resize_locals hole3x3.spec
        (ImageSpec.create rgba_names 1 1 4 TypeDesc.FLOAT) (triangle_wh 6 6)) 2 = (5 / 6, 0) ∧
      resize_src_y (resize_locals hole3x3.spec
        (ImageSpec.create rgba_names 1 1 4 TypeDesc.FLOAT) (triangle_wh 6 6)) 0 = (1 / 6, 0) ∧
      resize_src_y (resize_locals hole3x3.spec
        (ImageSpec.create rgba_names 1 1 4 TypeDesc.FLOAT) (triangle_wh 6 6)) 1 = (1 / 2, 0) ∧
      resize_src_y (resize_locals hole3x3.spec
        (ImageSpec.create rgba_names 1 1 4 TypeDesc.FLOAT) (triangle_wh 6 6)) 2 =
          (5 / 6, 0) := by
    unfold resize_src_x resize_src_y floorfrac resize_locals hole3x3 ImageBuf.local_buffer
      plain_spec ImageSpec.create triangle_wh
    norm_num [ImageSpec.empty, hc1, hf0, hf1, hf2]
  obtain ⟨h1, h2, h3, h4, h5, h6, h7, x0, x1, x2, y0, y1, y2⟩ := hl
  obtain ⟨t1, t2, t3, t4, t5, t6, t7, t8, t9, u1, u2, u3, u4, u5, u6, u7, u8, u9⟩ :=
    triangle6_values
  have hI3 : irange 0 3 = [0, 1, 2] := by decide
  refine ⟨by rw [h4, h2]; decide, h7, ?_, ?_⟩
  · have hx3 : x = 0 ∨ x = 1 ∨ x = 2 := by omega
    unfold xtap_weight
    rw [h3, h1, h5]
    rcases hx3 with rfl | rfl | rfl
    · rw [x0]
      norm_num only [← sum_irange, hI3, List.map_cons, List.map_nil, List.sum_cons,
        List.sum_nil]
      norm_num [t3, t6, t9]
    · rw [x1]
      norm_num only [← sum_irange, hI3, List.map_cons, List.map_nil, List.sum_cons,
        List.sum_nil]
      norm_num [t2, t5, t8]
    · rw [x2]
      norm_num only [← sum_irange, hI3, List.map_cons, List.map_nil, List.sum_cons,
        List.sum_nil]
      norm_num [t1, t4, t7]
  · have hx3 : x = 0 ∨ x = 1 ∨ x = 2 := by omega
    unfold ytap_weight
    rw [h4, h2, h6]
    rcases hx3 with rfl | rfl | rfl
    · rw [y0]
      norm_num only [← sum_irange, hI3, List.map_cons, List.map_nil, List.sum_cons,
        List.sum_nil]
      norm_num [u3, u6, u9]
    · rw [y1]
      norm_num only [← sum_irange, hI3, List.map_cons, List.map_nil, List.sum_cons,
        List.sum_nil]
      norm_num [u2, u5, u8]
    · rw [y2]
      norm_num only [← sum_irange, hI3, List.map_cons, List.map_nil, List.sum_cons,
        List.sum_nil]
      norm_num [u1, u4, u7]

/-- A 1 × 1 image enlarged to the size of `hole3x3` with the triangle filter
of width 6: every pixel gets the value of the one source pixel. -/
theorem hole3x3_blowup (s1 : ImageBuf)
    (hs : s1.spec = ImageSpec.create rgba_names 1 1 4 TypeDesc.FLOAT) (v : ℚ) (c : Int)
    (hc : 0 ≤ c ∧ c < 4) (hv : s1.pixels 0 0 0 c = v) (x y : Int) (hx : 0 ≤ x ∧ x < 3)
    (hy : 0 ≤ y ∧ y < 3) :
    (resize_separable_pixel s1 (triangle_wh 6 6)
      (resize_locals hole3x3.spec s1.spec (triangle_wh 6 6))
      (resize_yweights (triangle_wh 6 6)
        (resize_locals hole3x3.spec s1.spec (triangle_wh 6 6)) y) x).out c = v := by
  rw [hs]
  obtain ⟨k1, k2, k3, _⟩ := hole3x3_blowup_taps x hx
  obtain ⟨_, _, _, k4⟩ := hole3x3_blowup_taps y hy
  have hcl : ∀ a : Int, clampInt a 0 (0 + 1 - 1) = 0 := by
    intro a
    unfold clampInt
    split_ifs <;> omega
  have hread : ∀ a b : Int, s1.getchannel_clamp a b 0 c = v := by
    intro a b
    unfold ImageBuf.getchannel_clamp
    rw [hs]
    show s1.pixels (clampInt a 0 (0 + 1 - 1)) (clampInt b 0 (0 + 1 - 1))
      (clampInt 0 0 (0 + 1 - 1)) c = v
    rw [hcl, hcl, hcl, hv]
  exact resize_separable_constant_reads s1 (triangle_wh 6 6) _ v x y c rfl k1 hread
    (by rw [k2]; exact hc) (by rw [k4]; exact one_ne_zero) (by rw [k3]; exact one_ne_zero)

theorem divide_by_alpha_serial_frame (dst : ImageBuf) (r : ROI) :
    (divide_by_alpha_serial dst r).storage = dst.storage := by
  unfold divide_by_alpha_serial
  exact (foldl_update_frame divide_pixel (fun d p => (divide_pixel_pixels d p).2.1)
    (iter_positions dst r) dst).1

/-- The run of `fillholes_pushpull` on `hole3x3` into an uninitialized
destination: it returns true and every pixel of the result is
`(1, 1, 1, 1)`. -/
theorem fillholes_hole3x3 :
    ∃ res : ImageBuf,
      fillholes_pushpull rgba_names triangle_desc_width triangle_registry single_tile
        ImageBuf.uninit hole3x3 ROI.All 1 = some (res, true) ∧
      ∀ x y c : Int, 0 ≤ x ∧ x < 3 → 0 ≤ y ∧ y < 3 → 0 ≤ c ∧ c < 4 →
        res.pixels x y 0 c = 1 := by
  have hm3 : max (1 : ℚ) (1 / 3) = 1 := max_eq_left (by norm_num)
  have hm1 : max (1 : ℚ) 3 = 3 := max_eq_right (by norm_num)
  -- the call of `IBAprep`
  have hprep : IBAprep rgba_names ROI.All ImageBuf.uninit (some hole3x3) none none {} =
      some { ok := true, roi := get_roi hole3x3.spec,
             dst := ImageBuf.uninit.alloc (prep_alloc_spec rgba_names (get_roi hole3x3.spec)
               (get_roi_full hole3x3.spec) (some hole3x3) none none {}) } := by
    rw [IBAprep_uninit_eq rgba_names ROI.All ImageBuf.uninit (some hole3x3) none none {}
      rfl rfl rfl (Or.inl rfl) (get_roi hole3x3.spec) (get_roi_full hole3x3.spec) rfl]
    rfl
  -- the level 1 × 1
  have hcr1 : triangle_registry "triangle"
      (2 * max 1 (((1 : Int) : ℚ) / ((3 : Int) : ℚ)))
      (2 * max 1 (((1 : Int) : ℚ) / ((3 : Int) : ℚ))) = some (triangle_wh 2 2) := by
    unfold triangle_registry
    rw [if_pos rfl]
    norm_num [hm3]
  obtain ⟨r1, hr1, hs1, hst1, hp1⟩ := resize_named_separable rgba_names triangle_desc_width
    triangle_registry single_tile
    (ImageBuf.uninit.alloc (ImageSpec.create rgba_names 1 1 4 TypeDesc.FLOAT)) hole3x3
    "triangle" 2 (triangle_wh 2 2) 0 rfl rfl rfl (by decide) (by decide) (by decide) rfl
    hcr1 rfl rfl rfl (by decide)
  have hs1a : r1.spec = ImageSpec.create rgba_names 1 1 4 TypeDesc.FLOAT := hs1
  have hr1v : ∀ c : Int, 0 ≤ c ∧ c < 4 → r1.pixels 0 0 0 c = 1 / 9 := by
    intro c hc
    rw [hp1, if_pos ⟨⟨by decide, rfl⟩, hc⟩]
    exact hole3x3_level1 c hc
  have hac1 : 0 ≤ r1.spec.alpha_channel ∧ r1.spec.alpha_channel < r1.spec.nchannels := by
    rw [hs1a]
    decide
  obtain ⟨hd1, hd2⟩ := divide_by_alpha_serial_pixels r1
    (get_roi (ImageSpec.create rgba_names 1 1 4 TypeDesc.FLOAT)) hac1
  have hdiv : divide_by_alpha single_tile r1
      (get_roi (ImageSpec.create rgba_names 1 1 4 TypeDesc.FLOAT)) 1 =
      (divide_by_alpha_serial r1 (get_roi (ImageSpec.create rgba_names 1 1 4 TypeDesc.FLOAT)),
        true) := by
    unfold divide_by_alpha
    rw [if_neg (by simp)]
  have hbl : build_level rgba_names triangle_desc_width triangle_registry single_tile 1 4
      hole3x3 (1, 1) =
      some (divide_by_alpha_serial r1
        (get_roi (ImageSpec.create rgba_names 1 1 4 TypeDesc.FLOAT))) := by
    unfold build_level
    simp only [hr1, hdiv]
  have hsm_spec : (divide_by_alpha_serial r1
      (get_roi (ImageSpec.create rgba_names 1 1 4 TypeDesc.FLOAT))).spec =
      ImageSpec.create rgba_names 1 1 4 TypeDesc.FLOAT := hd1.trans hs1a
  have hsm_v : ∀ c : Int, 0 ≤ c ∧ c < 4 → (divide_by_alpha_serial r1
      (get_roi (ImageSpec.create rgba_names 1 1 4 TypeDesc.FLOAT))).pixels 0 0 0 c = 1 := by
    intro c hc
    rw [hd2, hs1a, if_pos ⟨by decide, by decide⟩]
    unfold divided_pixel
    have h3 := hr1v 3 (by decide)
    rw [show (ImageSpec.create rgba_names 1 1 4 TypeDesc.FLOAT).alpha_channel = 3 from rfl,
      show (ImageSpec.create rgba_names 1 1 4 TypeDesc.FLOAT).nchannels = 4 from rfl,
      if_pos ⟨by rw [h3]; norm_num, hc⟩, h3, hr1v c hc]
    norm_num
  have hsm_init : (divide_by_alpha_serial r1
      (get_roi (ImageSpec.create rgba_names 1 1 4 TypeDesc.FLOAT))).initialized = true := by
    unfold ImageBuf.initialized
    rw [divide_by_alpha_serial_frame, hst1]
    rfl
  -- the resized copy of the level 1 × 1
  have hcr2 : triangle_registry "triangle"
      (2 * max 1 (((ImageBuf.uninit.alloc hole3x3.spec).spec.full_width : ℚ) /
        ((divide_by_alpha_serial r1
          (get_roi (ImageSpec.create rgba_names 1 1 4 TypeDesc.FLOAT))).spec.full_width : ℚ)))
      (2 * max 1 (((ImageBuf.uninit.alloc hole3x3.spec).spec.full_height : ℚ) /
        ((divide_by_alpha_serial r1
          (get_roi (ImageSpec.create rgba_names 1 1 4 TypeDesc.FLOAT))).spec.full_height : ℚ))) =
      some (triangle_wh 6 6) := by
    rw [hsm_spec]
    show triangle_registry "triangle"
      (2 * max 1 (((3 : Int) : ℚ) / ((1 : Int) : ℚ)))
      (2 * max 1 (((3 : Int) : ℚ) / ((1 : Int) : ℚ))) = some (triangle_wh 6 6)
    unfold triangle_registry
    rw [if_pos rfl]
    norm_num [hm1]
  obtain ⟨r2, hr2, hs2, hst2, hp2⟩ := resize_named_separable rgba_names triangle_desc_width
    triangle_registry single_tile (ImageBuf.uninit.alloc hole3x3.spec)
    (divide_by_alpha_serial r1 (get_roi (ImageSpec.create rgba_names 1 1 4 TypeDesc.FLOAT)))
    "triangle" 2 (triangle_wh 6 6) 0 rfl hsm_init (by rw [hsm_spec]; rfl) (by decide)
    (by rw [hsm_spec]; decide) (by decide) rfl hcr2 rfl rfl (by rw [hsm_spec]; rfl)
    (by decide)
  have hr2v : ∀ x y c : Int, 0 ≤ x ∧ x < 3 → 0 ≤ y ∧ y < 3 → 0 ≤ c ∧ c < 4 →
      r2.pixels x y 0 c = 1 := by
    intro x y c hx hy hc
    have hw : (get_roi (ImageBuf.uninit.alloc hole3x3.spec).spec).containsPos x y 0 = true := by
      show (get_roi hole3x3.spec).containsPos x y 0 = true
      simp only [get_roi, ROI.containsPos, Bool.and_eq_true, decide_eq_true_eq]
      refine ⟨⟨⟨⟨⟨?_, ?_⟩, ?_⟩, ?_⟩, ?_⟩, ?_⟩
      · exact hx.1
      · exact hx.2
      · exact hy.1
      · exact hy.2
      · decide
      · decide
    rw [hp2, if_pos ⟨⟨hw, rfl⟩, hc⟩]
    exact hole3x3_blowup _ hsm_spec 1 c hc (hsm_v c hc) x y hx hy
  have hs2a : r2.spec = hole3x3.spec := hs2
  -- the whole run
  have hlev : pyramid_levels hole3x3.spec.width hole3x3.spec.height = [(1, 1)] := by
    show pyramid_levels 3 3 = [(1, 1)]
    rw [pyramid_levels_step 3 3 (by decide) (by decide) (by decide)]
    rw [show max (1 : Int) (3 / 2) = 1 by decide, pyramid_levels_done 1 1 (by decide) (by decide)]
  have hbp : build_pyramid rgba_names triangle_desc_width triangle_registry single_tile 1
      hole3x3.nchannels hole3x3 [(1, 1)] =
      some [divide_by_alpha_serial r1
        (get_roi (ImageSpec.create rgba_names 1 1 4 TypeDesc.FLOAT))] := by
    rw [build_pyramid, show hole3x3.nchannels = 4 from rfl, hbl]
    dsimp only
    rw [build_pyramid]
  have hpu : pull_up rgba_names triangle_desc_width triangle_registry single_tile hole3x3
      [divide_by_alpha_serial r1
        (get_roi (ImageSpec.create rgba_names 1 1 4 TypeDesc.FLOAT))] =
      some (over hole3x3 hole3x3 r2 ROI.All 0).1 := by
    rw [pull_up, pull_up]
    dsimp only
    rw [hr2]
  refine ⟨(paste (ImageBuf.uninit.alloc (prep_alloc_spec rgba_names (get_roi hole3x3.spec)
      (get_roi_full hole3x3.spec) (some hole3x3) none none {})) 0 0 0 0
      (over hole3x3 hole3x3 r2 ROI.All 0).1 ROI.All 0).1, ?_, ?_⟩
  · unfold fillholes_pushpull
    rw [hprep]
    dsimp only
    rw [if_neg (by decide), if_neg (by decide), if_neg (by decide), if_neg (by decide),
      fillholes_top_hole3x3, hlev, hbp]
    dsimp only
    rw [hpu]
    rfl
  · intro x y c hx hy hc
    have hw : (get_roi hole3x3.spec).containsPos x y 0 = true := by
      simp only [get_roi, ROI.containsPos, Bool.and_eq_true, decide_eq_true_eq]
      refine ⟨⟨⟨⟨⟨?_, ?_⟩, ?_⟩, ?_⟩, ?_⟩, ?_⟩
      · exact hx.1
      · exact hx.2
      · exact hy.1
      · exact hy.2
      · decide
      · decide
    rw [paste_all_pixels]
    have hos : (over hole3x3 hole3x3 r2 ROI.All 0).1.spec = hole3x3.spec :=
      (over_frame _ _ _ _ _).1
    rw [hos]
    rw [if_pos ⟨⟨⟨hx.1, hx.2⟩, ⟨hy.1, hy.2⟩, by decide, by decide⟩, hw, hc⟩]
    unfold ImageBuf.getchannel_black
    rw [hos]
    have ex : ∀ a : Int, a - 0 + hole3x3.spec.x = a := by
      intro a
      show a - 0 + 0 = a
      omega
    have ey : ∀ a : Int, a - 0 + hole3x3.spec.y = a := by
      intro a
      show a - 0 + 0 = a
      omega
    have ez : ∀ a : Int, a - 0 + hole3x3.spec.z = a := by
      intro a
      show a - 0 + 0 = a
      omega
    rw [ex, ey, ez]
    rw [if_pos hw, over_all_pixels, if_pos ⟨hw, hc⟩]
    unfold ImageBuf.getchannel_black
    simp only [hs2a, hw, if_true, hr2v x y c hx hy hc]
    have hsame : hole3x3.pixels x y 0 c = hole3x3.pixels x y 0 hole3x3.spec.alpha_channel := by
      show (if x = 1 ∧ y = 1 ∧ (0 : Int) = 0 ∧ 0 ≤ c ∧ c < 4 then (1 : ℚ) else 0) =
        (if x = 1 ∧ y = 1 ∧ (0 : Int) = 0 ∧ (0 : Int) ≤ 3 ∧ (3 : Int) < 4 then (1 : ℚ) else 0)
      simp only [hc, and_self, and_true, true_and, show (0 : Int) ≤ 3 from by decide,
        show (3 : Int) < 4 from by decide]
    rw [hsame]
    ring

/-- C25: `hole3x3` meets the preconditions of `fillholes_pushpull` (four
channels, alpha channel 3, no depth); the call returns true, and every pixel
of the result is `(1, 1, 1, 1)`: the colour is `(1, 1, 1)` everywhere, but
the alpha of the corner pixel `(0, 0)` is 1 where the alpha of the source
is 0. -/
theorem fillholes_pushpull_raises_alpha :
    hole3x3.spec.nchannels = 4 ∧ hole3x3.spec.alpha_channel = 3 ∧ hole3x3.spec.depth = 1 ∧
    ∃ res : ImageBuf,
      fillholes_pushpull rgba_names triangle_desc_width triangle_registry single_tile
        ImageBuf.uninit hole3x3 ROI.All 1 = some (res, true) ∧
      (∀ x y c : Int, 0 ≤ x ∧ x < 3 → 0 ≤ y ∧ y < 3 → 0 ≤ c ∧ c < 4 →
        res.pixels x y 0 c = 1) ∧
      hole3x3.pixels 0 0 0 3 = 0 ∧ res.pixels 0 0 0 3 = 1 ∧
      ¬ res.pixels 0 0 0 3 ≤ hole3x3.pixels 0 0 0 3 + 1 / 10000 := by
  obtain ⟨res, hrun, hpix⟩ := fillholes_hole3x3
  have h0 : hole3x3.pixels 0 0 0 3 = 0 := by decide
  have h1 : res.pixels 0 0 0 3 = 1 := hpix 0 0 3 (by decide) (by decide) (by decide)
  refine ⟨rfl, rfl, rfl, res, hrun, hpix, h0, h1, ?_⟩
  rw [h0, h1]
  norm_num

/-- An instance of `fillholes_pushpull_composites`: in the run on `hole3x3`
the centre pixel, whose alpha is 1, comes back as it was. -/
theorem fillholes_pushpull_composites_witness :
    hole3x3.spec.alpha_channel < hole3x3.spec.nchannels ∧
    hole3x3.pixels 1 1 0 hole3x3.spec.alpha_channel = 1 ∧
    ∃ (res : ImageBuf) (out : PrepOut),
      fillholes_pushpull rgba_names triangle_desc_width triangle_registry single_tile
        ImageBuf.uninit hole3x3 ROI.All 1 = some (res, true) ∧
      IBAprep rgba_names ROI.All ImageBuf.uninit (some hole3x3) none none {} = some out ∧
      res.spec = out.dst.spec ∧
      ∀ c : Int, 0 ≤ c ∧ c < 4 → res.pixels 1 1 0 c = hole3x3.pixels 1 1 0 c := by
  obtain ⟨res, hrun, _⟩ := fillholes_hole3x3
  obtain ⟨out, lower, h1, _, h3, _, h5, _⟩ :=
    fillholes_pushpull_composites rgba_names triangle_desc_width triangle_registry
      single_tile ImageBuf.uninit hole3x3 ROI.All 1 res hrun (by decide)
  have hprep : IBAprep rgba_names ROI.All ImageBuf.uninit (some hole3x3) none none {} =
      some { ok := true, roi := get_roi hole3x3.spec,
             dst := ImageBuf.uninit.alloc (prep_alloc_spec rgba_names (get_roi hole3x3.spec)
               (get_roi_full hole3x3.spec) (some hole3x3) none none {}) } := by
    rw [IBAprep_uninit_eq rgba_names ROI.All ImageBuf.uninit (some hole3x3) none none {}
      rfl rfl rfl (Or.inl rfl) (get_roi hole3x3.spec) (get_roi_full hole3x3.spec) rfl]
    rfl
  have hout : out =
      { ok := true, roi := get_roi hole3x3.spec,
        dst := ImageBuf.uninit.alloc (prep_alloc_spec rgba_names (get_roi hole3x3.spec)
          (get_roi_full hole3x3.spec) (some hole3x3) none none {}) } := by
    rw [hprep] at h1
    exact (Option.some.inj h1).symm
  refine ⟨by decide, by decide, res, out, hrun, h1, h3, ?_⟩
  intro c hc
  have h := h5 1 1 0 c (by rw [hout]; decide) (by rw [hout]; decide) hc
    (Or.inr (by rw [hout]; decide))
  rw [h, hout]
  rfl

/-! ## Properties of `hfft_` -/

/-- A loop of stores of complex numbers along a row, the number stored at a
column depending on the column only. -/
theorem foldl_write_complex {R : Type} (xs : List Int) (xb y z : Int) (f : Int → R × R)
    (d : FloatBuf R) :
    ((xs.foldl (fun d (x : Int) => write_complex d (xb + x) y z (f x)) d).spec = d.spec ∧
     (xs.foldl (fun d (x : Int) => write_complex d (xb + x) y z (f x)) d).storage =
       d.storage) ∧
    ∀ x1 y1 z1 c : Int,
      (xs.foldl (fun d (x : Int) => write_complex d (xb + x) y z (f x)) d).pixels x1 y1 z1 c =
        if (y1 = y ∧ z1 = z ∧ (x1 - xb) ∈ xs) ∧ (c = 0 ∨ c = 1) then
          cpx_channel (f (x1 - xb)) c
        else d.pixels x1 y1 z1 c := by
  induction xs generalizing d with
  | nil =>
    refine ⟨⟨rfl, rfl⟩, ?_⟩
    intro x1 y1 z1 c
    simp
  | cons x xs ih =>
    obtain ⟨⟨h1, h2⟩, h3⟩ := ih (write_complex d (xb + x) y z (f x))
    refine ⟨⟨h1, h2⟩, ?_⟩
    intro x1 y1 z1 c
    rw [List.foldl_cons, h3]
    by_cases hm : (y1 = y ∧ z1 = z ∧ (x1 - xb) ∈ xs) ∧ (c = 0 ∨ c = 1)
    · rw [if_pos hm, if_pos ⟨⟨hm.1.1, hm.1.2.1, List.mem_cons_of_mem _ hm.1.2.2⟩, hm.2⟩]
    · rw [if_neg hm]
      show (if x1 = xb + x ∧ y1 = y ∧ z1 = z ∧ c = 0 then (f x).1
        else if x1 = xb + x ∧ y1 = y ∧ z1 = z ∧ c = 1 then (f x).2
        else d.pixels x1 y1 z1 c) = _
      by_cases hx : x1 = xb + x ∧ y1 = y ∧ z1 = z
      · obtain ⟨rfl, rfl, rfl⟩ := hx
        have hxx : xb + x - xb = x := by omega
        by_cases hc0 : c = 0
        · subst hc0
          simp [hxx, cpx_channel]
        · by_cases hc1 : c = 1
          · subst hc1
            simp [hxx, cpx_channel]
          · have : ¬ (c = 0 ∨ c = 1) := by
              rintro (h | h)
              · exact hc0 h
              · exact hc1 h
            simp [hc0, hc1, this]
      · have hn : ¬ ((y1 = y ∧ z1 = z ∧ (x1 - xb) ∈ x :: xs) ∧ (c = 0 ∨ c = 1)) := by
          rintro ⟨⟨h1, h2, h3⟩, h4⟩
          rcases List.mem_cons.mp h3 with h5 | h5
          · exact hx ⟨by omega, h1, h2⟩
          · exact hm ⟨⟨h1, h2, h5⟩, h4⟩
        rw [if_neg hn, if_neg (fun h => hx ⟨h.1, h.2.1, h.2.2.1⟩),
          if_neg (fun h => hx ⟨h.1, h.2.1, h.2.2.1⟩)]

/-- A store of a complex number does not change the complex numbers of the
other columns. -/
theorem read_write_complex_ne {R : Type} (d : FloatBuf R) (a y z : Int) (v : R × R)
    (x1 : Int) (h : x1 ≠ a) :
    read_complex (write_complex d a y z v) x1 y z = read_complex d x1 y z := by
  unfold read_complex write_complex
  simp [h]

/-- A loop that replaces each complex number of a row by a function of
itself, each column being visited once. -/
theorem foldl_update_complex {R : Type} (xs : List Int) (hn : xs.Nodup) (xb y z : Int)
    (g : R × R → R × R) (d : FloatBuf R) :
    ((xs.foldl (fun d (x : Int) => write_complex d (xb + x) y z
        (g (read_complex d (xb + x) y z))) d).spec = d.spec ∧
     (xs.foldl (fun d (x : Int) => write_complex d (xb + x) y z
        (g (read_complex d (xb + x) y z))) d).storage = d.storage) ∧
    ∀ x1 y1 z1 c : Int,
      (xs.foldl (fun d (x : Int) => write_complex d (xb + x) y z
        (g (read_complex d (xb + x) y z))) d).pixels x1 y1 z1 c =
        if (y1 = y ∧ z1 = z ∧ (x1 - xb) ∈ xs) ∧ (c = 0 ∨ c = 1) then
          cpx_channel (g (read_complex d x1 y z)) c
        else d.pixels x1 y1 z1 c := by
  induction xs generalizing d with
  | nil =>
    refine ⟨⟨rfl, rfl⟩, ?_⟩
    intro x1 y1 z1 c
    simp
  | cons x xs ih =>
    obtain ⟨hx_not, hn2⟩ := List.nodup_cons.mp hn
    obtain ⟨⟨h1, h2⟩, h3⟩ := ih hn2
      (write_complex d (xb + x) y z (g (read_complex d (xb + x) y z)))
    refine ⟨⟨h1, h2⟩, ?_⟩
    intro x1 y1 z1 c
    rw [List.foldl_cons, h3]
    have hw : ∀ (a b e k : Int),
        (write_complex d (xb + x) y z (g (read_complex d (xb + x) y z))).pixels a b e k =
        (if a = xb + x ∧ b = y ∧ e = z ∧ k = 0 then (g (read_complex d (xb + x) y z)).1
        else if a = xb + x ∧ b = y ∧ e = z ∧ k = 1 then (g (read_complex d (xb + x) y z)).2
        else d.pixels a b e k) := fun _ _ _ _ => rfl
    by_cases hm : (y1 = y ∧ z1 = z ∧ (x1 - xb) ∈ xs) ∧ (c = 0 ∨ c = 1)
    · rw [if_pos hm, if_pos ⟨⟨hm.1.1, hm.1.2.1, List.mem_cons_of_mem _ hm.1.2.2⟩, hm.2⟩]
      have hne : x1 ≠ xb + x := by
        intro h
        apply hx_not
        have : x1 - xb = x := by omega
        rw [← this]
        exact hm.1.2.2
      rw [read_write_complex_ne d (xb + x) y z _ x1 hne]
    · rw [if_neg hm, hw]
      by_cases hx : x1 = xb + x ∧ y1 = y ∧ z1 = z
      · obtain ⟨rfl, rfl, rfl⟩ := hx
        have hxx : xb + x - xb = x := by omega
        by_cases hc0 : c = 0
        · subst hc0
          simp [hxx, cpx_channel]
        · by_cases hc1 : c = 1
          · subst hc1
            simp [hxx, cpx_channel]
          · have : ¬ (c = 0 ∨ c = 1) := by
              rintro (h | h)
              · exact hc0 h
              · exact hc1 h
            simp [hc0, hc1, this]
      · have hn3 : ¬ ((y1 = y ∧ z1 = z ∧ (x1 - xb) ∈ x :: xs) ∧ (c = 0 ∨ c = 1)) := by
          rintro ⟨⟨h1, h2, h3⟩, h4⟩
          rcases List.mem_cons.mp h3 with h5 | h5
          · exact hx ⟨by omega, h1, h2⟩
          · exact hm ⟨⟨h1, h2, h5⟩, h4⟩
        rw [if_neg hn3, if_neg (fun h => hx ⟨h.1, h.2.1, h.2.2.1⟩),
          if_neg (fun h => hx ⟨h.1, h.2.1, h.2.2.1⟩)]

/-- The pixels that one pass of the row loop of `hfft_` leaves. -/
theorem hfft_row_pixels {R : Type} [Field R] (m : FFTMath R) (d src : FloatBuf R)
    (inverse : Bool) (roi : ROI) (y z : Int) :
    ((hfft_row m d src inverse true roi y z).spec = d.spec ∧
     (hfft_row m d src inverse true roi y z).storage = d.storage) ∧
    ∀ x1 y1 z1 c : Int,
      (hfft_row m d src inverse true roi y z).pixels x1 y1 z1 c =
        if (y1 = y ∧ z1 = z ∧ (roi.xbegin ≤ x1 ∧ x1 < roi.xend)) ∧ (c = 0 ∨ c = 1) then
          cpx_channel (hfft_value m src inverse roi x1 y1 z1) c
        else d.pixels x1 y1 z1 c := by
  unfold hfft_row
  dsimp only
  rw [if_pos rfl]
  obtain ⟨⟨a1, a2⟩, a3⟩ := foldl_write_complex (irange 0 roi.width) roi.xbegin y z
    (kissfft_transform m roi.width inverse (fun n => read_complex src (roi.xbegin + n) y z)) d
  obtain ⟨⟨b1, b2⟩, b3⟩ := foldl_update_complex (irange 0 roi.width) (nodup_irange _ _)
    roi.xbegin y z (fun v => cpx_scale v (m.sqrtf (1 / (roi.width : R))))
    ((irange 0 roi.width).foldl (fun d (x : Int) => write_complex d (roi.xbegin + x) y z
      (kissfft_transform m roi.width inverse
        (fun n => read_complex src (roi.xbegin + n) y z) x)) d)
  refine ⟨⟨b1.trans a1, b2.trans a2⟩, ?_⟩
  intro x1 y1 z1 c
  rw [b3]
  have hmem : (x1 - roi.xbegin) ∈ irange 0 roi.width ↔ (roi.xbegin ≤ x1 ∧ x1 < roi.xend) := by
    rw [mem_irange]
    unfold ROI.width
    constructor
    · intro h
      omega
    · intro h
      omega
  simp only [hmem]
  by_cases hp : (y1 = y ∧ z1 = z ∧ (roi.xbegin ≤ x1 ∧ x1 < roi.xend)) ∧ (c = 0 ∨ c = 1)
  · rw [if_pos hp, if_pos hp]
    obtain ⟨⟨rfl, rfl, hx⟩, hc⟩ := hp
    have hrd : read_complex ((irange 0 roi.width).foldl
        (fun d (x : Int) => write_complex d (roi.xbegin + x) y1 z1
          (kissfft_transform m roi.width inverse
            (fun n => read_complex src (roi.xbegin + n) y1 z1) x)) d) x1 y1 z1 =
        kissfft_transform m roi.width inverse
          (fun n => read_complex src (roi.xbegin + n) y1 z1) (x1 - roi.xbegin) := by
      apply Prod.ext
      · show FloatBuf.pixels _ x1 y1 z1 0 = _
        rw [a3, if_pos ⟨⟨rfl, rfl, hmem.mpr hx⟩, Or.inl rfl⟩]
        rfl
      · show FloatBuf.pixels _ x1 y1 z1 1 = _
        rw [a3, if_pos ⟨⟨rfl, rfl, hmem.mpr hx⟩, Or.inr rfl⟩]
        rfl
    rw [hrd]
    rfl
  · rw [if_neg hp, if_neg hp, a3]
    simp only [hmem]
    rw [if_neg hp]

/-- A loop of passes, each of which leaves a fixed value `col` at the places
`P a` of its own and touches nothing else: the pixel values after the loop. -/
theorem foldl_ops_pixels {R α : Type} (op : FloatBuf R → α → FloatBuf R)
    (P : α → Int → Int → Int → Int → Prop) (col : Int → Int → Int → Int → R)
    (l : List α)
    (h1 : ∀ d, ∀ a ∈ l, ∀ x y z c, P a x y z c → (op d a).pixels x y z c = col x y z c)
    (h2 : ∀ d, ∀ a ∈ l, ∀ x y z c, ¬ P a x y z c →
      (op d a).pixels x y z c = d.pixels x y z c)
    (d : FloatBuf R) (x y z c : Int) :
    ((∃ a ∈ l, P a x y z c) → (l.foldl op d).pixels x y z c = col x y z c) ∧
    ((¬ ∃ a ∈ l, P a x y z c) → (l.foldl op d).pixels x y z c = d.pixels x y z c) := by
  induction l generalizing d with
  | nil =>
    constructor
    · rintro ⟨a, ha, _⟩
      exact absurd ha (List.not_mem_nil a)
    · intro _
      rfl
  | cons a l ih =>
    obtain ⟨i1, i2⟩ := ih (fun d1 a1 ha1 => h1 d1 a1 (List.mem_cons_of_mem _ ha1))
      (fun d1 a1 ha1 => h2 d1 a1 (List.mem_cons_of_mem _ ha1)) (op d a)
    rw [List.foldl_cons]
    constructor
    · rintro ⟨b, hb, hP⟩
      by_cases hl : ∃ a1 ∈ l, P a1 x y z c
      · exact i1 hl
      · rw [i2 hl]
        rcases List.mem_cons.mp hb with rfl | hb2
        · exact h1 d b (List.mem_cons_self b l) x y z c hP
        · exact absurd ⟨b, hb2, hP⟩ hl
    · intro hn
      have hl : ¬ ∃ a1 ∈ l, P a1 x y z c := by
        rintro ⟨b, hb, hP⟩
        exact hn ⟨b, List.mem_cons_of_mem _ hb, hP⟩
      rw [i2 hl]
      exact h2 d a (List.mem_cons_self a l) x y z c
        (fun hP => hn ⟨a, List.mem_cons_self a l, hP⟩)

/-- A loop of passes that keep the spec and the storage kind keeps them. -/
theorem foldl_ops_frame {R α : Type} (op : FloatBuf R → α → FloatBuf R)
    (h : ∀ d a, (op d a).spec = d.spec ∧ (op d a).storage = d.storage)
    (l : List α) (d : FloatBuf R) :
    (l.foldl op d).spec = d.spec ∧ (l.foldl op d).storage = d.storage := by
  induction l generalizing d with
  | nil => exact ⟨rfl, rfl⟩
  | cons a l ih =>
    rw [List.foldl_cons]
    obtain ⟨i1, i2⟩ := ih (op d a)
    obtain ⟨j1, j2⟩ := h d a
    exact ⟨i1.trans j1, i2.trans j2⟩

/-- The pixels that the serial loops of `hfft_` leave: every pixel of the roi
holds in its channels 0 and 1 the rescaled transform of its row of `src`. -/
theorem hfft_serial_pixels {R : Type} [Field R] (m : FFTMath R) (d src : FloatBuf R)
    (inverse : Bool) (roi : ROI) :
    ((hfft_serial m d src inverse true roi).spec = d.spec ∧
     (hfft_serial m d src inverse true roi).storage = d.storage) ∧
    ∀ x y z c : Int,
      (roi.containsPos x y z = true ∧ (c = 0 ∨ c = 1) →
        (hfft_serial m d src inverse true roi).pixels x y z c =
          cpx_channel (hfft_value m src inverse roi x y z) c) ∧
      (¬ (roi.containsPos x y z = true ∧ (c = 0 ∨ c = 1)) →
        (hfft_serial m d src inverse true roi).pixels x y z c = d.pixels x y z c) := by
  have hrowfr : ∀ (z : Int) (d1 : FloatBuf R),
      ((irange roi.ybegin roi.yend).foldl
        (fun d (y : Int) => hfft_row m d src inverse true roi y z) d1).spec = d1.spec ∧
      ((irange roi.ybegin roi.yend).foldl
        (fun d (y : Int) => hfft_row m d src inverse true roi y z) d1).storage = d1.storage :=
    fun z d1 => foldl_ops_frame (fun d (y : Int) => hfft_row m d src inverse true roi y z)
      (fun d2 y => (hfft_row_pixels m d2 src inverse roi y z).1) _ d1
  have hrows : ∀ (z : Int) (d1 : FloatBuf R) (x1 y1 z1 c : Int),
      ((z1 = z ∧ (roi.ybegin ≤ y1 ∧ y1 < roi.yend) ∧ (roi.xbegin ≤ x1 ∧ x1 < roi.xend)) ∧
          (c = 0 ∨ c = 1) →
        ((irange roi.ybegin roi.yend).foldl
          (fun d (y : Int) => hfft_row m d src inverse true roi y z) d1).pixels x1 y1 z1 c =
          cpx_channel (hfft_value m src inverse roi x1 y1 z1) c) ∧
      (¬ ((z1 = z ∧ (roi.ybegin ≤ y1 ∧ y1 < roi.yend) ∧ (roi.xbegin ≤ x1 ∧ x1 < roi.xend)) ∧
          (c = 0 ∨ c = 1)) →
        ((irange roi.ybegin roi.yend).foldl
          (fun d (y : Int) => hfft_row m d src inverse true roi y z) d1).pixels x1 y1 z1 c =
          d1.pixels x1 y1 z1 c) := by
    intro z d1 x1 y1 z1 c
    obtain ⟨k1, k2⟩ := foldl_ops_pixels
      (fun d (y : Int) => hfft_row m d src inverse true roi y z)
      (fun (y : Int) x1 y1 z1 c =>
        (y1 = y ∧ z1 = z ∧ (roi.xbegin ≤ x1 ∧ x1 < roi.xend)) ∧ (c = 0 ∨ c = 1))
      (fun x1 y1 z1 c => cpx_channel (hfft_value m src inverse roi x1 y1 z1) c)
      (irange roi.ybegin roi.yend)
      (fun d2 y _ a b e k hP => by
        rw [(hfft_row_pixels m d2 src inverse roi y z).2, if_pos hP])
      (fun d2 y _ a b e k hP => by
        rw [(hfft_row_pixels m d2 src inverse roi y z).2, if_neg hP])
      d1 x1 y1 z1 c
    constructor
    · rintro ⟨⟨hz, hy, hx⟩, hc⟩
      exact k1 ⟨y1, (mem_irange _ _ _).mpr hy, ⟨rfl, hz, hx⟩, hc⟩
    · intro hn
      apply k2
      rintro ⟨y, hy, ⟨rfl, hz, hx⟩, hc⟩
      exact hn ⟨⟨hz, (mem_irange _ _ _).mp hy, hx⟩, hc⟩
  constructor
  · unfold hfft_serial
    exact foldl_ops_frame _ (fun d2 z => hrowfr z d2) _ d
  · intro x y z c
    obtain ⟨k1, k2⟩ := foldl_ops_pixels
      (fun d (z : Int) => (irange roi.ybegin roi.yend).foldl
        (fun d (y : Int) => hfft_row m d src inverse true roi y z) d)
      (fun (z : Int) x1 y1 z1 c =>
        (z1 = z ∧ (roi.ybegin ≤ y1 ∧ y1 < roi.yend) ∧ (roi.xbegin ≤ x1 ∧ x1 < roi.xend)) ∧
          (c = 0 ∨ c = 1))
      (fun x1 y1 z1 c => cpx_channel (hfft_value m src inverse roi x1 y1 z1) c)
      (irange roi.zbegin roi.zend)
      (fun d2 z _ a b e k hP => (hrows z d2 a b e k).1 hP)
      (fun d2 z _ a b e k hP => (hrows z d2 a b e k).2 hP)
      d x y z c
    have hcp : roi.containsPos x y z = true ↔
        ((roi.xbegin ≤ x ∧ x < roi.xend) ∧ (roi.ybegin ≤ y ∧ y < roi.yend) ∧
          (roi.zbegin ≤ z ∧ z < roi.zend)) := by
      simp only [ROI.containsPos, Bool.and_eq_true, decide_eq_true_eq]
      tauto
    unfold hfft_serial
    constructor
    · rintro ⟨hp, hc⟩
      obtain ⟨hx, hy, hz⟩ := hcp.mp hp
      exact k1 ⟨z, (mem_irange _ _ _).mpr hz, ⟨rfl, hy, hx⟩, hc⟩
    · intro hn
      apply k2
      rintro ⟨z0, hz0, ⟨rfl, hy, hx⟩, hc⟩
      exact hn ⟨hcp.mpr ⟨hx, hy, (mem_irange _ _ _).mp hz0⟩, hc⟩

/-- The value that `hfft_` leaves at a pixel depends on the roi through its x
range only. -/
theorem hfft_value_band {R : Type} [Field R] (m : FFTMath R) (src : FloatBuf R)
    (inverse : Bool) (t roi : ROI) (h1 : t.xbegin = roi.xbegin) (h2 : t.xend = roi.xend)
    (x y z : Int) :
    hfft_value m src inverse t x y z = hfft_value m src inverse roi x y z := by
  unfold hfft_value ROI.width
  rw [h1, h2]

theorem rows_inside_iff (roi : ROI) (spec : ImageSpec) :
    rows_inside roi spec = true ↔
      (spec.x ≤ roi.xbegin ∧ roi.xend ≤ spec.x + spec.width) ∧
      (spec.y ≤ roi.ybegin ∧ roi.yend ≤ spec.y + spec.height) ∧
      (spec.z ≤ roi.zbegin ∧ roi.zend ≤ spec.z + spec.depth) := by
  simp only [rows_inside, Bool.and_eq_true, decide_eq_true_eq]
  tauto

/-- The run of `hfft_` with `unitary` set on two-channel float buffers, for a
roi whose rows lie in both pixel windows and tiles that are bands of rows:
it returns true, keeps the spec of `dst`, and every pixel of the roi holds in
its channels 0 and 1 the rescaled transform of its row of `src`. -/
theorem hfft__run {R : Type} [Field R] (m : FFTMath R) (split : ROI → Int → List ROI)
    (dst src : FloatBuf R) (inverse : Bool) (roi : ROI) (nthreads : Int)
    (hfmt : dst.spec.format = TypeDesc.FLOAT ∧ src.spec.format = TypeDesc.FLOAT ∧
      dst.spec.nchannels = 2 ∧ src.spec.nchannels = 2)
    (hd : rows_inside roi dst.spec = true) (hs : rows_inside roi src.spec = true)
    (hsplit : IsRowBanding (split roi nthreads) roi) :
    ∃ d1 : FloatBuf R,
      hfft_ m split dst src inverse true roi nthreads = some (d1, true) ∧
      (d1.spec = dst.spec ∧ d1.storage = dst.storage) ∧
      ∀ x y z c : Int,
        (roi.containsPos x y z = true ∧ (c = 0 ∨ c = 1) →
          d1.pixels x y z c = cpx_channel (hfft_value m src inverse roi x y z) c) ∧
        (¬ (roi.containsPos x y z = true ∧ (c = 0 ∨ c = 1)) →
          d1.pixels x y z c = dst.pixels x y z c) := by
  unfold hfft_
  rw [if_neg (not_not.mpr hfmt)]
  have htile : ∀ (t : ROI) (d : FloatBuf R), d.spec = dst.spec →
      rows_inside t dst.spec = true → rows_inside t src.spec = true →
      hfft_tile m d src inverse true t = some (hfft_serial m d src inverse true t) := by
    intro t d hsp h1 h2
    unfold hfft_tile
    rw [hsp, h1, h2]
    rfl
  by_cases hp : nthreads ≠ 1 ∧ roi.npixels ≥ 1000
  · rw [if_pos hp]
    obtain ⟨hb1, hb2⟩ := hsplit
    have hin : ∀ t ∈ split roi nthreads, ∀ spec : ImageSpec, rows_inside roi spec = true →
        rows_inside t spec = true := by
      intro t ht spec hr
      rw [rows_inside_iff] at hr ⊢
      obtain ⟨e1, e2, e3, e4, e5, e6⟩ := hb1 t ht
      omega
    have hfold : ∀ (l : List ROI) (d : FloatBuf R), (∀ t ∈ l, t ∈ split roi nthreads) →
        d.spec = dst.spec →
        l.foldl (fun (d : Option (FloatBuf R)) t =>
          match d with
          | none => none
          | some d => hfft_tile m d src inverse true t) (some d) =
        some (l.foldl (fun d t => hfft_serial m d src inverse true t) d) := by
      intro l
      induction l with
      | nil =>
        intro d _ _
        rfl
      | cons t l ih =>
        intro d hl hsp
        rw [List.foldl_cons, List.foldl_cons]
        have ht := hl t (List.mem_cons_self t l)
        simp only [htile t d hsp (hin t ht _ hd) (hin t ht _ hs)]
        exact ih _ (fun t1 h1 => hl t1 (List.mem_cons_of_mem _ h1))
          ((hfft_serial_pixels m d src inverse t).1.1.trans hsp)
    rw [hfold _ dst (fun t h => h) rfl, Option.map_some']
    refine ⟨_, rfl, foldl_ops_frame _ (fun d t => (hfft_serial_pixels m d src inverse t).1) _ dst,
      ?_⟩
    intro x y z c
    obtain ⟨k1, k2⟩ := foldl_ops_pixels
      (fun d (t : ROI) => hfft_serial m d src inverse true t)
      (fun (t : ROI) x y z c => t.containsPos x y z = true ∧ (c = 0 ∨ c = 1))
      (fun x y z c => cpx_channel (hfft_value m src inverse roi x y z) c)
      (split roi nthreads)
      (fun d2 t ht a b e k hP => by
        obtain ⟨e1, e2, _⟩ := hb1 t ht
        rw [((hfft_serial_pixels m d2 src inverse t).2 a b e k).1 hP,
          hfft_value_band m src inverse t roi e1 e2])
      (fun d2 t _ a b e k hP => ((hfft_serial_pixels m d2 src inverse t).2 a b e k).2 hP)
      dst x y z c
    have hcp : ∀ r : ROI, r.containsPos x y z = true ↔
        ((r.xbegin ≤ x ∧ x < r.xend) ∧ (r.ybegin ≤ y ∧ y < r.yend) ∧
          (r.zbegin ≤ z ∧ z < r.zend)) := by
      intro r
      simp only [ROI.containsPos, Bool.and_eq_true, decide_eq_true_eq]
      tauto
    constructor
    · rintro ⟨hpos, hc⟩
      obtain ⟨hx, hy, hz⟩ := (hcp roi).mp hpos
      obtain ⟨t, ht, hty, htz⟩ := hb2 y z ⟨hy, hz⟩
      obtain ⟨e1, e2, _⟩ := hb1 t ht
      exact k1 ⟨t, ht, (hcp t).mpr ⟨by omega, hty, htz⟩, hc⟩
    · intro hn
      apply k2
      rintro ⟨t, ht, hpos, hc⟩
      obtain ⟨hx, hy, hz⟩ := (hcp t).mp hpos
      obtain ⟨e1, e2, e3, e4, e5, e6⟩ := hb1 t ht
      exact hn ⟨(hcp roi).mpr ⟨by omega, by omega, by omega⟩, hc⟩
  · rw [if_neg hp, htile roi dst rfl hd hs, Option.map_some']
    exact ⟨_, rfl, (hfft_serial_pixels m dst src inverse roi).1,
      (hfft_serial_pixels m dst src inverse roi).2⟩

/-! ## Properties of `fft` and `ifft`: the two passes -/

theorem hfft_value_eq {R : Type} [Field R] (m : FFTMath R) (src : FloatBuf R) (inverse : Bool)
    (roi : ROI) (x y z : Int) :
    hfft_value m src inverse roi x y z =
      unitary_dft m roi.width inverse (fun n => read_complex src (roi.xbegin + n) y z)
        (x - roi.xbegin) := rfl

/-- The transform of `kissfft` reads the entries `0 ≤ n < nfft` only. -/
theorem kissfft_transform_congr {R : Type} [Field R] (m : FFTMath R) (nfft : Int)
    (inverse : Bool) (s1 s2 : Int → R × R) (k : Int)
    (h : ∀ n : Int, 0 ≤ n ∧ n < nfft → s1 n = s2 n) :
    kissfft_transform m nfft inverse s1 k = kissfft_transform m nfft inverse s2 k := by
  unfold kissfft_transform
  apply foldl_congr_mem
  intro n hn acc
  rw [h n ((mem_irange _ _ _).mp hn)]

theorem unitary_dft_congr {R : Type} [Field R] (m : FFTMath R) (nfft : Int)
    (inverse : Bool) (s1 s2 : Int → R × R) (k : Int)
    (h : ∀ n : Int, 0 ≤ n ∧ n < nfft → s1 n = s2 n) :
    unitary_dft m nfft inverse s1 k = unitary_dft m nfft inverse s2 k := by
  unfold unitary_dft
  rw [kissfft_transform_congr m nfft inverse s1 s2 k h]

/-- A pixel whose channels 0 and 1 hold the parts of `v` holds `v`. -/
theorem read_complex_of_channels {R : Type} (b : FloatBuf R) (x y z : Int) (v : R × R)
    (h : ∀ c : Int, c = 0 ∨ c = 1 → b.pixels x y z c = cpx_channel v c) :
    read_complex b x y z = v := by
  unfold read_complex
  rw [h 0 (Or.inl rfl), h 1 (Or.inr rfl)]
  rfl

theorem origin_window_contains (s : ImageSpec) (w h : Int) (hs : origin_window s w h)
    (x y z : Int) :
    (get_roi s).containsPos x y z = true ↔ ((0 ≤ x ∧ x < w) ∧ (0 ≤ y ∧ y < h) ∧ z = 0) := by
  obtain ⟨h1, h2, h3, h4, h5, h6⟩ := hs
  simp only [get_roi, ROI.containsPos, Bool.and_eq_true, decide_eq_true_eq, h1, h2, h3, h4, h5,
    h6]
  constructor
  · intro h
    omega
  · intro h
    omega

theorem origin_window_roi (s : ImageSpec) (w h : Int) (hs : origin_window s w h) :
    get_roi s = { xbegin := 0, xend := w, ybegin := 0, yend := h, zbegin := 0, zend := 1,
                  chbegin := 0, chend := s.nchannels } := by
  obtain ⟨h1, h2, h3, h4, h5, h6⟩ := hs
  unfold get_roi
  rw [h1, h2, h3, h4, h5, h6]
  simp

/-- The roi of a transpose of a whole two-channel buffer with the pixel window
`[0, w) × [0, h) × [0, 1)`. -/
theorem transpose_roi_all (s : ImageSpec) (w h : Int) (hw : origin_window s w h)
    (hc : s.nchannels = 2) :
    transpose_roi s ROI.All =
      { xbegin := 0, xend := w, ybegin := 0, yend := h, zbegin := 0, zend := 1,
        chbegin := 0, chend := 2 } := by
  unfold transpose_roi
  simp only [show ROI.All.defined = false from rfl, Bool.false_eq_true, if_false]
  rw [origin_window_roi s w h hw, hc]
  rfl

/-- The transpose into a cleared buffer, of a two-channel float buffer with
the pixel window `[0, w) × [0, h) × [0, 1)`. -/
theorem transpose_uninit {R : Type} [Field R] (B : FloatBuf R) (w h n : Int)
    (hw : origin_window B.spec w h) (hc : B.spec.nchannels = 2) :
    (FloatBuf.transpose FloatBuf.uninit B ROI.All n).1.spec.format = TypeDesc.FLOAT ∧
    (FloatBuf.transpose FloatBuf.uninit B ROI.All n).1.spec.nchannels = 2 ∧
    origin_window (FloatBuf.transpose FloatBuf.uninit B ROI.All n).1.spec h w ∧
    ∀ u y : Int, 0 ≤ u ∧ u < w → 0 ≤ y ∧ y < h →
      read_complex (FloatBuf.transpose FloatBuf.uninit B ROI.All n).1 y u 0 =
        read_complex B u y 0 := by
  have hroi := transpose_roi_all B.spec w h hw hc
  have hspec : (FloatBuf.transpose FloatBuf.uninit B ROI.All n).1.spec =
      transpose_spec B.spec (transpose_roi B.spec ROI.All) := rfl
  have hwin : origin_window (FloatBuf.transpose FloatBuf.uninit B ROI.All n).1.spec h w := by
    rw [hspec, hroi]
    unfold origin_window transpose_spec ROI.width ROI.height ROI.depth
    simp
  refine ⟨rfl, ?_, hwin, ?_⟩
  · rw [hspec, hroi]
    rfl
  · intro u y hu hy
    have hpix : ∀ c : Int, c = 0 ∨ c = 1 →
        (FloatBuf.transpose FloatBuf.uninit B ROI.All n).1.pixels y u 0 c =
          B.pixels u y 0 c := by
      intro c hcc
      have e : (FloatBuf.transpose FloatBuf.uninit B ROI.All n).1.pixels y u 0 c =
          if (get_roi (FloatBuf.transpose FloatBuf.uninit B ROI.All n).1.spec).containsPos
              y u 0 = true ∧
            (transpose_roi B.spec ROI.All).containsPos u y 0 = true ∧
            ((transpose_roi B.spec ROI.All).chbegin ≤ c ∧
              c < (transpose_roi B.spec ROI.All).chend) then
            B.getchannel_black u y 0 c
          else 0 := rfl
      rw [e, if_pos]
      · unfold FloatBuf.getchannel_black
        rw [if_pos ((origin_window_contains B.spec w h hw u y 0).mpr ⟨hu, hy, rfl⟩)]
      · refine ⟨(origin_window_contains _ h w hwin y u 0).mpr ⟨hy, hu, rfl⟩, ?_, ?_⟩
        · rw [hroi]
          simp only [ROI.containsPos, Bool.and_eq_true, decide_eq_true_eq]
          omega
        · rw [hroi]
          show 0 ≤ c ∧ c < 2
          rcases hcc with rfl | rfl <;> decide
    unfold read_complex
    rw [hpix 0 (Or.inl rfl), hpix 1 (Or.inr rfl)]

theorem rows_inside_origin (s1 s2 : ImageSpec) (w h : Int) (h1 : origin_window s1 w h)
    (h2 : origin_window s2 w h) : rows_inside (get_roi s1) s2 = true := by
  rw [rows_inside_iff, origin_window_roi s1 w h h1]
  obtain ⟨e1, e2, e3, e4, e5, e6⟩ := h2
  simp only [e1, e2, e3, e4, e5, e6]
  omega

/-- The two passes of `fft` and of `ifft`: the rows are transformed, the
result is transposed into a cleared buffer, and its rows (the columns of the
input) are transformed. -/
theorem two_passes {R : Type} [Field R] (m : FFTMath R) (split : ROI → Int → List ROI)
    (A0 : FloatBuf R) (s1 s2 : ImageSpec) (inverse : Bool) (w h n : Int)
    (hsplit : ∀ (r : ROI) (k : Int), IsRowBanding (split r k) r)
    (hA : A0.spec.format = TypeDesc.FLOAT ∧ A0.spec.nchannels = 2)
    (hAw : origin_window A0.spec w h)
    (hs1 : s1.format = TypeDesc.FLOAT ∧ s1.nchannels = 2) (hs1w : origin_window s1 w h)
    (hs2 : s2.format = TypeDesc.FLOAT ∧ s2.nchannels = 2) (hs2w : origin_window s2 h w) :
    ∃ B1 B2 : FloatBuf R,
      hfft_ m split (FloatBuf.create s1) A0 inverse true (get_roi s1) n = some (B1, true) ∧
      B1.spec = s1 ∧
      hfft_ m split (FloatBuf.create s2) (FloatBuf.transpose FloatBuf.uninit B1 ROI.All n).1
        inverse true (get_roi (FloatBuf.transpose FloatBuf.uninit B1 ROI.All n).1.spec) n =
          some (B2, true) ∧
      B2.spec = s2 ∧
      ∀ u v : Int, 0 ≤ u ∧ u < w → 0 ≤ v ∧ v < h →
        read_complex B2 v u 0 =
          unitary_dft m h inverse
            (fun y => unitary_dft m w inverse (fun x1 => read_complex A0 x1 y 0) u) v := by
  obtain ⟨B1, hB1, ⟨hB1s, _⟩, hB1p⟩ := hfft__run m split (FloatBuf.create s1) A0 inverse
    (get_roi s1) n ⟨hs1.1, hA.1, hs1.2, hA.2⟩
    (rows_inside_origin s1 s1 w h hs1w hs1w) (rows_inside_origin s1 A0.spec w h hs1w hAw)
    (hsplit _ _)
  have hB1s2 : B1.spec = s1 := hB1s
  have hB1w : origin_window B1.spec w h := by
    rw [hB1s2]
    exact hs1w
  have hB1c : B1.spec.nchannels = 2 := by
    rw [hB1s2]
    exact hs1.2
  obtain ⟨hAf, hAc, hAwin, hAp⟩ := transpose_uninit B1 w h n hB1w hB1c
  obtain ⟨B2, hB2, ⟨hB2s, _⟩, hB2p⟩ := hfft__run m split (FloatBuf.create s2)
    (FloatBuf.transpose FloatBuf.uninit B1 ROI.All n).1 inverse
    (get_roi (FloatBuf.transpose FloatBuf.uninit B1 ROI.All n).1.spec) n
    ⟨hs2.1, hAf, hs2.2, hAc⟩
    (rows_inside_origin _ s2 h w hAwin hs2w) (rows_inside_origin _ _ h w hAwin hAwin)
    (hsplit _ _)
  refine ⟨B1, B2, hB1, hB1s2, hB2, hB2s, ?_⟩
  -- the first pass
  have hr1 := origin_window_roi s1 w h hs1w
  have h1 : ∀ u y : Int, 0 ≤ u ∧ u < w → 0 ≤ y ∧ y < h →
      read_complex B1 u y 0 = unitary_dft m w inverse (fun x1 => read_complex A0 x1 y 0) u := by
    intro u y hu hy
    have hin : (get_roi s1).containsPos u y 0 = true :=
      (origin_window_contains s1 w h hs1w u y 0).mpr ⟨hu, hy, rfl⟩
    rw [read_complex_of_channels B1 u y 0 _ (fun c hc => ((hB1p u y 0 c).1 ⟨hin, hc⟩)),
      hfft_value_eq, hr1]
    show unitary_dft m (w - 0) inverse (fun n => read_complex A0 (0 + n) y 0) (u - 0) = _
    rw [sub_zero, sub_zero]
    apply unitary_dft_congr
    intro k _
    rw [zero_add]
  -- the second pass
  have hr2 := origin_window_roi _ h w hAwin
  intro u v hu hv
  have hin : (get_roi (FloatBuf.transpose FloatBuf.uninit B1 ROI.All n).1.spec).containsPos
      v u 0 = true :=
    (origin_window_contains _ h w hAwin v u 0).mpr ⟨hv, hu, rfl⟩
  rw [read_complex_of_channels B2 v u 0 _ (fun c hc => ((hB2p v u 0 c).1 ⟨hin, hc⟩)),
    hfft_value_eq, hr2]
  show unitary_dft m (h - 0) inverse
    (fun k => read_complex (FloatBuf.transpose FloatBuf.uninit B1 ROI.All n).1 (0 + k) u 0)
    (v - 0) = _
  rw [sub_zero, sub_zero]
  apply unitary_dft_congr
  intro k hk
  rw [zero_add, hAp u k hu hk, h1 u k hu hk]

/-- The transpose, into a fresh buffer with the pixel window
`[0, w) × [0, h) × [0, 1)`, of the channels `[0, ce)` of a buffer with the
pixel window `[0, h) × [0, w) × [0, 1)`. -/
theorem transpose_into {R : Type} [Field R] (s : ImageSpec) (B : FloatBuf R) (roi : ROI)
    (w h n ce : Int) (hsw : origin_window s w h) (hBw : origin_window B.spec h w)
    (hr : transpose_roi B.spec roi =
      { xbegin := 0, xend := h, ybegin := 0, yend := w, zbegin := 0, zend := 1,
        chbegin := 0, chend := ce }) :
    (FloatBuf.transpose (FloatBuf.create s) B roi n).1.spec = s ∧
    ∀ u v c : Int, 0 ≤ u ∧ u < w → 0 ≤ v ∧ v < h → 0 ≤ c ∧ c < ce →
      (FloatBuf.transpose (FloatBuf.create s) B roi n).1.pixels u v 0 c = B.pixels v u 0 c := by
  refine ⟨rfl, ?_⟩
  intro u v c hu hv hc
  have e : (FloatBuf.transpose (FloatBuf.create s) B roi n).1.pixels u v 0 c =
      if (get_roi s).containsPos u v 0 = true ∧
        (transpose_roi B.spec roi).containsPos v u 0 = true ∧
        ((transpose_roi B.spec roi).chbegin ≤ c ∧ c < (transpose_roi B.spec roi).chend) then
        B.getchannel_black v u 0 c
      else 0 := rfl
  rw [e, if_pos]
  · unfold FloatBuf.getchannel_black
    rw [if_pos ((origin_window_contains B.spec h w hBw v u 0).mpr ⟨hv, hu, rfl⟩)]
  · refine ⟨(origin_window_contains s w h hsw u v 0).mpr ⟨hu, hv, rfl⟩, ?_, ?_⟩
    · rw [hr]
      simp only [ROI.containsPos, Bool.and_eq_true, decide_eq_true_eq]
      omega
    · rw [hr]
      exact hc

/-! ## The runs of `fft` and `ifft` -/

theorem read_complex_fst {R : Type} (b : FloatBuf R) (x y z : Int) :
    (read_complex b x y z).1 = b.pixels x y z 0 := rfl

theorem read_complex_snd {R : Type} (b : FloatBuf R) (x y z : Int) :
    (read_complex b x y z).2 = b.pixels x y z 1 := rfl

theorem fft_roi_all (s : ImageSpec) :
    fft_roi s ROI.All =
      { xbegin := min s.x s.full_x, xend := max (s.x + s.width) (s.full_x + s.full_width),
        ybegin := min s.y s.full_y, yend := max (s.y + s.height) (s.full_y + s.full_height),
        zbegin := min s.z s.full_z, zend := max (s.z + s.depth) (s.full_z + s.full_depth),
        chbegin := 0, chend := 1 } := rfl

theorem fft_spec_window (s : ImageSpec) (r : ROI) :
    (fft_spec s r).format = TypeDesc.FLOAT ∧ (fft_spec s r).nchannels = 2 ∧
    origin_window (fft_spec s r) r.width r.height ∧
    origin_display (fft_spec s r) r.width r.height :=
  ⟨rfl, rfl, ⟨rfl, rfl, rfl, rfl, rfl, rfl⟩, ⟨rfl, rfl, rfl, rfl, rfl, rfl⟩⟩

/-- The buffer that `fft` transforms: the channel 0 of the source over the
roi, moved to the origin, with zero imaginary parts. -/
theorem fft_paste {R : Type} [Field R] (x : FloatBuf R) (n i j : Int)
    (hi : 0 ≤ i ∧ i < (fft_roi x.spec ROI.All).width)
    (hj : 0 ≤ j ∧ j < (fft_roi x.spec ROI.All).height) :
    read_complex (FloatBuf.paste
      (FloatBuf.create (fft_spec x.spec (fft_roi x.spec ROI.All))) 0 0 0 0 x
      (fft_roi x.spec ROI.All) n).1 i j 0 =
      (x.getchannel_black ((fft_roi x.spec ROI.All).xbegin + i)
        ((fft_roi x.spec ROI.All).ybegin + j) (fft_roi x.spec ROI.All).zbegin 0, 0) := by
  have hwin := (origin_window_contains _ _ _
    (fft_spec_window x.spec (fft_roi x.spec ROI.All)).2.2.1 i j 0).mpr ⟨hi, hj, rfl⟩
  have e : ∀ c : Int, (FloatBuf.paste
      (FloatBuf.create (fft_spec x.spec (fft_roi x.spec ROI.All))) 0 0 0 0 x
      (fft_roi x.spec ROI.All) n).1.pixels i j 0 c =
      if (get_roi (fft_spec x.spec (fft_roi x.spec ROI.All))).containsPos i j 0 = true ∧
          ((0 ≤ i ∧ i < 0 + (fft_roi x.spec ROI.All).width) ∧
            (0 ≤ j ∧ j < 0 + (fft_roi x.spec ROI.All).height) ∧
            ((0 : Int) ≤ 0 ∧ 0 < 0 + (fft_roi x.spec ROI.All).depth)) ∧
          (0 ≤ c ∧ c < 0 + ((fft_roi x.spec ROI.All).chend -
            (fft_roi x.spec ROI.All).chbegin)) then
        x.getchannel_black (i - 0 + (fft_roi x.spec ROI.All).xbegin)
          (j - 0 + (fft_roi x.spec ROI.All).ybegin)
          (0 - 0 + (fft_roi x.spec ROI.All).zbegin) (c - 0 + (fft_roi x.spec ROI.All).chbegin)
      else 0 := fun _ => rfl
  apply Prod.ext
  · rw [read_complex_fst, e]
    have hch : (fft_roi x.spec ROI.All).chend - (fft_roi x.spec ROI.All).chbegin = 1 := rfl
    have hcb : (fft_roi x.spec ROI.All).chbegin = 0 := rfl
    rw [hch, hcb]
    simp only [sub_zero, zero_add, add_zero]
    rw [add_comm i, add_comm j]
    by_cases hdz : 0 < (fft_roi x.spec ROI.All).depth
    · rw [if_pos ⟨hwin, ⟨hi, hj, le_refl 0, hdz⟩, le_refl 0, by decide⟩]
    · rw [if_neg (fun hh => hdz hh.2.1.2.2.2)]
      unfold FloatBuf.getchannel_black
      rw [if_neg]
      intro hc
      apply hdz
      rw [fft_roi_all] at hc ⊢
      simp only [get_roi, ROI.containsPos, Bool.and_eq_true, decide_eq_true_eq] at hc
      show 0 < max (x.spec.z + x.spec.depth) (x.spec.full_z + x.spec.full_depth) -
        min x.spec.z x.spec.full_z
      omega
  · rw [read_complex_snd, e, if_neg]
    intro hh
    have hch : (fft_roi x.spec ROI.All).chend - (fft_roi x.spec ROI.All).chbegin = 1 := rfl
    rw [hch] at hh
    omega

/-- The run of `fft` on a source that is not a volume, for tiles that are
bands of rows: it returns true, the result has the spec that `fft` built, and
each of its pixels holds the transform along y of the transforms along x
of the rows of the source. -/
theorem fft_run {R : Type} [Field R] (m : FFTMath R) (split : ROI → Int → List ROI)
    (dst x : FloatBuf R) (n : Int) (hvol : x.spec.depth ≤ 1)
    (hsplit : ∀ (r : ROI) (k : Int), IsRowBanding (split r k) r) :
    ∃ F : FloatBuf R,
      fft m split dst x ROI.All n = some (F, true) ∧
      F.spec = fft_spec x.spec (fft_roi x.spec ROI.All) ∧
      ∀ u v : Int, 0 ≤ u ∧ u < (fft_roi x.spec ROI.All).width →
        0 ≤ v ∧ v < (fft_roi x.spec ROI.All).height →
        read_complex F u v 0 =
          unitary_dft m (fft_roi x.spec ROI.All).height false
            (fun y => unitary_dft m (fft_roi x.spec ROI.All).width false
              (fun x1 => (x.getchannel_black ((fft_roi x.spec ROI.All).xbegin + x1)
                ((fft_roi x.spec ROI.All).ybegin + y) (fft_roi x.spec ROI.All).zbegin 0, 0))
              u) v := by
  obtain ⟨hf, hc, hw, _⟩ := fft_spec_window x.spec (fft_roi x.spec ROI.All)
  have hwT : origin_window (swap_width_height (fft_spec x.spec (fft_roi x.spec ROI.All)))
      (fft_roi x.spec ROI.All).height (fft_roi x.spec ROI.All).width :=
    ⟨rfl, rfl, rfl, rfl, rfl, rfl⟩
  obtain ⟨B1, B2, hB1, hB1s, hB2, hB2s, hB2p⟩ := two_passes m split
    (FloatBuf.paste (FloatBuf.create (fft_spec x.spec (fft_roi x.spec ROI.All))) 0 0 0 0 x
      (fft_roi x.spec ROI.All) n).1
    (fft_spec x.spec (fft_roi x.spec ROI.All))
    (swap_width_height (fft_spec x.spec (fft_roi x.spec ROI.All))) false
    (fft_roi x.spec ROI.All).width (fft_roi x.spec ROI.All).height n hsplit
    ⟨rfl, rfl⟩ hw ⟨rfl, rfl⟩ hw ⟨rfl, rfl⟩ hwT
  have hB2w : origin_window B2.spec (fft_roi x.spec ROI.All).height
      (fft_roi x.spec ROI.All).width := by
    rw [hB2s]
    exact hwT
  obtain ⟨hFs, hFp⟩ := transpose_into (fft_spec x.spec (fft_roi x.spec ROI.All)) B2 ROI.All
    (fft_roi x.spec ROI.All).width (fft_roi x.spec ROI.All).height n 2 hw hB2w
    (transpose_roi_all B2.spec _ _ hB2w (by rw [hB2s]; rfl))
  refine ⟨(FloatBuf.transpose (FloatBuf.create (fft_spec x.spec (fft_roi x.spec ROI.All))) B2
    ROI.All n).1, ?_, hFs, ?_⟩
  · unfold fft
    rw [if_neg (not_lt.mpr hvol)]
    dsimp only
    rw [if_neg (by simp [FloatBuf.paste]), hB1]
    dsimp only
    rw [hB2]
  · intro u v hu hv
    have hFB : read_complex (FloatBuf.transpose
        (FloatBuf.create (fft_spec x.spec (fft_roi x.spec ROI.All))) B2 ROI.All n).1 u v 0 =
        read_complex B2 v u 0 := by
      apply Prod.ext
      · rw [read_complex_fst, hFp u v 0 hu hv (by decide), ← read_complex_fst]
      · rw [read_complex_snd, hFp u v 1 hu hv (by decide), ← read_complex_snd]
    rw [hFB, hB2p u v hu hv]
    apply unitary_dft_congr
    intro y hy
    apply unitary_dft_congr
    intro x1 hx1
    exact fft_paste x n x1 y hx1 hy

/-- The roi of `ifft` for a source whose pixel and display windows are
`[0, w) × [0, h) × [0, 1)`. -/
theorem ifft_roi_all (s : ImageSpec) (w h : Int) (hw : origin_window s w h)
    (hd : origin_display s w h) :
    ifft_roi s ROI.All =
      { xbegin := 0, xend := w, ybegin := 0, yend := h, zbegin := 0, zend := 1,
        chbegin := 0, chend := 2 } := by
  obtain ⟨a1, a2, a3, a4, a5, a6⟩ := hw
  obtain ⟨b1, b2, b3, b4, b5, b6⟩ := hd
  have e : ifft_roi s ROI.All =
      { xbegin := min s.x s.full_x, xend := max (s.x + s.width) (s.full_x + s.full_width),
        ybegin := min s.y s.full_y, yend := max (s.y + s.height) (s.full_y + s.full_height),
        zbegin := min s.z s.full_z, zend := max (s.z + s.depth) (s.full_z + s.full_depth),
        chbegin := 0, chend := 2 } := rfl
  rw [e, a1, a2, a3, a4, a5, a6, b1, b2, b3, b4, b5, b6]
  simp

/-- The run of `ifft` on a two-channel float source whose pixel and display
windows are `[0, w) × [0, h) × [0, 1)`, for tiles that are bands of rows: it
returns true, the result has one channel and the same windows, and each of
its pixels holds the real part of the inverse transform along y of the
inverse transforms along x of the rows of the source. -/
theorem ifft_run {R : Type} [Field R] (m : FFTMath R) (split : ROI → Int → List ROI)
    (dst G : FloatBuf R) (w h n : Int)
    (hG : G.spec.nchannels = 2 ∧ G.spec.format = TypeDesc.FLOAT)
    (hGw : origin_window G.spec w h) (hGd : origin_display G.spec w h)
    (hsplit : ∀ (r : ROI) (k : Int), IsRowBanding (split r k) r) :
    ∃ res : FloatBuf R,
      ifft m split dst G ROI.All n = some (res, true) ∧
      res.spec.nchannels = 1 ∧ res.spec.format = TypeDesc.FLOAT ∧
      origin_window res.spec w h ∧ origin_display res.spec w h ∧
      ∀ i j : Int, 0 ≤ i ∧ i < w → 0 ≤ j ∧ j < h →
        res.pixels i j 0 0 =
          (unitary_dft m h true
            (fun v => unitary_dft m w true (fun u => read_complex G u v 0) i) j).1 := by
  have hroi := ifft_roi_all G.spec w h hGw hGd
  have hrw : (ifft_roi G.spec ROI.All).width = w := by
    rw [hroi]
    show w - 0 = w
    omega
  have hrh : (ifft_roi G.spec ROI.All).height = h := by
    rw [hroi]
    show h - 0 = h
    omega
  obtain ⟨hf, hc, hw0, hd0⟩ := fft_spec_window G.spec (ifft_roi G.spec ROI.All)
  rw [hrw, hrh] at hw0 hd0
  have hs2r := transpose_roi_all (fft_spec G.spec (ifft_roi G.spec ROI.All)) w h hw0 hc
  have hs2w : origin_window (transpose_spec (fft_spec G.spec (ifft_roi G.spec ROI.All))
      (transpose_roi (fft_spec G.spec (ifft_roi G.spec ROI.All)) ROI.All)) h w := by
    rw [hs2r]
    unfold origin_window transpose_spec ROI.width ROI.height ROI.depth
    simp
  have hs2c : (transpose_spec (fft_spec G.spec (ifft_roi G.spec ROI.All))
      (transpose_roi (fft_spec G.spec (ifft_roi G.spec ROI.All)) ROI.All)).nchannels = 2 := by
    rw [hs2r]
    rfl
  obtain ⟨B1, B2, hB1, hB1s, hB2, hB2s, hB2p⟩ := two_passes m split G
    (fft_spec G.spec (ifft_roi G.spec ROI.All))
    (transpose_spec (fft_spec G.spec (ifft_roi G.spec ROI.All))
      (transpose_roi (fft_spec G.spec (ifft_roi G.spec ROI.All)) ROI.All)) true w h n hsplit
    ⟨hG.2, hG.1⟩ hGw ⟨rfl, rfl⟩ hw0 ⟨rfl, hs2c⟩ hs2w
  have hAs : (FloatBuf.transpose FloatBuf.uninit B1 ROI.All n).1.spec =
      transpose_spec (fft_spec G.spec (ifft_roi G.spec ROI.All))
        (transpose_roi (fft_spec G.spec (ifft_roi G.spec ROI.All)) ROI.All) := by
    show transpose_spec B1.spec (transpose_roi B1.spec ROI.All) = _
    rw [hB1s]
  have hB2w : origin_window B2.spec h w := by
    rw [hB2s]
    exact hs2w
  have hr1 : transpose_roi B2.spec (first_channel (get_roi B2.spec)) =
      { xbegin := 0, xend := h, ybegin := 0, yend := w, zbegin := 0, zend := 1,
        chbegin := 0, chend := 1 } := by
    unfold transpose_roi first_channel
    rw [origin_window_roi B2.spec h w hB2w, hB2s, hs2c]
    rfl
  have hw1 : origin_window (ifft_result_spec (fft_spec G.spec (ifft_roi G.spec ROI.All)))
      w h := hw0
  have hd1 : origin_display (ifft_result_spec (fft_spec G.spec (ifft_roi G.spec ROI.All)))
      w h := hd0
  obtain ⟨hRs, hRp⟩ := transpose_into
    (ifft_result_spec (fft_spec G.spec (ifft_roi G.spec ROI.All))) B2
    (first_channel (get_roi B2.spec)) w h n 1 hw1 hB2w hr1
  refine ⟨(FloatBuf.transpose
    (FloatBuf.create (ifft_result_spec (fft_spec G.spec (ifft_roi G.spec ROI.All)))) B2
    (first_channel (get_roi B2.spec)) n).1, ?_, ?_, ?_, ?_, ?_, ?_⟩
  · unfold ifft
    rw [if_neg (by rw [hG.1, hG.2]; simp), if_neg (by rw [hGw.2.2.2.2.2]; decide)]
    dsimp only
    rw [hB1]
    dsimp only
    rw [hAs] at hB2 ⊢
    rw [hB2]
  · rw [hRs]
    rfl
  · rw [hRs]
    rfl
  · rw [hRs]
    exact hw1
  · rw [hRs]
    exact hd1
  · intro i j hi hj
    rw [hRp i j 0 hi hj (by decide), ← read_complex_fst, hB2p i j hi hj]

/-! ## The inversion of the unitary transform over the reals -/

theorem cpx_to_complex_inj (a b : ℝ × ℝ) (h : cpx_to_complex a = cpx_to_complex b) : a = b := by
  unfold cpx_to_complex at h
  have h1 := congrArg Complex.re h
  have h2 := congrArg Complex.im h
  exact Prod.ext h1 h2

theorem cpx_to_complex_add (a b : ℝ × ℝ) :
    cpx_to_complex (cpx_add a b) = cpx_to_complex a + cpx_to_complex b := by
  apply Complex.ext <;> simp [cpx_to_complex, cpx_add]

theorem cpx_to_complex_mul (a b : ℝ × ℝ) :
    cpx_to_complex (cpx_mul a b) = cpx_to_complex a * cpx_to_complex b := by
  apply Complex.ext <;> simp [cpx_to_complex, cpx_mul]

theorem cpx_to_complex_scale (a : ℝ × ℝ) (r : ℝ) :
    cpx_to_complex (cpx_scale a r) = cpx_to_complex a * (r : ℂ) := by
  apply Complex.ext <;> simp [cpx_to_complex, cpx_scale]

/-- With the real cosine and sine, the twiddle factor of `kissfft` for the
exponent `k` is `exp (i · k · phinc)`. -/
theorem cpx_to_complex_twiddle (m : FFTMath ℝ) (hc : m.cos = Real.cos) (hs : m.sin = Real.sin)
    (hp : m.pi = Real.pi) (nfft : Int) (inverse : Bool) (k : Int) :
    cpx_to_complex (kissfft_twiddle m nfft inverse k) =
      Complex.exp ((((k : ℝ) * ((if inverse then 2 else -2) * Real.pi / (nfft : ℝ)) : ℝ) : ℂ) *
        Complex.I) := by
  unfold kissfft_twiddle cpx_to_complex
  rw [hc, hs, hp]
  apply Complex.ext
  · rw [Complex.exp_ofReal_mul_I_re]
  · rw [Complex.exp_ofReal_mul_I_im]

theorem foldl_cpx_add (l : List Int) (f : Int → ℝ × ℝ) (acc : ℝ × ℝ) :
    cpx_to_complex (l.foldl (fun acc (n : Int) => cpx_add acc (f n)) acc) =
      cpx_to_complex acc + (l.map (fun n => cpx_to_complex (f n))).sum := by
  induction l generalizing acc with
  | nil => simp
  | cons a l ih =>
    rw [List.foldl_cons, ih, cpx_to_complex_add, List.map_cons, List.sum_cons, add_assoc]

theorem sum_map_range (n : Nat) (g : Nat → ℂ) :
    ((List.range n).map g).sum = ∑ i ∈ Finset.range n, g i := by
  induction n with
  | zero => simp
  | succ n ih =>
    rw [List.range_succ, List.map_append, List.sum_append, ih, Finset.sum_range_succ]
    simp

/-- The transform of `kissfft` as a sum of complex numbers. -/
theorem cpx_to_complex_transform (m : FFTMath ℝ) (hc : m.cos = Real.cos)
    (hs : m.sin = Real.sin) (hp : m.pi = Real.pi) (nfft : Int) (inverse : Bool)
    (s : Int → ℝ × ℝ) (k : Int) :
    cpx_to_complex (kissfft_transform m nfft inverse s k) =
      ∑ n ∈ Finset.range nfft.toNat, cpx_to_complex (s (n : Int)) *
        Complex.exp (((((k * (n : Int) : Int) : ℝ) *
          ((if inverse then 2 else -2) * Real.pi / (nfft : ℝ)) : ℝ) : ℂ) * Complex.I) := by
  unfold kissfft_transform
  rw [foldl_cpx_add]
  have h0 : cpx_to_complex ((0 : ℝ), (0 : ℝ)) = 0 := by
    apply Complex.ext <;> rfl
  rw [h0, zero_add]
  unfold irange
  rw [List.map_map, sub_zero, sum_map_range]
  apply Finset.sum_congr rfl
  intro n _
  simp only [Function.comp, zero_add]
  rw [cpx_to_complex_mul, cpx_to_complex_twiddle m hc hs hp]

/-- The unitary transform as a sum of complex numbers. -/
theorem cpx_to_complex_unitary (m : FFTMath ℝ) (hq : m.sqrtf = Real.sqrt)
    (hc : m.cos = Real.cos) (hs : m.sin = Real.sin) (hp : m.pi = Real.pi) (nfft : Int)
    (inverse : Bool) (s : Int → ℝ × ℝ) (k : Int) :
    cpx_to_complex (unitary_dft m nfft inverse s k) =
      (∑ n ∈ Finset.range nfft.toNat, cpx_to_complex (s (n : Int)) *
        Complex.exp (((((k * (n : Int) : Int) : ℝ) *
          ((if inverse then 2 else -2) * Real.pi / (nfft : ℝ)) : ℝ) : ℂ) * Complex.I)) *
      ((Real.sqrt (1 / (nfft : ℝ)) : ℝ) : ℂ) := by
  unfold unitary_dft
  rw [cpx_to_complex_scale, cpx_to_complex_transform m hc hs hp, hq]

/-- The two transforms of `fft` (along x, along y) can be exchanged. -/
theorem unitary_dft_exchange (m : FFTMath ℝ) (hq : m.sqrtf = Real.sqrt)
    (hc : m.cos = Real.cos) (hs : m.sin = Real.sin) (hp : m.pi = Real.pi) (N M : Int)
    (i1 i2 : Bool) (g : Int → Int → ℝ × ℝ) (x v : Int) :
    unitary_dft m N i1 (fun u => unitary_dft m M i2 (fun y => g u y) v) x =
      unitary_dft m M i2 (fun y => unitary_dft m N i1 (fun u => g u y) x) v := by
  apply cpx_to_complex_inj
  rw [cpx_to_complex_unitary m hq hc hs hp, cpx_to_complex_unitary m hq hc hs hp]
  simp only [cpx_to_complex_unitary m hq hc hs hp]
  simp only [Finset.sum_mul, Finset.mul_sum]
  rw [Finset.sum_comm]
  apply Finset.sum_congr rfl
  intro y _
  apply Finset.sum_congr rfl
  intro u _
  ring

/-- The twiddle factor as a power of the root of unity `exp (2 pi i / N)`. -/
theorem twiddle_zpow (N : Nat) (inverse : Bool) (t : Int) :
    Complex.exp (((((t : ℝ) * ((if inverse then 2 else -2) * Real.pi / (((N : Int)) : ℝ)) : ℝ)) :
      ℂ) * Complex.I) =
      Complex.exp (2 * Real.pi * Complex.I / N) ^ (if inverse then t else -t) := by
  rw [← Complex.exp_int_mul]
  congr 1
  cases inverse
  · simp only [Bool.false_eq_true, if_false]
    push_cast
    ring
  · simp only [if_true]
    push_cast
    ring

/-- The sum of the powers `k · d`, `0 ≤ k < N`, of the root of unity
`exp (2 pi i / N)` is `N` for `d = 0` and 0 for `0 < |d| < N`. -/
theorem root_of_unity_sum (N : Nat) (hN : 0 < N) (d : Int) (hd : |d| < N) :
    ∑ k ∈ Finset.range N, Complex.exp (2 * Real.pi * Complex.I / N) ^ ((k : Int) * d) =
      if d = 0 then (N : ℂ) else 0 := by
  by_cases h0 : d = 0
  · subst h0
    simp
  · rw [if_neg h0]
    have hz := Complex.isPrimitiveRoot_exp N (Nat.pos_iff_ne_zero.mp hN)
    generalize Complex.exp (2 * Real.pi * Complex.I / N) = ζ at hz ⊢
    have hne : ζ ^ d ≠ 1 := by
      intro h1
      rw [hz.zpow_eq_one_iff_dvd] at h1
      exact h0 (Int.eq_zero_of_abs_lt_dvd h1 hd)
    have hpow : (ζ ^ d) ^ N = 1 := by
      rw [← zpow_natCast (ζ ^ d) N, ← zpow_mul, mul_comm d (N : Int), zpow_mul, zpow_natCast,
        hz.pow_eq_one, one_zpow]
    have hterm : ∀ k : Nat, ζ ^ ((k : Int) * d) = (ζ ^ d) ^ k := by
      intro k
      rw [mul_comm (k : Int) d, zpow_mul, zpow_natCast]
    simp only [hterm]
    rw [geom_sum_eq hne, hpow, sub_self, zero_div]

/-- The inversion of the unitary transform, for complex numbers. -/
theorem dft_inversion_complex (N : Nat) (hN : 0 < N) (S : Nat → ℂ) (r : ℂ)
    (hr : r * r * N = 1) (j : Nat) (hj : j < N) :
    (∑ k ∈ Finset.range N,
      ((∑ n ∈ Finset.range N, S n *
          Complex.exp (2 * Real.pi * Complex.I / N) ^ (-((k : Int) * (n : Int)))) * r) *
        Complex.exp (2 * Real.pi * Complex.I / N) ^ ((j : Int) * (k : Int))) * r = S j := by
  have hz0 : Complex.exp (2 * Real.pi * Complex.I / N) ≠ 0 := Complex.exp_ne_zero _
  have hterm : ∀ k n : Nat,
      (S n * Complex.exp (2 * Real.pi * Complex.I / N) ^ (-((k : Int) * (n : Int)))) * r *
        Complex.exp (2 * Real.pi * Complex.I / N) ^ ((j : Int) * (k : Int)) * r =
      r * r * S n *
        Complex.exp (2 * Real.pi * Complex.I / N) ^ ((k : Int) * ((j : Int) - (n : Int))) := by
    intro k n
    have e : ((k : Int) * ((j : Int) - (n : Int))) =
        -((k : Int) * (n : Int)) + (j : Int) * (k : Int) := by ring
    rw [e, zpow_add₀ hz0]
    ring
  simp only [Finset.sum_mul]
  simp only [hterm]
  rw [Finset.sum_comm]
  simp only [← Finset.mul_sum]
  have hsum : ∀ n ∈ Finset.range N,
      S n * ∑ k ∈ Finset.range N,
        Complex.exp (2 * Real.pi * Complex.I / N) ^ ((k : Int) * ((j : Int) - (n : Int))) =
      if n = j then S j * N else 0 := by
    intro n hn
    have hn2 := Finset.mem_range.mp hn
    rw [root_of_unity_sum N hN _ (by rw [abs_lt]; constructor <;> omega)]
    by_cases hnj : n = j
    · subst hnj
      simp
    · rw [if_neg hnj, if_neg (by omega), mul_zero]
  have hstep : ∀ n ∈ Finset.range N,
      r * r * S n * ∑ k ∈ Finset.range N,
        Complex.exp (2 * Real.pi * Complex.I / N) ^ ((k : Int) * ((j : Int) - (n : Int))) =
      r * r * (if n = j then S j * N else 0) := by
    intro n hn
    rw [mul_assoc (r * r), hsum n hn]
  rw [Finset.sum_congr rfl hstep, ← Finset.mul_sum, Finset.sum_ite_eq',
    if_pos (Finset.mem_range.mpr hj)]
  linear_combination (S j) * hr

/-- The inverse unitary transform undoes the forward one. -/
theorem unitary_dft_inversion (m : FFTMath ℝ) (hq : m.sqrtf = Real.sqrt)
    (hc : m.cos = Real.cos) (hs : m.sin = Real.sin) (hp : m.pi = Real.pi) (N : Int)
    (hN : 1 ≤ N) (s : Int → ℝ × ℝ) (j : Int) (hj : 0 ≤ j ∧ j < N) :
    unitary_dft m N true (fun k => unitary_dft m N false s k) j = s j := by
  obtain ⟨Nn, rfl⟩ : ∃ Nn : Nat, N = (Nn : Int) := ⟨N.toNat, (Int.toNat_of_nonneg (by omega)).symm⟩
  obtain ⟨jn, rfl⟩ : ∃ jn : Nat, j = (jn : Int) := ⟨j.toNat, (Int.toNat_of_nonneg hj.1).symm⟩
  have hNpos : 0 < Nn := by omega
  have hr : (((Real.sqrt (1 / ((Nn : Int) : ℝ)) : ℝ)) : ℂ) *
      ((Real.sqrt (1 / ((Nn : Int) : ℝ)) : ℝ) : ℂ) * (Nn : ℂ) = 1 := by
    have h1 : Real.sqrt (1 / ((Nn : Int) : ℝ)) * Real.sqrt (1 / ((Nn : Int) : ℝ)) =
        1 / ((Nn : Int) : ℝ) := Real.mul_self_sqrt (by positivity)
    have h2 : ((Nn : Int) : ℝ) ≠ 0 := by
      have : (0 : ℝ) < ((Nn : Int) : ℝ) := by exact_mod_cast hNpos
      exact ne_of_gt this
    have h3 : Real.sqrt (1 / ((Nn : Int) : ℝ)) * Real.sqrt (1 / ((Nn : Int) : ℝ)) *
        ((Nn : Int) : ℝ) = 1 := by
      rw [h1]
      field_simp
    exact_mod_cast h3
  apply cpx_to_complex_inj
  rw [cpx_to_complex_unitary m hq hc hs hp]
  have twT : ∀ t : Int, Complex.exp (((((t : ℝ) * (2 * Real.pi / (((Nn : Int)) : ℝ)) : ℝ)) : ℂ) *
      Complex.I) = Complex.exp (2 * Real.pi * Complex.I / Nn) ^ t :=
    fun t => twiddle_zpow Nn true t
  have twF : ∀ t : Int, Complex.exp (((((t : ℝ) * (-2 * Real.pi / (((Nn : Int)) : ℝ)) : ℝ)) : ℂ) *
      Complex.I) = Complex.exp (2 * Real.pi * Complex.I / Nn) ^ (-t) :=
    fun t => twiddle_zpow Nn false t
  simp only [cpx_to_complex_unitary m hq hc hs hp, Int.toNat_ofNat, if_true,
    Bool.false_eq_true, if_false, twT, twF]
  exact dft_inversion_complex Nn hNpos (fun n => cpx_to_complex (s n)) _ hr jn (by omega)

/-- The two inverse passes of `ifft` undo the two passes of `fft`. -/
theorem unitary_dft2_inversion (m : FFTMath ℝ) (hq : m.sqrtf = Real.sqrt)
    (hc : m.cos = Real.cos) (hs : m.sin = Real.sin) (hp : m.pi = Real.pi) (w h : Int)
    (a : Int → Int → ℝ × ℝ) (i j : Int) (hi : 0 ≤ i ∧ i < w) (hj : 0 ≤ j ∧ j < h) :
    unitary_dft m h true
      (fun v => unitary_dft m w true
        (fun u => unitary_dft m h false
          (fun y => unitary_dft m w false (fun x1 => a x1 y) u) v) i) j = a i j := by
  have e1 : ∀ v : Int, unitary_dft m w true
      (fun u => unitary_dft m h false
        (fun y => unitary_dft m w false (fun x1 => a x1 y) u) v) i =
      unitary_dft m h false
        (fun y => unitary_dft m w true
          (fun u => unitary_dft m w false (fun x1 => a x1 y) u) i) v :=
    fun v => unitary_dft_exchange m hq hc hs hp w h true false
      (fun u y => unitary_dft m w false (fun x1 => a x1 y) u) i v
  have e2 : ∀ y : Int, unitary_dft m w true
      (fun u => unitary_dft m w false (fun x1 => a x1 y) u) i = a i y :=
    fun y => unitary_dft_inversion m hq hc hs hp w (by omega) (fun x1 => a x1 y) i hi
  simp only [e1, e2]
  exact unitary_dft_inversion m hq hc hs hp h (by omega) (fun y => a i y) j hj

theorem single_tile_banding (r : ROI) (k : Int) : IsRowBanding (single_tile r k) r := by
  unfold IsRowBanding single_tile
  constructor
  · intro t ht
    rw [List.mem_singleton] at ht
    subst ht
    exact ⟨rfl, rfl, le_refl _, le_refl _, le_refl _, le_refl _⟩
  · intro y z h
    exact ⟨r, List.mem_singleton.mpr rfl, h⟩

/-- C23: for every float image `x` that is not a volume (over exact reals,
with the exact square root, cosine and sine, and tiles of `parallel_image`
that are bands of rows), `fft` returns true with a two-channel float image
whose pixel and display windows are `[0, W) × [0, H) × [0, 1)`, `W × H` being
the size of the union of the pixel and the display window of `x`; `ifft` of
it returns true with a one-channel float image with the same windows, each
pixel `(i, j)` of which is the channel 0 of `x` at the pixel `(i, j)` of that
union (read as zero outside the pixel window). For an image whose display
window is its pixel window, of depth 1, the result has the size of `x` and
holds the first channel of `x`. -/
theorem ifft_fft_round_trip (m : FFTMath ℝ) (split : ROI → Int → List ROI)
    (dst1 dst2 x : FloatBuf ℝ) (n1 n2 : Int)
    (hq : m.sqrtf = Real.sqrt) (hc : m.cos = Real.cos) (hs : m.sin = Real.sin)
    (hp : m.pi = Real.pi)
    (hsplit : ∀ (r : ROI) (k : Int), IsRowBanding (split r k) r)
    (hvol : x.spec.depth ≤ 1) :
    ∃ F res : FloatBuf ℝ,
      fft m split dst1 x ROI.All n1 = some (F, true) ∧
      (F.spec.nchannels = 2 ∧ F.spec.format = TypeDesc.FLOAT ∧
        origin_window F.spec (fft_roi x.spec ROI.All).width (fft_roi x.spec ROI.All).height ∧
        origin_display F.spec (fft_roi x.spec ROI.All).width
          (fft_roi x.spec ROI.All).height) ∧
      ifft m split dst2 F ROI.All n2 = some (res, true) ∧
      (res.spec.nchannels = 1 ∧ res.spec.format = TypeDesc.FLOAT ∧
        origin_window res.spec (fft_roi x.spec ROI.All).width
          (fft_roi x.spec ROI.All).height ∧
        origin_display res.spec (fft_roi x.spec ROI.All).width
          (fft_roi x.spec ROI.All).height) ∧
      (∀ i j : Int, 0 ≤ i ∧ i < (fft_roi x.spec ROI.All).width →
        0 ≤ j ∧ j < (fft_roi x.spec ROI.All).height →
        res.pixels i j 0 0 =
          x.getchannel_black ((fft_roi x.spec ROI.All).xbegin + i)
            ((fft_roi x.spec ROI.All).ybegin + j) (fft_roi x.spec ROI.All).zbegin 0) ∧
      (x.spec.full_x = x.spec.x ∧ x.spec.full_y = x.spec.y ∧ x.spec.full_z = x.spec.z ∧
        x.spec.full_width = x.spec.width ∧ x.spec.full_height = x.spec.height ∧
        x.spec.full_depth = x.spec.depth → x.spec.depth = 1 →
        origin_window res.spec x.spec.width x.spec.height ∧
        ∀ i j : Int, 0 ≤ i ∧ i < x.spec.width → 0 ≤ j ∧ j < x.spec.height →
          res.pixels i j 0 0 = x.pixels (x.spec.x + i) (x.spec.y + j) x.spec.z 0) := by
  obtain ⟨F, hF, hFs, hFp⟩ := fft_run m split dst1 x n1 hvol hsplit
  obtain ⟨hf, hch, hw, hd⟩ := fft_spec_window x.spec (fft_roi x.spec ROI.All)
  rw [← hFs] at hf hch hw hd
  obtain ⟨res, hR, hRc, hRf, hRw, hRd, hRp⟩ := ifft_run m split dst2 F
    (fft_roi x.spec ROI.All).width (fft_roi x.spec ROI.All).height n2 ⟨hch, hf⟩ hw hd hsplit
  have hpix : ∀ i j : Int, 0 ≤ i ∧ i < (fft_roi x.spec ROI.All).width →
      0 ≤ j ∧ j < (fft_roi x.spec ROI.All).height →
      res.pixels i j 0 0 =
        x.getchannel_black ((fft_roi x.spec ROI.All).xbegin + i)
          ((fft_roi x.spec ROI.All).ybegin + j) (fft_roi x.spec ROI.All).zbegin 0 := by
    intro i j hi hj
    rw [hRp i j hi hj]
    have e : unitary_dft m (fft_roi x.spec ROI.All).height true
        (fun v => unitary_dft m (fft_roi x.spec ROI.All).width true
          (fun u => read_complex F u v 0) i) j =
        unitary_dft m (fft_roi x.spec ROI.All).height true
          (fun v => unitary_dft m (fft_roi x.spec ROI.All).width true
            (fun u => unitary_dft m (fft_roi x.spec ROI.All).height false
              (fun y => unitary_dft m (fft_roi x.spec ROI.All).width false
                (fun x1 => (x.getchannel_black ((fft_roi x.spec ROI.All).xbegin + x1)
                  ((fft_roi x.spec ROI.All).ybegin + y) (fft_roi x.spec ROI.All).zbegin 0,
                  (0 : ℝ))) u) v) i) j := by
      apply unitary_dft_congr
      intro v hv
      apply unitary_dft_congr
      intro u hu
      exact hFp u v hu hv
    rw [e, unitary_dft2_inversion m hq hc hs hp _ _
      (fun x1 y => (x.getchannel_black ((fft_roi x.spec ROI.All).xbegin + x1)
        ((fft_roi x.spec ROI.All).ybegin + y) (fft_roi x.spec ROI.All).zbegin 0, (0 : ℝ)))
      i j hi hj]
  refine ⟨F, res, hF, ⟨hch, hf, hw, hd⟩, hR, ⟨hRc, hRf, hRw, hRd⟩, hpix, ?_⟩
  rintro ⟨f1, f2, f3, f4, f5, f6⟩ hd1
  have hroi : fft_roi x.spec ROI.All =
      { xbegin := x.spec.x, xend := x.spec.x + x.spec.width,
        ybegin := x.spec.y, yend := x.spec.y + x.spec.height,
        zbegin := x.spec.z, zend := x.spec.z + x.spec.depth,
        chbegin := 0, chend := 1 } := by
    rw [fft_roi_all, f1, f2, f3, f4, f5, f6]
    simp
  have hW : (fft_roi x.spec ROI.All).width = x.spec.width := by
    rw [hroi]
    show x.spec.x + x.spec.width - x.spec.x = x.spec.width
    omega
  have hH : (fft_roi x.spec ROI.All).height = x.spec.height := by
    rw [hroi]
    show x.spec.y + x.spec.height - x.spec.y = x.spec.height
    omega
  constructor
  · rw [← hW, ← hH]
    exact hRw
  · intro i j hi hj
    rw [hpix i j (by rw [hW]; exact hi) (by rw [hH]; exact hj), hroi]
    unfold FloatBuf.getchannel_black
    rw [if_pos]
    simp only [get_roi, ROI.containsPos, Bool.and_eq_true, decide_eq_true_eq]
    omega

/-- An instance of `ifft_fft_round_trip`: the 2 × 2 image `[[1, 2], [3, 4]]`
comes back from `fft` and `ifft` as `[[1, 2], [3, 4]]`. -/
theorem ifft_fft_round_trip_witness :
    (image2x2 ℝ).spec.depth ≤ 1 ∧
    ∃ F res : FloatBuf ℝ,
      fft { sqrtf := Real.sqrt, cos := Real.cos, sin := Real.sin, pi := Real.pi } single_tile
        FloatBuf.uninit (image2x2 ℝ) ROI.All 1 = some (F, true) ∧
      ifft { sqrtf := Real.sqrt, cos := Real.cos, sin := Real.sin, pi := Real.pi } single_tile
        FloatBuf.uninit F ROI.All 1 = some (res, true) ∧
      origin_window res.spec 2 2 ∧
      res.pixels 0 0 0 0 = 1 ∧ res.pixels 1 0 0 0 = 2 ∧ res.pixels 0 1 0 0 = 3 ∧
      res.pixels 1 1 0 0 = 4 := by
  obtain ⟨F, res, h1, _, h2, _, _, h3⟩ := ifft_fft_round_trip
    { sqrtf := Real.sqrt, cos := Real.cos, sin := Real.sin, pi := Real.pi } single_tile
    FloatBuf.uninit FloatBuf.uninit (image2x2 ℝ) 1 1 rfl rfl rfl rfl single_tile_banding
    (by decide)
  obtain ⟨h4, h5⟩ := h3 ⟨rfl, rfl, rfl, rfl, rfl, rfl⟩ rfl
  refine ⟨by decide, F, res, h1, h2, h4, ?_, ?_, ?_, ?_⟩
  · rw [h5 0 0 (by decide) (by decide)]
    simp [image2x2, plain_spec, ImageSpec.empty]
  · rw [h5 1 0 (by decide) (by decide)]
    simp [image2x2, plain_spec, ImageSpec.empty]
  · rw [h5 0 1 (by decide) (by decide)]
    simp [image2x2, plain_spec, ImageSpec.empty]
  · rw [h5 1 1 (by decide) (by decide)]
    simp [image2x2, plain_spec, ImageSpec.empty]

/-! ## Properties of `complex_to_polar` in `float` arithmetic -/

/-- The exponent of a positive rational between two consecutive powers of
two. -/
theorem log2_eq (q : ℚ) (e : Int) (h1 : (2 : ℚ) ^ e ≤ q) (h2 : q < (2 : ℚ) ^ (e + 1)) :
    Int.log 2 q = e := by
  have hq : 0 < q := lt_of_lt_of_le (by positivity) h1
  have a : e ≤ Int.log 2 q := (Int.zpow_le_iff_le_log (by norm_num) hq).mp (by exact_mod_cast h1)
  have b : Int.log 2 q < e + 1 :=
    (Int.lt_zpow_iff_log_lt (by norm_num) hq).mp (by exact_mod_cast h2)
  omega

/-- The value of `float (M_TWO_PI)`. -/
theorem float_two_pi_val : float_two_pi.val = 13176795 / 2 ^ 21 := by
  show round_binary32 M_TWO_PI = 13176795 / 2 ^ 21
  unfold round_binary32 M_TWO_PI
  rw [if_neg (by norm_num)]
  have hl : Int.log 2 |(7074237752028440 / 2 ^ 50 : ℚ)| = 2 := by
    rw [abs_of_pos (by norm_num)]
    exact log2_eq _ 2 (by norm_num) (by norm_num)
  simp only [hl]
  have hu : (2 : ℚ) ^ ((2 : Int) - 23) = 1 / 2 ^ 21 := by
    rw [show ((2 : Int) - 23) = -21 from rfl, zpow_neg]
    norm_num
  rw [hu]
  have hf : ⌊(7074237752028440 / 2 ^ 50 : ℚ) / (1 / 2 ^ 21)⌋ = 13176794 := by
    rw [Int.floor_eq_iff]
    norm_num
  unfold round_half_even
  simp only [hf]
  rw [if_neg (by norm_num), if_pos (by norm_num)]
  norm_num

/-- A sum slightly below `float (M_TWO_PI)` rounds to `float (M_TWO_PI)`. -/
theorem round_below_two_pi (t : ℚ) (h1 : -(1 / 2 ^ 22) < t) (h2 : t < 0) :
    round_binary32 (t + 13176795 / 2 ^ 21) = 13176795 / 2 ^ 21 := by
  have e22 : (1 / 2 ^ 22 : ℚ) = 1 / 4194304 := by norm_num
  rw [e22] at h1
  have hpos : (0 : ℚ) < t + 13176795 / 2 ^ 21 := by
    norm_num
    linarith
  unfold round_binary32
  rw [if_neg (ne_of_gt hpos)]
  have hl : Int.log 2 |t + 13176795 / 2 ^ 21| = 2 := by
    rw [abs_of_pos hpos]
    apply log2_eq
    · norm_num
      linarith
    · norm_num
      linarith
  simp only [hl]
  have hu : (2 : ℚ) ^ ((2 : Int) - 23) = 1 / 2 ^ 21 := by
    rw [show ((2 : Int) - 23) = -21 from rfl, zpow_neg]
    norm_num
  rw [hu]
  have hv : (t + 13176795 / 2 ^ 21) / (1 / 2 ^ 21) = t * 2097152 + 13176795 := by
    norm_num
    ring
  rw [hv]
  have hf : ⌊t * 2097152 + 13176795⌋ = 13176794 := by
    rw [Int.floor_eq_iff]
    constructor
    · push_cast
      linarith
    · push_cast
      linarith
  unfold round_half_even
  simp only [hf]
  rw [if_neg (by push_cast; linarith), if_pos (by push_cast; linarith)]
  norm_num

/-- C24 at a failing input: in `float` arithmetic, whenever `atan2` returns a
negative phase above `-2⁻²²` (as it does for the pixel `real = 1`,
`imag = -2⁻³³`, where the arctangent is about `-1.16e-10`), the sum
`phase + float (M_TWO_PI)` rounds to `float (M_TWO_PI)` itself, so
`complex_to_polar` writes the phase `13176795 / 2²¹ = 6.2831854820…`, which
is above `2π = 6.2831853071…` and so outside `[0, 2π)`. -/
theorem complex_to_polar_phase_reaches_two_pi (m : FloatMath Binary32) (real imag : Binary32)
    (htwo : m.two_pi = float_two_pi)
    (hneg : (m.atan2 imag real).val < 0)
    (hsmall : -(1 / 2 ^ 22) < (m.atan2 imag real).val) :
    (complex_to_polar_pixel m (real, imag)).2 = float_two_pi ∧
    (complex_to_polar_pixel m (real, imag)).2.val = 13176795 / 2 ^ 21 ∧
    2 * Real.pi < (((complex_to_polar_pixel m (real, imag)).2.val : ℚ) : ℝ) := by
  have hphase : (complex_to_polar_pixel m (real, imag)).2 = float_two_pi := by
    unfold complex_to_polar_pixel
    dsimp only
    rw [if_pos (show m.atan2 imag real < 0 from hneg), htwo]
    show (⟨round_binary32 ((m.atan2 imag real).val + float_two_pi.val)⟩ : Binary32) =
      float_two_pi
    rw [float_two_pi_val, round_below_two_pi _ hsmall hneg, ← float_two_pi_val]
  refine ⟨hphase, by rw [hphase, float_two_pi_val], ?_⟩
  rw [hphase, float_two_pi_val]
  have := Real.pi_lt_d20
  push_cast
  norm_num at this ⊢
  linarith

/-- An instance of `complex_to_polar_phase_reaches_two_pi`: the pixel
`(real, imag) = (1, -2⁻³³)` with the small-angle math library. -/
theorem complex_to_polar_phase_reaches_two_pi_witness :
    small_angle_math.two_pi = float_two_pi ∧
    (small_angle_math.atan2 ⟨-(1 / 2 ^ 33)⟩ ⟨1⟩).val < 0 ∧
    -(1 / 2 ^ 22) < (small_angle_math.atan2 ⟨-(1 / 2 ^ 33)⟩ ⟨1⟩).val ∧
    (complex_to_polar_pixel small_angle_math (⟨1⟩, ⟨-(1 / 2 ^ 33)⟩)).2.val =
      13176795 / 2 ^ 21 ∧
    2 * Real.pi <
      (((complex_to_polar_pixel small_angle_math (⟨1⟩, ⟨-(1 / 2 ^ 33)⟩)).2.val : ℚ) : ℝ) :=
  ⟨rfl, by norm_num [small_angle_math], by norm_num [small_angle_math],
    (complex_to_polar_phase_reaches_two_pi small_angle_math ⟨1⟩ ⟨-(1 / 2 ^ 33)⟩ rfl
      (by norm_num [small_angle_math]) (by norm_num [small_angle_math])).2⟩

end ImageBufAlgo
